import Mathlib

set_option autoImplicit false

/-!
# Borg hash index (`src/borg/_hashindex.c`): shallow embedding

The C file implements an open-addressed hash table with linear probing,
Robin-Hood style ordered insertion and backward-shift deletion over one flat
byte buffer.  The embedding keeps the byte buffer: memory is a map from byte
offsets to byte values, a pointer into the buffer is a byte offset, and a
`const void *` argument (key, value) is a reader of the bytes behind it.

Conventions.
* `int` quantities that the code keeps non-negative (bucket indices, probe
  offsets, sizes) are `Nat`; `num_entries`, the two limits, capacities and
  chunk sizes (which use `-1` as a marker) are `Int`.
* The `int` returned by `rshift_chunk_size` / `lshift_chunk_size` is computed
  in `off_t` and converted back to `int`; that conversion is `wrap32`.
* Every function that loops or that C leaves undefined returns `Option`;
  `none` stands for "no result" (loop budget exhausted, or a `memmove` with a
  negative length).  Theorems that claim a result prove `some`.
* `malloc`/`calloc` failure and file-system errors are outside the model.
-/

namespace Borg

/-! ## Memory primitives -/

/-- Reader of the bytes behind a C pointer: offset to byte value. -/
abbrev Ptr := Nat → Nat

/-- Pointer `mem + off`. -/
def ptr (mem : Ptr) (off : Nat) : Ptr := fun r => mem (off + r)

/-- Pointer to the first byte of a byte list (bytes past the end read as 0). -/
def ofBytes (l : List Nat) : Ptr := fun r => l.getD r 0

/-- The `n` bytes at offset `off`. -/
def readBytes (mem : Ptr) (off n : Nat) : List Nat := (List.range n).map (fun r => mem (off + r))

/-- Effect of `memcpy(mem + dst, src, n)` on `mem` (source outside `mem`). -/
def memcpy (mem : Ptr) (dst : Nat) (src : Ptr) (n : Nat) : Ptr :=
  fun a => if dst ≤ a ∧ a < dst + n then src (a - dst) else mem a

/-- Effect of `memmove(mem + dst, mem + src, n)` (overlap allowed). -/
def memmove (mem : Ptr) (dst src n : Nat) : Ptr :=
  fun a => if dst ≤ a ∧ a < dst + n then mem (a - dst + src) else mem a

/-- Little-endian `uint32_t` load `*(uint32_t *)(p)`. -/
def le32 (p : Ptr) : Nat := p 0 + 256 * p 1 + 65536 * p 2 + 16777216 * p 3

/-- Little-endian `uint32_t` store at offset `a`. -/
def store32 (mem : Ptr) (a x : Nat) : Ptr :=
  fun b => if a ≤ b ∧ b < a + 4 then (x / 256 ^ (b - a)) % 256 else mem b

/-- Conversion of a 64-bit value to C `int` (two's complement). -/
def wrap32 (x : Int) : Int := (x + 2147483648) % 4294967296 - 2147483648

/-! ## Constants and the index descriptor -/

/-- Table `hash_sizes`. -/
def hash_sizes : List Nat :=
  [1031, 2053, 4099, 8209, 16411, 32771, 65537, 131101, 262147, 445649,
   757607, 1287917, 2189459, 3065243, 4291319, 6007867, 8410991,
   11775359, 16485527, 23079703, 27695653, 33234787, 39881729, 47858071,
   57429683, 68915617, 82698751, 99238507, 119086189, 144378011, 157223263,
   173476439, 190253911, 209915011, 230493629, 253169431, 278728861,
   306647623, 337318939, 370742809, 408229973, 449387209, 493428073,
   543105119, 596976533, 657794869, 722676499, 795815791, 874066969,
   962279771, 1057701643, 1164002657, 1280003147, 1407800297, 1548442699,
   1703765389, 1873768367, 2062383853]

/-- Macro `NELEMS(hash_sizes)`. -/
def NELEMS_hash_sizes : Nat := hash_sizes.length

/-- Sentinel `EMPTY`. -/
def EMPTY : Nat := 0xffffffff

/-- Sentinel `DELETED`. -/
def DELETED : Nat := 0xfffffffe

/-- A C `double` constant `mant / 2 ^ exp`. -/
structure DoubleConst where
  mant : Nat
  exp : Nat

/-- Literal `.25` (exactly representable). -/
def HASH_MIN_LOAD : DoubleConst := ⟨1, 2⟩

/-- Literal `.99`: the nearest binary64 value, `8917127262193582 / 2 ^ 53`. -/
def HASH_MAX_LOAD : DoubleConst := ⟨8917127262193582, 53⟩

/-- Number of low bits that rounding to a 53-bit significand drops from `p`: the least `s`
with `p / 2 ^ s < 2 ^ 53` (the first argument bounds the search). -/
def round_shift : Nat → Nat → Nat
  | 0, _ => 0
  | fuel + 1, p => if p < 9007199254740992 then 0 else 1 + round_shift fuel (p / 2)

/-- The C expression `(int)(n * c)` for a non-negative `int n` and a double constant `c`:
the exact product is rounded to 53 significant bits (ties to even) and then
truncated towards zero. -/
def mul_double_to_int (n : Nat) (c : DoubleConst) : Nat :=
  let p := n * c.mant
  let s := round_shift p p
  let q := p / 2 ^ s
  let r := p % 2 ^ s
  let q1 := if 2 * r > 2 ^ s ∨ (2 * r = 2 ^ s ∧ q % 2 = 1) then q + 1 else q
  q1 * 2 ^ s / 2 ^ c.exp

/-- Struct `HashIndex`. -/
structure HashIndex where
  buckets : Ptr
  num_entries : Int
  num_buckets : Nat
  key_size : Nat
  value_size : Nat
  bucket_size : Nat
  lower_limit : Int
  upper_limit : Int
  tmp_entry : Ptr

/-- Macro `BUCKET_ADDR`, as a byte offset into `buckets`. -/
def BUCKET_ADDR (index : HashIndex) (idx : Nat) : Nat := idx * index.bucket_size

/-- Macro `BUCKET_MATCHES_KEY`: `memcmp` over `key_size` bytes is zero. -/
def BUCKET_MATCHES_KEY (index : HashIndex) (idx : Nat) (key : Ptr) : Bool :=
  (List.range index.key_size).all (fun r => key r == index.buckets (BUCKET_ADDR index idx + r))

/-- Macro `BUCKET_IS_DELETED`. -/
def BUCKET_IS_DELETED (index : HashIndex) (idx : Nat) : Bool :=
  le32 (ptr index.buckets (BUCKET_ADDR index idx + index.key_size)) == DELETED

/-- Macro `BUCKET_IS_EMPTY`. -/
def BUCKET_IS_EMPTY (index : HashIndex) (idx : Nat) : Bool :=
  le32 (ptr index.buckets (BUCKET_ADDR index idx + index.key_size)) == EMPTY

/-- Macro `BUCKET_MARK_EMPTY`. -/
def BUCKET_MARK_EMPTY (index : HashIndex) (idx : Nat) : HashIndex :=
  { index with buckets := store32 index.buckets (BUCKET_ADDR index idx + index.key_size) EMPTY }

/-! ## Private API -/

/-- Function `hashindex_index`. -/
def hashindex_index (index : HashIndex) (key : Ptr) : Nat := le32 key % index.num_buckets

/-- Function `distance`; the arguments are bucket indices below `num_buckets`, for
which the C value `current_idx - ideal_idx + (current_idx < ideal_idx ? num_buckets : 0)`
is non-negative. -/
def distance (current_idx ideal_idx num_buckets : Nat) : Nat :=
  current_idx + (if current_idx < ideal_idx then num_buckets else 0) - ideal_idx

/-- Displacement of the key stored in bucket `idx`:
`distance(idx, hashindex_index(index, BUCKET_ADDR(index, idx)), index->num_buckets)`. -/
def bucket_distance (index : HashIndex) (idx : Nat) : Nat :=
  distance idx (hashindex_index index (ptr index.buckets (BUCKET_ADDR index idx))) index.num_buckets

/-- The `for(offset=0; ;offset++)` loop of `hashindex_lookup`.  The result is
`(rv, offset)` at the point where the loop is left, with `rv = none` for `-1`. -/
def lookup_loop (index : HashIndex) (key : Ptr) (start : Nat) :
    Nat → Nat → Nat → Nat → Option (Option Nat × Nat)
  | 0, _, _, _ => none
  | fuel + 1, idx, offset, period =>
    if BUCKET_IS_EMPTY index idx then some (none, offset)
    else if BUCKET_MATCHES_KEY index idx key then some (some idx, offset)
    else if period = 63 ∧ offset > bucket_distance index idx then some (none, offset)
    else
      let period1 := if period = 63 then 0 else period + 1
      let idx1 := if idx + 1 ≥ index.num_buckets then 0 else idx + 1
      if idx1 = start then some (none, offset)
      else lookup_loop index key start fuel idx1 (offset + 1) period1

/-- Function `hashindex_lookup`.  `skip_hint` is the cell the third argument points to
(`none` for `NULL`); the second component of the result is that cell afterwards. -/
def hashindex_lookup (index : HashIndex) (key : Ptr) (skip_hint : Option Nat) :
    Option (Option Nat × Option Nat) :=
  let start := hashindex_index index key
  match lookup_loop index key start index.num_buckets start 0 0 with
  | none => none
  | some (some idx, _) => some (some idx, skip_hint)
  | some (none, offset) =>
    match skip_hint with
    | none => some (none, none)
    | some _ => some (none, some (offset - 64))

/-- Function `get_lower_limit`. -/
def get_lower_limit (num_buckets : Nat) : Int :=
  let min_buckets := hash_sizes.getD 0 0
  if num_buckets ≤ min_buckets then 0 else (mul_double_to_int num_buckets HASH_MIN_LOAD : Nat)

/-- Function `get_upper_limit`. -/
def get_upper_limit (num_buckets : Nat) : Int :=
  let max_buckets := hash_sizes.getD (NELEMS_hash_sizes - 1) 0
  if num_buckets ≥ max_buckets then num_buckets else (mul_double_to_int num_buckets HASH_MAX_LOAD : Nat)

/-- The `do ... while` loop of `size_idx`: returns the final `i`. -/
def size_idx_loop (size : Int) : Nat → Nat → Nat
  | 0, i => i
  | fuel + 1, i =>
    let entry := hash_sizes.getD i 0
    let i1 := i + 1
    if (entry : Int) < size ∧ i1 < NELEMS_hash_sizes then size_idx_loop size fuel i1 else i1

/-- Function `size_idx`. -/
def size_idx (size : Int) : Nat :=
  let elems := NELEMS_hash_sizes
  let i := size_idx_loop size elems 0
  if i ≥ elems then elems - 1 else i - 1

/-- Function `fit_size`. -/
def fit_size (current : Int) : Nat := hash_sizes.getD (size_idx current) 0

/-- Function `grow_size`. -/
def grow_size (current : Int) : Nat :=
  let i := size_idx current + 1
  let elems := NELEMS_hash_sizes
  if i ≥ elems then hash_sizes.getD (elems - 1) 0 else hash_sizes.getD i 0

/-- Function `shrink_size`; `size_idx(current) - 1 < 0` is `size_idx current = 0`. -/
def shrink_size (current : Int) : Nat :=
  if size_idx current = 0 then hash_sizes.getD 0 0 else hash_sizes.getD (size_idx current - 1) 0

/-! ## Public API -/

/-- The loop `for(i = 0; i < capacity; i++) BUCKET_MARK_EMPTY(index, i)` run for `n` rounds. -/
def init_mark_loop (index : HashIndex) : Nat → HashIndex
  | 0 => index
  | i + 1 => BUCKET_MARK_EMPTY (init_mark_loop index i) i

/-- Function `hashindex_init` (allocation succeeds; `calloc` zero-fills). -/
def hashindex_init (capacity : Int) (key_size value_size : Nat) : HashIndex :=
  let capacity := fit_size capacity
  let index : HashIndex :=
    { buckets := fun _ => 0
      tmp_entry := fun _ => 0
      num_entries := 0
      key_size := key_size
      value_size := value_size
      num_buckets := capacity
      bucket_size := key_size + value_size
      lower_limit := get_lower_limit capacity
      upper_limit := get_upper_limit capacity }
  init_mark_loop index capacity

/-- Function `hashindex_get`: the byte offset of the value region, `none` for `NULL`. -/
def hashindex_get (index : HashIndex) (key : Ptr) : Option (Option Nat) :=
  match hashindex_lookup index key none with
  | none => none
  | some (none, _) => some none
  | some (some idx, _) => some (some (BUCKET_ADDR index idx + index.key_size))

/-- The `while(bucket_index < index->num_buckets)` loop of `rshift_chunk_size`; the first
argument is `num_buckets - bucket_index`. -/
def rshift_chunk_loop (index : HashIndex) (start : Nat) : Nat → Nat → Int
  | 0, _ => -1
  | n + 1, bucket_index =>
    if BUCKET_IS_EMPTY index bucket_index then
      wrap32 (((bucket_index : Int) - start) * index.bucket_size)
    else rshift_chunk_loop index start n (bucket_index + 1)

/-- Function `rshift_chunk_size`. -/
def rshift_chunk_size (index : HashIndex) (bucket_index : Nat) : Int :=
  rshift_chunk_loop index bucket_index (index.num_buckets - bucket_index) bucket_index

/-- The `while(bucket_index < index->num_buckets)` loop of `lshift_chunk_size`; the first
argument is `num_buckets - bucket_index`. -/
def lshift_chunk_loop (index : HashIndex) (start : Nat) : Nat → Nat → Int
  | 0, _ => -1
  | n + 1, bucket_index =>
    if BUCKET_IS_EMPTY index bucket_index ∨ bucket_distance index bucket_index = 0 then
      wrap32 (((bucket_index : Int) - start) * index.bucket_size)
    else lshift_chunk_loop index start n (bucket_index + 1)

/-- Function `lshift_chunk_size`. -/
def lshift_chunk_size (index : HashIndex) (bucket_index : Nat) : Int :=
  lshift_chunk_loop index bucket_index (index.num_buckets - bucket_index) bucket_index

/-- The call `memmove(BUCKET_ADDR(index, dst), BUCKET_ADDR(index, src), n)`. -/
def bucket_memmove (index : HashIndex) (dst src n : Nat) : HashIndex :=
  { index with
    buckets := memmove index.buckets (BUCKET_ADDR index dst) (BUCKET_ADDR index src) n }

/-- The call `memcpy(index->tmp_entry, BUCKET_ADDR(index, src), index->bucket_size)`. -/
def save_tmp_entry (index : HashIndex) (src : Nat) : HashIndex :=
  { index with
    tmp_entry := memcpy index.tmp_entry 0 (ptr index.buckets (BUCKET_ADDR index src))
      index.bucket_size }

/-- The call `memcpy(BUCKET_ADDR(index, dst), index->tmp_entry, index->bucket_size)`. -/
def restore_tmp_entry (index : HashIndex) (dst : Nat) : HashIndex :=
  { index with
    buckets := memcpy index.buckets (BUCKET_ADDR index dst) index.tmp_entry index.bucket_size }

/-- The call `memcpy(BUCKET_ADDR(index, idx) + index->key_size, value, index->value_size)`. -/
def write_value (index : HashIndex) (idx : Nat) (value : Ptr) : HashIndex :=
  { index with
    buckets := memcpy index.buckets (BUCKET_ADDR index idx + index.key_size) value
      index.value_size }

/-- The call `memcpy(BUCKET_ADDR(index, idx), key, index->key_size)`. -/
def write_key (index : HashIndex) (idx : Nat) (key : Ptr) : HashIndex :=
  { index with buckets := memcpy index.buckets (BUCKET_ADDR index idx) key index.key_size }

/-- The two `memcpy` calls that store `key` and `value` in bucket `idx`. -/
def write_bucket (index : HashIndex) (idx : Nat) (key value : Ptr) : HashIndex :=
  write_value (write_key index idx key) idx value

/-- The slot search `while(!BUCKET_IS_EMPTY(index, idx) && (offset <= distance(...)))` of
`hashindex_set`; returns the final `(idx, offset)`. -/
def set_slot_loop (index : HashIndex) : Nat → Nat → Nat → Option (Nat × Nat)
  | 0, _, _ => none
  | fuel + 1, idx, offset =>
    if (!BUCKET_IS_EMPTY index idx) ∧ offset ≤ bucket_distance index idx then
      set_slot_loop index fuel (if idx + 1 ≥ index.num_buckets then 0 else idx + 1) (offset + 1)
    else some (idx, offset)

/-- The collision branch of `hashindex_set` when the run starting at `idx` ends before the
end of the bucket array (`chunk_size > 0`). -/
def set_shift_simple (index : HashIndex) (idx : Nat) (key value : Ptr) (chunk_size : Int) :
    HashIndex :=
  write_bucket (bucket_memmove index (idx + 1) idx chunk_size.toNat) idx key value

/-- The collision branch of `hashindex_set` when no empty bucket follows `idx` up to the end
of the bucket array. -/
def set_shift_wrap (index : HashIndex) (idx : Nat) (key value : Ptr) : HashIndex :=
  let index2 := save_tmp_entry index (index.num_buckets - 1)
  let index3 :=
    if idx < index2.num_buckets - 1 then
      bucket_memmove index2 (idx + 1) idx ((index2.num_buckets - idx - 1) * index2.bucket_size)
    else index2
  let index4 := write_bucket index3 idx key value
  let chunk_size := rshift_chunk_size index4 0
  let index5 := if chunk_size > 0 then bucket_memmove index4 1 0 chunk_size.toNat else index4
  restore_tmp_entry index5 0

/-- The miss branch of `hashindex_set` after the grow check (source lines 497-551):
find the slot, make room, store, count. -/
def set_insert (index : HashIndex) (key value : Ptr) (offset : Nat) : Option HashIndex :=
  let idx0 := hashindex_index index key + offset
  let idx0 := if idx0 ≥ index.num_buckets then idx0 - index.num_buckets else idx0
  match set_slot_loop index (index.num_buckets + 1) idx0 offset with
  | none => none
  | some (idx, _) =>
    let index1 : HashIndex :=
      if !BUCKET_IS_EMPTY index idx then
        let chunk_size := rshift_chunk_size index idx
        if chunk_size > 0 then set_shift_simple index idx key value chunk_size
        else set_shift_wrap index idx key value
      else write_bucket index idx key value
    some { index1 with num_entries := index1.num_entries + 1 }

/-- The scan `while(BUCKET_IS_EMPTY(index, idx))` of `hashindex_next_key`. -/
def next_key_loop (index : HashIndex) : Nat → Nat → Option (Option Nat)
  | 0, _ => none
  | fuel + 1, idx =>
    if BUCKET_IS_EMPTY index idx then
      if idx + 1 = index.num_buckets then some none
      else next_key_loop index fuel (idx + 1)
    else some (some (BUCKET_ADDR index idx))

/-- Function `hashindex_next_key`; the cursor `key` and the result are byte offsets into
`buckets`, `none` is `NULL`. -/
def hashindex_next_key (index : HashIndex) (key : Option Nat) : Option (Option Nat) :=
  let idx := match key with
    | none => 0
    | some k => 1 + k / index.bucket_size
  if idx = index.num_buckets then some none
  else next_key_loop index (index.num_buckets - idx) idx

/-- The loop `while((key = hashindex_next_key(index, key)))` of `hashindex_resize`, over a
given `hashindex_set`.  Result `some none`: a `hashindex_set` returned 0. -/
def resize_loop (set : HashIndex → Ptr → Ptr → Option (Int × HashIndex)) (index : HashIndex) :
    Nat → HashIndex → Option Nat → Option (Option HashIndex)
  | 0, _, _ => none
  | fuel + 1, new, key =>
    match hashindex_next_key index key with
    | none => none
    | some none => some (some new)
    | some (some k) =>
      match set new (ptr index.buckets k) (ptr index.buckets (k + index.key_size)) with
      | none => none
      | some (rc, new1) =>
        if rc = 0 then some none else resize_loop set index fuel new1 (some k)

/-- Body of `hashindex_resize`, over a given `hashindex_set`. -/
def resize_with (set : HashIndex → Ptr → Ptr → Option (Int × HashIndex)) (index : HashIndex)
    (capacity : Int) : Option (Int × HashIndex) :=
  let new := hashindex_init capacity index.key_size index.value_size
  match resize_loop set index (index.num_buckets + 1) new none with
  | none => none
  | some none => some (0, index)
  | some (some new1) =>
    some (1, { index with
      buckets := new1.buckets
      num_buckets := new1.num_buckets
      lower_limit := new1.lower_limit
      upper_limit := new1.upper_limit })

/-- Body of `hashindex_set`, over a given `hashindex_resize`. -/
def set_with (resize : HashIndex → Int → Option (Int × HashIndex)) (index : HashIndex)
    (key value : Ptr) : Option (Int × HashIndex) :=
  match hashindex_lookup index key (some 0) with
  | none => none
  | some (some idx, _) => some (1, write_value index idx value)
  | some (none, hint) =>
    let offset := hint.getD 0
    if index.num_entries > index.upper_limit then
      match resize index (grow_size index.num_buckets) with
      | none => none
      | some (rc, index1) =>
        if rc = 0 then some (0, index1)
        else (set_insert index1 key value 0).map (fun r => (1, r))
    else (set_insert index key value offset).map (fun r => (1, r))

/-- Function `hashindex_set`.  The first argument bounds the nesting of the mutual
recursion `hashindex_set -> hashindex_resize -> hashindex_set`; with budget 0 a call of
`hashindex_resize` yields no result. -/
def hashindex_set : Nat → HashIndex → Ptr → Ptr → Option (Int × HashIndex)
  | 0 => set_with (fun _ _ => none)
  | fuel + 1 => set_with (resize_with (hashindex_set fuel))

/-- Function `hashindex_resize`. -/
def hashindex_resize (fuel : Nat) (index : HashIndex) (capacity : Int) :
    Option (Int × HashIndex) :=
  resize_with (hashindex_set fuel) index capacity

/-- The simple case of `hashindex_delete`: shift the chunk after `idx` one bucket to the
left and mark the last bucket of the chunk empty (`c_size != -1`). -/
def delete_shift_simple (index : HashIndex) (idx : Nat) (c_size : Int) : Option HashIndex :=
  if c_size < 0 then none
  else
    let index1 := if c_size ≠ 0 then bucket_memmove index idx (idx + 1) c_size.toNat else index
    some (BUCKET_MARK_EMPTY index1 (idx + c_size.toNat / index.bucket_size))

/-- The complicated case of `hashindex_delete`: shift all the way to the end of the bucket
array, then deal with the first bucket. -/
def delete_shift_wrap (index : HashIndex) (idx : Nat) : Option HashIndex :=
  let index1 :=
    bucket_memmove index idx (idx + 1) ((index.num_buckets - idx - 1) * index.bucket_size)
  if BUCKET_IS_EMPTY index1 0 then
    some (BUCKET_MARK_EMPTY index1 (index1.num_buckets - 1))
  else
    let index2 := bucket_memmove index1 (index1.num_buckets - 1) 0 index1.bucket_size
    let c_size := lshift_chunk_size index2 1
    if c_size = 0 then some (BUCKET_MARK_EMPTY index2 0)
    else if c_size < 0 then none
    else
      let index3 := bucket_memmove index2 0 1 c_size.toNat
      some (BUCKET_MARK_EMPTY index3 (c_size.toNat / index3.bucket_size))

/-- The bucket surgery of `hashindex_delete` for a hit at `idx` (source lines 564-598). -/
def delete_shift (index : HashIndex) (idx : Nat) : Option HashIndex :=
  let c_size : Int :=
    if idx + 1 < index.num_buckets then lshift_chunk_size index (idx + 1) else -1
  if c_size ≠ -1 then delete_shift_simple index idx c_size
  else delete_shift_wrap index idx

/-- Function `hashindex_delete`. -/
def hashindex_delete (fuel : Nat) (index : HashIndex) (key : Ptr) : Option (Int × HashIndex) :=
  match hashindex_lookup index key none with
  | none => none
  | some (none, _) => some (1, index)
  | some (some idx, _) =>
    match delete_shift index idx with
    | none => none
    | some index1 =>
      let index2 : HashIndex := { index1 with num_entries := index1.num_entries - 1 }
      if index2.num_entries < index2.lower_limit then
        match hashindex_resize fuel index2 (shrink_size index2.num_buckets) with
        | none => none
        | some (rc, index3) => if rc = 0 then some (0, index3) else some (1, index3)
      else some (1, index2)

/-- Function `hashindex_len`. -/
def hashindex_len (index : HashIndex) : Int := index.num_entries

/-- Function `hashindex_size`: `sizeof(HashHeader)` is 18, the sum is converted to `int`. -/
def hashindex_size (index : HashIndex) : Int :=
  wrap32 (18 + (index.num_buckets : Int) * index.bucket_size)

/-! ## Specification vocabulary: the buffer seen as an array of buckets -/

/-- The `bucket_size` bytes of bucket `i`. -/
def slot (index : HashIndex) (i : Nat) : List Nat :=
  readBytes index.buckets (BUCKET_ADDR index i) index.bucket_size

/-- Bucket bytes carry the `EMPTY` tag right after the key. -/
def slot_empty (ks : Nat) (s : List Nat) : Bool := le32 (ofBytes (s.drop ks)) == EMPTY

/-- Home bucket `le_u32(first 4 bytes) mod num_buckets` of the key in the bucket bytes `s`. -/
def slot_home (nb : Nat) (s : List Nat) : Nat := le32 (ofBytes s) % nb

/-- Size conditions under which buckets do not overlap and tags lie inside their bucket. -/
def Sz (index : HashIndex) : Prop :=
  4 ≤ index.key_size ∧ 4 ≤ index.value_size ∧ index.bucket_size = index.key_size + index.value_size

/-- Cyclic predecessor of a bucket index. -/
def pred_idx (nb i : Nat) : Nat := if i = 0 then nb - 1 else i - 1

/-- Cyclic successor of a bucket index (the `idx++; if (idx >= num_buckets) idx = 0;` step). -/
def next_idx (nb i : Nat) : Nat := if i + 1 ≥ nb then 0 else i + 1

/-- Bucket index `j` probes after `i`: `idx = i + j; if (idx >= num_buckets) idx -= num_buckets`. -/
def wrap_add (nb i j : Nat) : Nat := if i + j ≥ nb then i + j - nb else i + j

/-- Bucket `i` is tagged `EMPTY`. -/
def isE (index : HashIndex) (i : Nat) : Prop := BUCKET_IS_EMPTY index i = true

/-- Key bytes of bucket `i`. -/
def keyOf (index : HashIndex) (i : Nat) : List Nat :=
  readBytes index.buckets (BUCKET_ADDR index i) index.key_size

/-- Value bytes of bucket `i`. -/
def valOf (index : HashIndex) (i : Nat) : List Nat :=
  readBytes index.buckets (BUCKET_ADDR index i + index.key_size) index.value_size

/-- Home bucket of the key stored in bucket `i`. -/
def homeOf (index : HashIndex) (i : Nat) : Nat :=
  hashindex_index index (ptr index.buckets (BUCKET_ADDR index i))

/-- Two descriptors with the same geometry (`num_buckets` and the three widths). -/
def SameShape (a b : HashIndex) : Prop :=
  a.num_buckets = b.num_buckets ∧ a.key_size = b.key_size ∧ a.value_size = b.value_size ∧
    a.bucket_size = b.bucket_size

/-- What the table algorithms see of the bucket array: per bucket the `EMPTY` tag, the home
of the stored key, the key bytes and the value bytes. -/
structure View where
  nb : Nat
  emp : Nat → Prop
  home : Nat → Nat
  key : Nat → List Nat
  val : Nat → List Nat

/-- The view of an index. -/
def view (index : HashIndex) : View :=
  { nb := index.num_buckets
    emp := isE index
    home := homeOf index
    key := keyOf index
    val := valOf index }

/-- Displacement of the key in bucket `i`. -/
def View.disp (v : View) (i : Nat) : Nat := distance i (v.home i) v.nb

/-- Local form of "reachable without crossing an EMPTY bucket, in Robin-Hood order": a
bucket after an EMPTY one sits at home, a bucket after an occupied one is displaced by at
most one more than it. -/
def View.LocalRH (v : View) : Prop :=
  ∀ i, i < v.nb → ¬ v.emp i →
    (v.emp (pred_idx v.nb i) → v.disp i = 0) ∧
    (¬ v.emp (pred_idx v.nb i) → v.disp i ≤ v.disp (pred_idx v.nb i) + 1)

/-- Occupied buckets hold pairwise distinct keys. -/
def View.Distinct (v : View) : Prop :=
  ∀ i j, i < v.nb → j < v.nb → ¬ v.emp i → ¬ v.emp j → v.key i = v.key j → i = j

/-- Bucket `i` lies in the cyclic range `(p, e]`. -/
def btw (nb p e i : Nat) : Prop :=
  i < nb ∧ ((p ≤ e ∧ p < i ∧ i ≤ e) ∨ (e < p ∧ (p < i ∨ i ≤ e)))

instance btw_decidable (nb p e i : Nat) : Decidable (btw nb p e i) := by
  unfold btw
  infer_instance

/-- The view after storing `(k, w)` with home `h` in bucket `p` and moving the buckets of
the cyclic range `[p, e)` one step forward. -/
def View.insert (v : View) (p e h : Nat) (k w : List Nat) : View :=
  { nb := v.nb
    emp := fun i => if i = p then False else if btw v.nb p e i then v.emp (pred_idx v.nb i)
      else v.emp i
    home := fun i => if i = p then h else if btw v.nb p e i then v.home (pred_idx v.nb i)
      else v.home i
    key := fun i => if i = p then k else if btw v.nb p e i then v.key (pred_idx v.nb i)
      else v.key i
    val := fun i => if i = p then w else if btw v.nb p e i then v.val (pred_idx v.nb i)
      else v.val i }

/-- Occupied buckets hold pairwise distinct keys. -/
def DistinctKeys (index : HashIndex) : Prop :=
  ∀ i j, i < index.num_buckets → j < index.num_buckets → ¬ isE index i → ¬ isE index j →
    keyOf index i = keyOf index j → i = j

/-- At least one bucket is tagged `EMPTY`. -/
def HasEmpty (index : HashIndex) : Prop := ∃ e, e < index.num_buckets ∧ isE index e

/-- Every occupied bucket is reached from the home of its key by forward probing (with
wrap) without passing an `EMPTY` bucket. -/
def Reachable (index : HashIndex) : Prop :=
  ∀ i, i < index.num_buckets → ¬ isE index i →
    ∀ j, j < bucket_distance index i →
      ¬ isE index (wrap_add index.num_buckets (homeOf index i) j)

/-- Robin-Hood order: along a run of occupied buckets the displacement grows by at most
one from a bucket to the next (cyclically). -/
def RobinHood (index : HashIndex) : Prop :=
  ∀ i, i < index.num_buckets → ¬ isE index i →
    ¬ isE index (next_idx index.num_buckets i) →
      bucket_distance index (next_idx index.num_buckets i) ≤ bucket_distance index i + 1

/-- The set of occupied (not `EMPTY`) bucket indices. -/
def occupied (index : HashIndex) : Finset Nat :=
  (Finset.range index.num_buckets).filter (fun i => BUCKET_IS_EMPTY index i = false)

/-- Number of occupied buckets. -/
def num_occupied (index : HashIndex) : Nat := (occupied index).card

/-- The limits are the ones `hashindex_init`, `hashindex_read` and `hashindex_resize`
store: computed from `num_buckets`. -/
def LimitsDerived (index : HashIndex) : Prop :=
  index.lower_limit = get_lower_limit index.num_buckets ∧
    index.upper_limit = get_upper_limit index.num_buckets

/-- Byte lengths of runs of occupied buckets fit a C `int` (so that the `int` results of
`rshift_chunk_size` and `lshift_chunk_size` are exact). -/
def FitsInt (index : HashIndex) : Prop :=
  (num_occupied index + 1) * index.bucket_size < 2147483648

/-- Well-formed index. -/
structure WF (index : HashIndex) : Prop where
  sz : Sz index
  pos : 0 < index.num_buckets
  distinct : DistinctKeys index
  rh : RobinHood index
  reach : Reachable index
  has_empty : HasEmpty index
  count : index.num_entries = num_occupied index
  limits : LimitsDerived index
  fits : FitsInt index

/-- The value bytes behind the pointer returned by `hashindex_get`. -/
def hashindex_get_value (index : HashIndex) (key : Ptr) : Option (Option (List Nat)) :=
  (hashindex_get index key).map
    (fun r => r.map (fun a => readBytes index.buckets a index.value_size))

/-- Some occupied bucket of the view holds key `k` with value `w`. -/
def View.Holds (v : View) (k w : List Nat) : Prop :=
  ∃ i, i < v.nb ∧ ¬ v.emp i ∧ v.key i = k ∧ v.val i = w

/-- Some occupied bucket of the index holds key bytes `k` with value bytes `w`. -/
def Holds (index : HashIndex) (k w : List Nat) : Prop :=
  ∃ i, i < index.num_buckets ∧ ¬ isE index i ∧ keyOf index i = k ∧ valOf index i = w

/-- What lookup and insertion need of an index: the size conditions, the probe invariants in
local form, distinct keys, an empty bucket, and chunk sizes that fit an `int`. -/
structure Inv (index : HashIndex) : Prop where
  sz : Sz index
  pos : 0 < index.num_buckets
  lrh : (view index).LocalRH
  distinct : DistinctKeys index
  has_empty : HasEmpty index
  fits : FitsInt index

/-- Contents after storing `(K, V)`: `K` maps to `V`, every other key is as before. -/
def SetPost (index index1 : HashIndex) (K V : List Nat) : Prop :=
  ∀ k w, Holds index1 k w ↔ ((k = K ∧ w = V) ∨ (k ≠ K ∧ Holds index k w))

/-- The key bytes behind a key pointer, for an index. -/
def keyBytes (index : HashIndex) (key : Ptr) : List Nat := readBytes key 0 index.key_size

/-- The value bytes behind a value pointer, for an index. -/
def valueBytes (index : HashIndex) (value : Ptr) : List Nat := readBytes value 0 index.value_size

/-- Bucket index at which `hashindex_next_key` starts for a cursor. -/
def cursor_idx (index : HashIndex) (key : Option Nat) : Nat :=
  match key with
  | none => 0
  | some k => 1 + k / index.bucket_size

/-- Loop invariant of `hashindex_resize` from `index` into a table of `N` buckets, when
the buckets below `c` have been re-inserted into `new`. -/
structure ResizeInv (index : HashIndex) (N : Nat) (new : HashIndex) (c : Nat) : Prop where
  sz : Sz new
  lrh : (view new).LocalRH
  distinct : DistinctKeys new
  nb : new.num_buckets = N
  ks : new.key_size = index.key_size
  vs : new.value_size = index.value_size
  lower : new.lower_limit = get_lower_limit N
  upper : new.upper_limit = get_upper_limit N
  entries : new.num_entries = num_occupied new
  count : num_occupied new = ((occupied index).filter (fun i => i < c)).card
  holds : ∀ k w, Holds new k w ↔
    ∃ i, i < c ∧ i < index.num_buckets ∧ ¬ isE index i ∧ keyOf index i = k ∧ valOf index i = w

/-- Some occupied bucket holds the key bytes `k`. -/
def Present (index : HashIndex) (k : List Nat) : Prop :=
  ∃ i, i < index.num_buckets ∧ ¬ isE index i ∧ keyOf index i = k

/-- The state after a successful `hashindex_set` of `(K, V)`. -/
structure SetOk (index index1 : HashIndex) (K V : List Nat) : Prop where
  sz : Sz index1
  pos : 0 < index1.num_buckets
  lrh : (view index1).LocalRH
  distinct : DistinctKeys index1
  ks : index1.key_size = index.key_size
  vs : index1.value_size = index.value_size
  limits : LimitsDerived index1
  post : SetPost index index1 K V
  count : index1.num_entries = num_occupied index1
  present : Present index K →
    index1.num_entries = index.num_entries ∧ num_occupied index1 = num_occupied index ∧
      SameShape index1 index
  absent : ¬ Present index K →
    index1.num_entries = index.num_entries + 1 ∧
      num_occupied index1 = num_occupied index + 1 ∧
      ((¬ index.num_entries > index.upper_limit ∧ index1.num_buckets = index.num_buckets) ∨
        (index.num_entries > index.upper_limit ∧
          index1.num_buckets = grow_size index.num_buckets))
  grown : index1.num_buckets = index.num_buckets ∨
    (index.num_entries > index.upper_limit ∧ index1.num_buckets = grow_size index.num_buckets)

/-- Loop invariant of `hashindex_resize` when the new table may itself grow: the buckets of
`index` below `c` have been re-inserted into the well-formed table `new`. -/
structure ResizeInv2 (index : HashIndex) (new : HashIndex) (c : Nat) : Prop where
  sz : Sz new
  lrh : (view new).LocalRH
  distinct : DistinctKeys new
  ladder : ∃ gi, gi ≤ 57 ∧ new.num_buckets = hash_sizes.getD gi 0
  ks : new.key_size = index.key_size
  vs : new.value_size = index.value_size
  limits : LimitsDerived new
  entries : new.num_entries = num_occupied new
  room : num_occupied new < new.num_buckets
  count : num_occupied new = ((occupied index).filter (fun i => i < c)).card
  holds : ∀ k w, Holds new k w ↔
    ∃ i, i < c ∧ i < index.num_buckets ∧ ¬ isE index i ∧ keyOf index i = k ∧ valOf index i = w

/-- Loop invariant of `hashindex_resize` for an old table whose keys need not be distinct:
the new table is well formed and holds at most as many entries as occupied buckets of
`index` below `c` were visited; it has not grown past `fit_size cap` unless it had to. -/
structure ResizeInv3 (index : HashIndex) (cap : Int) (new : HashIndex) (c : Nat) : Prop where
  sz : Sz new
  lrh : (view new).LocalRH
  distinct : DistinctKeys new
  ladder : ∃ gi, gi ≤ 57 ∧ new.num_buckets = hash_sizes.getD gi 0
  ks : new.key_size = index.key_size
  vs : new.value_size = index.value_size
  limits : LimitsDerived new
  entries : new.num_entries = num_occupied new
  room : num_occupied new < new.num_buckets
  count : num_occupied new ≤ ((occupied index).filter (fun i => i < c)).card
  nb_ge : fit_size cap ≤ new.num_buckets
  nb_eq : ((((occupied index).filter (fun i => i < c)).card : Nat) : Int)
      ≤ get_upper_limit (fit_size cap) + 1 → new.num_buckets = fit_size cap

/-- Field-level outcome of a resize: the table is on the ladder with derived limits, at
least as large as requested, and exactly as requested when the entries fit. -/
structure Resized (index index1 : HashIndex) (cap : Int) : Prop where
  ladder : ∃ gi, gi ≤ 57 ∧ index1.num_buckets = hash_sizes.getD gi 0
  ks : index1.key_size = index.key_size
  vs : index1.value_size = index.value_size
  bs : index1.bucket_size = index.bucket_size
  entries : index1.num_entries = index.num_entries
  limits : LimitsDerived index1
  sz : Sz index1
  lrh : (view index1).LocalRH
  distinct : DistinctKeys index1
  room : num_occupied index1 < index1.num_buckets
  count : num_occupied index1 ≤ num_occupied index
  nb_ge : fit_size cap ≤ index1.num_buckets
  nb_eq : (num_occupied index : Int) ≤ get_upper_limit (fit_size cap) + 1 →
    index1.num_buckets = fit_size cap

/-- The state after a successful `hashindex_set` of `(K, V)` on an index whose limits are
arbitrary. -/
structure SetOk2 (index index1 : HashIndex) (K V : List Nat) : Prop where
  sz : Sz index1
  pos : 0 < index1.num_buckets
  lrh : (view index1).LocalRH
  distinct : DistinctKeys index1
  ks : index1.key_size = index.key_size
  vs : index1.value_size = index.value_size
  post : SetPost index index1 K V
  present : Present index K →
    index1.num_entries = index.num_entries ∧ num_occupied index1 = num_occupied index ∧
      SameShape index1 index ∧ index1.lower_limit = index.lower_limit ∧
      index1.upper_limit = index.upper_limit
  absent : ¬ Present index K →
    index1.num_entries = index.num_entries + 1 ∧
      num_occupied index1 = num_occupied index + 1

/-- The table size is one of the ladder `hash_sizes`. -/
def OnLadder (index : HashIndex) : Prop :=
  ∃ gi, gi ≤ 57 ∧ index.num_buckets = hash_sizes.getD gi 0

/-! ## Sample inputs -/

/-- A 4-byte key with hash 1. -/
def sample_key : Ptr := ofBytes [1, 0, 0, 0]

/-- A second 4-byte key, with hash 2. -/
def other_key : Ptr := ofBytes [2, 0, 0, 0]

/-- A 4-byte value that is not a sentinel. -/
def sample_value : Ptr := ofBytes [7, 0, 0, 0]

/-- A hand-made table of four 8-byte buckets: bucket 1 holds key `01 00 00 00` (hash 1) at
home, bucket 2 holds key `05 00 00 00` (hash 5, home 1) displaced by one, buckets 0 and 3
are EMPTY. -/
def small_index : HashIndex :=
  { buckets := ofBytes
      [0, 0, 0, 0, 255, 255, 255, 255,
       1, 0, 0, 0, 7, 0, 0, 0,
       5, 0, 0, 0, 8, 0, 0, 0,
       0, 0, 0, 0, 255, 255, 255, 255]
    num_entries := 2
    num_buckets := 4
    key_size := 4
    value_size := 4
    bucket_size := 8
    lower_limit := 0
    upper_limit := 3
    tmp_entry := fun _ => 0 }

/-- The key stored in bucket 2 of `small_index`. -/
def displaced_key : Ptr := ofBytes [5, 0, 0, 0]

/-! ## The wrap-around delete scenario -/

/-- A key whose hash `0x406 = 1030` is the last bucket of a 1031-bucket table. -/
def wrap_key_last : Ptr := ofBytes [6, 4, 0, 0]

/-- A key with hash 0 (its fifth byte is 1). -/
def wrap_key_first : Ptr := ofBytes [0, 0, 0, 0, 1]

/-- On `hashindex_init(0, 32, 12)`: set `wrap_key_last`, set `wrap_key_first`, delete
`wrap_key_last`.  The result is the return code of the delete with what `hashindex_get`
finds for `wrap_key_first` before and after the delete. -/
def delete_wrap_scenario :
    Option (Int × Option (Option (List Nat)) × Option (Option (List Nat))) :=
  (hashindex_set 1 (hashindex_init 0 32 12) wrap_key_last sample_value).bind fun r1 =>
  (hashindex_set 1 r1.2 wrap_key_first sample_value).bind fun r2 =>
  (hashindex_delete 1 r2.2 wrap_key_last).bind fun r3 =>
  some (r3.1, hashindex_get_value r2.2 wrap_key_first,
    hashindex_get_value r3.2 wrap_key_first)

/-! ## Runs of public mutations -/

/-- A call of the mutating public API. -/
inductive Op where
  | set (key value : Ptr)
  | delete (key : Ptr)

/-- One call on an index: the return code and the index afterwards. -/
def apply_op (fuel : Nat) (index : HashIndex) : Op → Option (Int × HashIndex)
  | Op.set key value => hashindex_set fuel index key value
  | Op.delete key => hashindex_delete fuel index key

/-- A sequence of calls, one after the other; the index after the last one. -/
def run_ops (fuel : Nat) : HashIndex → List Op → Option HashIndex
  | index, [] => some index
  | index, op :: ops =>
    match apply_op fuel index op with
    | none => none
    | some (_, index1) => run_ops fuel index1 ops

/-- The caller's obligation on a call: a stored value is not tagged `EMPTY`. -/
def op_ok : Op → Prop
  | Op.set _ value => le32 value ≠ EMPTY
  | Op.delete _ => True

/-- What every index reached from `hashindex_init` by `hashindex_set` and
`hashindex_delete` satisfies, whether or not the probe invariants survived: the sizes, a
ladder size with its limits, no more occupied buckets than `num_entries`, and at most one
entry above the upper limit below the top of the ladder. -/
structure Good (index : HashIndex) : Prop where
  sz : Sz index
  ladder : OnLadder index
  limits : LimitsDerived index
  occ_le : (num_occupied index : Int) ≤ index.num_entries
  upper : index.num_buckets < 2062383853 → index.num_entries ≤ index.upper_limit + 1

/-- The lower load bound. -/
def Low (index : HashIndex) : Prop := index.lower_limit ≤ index.num_entries

/-- The calls `hashindex_set(key, value)` for a list of pairs. -/
def set_ops (kvs : List (Ptr × Ptr)) : List Op := kvs.map (fun kv => Op.set kv.1 kv.2)

/-- The key whose first two bytes are the little-endian digits of `i`. -/
def nat_key (i : Nat) : Ptr := ofBytes [i % 256, i / 256 % 256]

/-- The pairs `(nat_key i, sample_value)` for `i < n`. -/
def nat_pairs (n : Nat) : List (Ptr × Ptr) :=
  (List.range n).map (fun i => (nat_key i, sample_value))

/-- A short run: store a key, then delete it. -/
def sample_ops : List Op := [Op.set sample_key sample_value, Op.delete sample_key]

/-- The field-level part of `Good`: a ladder size with its limits, and at most one entry
above the upper limit below the top of the ladder. -/
structure Bounded (index : HashIndex) : Prop where
  ladder : OnLadder index
  limits : LimitsDerived index
  upper : index.num_buckets < 2062383853 → index.num_entries ≤ index.upper_limit + 1

/-! ## Iteration -/

/-- The caller's loop `key = NULL; while((key = hashindex_next_key(index, key))) ...`: the
bucket offsets returned, in order.  The first argument bounds the number of calls. -/
def iterate_keys (index : HashIndex) : Nat → Option Nat → Option (List Nat)
  | 0, _ => none
  | fuel + 1, cursor =>
    match hashindex_next_key index cursor with
    | none => none
    | some none => some []
    | some (some k) => (iterate_keys index fuel (some k)).map (fun ks => k :: ks)

/-- The bucket indices from `lo` up to `num_buckets` whose bucket is not EMPTY, ascending. -/
def occupied_from (index : HashIndex) (lo : Nat) : List Nat :=
  ((List.range index.num_buckets).filter (fun i => lo ≤ i)).filter
    (fun i => !BUCKET_IS_EMPTY index i)

/-- The table `small_index` with the value of bucket 1 replaced by the `DELETED` tag
`fe ff ff ff`: bucket 1 holds key `01 00 00 00` and is tagged DELETED, bucket 2 holds key
`05 00 00 00` (home 1) displaced by one, buckets 0 and 3 are EMPTY. -/
def tombstone_index : HashIndex :=
  { buckets := ofBytes
      [0, 0, 0, 0, 255, 255, 255, 255,
       1, 0, 0, 0, 254, 255, 255, 255,
       5, 0, 0, 0, 8, 0, 0, 0,
       0, 0, 0, 0, 255, 255, 255, 255]
    num_entries := 2
    num_buckets := 4
    key_size := 4
    value_size := 4
    bucket_size := 8
    lower_limit := 0
    upper_limit := 3
    tmp_entry := fun _ => 0 }

/-- The scenario of `delete_wrap_scenario`, observed at the buckets: the return code of the
delete, then of the index after it `num_buckets`, whether bucket 1030 is EMPTY, the home and
the displacement of the key in bucket 1030, and whether bucket 0 is EMPTY. -/
def delete_wrap_layout : Option (Int × Nat × Bool × Nat × Nat × Bool) :=
  (hashindex_set 1 (hashindex_init 0 32 12) wrap_key_last sample_value).bind fun r1 =>
  (hashindex_set 1 r1.2 wrap_key_first sample_value).bind fun r2 =>
  (hashindex_delete 1 r2.2 wrap_key_last).bind fun r3 =>
  some (r3.1, r3.2.num_buckets, BUCKET_IS_EMPTY r3.2 1030, homeOf r3.2 1030,
    bucket_distance r3.2 1030, BUCKET_IS_EMPTY r3.2 0)

/-- Probe-reachability on views: the buckets from the home of a stored key up to its bucket
are not EMPTY. -/
def View.Reach (v : View) : Prop :=
  ∀ i, i < v.nb → ¬ v.emp i → ∀ j, j < v.disp i → ¬ v.emp (wrap_add v.nb (v.home i) j)

/-! ## Persistence -/

/-- Constant `MAGIC`: the bytes of the string `BORG_IDX` (`MAGIC_LEN` is 8). -/
def MAGIC : List Nat := [66, 79, 82, 71, 95, 73, 68, 88]

/-- Conversion of an integer to `int8_t` (two's complement). -/
def wrap8 (x : Int) : Int := (x + 128) % 256 - 128

/-- The four bytes of an `int32_t` field stored in little-endian order. -/
def le32_bytes (x : Int) : List Nat :=
  let u := (x % 4294967296).toNat
  [u % 256, u / 256 % 256, u / 65536 % 256, u / 16777216 % 256]

/-- Function `hashindex_write`: the content of the file it leaves behind when every I/O call
succeeds, the packed 18-byte `HashHeader` followed by the
`num_buckets * bucket_size` bytes of the bucket array. -/
def hashindex_write (index : HashIndex) : List Nat :=
  let buckets_length := index.num_buckets * index.bucket_size
  let header := MAGIC ++ le32_bytes index.num_entries ++ le32_bytes index.num_buckets ++
    [index.key_size % 256, index.value_size % 256]
  header ++ readBytes index.buckets 0 buckets_length

/-- Field `num_entries` of a header: `int32_t` at offset 8 (on a little-endian host
`_le32toh` is the identity and keeps the type). -/
def header_num_entries (header : List Nat) : Int := wrap32 (le32 (ofBytes (header.drop 8)))

/-- Field `num_buckets` of a header: `int32_t` at offset 12. -/
def header_num_buckets (header : List Nat) : Int := wrap32 (le32 (ofBytes (header.drop 12)))

/-- Field `key_size` of a header: `int8_t` at offset 16. -/
def header_key_size (header : List Nat) : Int := wrap8 (header.getD 16 0)

/-- Field `value_size` of a header: `int8_t` at offset 17. -/
def header_value_size (header : List Nat) : Int := wrap8 (header.getD 17 0)

/-- Outcome of `malloc(size)` and `calloc(1, size)`, the argument converted to `size_t`: a
request of more than `PTRDIFF_MAX` bytes fails, every other request (one of 0 bytes
included) succeeds. -/
def alloc_ok (size : Int) : Bool := size % 18446744073709551616 < 9223372036854775808

/-- Function `get_lower_limit` for an `int` argument of either sign (`get_lower_limit` above
is its restriction to non-negative arguments). -/
def get_lower_limit_signed (num_buckets : Int) : Int :=
  let min_buckets := hash_sizes.getD 0 0
  if num_buckets ≤ min_buckets then 0
  else (mul_double_to_int num_buckets.toNat HASH_MIN_LOAD : Nat)

/-- Function `get_upper_limit` for an `int` argument of either sign; the conversion of a
negative product to `int` truncates towards zero. -/
def get_upper_limit_signed (num_buckets : Int) : Int :=
  let max_buckets := hash_sizes.getD (NELEMS_hash_sizes - 1) 0
  if num_buckets ≥ max_buckets then num_buckets
  else if 0 ≤ num_buckets then (mul_double_to_int num_buckets.toNat HASH_MAX_LOAD : Nat)
  else -(mul_double_to_int (-num_buckets).toNat HASH_MAX_LOAD : Nat)

/-- Struct `HashIndex` as `hashindex_read` fills it: the `int` fields hold whatever the
header holds, negative values included. -/
structure LoadedIndex where
  buckets : Ptr
  num_entries : Int
  num_buckets : Int
  key_size : Int
  value_size : Int
  bucket_size : Int
  lower_limit : Int
  upper_limit : Int
  tmp_entry : Ptr

/-- A loaded descriptor with non-negative `num_buckets`, `key_size` and `value_size`, as a
`HashIndex`. -/
def LoadedIndex.toIndex (l : LoadedIndex) : HashIndex :=
  { buckets := l.buckets
    num_entries := l.num_entries
    num_buckets := l.num_buckets.toNat
    key_size := l.key_size.toNat
    value_size := l.value_size.toNat
    bucket_size := l.bucket_size.toNat
    lower_limit := l.lower_limit
    upper_limit := l.upper_limit
    tmp_entry := l.tmp_entry }

/-- Function `hashindex_read` on the content of the file (`fopen`, `fseek`, `ftell` and
`fclose` succeed, `fread` delivers the bytes that are there); `none` is the `NULL`
result. -/
def hashindex_read (file : List Nat) : Option LoadedIndex :=
  let header := file.take 18
  if header.length ≠ 18 then none
  else
    let length : Int := file.length
    if header.take 8 ≠ MAGIC then none
    else
      let buckets_length : Int :=
        header_num_buckets header * (header_key_size header + header_value_size header)
      if length % 18446744073709551616 ≠ (18 + buckets_length) % 18446744073709551616 then none
      else if alloc_ok buckets_length = false then none
      else if alloc_ok (header_key_size header + header_value_size header) = false then none
      else
        let bytes := (file.drop 18).take (buckets_length % 18446744073709551616).toNat
        if (bytes.length : Int) ≠ buckets_length then none
        else
          let num_buckets := header_num_buckets header
          some
            { buckets := ofBytes bytes
              tmp_entry := fun _ => 0
              num_entries := header_num_entries header
              num_buckets := num_buckets
              key_size := header_key_size header
              value_size := header_value_size header
              bucket_size := header_key_size header + header_value_size header
              lower_limit := get_lower_limit_signed num_buckets
              upper_limit := get_upper_limit_signed num_buckets }

/-- An 18-byte file: the magic, `num_entries = 0`, `num_buckets = 0`, `key_size = -1` (byte
`ff`), `value_size = 0`. -/
def negative_width_file : List Nat :=
  MAGIC ++ [0, 0, 0, 0, 0, 0, 0, 0, 255, 0]

/-- A file of 18 + 2147483648 bytes: the magic, `num_entries = 0`, the `num_buckets` bytes
`00 00 00 80`, `key_size = 1`, `value_size = 0`, then 2147483648 zero bytes. -/
def huge_count_file : List Nat :=
  (MAGIC ++ [0, 0, 0, 0, 0, 0, 0, 128, 1, 0]) ++ List.replicate 2147483648 0

/-- The file `hashindex_write` produces for `small_index`. -/
def small_file : List Nat :=
  MAGIC ++ [2, 0, 0, 0, 4, 0, 0, 0, 4, 4] ++
    [0, 0, 0, 0, 255, 255, 255, 255,
     1, 0, 0, 0, 7, 0, 0, 0,
     5, 0, 0, 0, 8, 0, 0, 0,
     0, 0, 0, 0, 255, 255, 255, 255]

/-! ## Sentinel values -/

/-- A 4-byte value equal to the `EMPTY` sentinel. -/
def empty_value : Ptr := ofBytes [255, 255, 255, 255]

/-- A 4-byte value equal to the `DELETED` sentinel. -/
def deleted_value : Ptr := ofBytes [254, 255, 255, 255]

/-- On `small_index`: `hashindex_set` of the absent key `other_key` with the given value.
The result is the return code, then of the index afterwards `num_entries`, the number of
buckets that are not EMPTY, and what `hashindex_get` finds for `other_key`. -/
def sentinel_set_scenario (value : Ptr) : Option (Int × Int × Nat × Option (Option Nat)) :=
  (hashindex_set 2 small_index other_key value).map fun r =>
    (r.1, r.2.num_entries, num_occupied r.2, hashindex_get r.2 other_key)

/-! ## Bucket view of the byte buffer -/

theorem readBytes_length (m : Ptr) (o n : Nat) : (readBytes m o n).length = n := by
  simp [readBytes]

theorem readBytes_getD (m : Ptr) (o n r : Nat) (h : r < n) :
    (readBytes m o n).getD r 0 = m (o + r) := by
  simp [readBytes, List.getD_eq_getElem?_getD, List.getElem?_map, List.getElem?_range h]

theorem readBytes_ext (m m1 : Ptr) (o o1 n : Nat)
    (h : ∀ r, r < n → m (o + r) = m1 (o1 + r)) : readBytes m o n = readBytes m1 o1 n := by
  unfold readBytes
  apply List.map_congr_left
  intro r hr
  exact h r (List.mem_range.mp hr)

theorem readBytes_inj (m m1 : Ptr) (o o1 n : Nat) (h : readBytes m o n = readBytes m1 o1 n) :
    ∀ r, r < n → m (o + r) = m1 (o1 + r) := by
  intro r hr
  have h1 := readBytes_getD m o n r hr
  have h2 := readBytes_getD m1 o1 n r hr
  rw [← h1, ← h2, h]

theorem addr_lt_iff (bs i j r : Nat) (hr : r < bs) : i * bs + r < j * bs ↔ i < j := by
  constructor
  · intro h
    by_contra hc
    have : j * bs ≤ i * bs := Nat.mul_le_mul_right bs (Nat.le_of_not_lt hc)
    omega
  · intro h
    have : (i + 1) * bs ≤ j * bs := Nat.mul_le_mul_right bs h
    have h2 : (i + 1) * bs = i * bs + bs := by ring
    omega

theorem addr_le_iff (bs i j r : Nat) (hr : r < bs) : j * bs ≤ i * bs + r ↔ j ≤ i := by
  have := addr_lt_iff bs i j r hr
  omega

theorem slot_length (index : HashIndex) (i : Nat) : (slot index i).length = index.bucket_size := by
  simp [slot, readBytes_length]

theorem slot_getD (index : HashIndex) (i r : Nat) (h : r < index.bucket_size) :
    (slot index i).getD r 0 = index.buckets (i * index.bucket_size + r) := by
  unfold slot BUCKET_ADDR
  exact readBytes_getD _ _ _ _ h

theorem drop_getD (s : List Nat) (k r : Nat) : (s.drop k).getD r 0 = s.getD (k + r) 0 := by
  simp [List.getD_eq_getElem?_getD, List.getElem?_drop]

theorem empty_eq_slot (index : HashIndex) (i : Nat)
    (h : index.key_size + 4 ≤ index.bucket_size) :
    BUCKET_IS_EMPTY index i = slot_empty index.key_size (slot index i) := by
  unfold BUCKET_IS_EMPTY slot_empty le32 ofBytes ptr
  simp only [drop_getD]
  rw [slot_getD _ _ _ (by omega), slot_getD _ _ _ (by omega), slot_getD _ _ _ (by omega),
    slot_getD _ _ _ (by omega)]
  simp [BUCKET_ADDR, Nat.add_assoc]

theorem home_eq_slot (index : HashIndex) (i : Nat) (h : 4 ≤ index.bucket_size) :
    homeOf index i = slot_home index.num_buckets (slot index i) := by
  unfold homeOf hashindex_index slot_home le32 ofBytes ptr
  rw [slot_getD _ _ _ (by omega), slot_getD _ _ _ (by omega), slot_getD _ _ _ (by omega),
    slot_getD _ _ _ (by omega)]
  simp [BUCKET_ADDR]

theorem key_eq_slot (index : HashIndex) (i : Nat) (h : index.key_size ≤ index.bucket_size) :
    keyOf index i = (slot index i).take index.key_size := by
  apply List.ext_getElem
  · simp [keyOf, slot, readBytes_length, h]
  · intro n h1 h2
    simp [keyOf, slot, readBytes]

theorem val_eq_slot (index : HashIndex) (i : Nat)
    (h : index.bucket_size = index.key_size + index.value_size) :
    valOf index i = (slot index i).drop index.key_size := by
  apply List.ext_getElem
  · simp [valOf, slot, readBytes_length, h]
  · intro n h1 h2
    simp [valOf, slot, readBytes, Nat.add_assoc]

theorem matches_iff (index : HashIndex) (i : Nat) (key : Ptr) :
    BUCKET_MATCHES_KEY index i key = true ↔ readBytes key 0 index.key_size = keyOf index i := by
  unfold BUCKET_MATCHES_KEY keyOf
  rw [List.all_eq_true]
  constructor
  · intro h
    apply readBytes_ext
    intro r hr
    have := h r (List.mem_range.mpr hr)
    simpa using this
  · intro h r hr
    have := readBytes_inj _ _ _ _ _ h r (List.mem_range.mp hr)
    simpa using this

theorem bucket_distance_eq (index : HashIndex) (i : Nat) :
    bucket_distance index i = distance i (homeOf index i) index.num_buckets := rfl

/-! ## Effect of the memory operations on buckets -/

theorem slot_congr (a b : HashIndex) (i j : Nat) (hs : SameShape a b) (hz : Sz b)
    (h : slot a i = slot b j) :
    (isE a i ↔ isE b j) ∧ keyOf a i = keyOf b j ∧ valOf a i = valOf b j ∧
      homeOf a i = homeOf b j := by
  obtain ⟨h1, h2, h3, h4⟩ := hs
  obtain ⟨z1, z2, z3⟩ := hz
  refine ⟨?_, ?_, ?_, ?_⟩
  · unfold isE
    rw [empty_eq_slot a i (by omega), empty_eq_slot b j (by omega), h, h2]
  · rw [key_eq_slot a i (by omega), key_eq_slot b j (by omega), h, h2]
  · rw [val_eq_slot a i (by omega), val_eq_slot b j (by omega), h, h2]
  · rw [home_eq_slot a i (by omega), home_eq_slot b j (by omega), h, h1]

theorem addr_shift (bs i d s r : Nat) (h : d ≤ i) :
    i * bs + r - d * bs + s * bs = (i - d + s) * bs + r := by
  obtain ⟨k, rfl⟩ := Nat.exists_eq_add_of_le h
  have e1 : (d + k) * bs = d * bs + k * bs := Nat.add_mul d k bs
  have e2 : (d + k - d + s) * bs = k * bs + s * bs := by
    rw [Nat.add_sub_cancel_left, Nat.add_mul]
  omega

theorem slot_bucket_memmove (index : HashIndex) (d s c i : Nat) :
    slot (bucket_memmove index d s (c * index.bucket_size)) i
      = if d ≤ i ∧ i < d + c then slot index (i - d + s) else slot index i := by
  unfold bucket_memmove slot BUCKET_ADDR
  simp only
  split
  next hc =>
    apply readBytes_ext
    intro r hr
    unfold memmove
    have h1 : d * index.bucket_size ≤ i * index.bucket_size + r :=
      (addr_le_iff _ _ _ _ hr).mpr hc.1
    have h2 : i * index.bucket_size + r < d * index.bucket_size + c * index.bucket_size := by
      rw [← Nat.add_mul]
      exact (addr_lt_iff _ _ _ _ hr).mpr hc.2
    rw [if_pos ⟨h1, h2⟩, addr_shift _ _ _ _ _ hc.1]
  next hc =>
    apply readBytes_ext
    intro r hr
    unfold memmove
    have : ¬ (d * index.bucket_size ≤ i * index.bucket_size + r ∧
        i * index.bucket_size + r < d * index.bucket_size + c * index.bucket_size) := by
      rw [← Nat.add_mul, addr_le_iff _ _ _ _ hr, addr_lt_iff _ _ _ _ hr]
      exact hc
    rw [if_neg this]

theorem slot_write_bucket (index : HashIndex) (idx i : Nat) (key value : Ptr)
    (hz : index.bucket_size = index.key_size + index.value_size) :
    slot (write_bucket index idx key value) i
      = if i = idx then readBytes key 0 index.key_size ++ readBytes value 0 index.value_size
        else slot index i := by
  split
  next hi =>
    subst hi
    apply List.ext_getElem
    · simp [slot, readBytes_length, hz, write_bucket, write_value, write_key]
    · intro n h1 h2
      simp only [slot_length, write_bucket, write_value, write_key] at h1
      simp only [slot, readBytes, write_bucket, write_value, write_key, BUCKET_ADDR, memcpy,
        List.getElem_map,
        List.getElem_range, List.getElem_append]
      simp only [List.length_map, List.length_range, Nat.zero_add]
      by_cases hn : n < index.key_size
      · have : ¬ (i * index.bucket_size + index.key_size ≤ i * index.bucket_size + n) := by omega
        simp [hn, this]
      · have h3 : i * index.bucket_size + index.key_size ≤ i * index.bucket_size + n := by omega
        have h4 : i * index.bucket_size + n <
            i * index.bucket_size + index.key_size + index.value_size := by omega
        simp only [hn, h3, h4, and_self, if_true, dite_false]
        congr 1
        omega
  next hi =>
    apply readBytes_ext
    intro r hr
    simp only [write_bucket, write_value, write_key] at hr
    simp only [write_bucket, write_value, write_key, BUCKET_ADDR, memcpy]
    have hne : i < idx ∨ idx < i := by omega
    have e1 := addr_lt_iff index.bucket_size i idx r hr
    have e2 : (idx + 1) * index.bucket_size = idx * index.bucket_size + index.bucket_size := by
      ring
    have e3 := addr_le_iff index.bucket_size i (idx + 1) r hr
    have c1 : ¬ (idx * index.bucket_size + index.key_size ≤ i * index.bucket_size + r ∧
        i * index.bucket_size + r < idx * index.bucket_size + index.key_size +
          index.value_size) := by
      rcases hne with hlt | hgt
      · have := e1.mpr hlt
        omega
      · have := e3.mpr hgt
        omega
    have c2 : ¬ (idx * index.bucket_size ≤ i * index.bucket_size + r ∧
        i * index.bucket_size + r < idx * index.bucket_size + index.key_size) := by
      rcases hne with hlt | hgt
      · have := e1.mpr hlt
        omega
      · have := e3.mpr hgt
        omega
    rw [if_neg c1, if_neg c2]
theorem slot_other_of_written (index : HashIndex) (mem : Ptr) (idx i : Nat) (hi : i ≠ idx)
    (h : ∀ a, ¬ (idx * index.bucket_size ≤ a ∧ a < (idx + 1) * index.bucket_size) →
      mem a = index.buckets a) :
    slot { index with buckets := mem } i = slot index i := by
  apply readBytes_ext
  intro r hr
  simp only at hr
  simp only [BUCKET_ADDR]
  apply h
  have e1 := addr_lt_iff index.bucket_size i idx r hr
  have e3 := addr_le_iff index.bucket_size i (idx + 1) r hr
  have e4 := addr_lt_iff index.bucket_size i (idx + 1) r hr
  have e5 := addr_le_iff index.bucket_size i idx r hr
  omega

theorem slot_mark_other (index : HashIndex) (idx i : Nat) (hi : i ≠ idx)
    (hz : index.key_size + 4 ≤ index.bucket_size) :
    slot (BUCKET_MARK_EMPTY index idx) i = slot index i := by
  unfold BUCKET_MARK_EMPTY
  apply slot_other_of_written index _ idx i hi
  intro a ha
  unfold store32 BUCKET_ADDR
  have e2 : (idx + 1) * index.bucket_size = idx * index.bucket_size + index.bucket_size := by
    ring
  rw [if_neg]
  omega

theorem le32_ofBytes_append (K V : List Nat) (h : 4 ≤ K.length) :
    le32 (ofBytes (K ++ V)) = le32 (ofBytes K) := by
  unfold le32 ofBytes
  simp only [List.getD_eq_getElem?_getD]
  rw [List.getElem?_append_left (by omega), List.getElem?_append_left (by omega),
    List.getElem?_append_left (by omega), List.getElem?_append_left (by omega)]

theorem le32_ofBytes_readBytes (p : Ptr) (n : Nat) (h : 4 ≤ n) :
    le32 (ofBytes (readBytes p 0 n)) = le32 p := by
  unfold le32 ofBytes
  rw [readBytes_getD _ _ _ _ (by omega), readBytes_getD _ _ _ _ (by omega),
    readBytes_getD _ _ _ _ (by omega), readBytes_getD _ _ _ _ (by omega)]

theorem accessors_of_slot (a : HashIndex) (i : Nat) (hz : Sz a) (K V : List Nat)
    (hK : K.length = a.key_size) (h : slot a i = K ++ V) :
    keyOf a i = K ∧ valOf a i = V ∧ (isE a i ↔ le32 (ofBytes V) = EMPTY) ∧
      homeOf a i = le32 (ofBytes K) % a.num_buckets := by
  obtain ⟨z1, z2, z3⟩ := hz
  refine ⟨?_, ?_, ?_, ?_⟩
  · rw [key_eq_slot a i (by omega), h, ← hK]
    simp
  · rw [val_eq_slot a i z3, h, ← hK]
    simp
  · unfold isE
    rw [empty_eq_slot a i (by omega), h]
    unfold slot_empty
    rw [← hK]
    simp
  · rw [home_eq_slot a i (by omega), h]
    unfold slot_home
    rw [le32_ofBytes_append K V (by omega)]

theorem slot_split (a : HashIndex) (i : Nat) (hz : Sz a) :
    slot a i = keyOf a i ++ valOf a i := by
  obtain ⟨z1, z2, z3⟩ := hz
  rw [key_eq_slot a i (by omega), val_eq_slot a i z3]
  simp

theorem keyOf_length (a : HashIndex) (i : Nat) : (keyOf a i).length = a.key_size := by
  simp [keyOf, readBytes_length]

theorem valOf_length (a : HashIndex) (i : Nat) : (valOf a i).length = a.value_size := by
  simp [valOf, readBytes_length]

theorem isE_mark_self (index : HashIndex) (idx : Nat) :
    isE (BUCKET_MARK_EMPTY index idx) idx := by
  unfold isE BUCKET_IS_EMPTY BUCKET_MARK_EMPTY le32 ptr store32 BUCKET_ADDR
  simp only [Nat.add_zero]
  generalize idx * index.bucket_size + index.key_size = a
  rw [if_pos (by omega), if_pos (by omega), if_pos (by omega), if_pos (by omega)]
  simp only [Nat.sub_self, Nat.add_sub_cancel_left]
  decide

theorem slot_value_update (index : HashIndex) (idx i : Nat) (value : Ptr) (hz : Sz index) :
    slot (write_value index idx value) i
      = if i = idx then keyOf index idx ++ readBytes value 0 index.value_size
        else slot index i := by
  obtain ⟨z1, z2, z3⟩ := hz
  unfold write_value
  split
  next hi =>
    subst hi
    apply List.ext_getElem
    · simp [slot, readBytes_length, z3, keyOf]
    · intro n h1 h2
      simp only [slot_length] at h1
      simp only [slot, keyOf, readBytes, BUCKET_ADDR, memcpy, List.getElem_map,
        List.getElem_range, List.getElem_append]
      simp only [List.length_map, List.length_range, Nat.zero_add]
      by_cases hn : n < index.key_size
      · have : ¬ (i * index.bucket_size + index.key_size ≤ i * index.bucket_size + n) := by omega
        simp [hn, this]
      · have h3 : i * index.bucket_size + index.key_size ≤ i * index.bucket_size + n := by omega
        have h4 : i * index.bucket_size + n <
            i * index.bucket_size + index.key_size + index.value_size := by omega
        simp only [hn, h3, h4, and_self, if_true, dite_false]
        congr 1
        omega
  next hi =>
    apply slot_other_of_written index _ idx i hi
    intro a ha
    unfold memcpy BUCKET_ADDR
    have e2 : (idx + 1) * index.bucket_size = idx * index.bucket_size + index.bucket_size := by
      ring
    rw [if_neg]
    omega

theorem slot_restore_tmp_entry (index : HashIndex) (d i : Nat) :
    slot (restore_tmp_entry index d) i
      = if i = d then readBytes index.tmp_entry 0 index.bucket_size else slot index i := by
  unfold restore_tmp_entry
  split
  next hi =>
    subst hi
    apply readBytes_ext
    intro r hr
    simp only at hr
    simp only [memcpy, BUCKET_ADDR]
    rw [if_pos (by omega)]
    congr 1
    omega
  next hi =>
    apply slot_other_of_written index _ d i hi
    intro a ha
    unfold memcpy BUCKET_ADDR
    have e2 : (d + 1) * index.bucket_size = d * index.bucket_size + index.bucket_size := by
      ring
    rw [if_neg]
    omega

theorem readBytes_save_tmp_entry (index : HashIndex) (j : Nat) :
    readBytes (save_tmp_entry index j).tmp_entry 0 index.bucket_size = slot index j := by
  unfold save_tmp_entry
  apply readBytes_ext
  intro r hr
  simp only [memcpy, ptr]
  rw [if_pos (by omega)]
  simp

/-! ## Cyclic index arithmetic -/

theorem distance_lt (i h nb : Nat) (hi : i < nb) : distance i h nb < nb := by
  unfold distance
  split <;> omega

theorem distance_wrap_add (nb h j : Nat) (hh : h < nb) (hj : j < nb) :
    distance (wrap_add nb h j) h nb = j := by
  unfold distance wrap_add
  split <;> split <;> omega

theorem wrap_add_distance (nb i h : Nat) (hi : i < nb) (hh : h < nb) :
    wrap_add nb h (distance i h nb) = i := by
  unfold distance wrap_add
  split <;> split <;> omega

theorem wrap_add_lt (nb h j : Nat) (hh : h < nb) (hj : j ≤ nb) : wrap_add nb h j < nb := by
  unfold wrap_add
  split <;> omega

theorem next_wrap_add (nb h j : Nat) (hh : h < nb) (hj : j < nb) :
    next_idx nb (wrap_add nb h j) = wrap_add nb h (j + 1) := by
  unfold next_idx wrap_add
  split <;> split <;> split <;> omega

theorem pred_wrap_add (nb h j : Nat) (hh : h < nb) (hj : j < nb) :
    pred_idx nb (wrap_add nb h (j + 1)) = wrap_add nb h j := by
  unfold pred_idx wrap_add
  split <;> split <;> split <;> omega

theorem wrap_add_inj (nb h j k : Nat) (_hh : h < nb) (hj : j < nb) (hk : k < nb)
    (e : wrap_add nb h j = wrap_add nb h k) : j = k := by
  unfold wrap_add at e
  split at e <;> split at e <;> omega

theorem wrap_add_zero (nb h : Nat) (_hh : h < nb) : wrap_add nb h 0 = h := by
  unfold wrap_add
  split <;> omega

theorem wrap_add_full (nb h : Nat) (_hh : h < nb) : wrap_add nb h nb = h := by
  unfold wrap_add
  split <;> omega

theorem pred_lt (nb i : Nat) (hi : i < nb) : pred_idx nb i < nb := by
  unfold pred_idx
  split <;> omega

theorem next_lt (nb i : Nat) (hn : 0 < nb) : next_idx nb i < nb := by
  unfold next_idx
  split <;> omega

theorem next_pred (nb i : Nat) (hi : i < nb) : next_idx nb (pred_idx nb i) = i := by
  unfold next_idx pred_idx
  split <;> split <;> omega

theorem pred_next (nb i : Nat) (hi : i < nb) : pred_idx nb (next_idx nb i) = i := by
  unfold next_idx pred_idx
  split <;> split <;> omega

theorem homeOf_lt (index : HashIndex) (i : Nat) (hn : 0 < index.num_buckets) :
    homeOf index i < index.num_buckets := Nat.mod_lt _ hn

theorem hashindex_index_lt (index : HashIndex) (key : Ptr) (hn : 0 < index.num_buckets) :
    hashindex_index index key < index.num_buckets := Nat.mod_lt _ hn

/-! ## The probe loop of `hashindex_lookup` -/

theorem lookup_loop_spec (index : HashIndex) (key : Ptr) (start : Nat)
    (hs : start < index.num_buckets) :
    ∀ (fuel idx offset period : Nat), idx = wrap_add index.num_buckets start offset →
      offset + fuel = index.num_buckets → 0 < fuel → period = offset % 64 →
      ∃ rv off, lookup_loop index key start fuel idx offset period = some (rv, off) ∧
        offset ≤ off ∧ off < index.num_buckets ∧
        (∀ j, offset ≤ j → j < off →
          ¬ isE index (wrap_add index.num_buckets start j) ∧
          keyOf index (wrap_add index.num_buckets start j) ≠ readBytes key 0 index.key_size ∧
          (j % 64 = 63 → j ≤ bucket_distance index (wrap_add index.num_buckets start j))) ∧
        (match rv with
          | some i => i = wrap_add index.num_buckets start off ∧ ¬ isE index i ∧
              keyOf index i = readBytes key 0 index.key_size
          | none => isE index (wrap_add index.num_buckets start off) ∨
              (¬ isE index (wrap_add index.num_buckets start off) ∧
                keyOf index (wrap_add index.num_buckets start off)
                  ≠ readBytes key 0 index.key_size ∧
                ((off % 64 = 63 ∧
                  off > bucket_distance index (wrap_add index.num_buckets start off)) ∨
                 off + 1 = index.num_buckets))) := by
  intro fuel
  induction fuel with
  | zero => intro idx offset period _ _ h; omega
  | succ n ih =>
    intro idx offset period hidx hsum _ hper
    unfold lookup_loop
    by_cases hE : BUCKET_IS_EMPTY index idx = true
    · rw [if_pos hE]
      refine ⟨none, offset, rfl, le_refl _, by omega, ?_, ?_⟩
      · intro j h1 h2; omega
      · left; rw [← hidx]; exact hE
    · rw [if_neg hE]
      by_cases hM : BUCKET_MATCHES_KEY index idx key = true
      · rw [if_pos hM]
        refine ⟨some idx, offset, rfl, le_refl _, by omega, ?_, ?_⟩
        · intro j h1 h2; omega
        · exact ⟨hidx, hE, ((matches_iff index idx key).mp hM).symm⟩
      · rw [if_neg hM]
        have hM1 : keyOf index idx ≠ readBytes key 0 index.key_size := by
          intro h
          exact hM ((matches_iff index idx key).mpr h.symm)
        by_cases hP : period = 63 ∧ offset > bucket_distance index idx
        · rw [if_pos hP]
          refine ⟨none, offset, rfl, le_refl _, by omega, ?_, ?_⟩
          · intro j h1 h2; omega
          · right
            rw [← hidx]
            exact ⟨hE, hM1, Or.inl ⟨by omega, hP.2⟩⟩
        · rw [if_neg hP]
          simp only
          have hnext : (if idx + 1 ≥ index.num_buckets then 0 else idx + 1)
              = next_idx index.num_buckets idx := rfl
          rw [hnext]
          by_cases hW : next_idx index.num_buckets idx = start
          · rw [if_pos hW]
            refine ⟨none, offset, rfl, le_refl _, by omega, ?_, ?_⟩
            · intro j h1 h2; omega
            · right
              rw [← hidx]
              refine ⟨hE, hM1, Or.inr ?_⟩
              rw [hidx, next_wrap_add _ _ _ hs (by omega)] at hW
              unfold wrap_add at hW
              split at hW <;> omega
          · rw [if_neg hW]
            have hlt : offset + 1 < index.num_buckets := by
              by_contra hc
              have : offset + 1 = index.num_buckets := by omega
              apply hW
              rw [hidx, next_wrap_add _ _ _ hs (by omega), this]
              exact wrap_add_full _ _ hs
            obtain ⟨rv, off, h1, h2, h3, h4, h5⟩ :=
              ih (next_idx index.num_buckets idx) (offset + 1)
                (if period = 63 then 0 else period + 1)
                (by rw [hidx, next_wrap_add _ _ _ hs (by omega)]) (by omega) (by omega)
                (by split <;> omega)
            refine ⟨rv, off, h1, by omega, h3, ?_, h5⟩
            intro j hj1 hj2
            by_cases hj : j = offset
            · subst hj
              rw [← hidx]
              refine ⟨hE, hM1, ?_⟩
              intro h63
              have : period = 63 := by omega
              by_contra hc
              exact hP ⟨this, by omega⟩
            · exact h4 j (by omega) hj2

/-! ## The slot search of `hashindex_set` -/

theorem bucket_distance_lt (index : HashIndex) (i : Nat) (hi : i < index.num_buckets) :
    bucket_distance index i < index.num_buckets := distance_lt _ _ _ hi

theorem set_slot_loop_spec (index : HashIndex) (start : Nat) (hs : start < index.num_buckets) :
    ∀ (fuel idx offset : Nat), idx = wrap_add index.num_buckets start offset →
      offset ≤ index.num_buckets → index.num_buckets + 1 ≤ fuel + offset →
      ∃ off, set_slot_loop index fuel idx offset
          = some (wrap_add index.num_buckets start off, off) ∧
        offset ≤ off ∧ off ≤ index.num_buckets ∧
        (∀ j, offset ≤ j → j < off →
          ¬ isE index (wrap_add index.num_buckets start j) ∧
          j ≤ bucket_distance index (wrap_add index.num_buckets start j)) ∧
        (isE index (wrap_add index.num_buckets start off) ∨
          bucket_distance index (wrap_add index.num_buckets start off) < off) := by
  intro fuel
  induction fuel with
  | zero => intro idx offset _ _ h; omega
  | succ n ih =>
    intro idx offset hidx hle hfuel
    have hidxlt : idx < index.num_buckets := by
      rw [hidx]; exact wrap_add_lt _ _ _ hs hle
    unfold set_slot_loop
    by_cases hc : (!BUCKET_IS_EMPTY index idx) = true ∧ offset ≤ bucket_distance index idx
    · rw [if_pos hc]
      have hd := bucket_distance_lt index idx hidxlt
      have hnext : (if idx + 1 ≥ index.num_buckets then 0 else idx + 1)
          = next_idx index.num_buckets idx := rfl
      rw [hnext]
      obtain ⟨off, h1, h2, h3, h4, h5⟩ := ih (next_idx index.num_buckets idx) (offset + 1)
        (by rw [hidx, next_wrap_add _ _ _ hs (by omega)]) (by omega) (by omega)
      refine ⟨off, h1, by omega, h3, ?_, h5⟩
      intro j hj1 hj2
      by_cases hj : j = offset
      · subst hj
        rw [← hidx]
        refine ⟨?_, hc.2⟩
        unfold isE
        have := hc.1
        simpa using this
      · exact h4 j (by omega) hj2
    · rw [if_neg hc]
      refine ⟨offset, by rw [hidx], le_refl _, hle, ?_, ?_⟩
      · intro j h1 h2; omega
      · rw [← hidx]
        by_cases hE : BUCKET_IS_EMPTY index idx = true
        · left; exact hE
        · right
          by_contra hcc
          apply hc
          refine ⟨by simpa using hE, by omega⟩

/-! ## The chunk scans -/

theorem rshift_chunk_loop_spec (index : HashIndex) (start : Nat) :
    ∀ (n b : Nat), b + n = index.num_buckets → start ≤ b →
      (∃ e, b ≤ e ∧ e < index.num_buckets ∧ isE index e ∧ (∀ j, b ≤ j → j < e → ¬ isE index j) ∧
        rshift_chunk_loop index start n b
          = wrap32 ((((e - start : Nat) : Int)) * index.bucket_size)) ∨
      ((∀ j, b ≤ j → j < index.num_buckets → ¬ isE index j) ∧
        rshift_chunk_loop index start n b = -1) := by
  intro n
  induction n with
  | zero =>
    intro b hb _
    right
    refine ⟨fun j h1 h2 => by omega, rfl⟩
  | succ m ih =>
    intro b hb hsb
    unfold rshift_chunk_loop
    by_cases hE : BUCKET_IS_EMPTY index b = true
    · rw [if_pos hE]
      left
      refine ⟨b, le_refl _, by omega, hE, fun j h1 h2 => by omega, ?_⟩
      congr 2
      omega
    · rw [if_neg hE]
      rcases ih (b + 1) (by omega) (by omega) with ⟨e, h1, h2, h3, h4, h5⟩ | ⟨h1, h2⟩
      · left
        refine ⟨e, by omega, h2, h3, ?_, h5⟩
        intro j hj1 hj2
        by_cases hj : j = b
        · subst hj; exact hE
        · exact h4 j (by omega) hj2
      · right
        refine ⟨?_, h2⟩
        intro j hj1 hj2
        by_cases hj : j = b
        · subst hj; exact hE
        · exact h1 j (by omega) hj2

theorem lshift_chunk_loop_spec (index : HashIndex) (start : Nat) :
    ∀ (n b : Nat), b + n = index.num_buckets → start ≤ b →
      (∃ e, b ≤ e ∧ e < index.num_buckets ∧ (isE index e ∨ bucket_distance index e = 0) ∧
        (∀ j, b ≤ j → j < e → ¬ isE index j ∧ bucket_distance index j ≠ 0) ∧
        lshift_chunk_loop index start n b
          = wrap32 ((((e - start : Nat) : Int)) * index.bucket_size)) ∨
      ((∀ j, b ≤ j → j < index.num_buckets → ¬ isE index j ∧ bucket_distance index j ≠ 0) ∧
        lshift_chunk_loop index start n b = -1) := by
  intro n
  induction n with
  | zero =>
    intro b hb _
    right
    refine ⟨fun j h1 h2 => by omega, rfl⟩
  | succ m ih =>
    intro b hb hsb
    unfold lshift_chunk_loop
    by_cases hE : BUCKET_IS_EMPTY index b = true ∨ bucket_distance index b = 0
    · rw [if_pos hE]
      left
      refine ⟨b, le_refl _, by omega, hE, fun j h1 h2 => by omega, ?_⟩
      congr 2
      omega
    · rw [if_neg hE]
      have hb1 : ¬ isE index b ∧ bucket_distance index b ≠ 0 := by
        constructor
        · intro h; exact hE (Or.inl h)
        · intro h; exact hE (Or.inr h)
      rcases ih (b + 1) (by omega) (by omega) with ⟨e, h1, h2, h3, h4, h5⟩ | ⟨h1, h2⟩
      · left
        refine ⟨e, by omega, h2, h3, ?_, h5⟩
        intro j hj1 hj2
        by_cases hj : j = b
        · subst hj; exact hb1
        · exact h4 j (by omega) hj2
      · right
        refine ⟨?_, h2⟩
        intro j hj1 hj2
        by_cases hj : j = b
        · subst hj; exact hb1
        · exact h1 j (by omega) hj2

theorem wrap32_small (x : Int) (h0 : 0 ≤ x) (h1 : x < 2147483648) : wrap32 x = x := by
  unfold wrap32
  omega

/-! ## The scan of `hashindex_next_key` -/

theorem next_key_loop_spec (index : HashIndex) :
    ∀ (fuel idx : Nat), idx + fuel = index.num_buckets → 0 < fuel →
      (∃ e, idx ≤ e ∧ e < index.num_buckets ∧ ¬ isE index e ∧
        (∀ j, idx ≤ j → j < e → isE index j) ∧
        next_key_loop index fuel idx = some (some (BUCKET_ADDR index e))) ∨
      ((∀ j, idx ≤ j → j < index.num_buckets → isE index j) ∧
        next_key_loop index fuel idx = some none) := by
  intro fuel
  induction fuel with
  | zero => intro idx _ h; omega
  | succ n ih =>
    intro idx hsum _
    unfold next_key_loop
    by_cases hE : BUCKET_IS_EMPTY index idx = true
    · rw [if_pos hE]
      by_cases hl : idx + 1 = index.num_buckets
      · rw [if_pos hl]
        right
        refine ⟨?_, rfl⟩
        intro j h1 h2
        have : j = idx := by omega
        subst this
        exact hE
      · rw [if_neg hl]
        rcases ih (idx + 1) (by omega) (by omega) with ⟨e, h1, h2, h3, h4, h5⟩ | ⟨h1, h2⟩
        · left
          refine ⟨e, by omega, h2, h3, ?_, h5⟩
          intro j hj1 hj2
          by_cases hj : j = idx
          · subst hj; exact hE
          · exact h4 j (by omega) hj2
        · right
          refine ⟨?_, h2⟩
          intro j hj1 hj2
          by_cases hj : j = idx
          · subst hj; exact hE
          · exact h1 j (by omega) hj2
    · rw [if_neg hE]
      left
      exact ⟨idx, le_refl _, by omega, hE, fun j h1 h2 => by omega, rfl⟩

/-! ## Robin-Hood order on views -/

theorem view_disp (index : HashIndex) (i : Nat) :
    (view index).disp i = bucket_distance index i := rfl

theorem chain (v : View) (hrh : v.LocalRH) (hhome : ∀ i, v.home i < v.nb) (i : Nat)
    (hi : i < v.nb) (hne : ¬ v.emp i) :
    ∀ m t, t + m = v.disp i →
      ¬ v.emp (wrap_add v.nb (v.home i) t) ∧ t ≤ v.disp (wrap_add v.nb (v.home i) t) := by
  have hd : v.disp i < v.nb := distance_lt _ _ _ hi
  intro m
  induction m with
  | zero =>
    intro t ht
    have : t = v.disp i := by omega
    subst this
    have e : wrap_add v.nb (v.home i) (v.disp i) = i := wrap_add_distance _ _ _ hi (hhome i)
    rw [e]
    exact ⟨hne, le_refl _⟩
  | succ n ih =>
    intro t ht
    obtain ⟨h1, h2⟩ := ih (t + 1) (by omega)
    have hq : wrap_add v.nb (v.home i) (t + 1) < v.nb :=
      wrap_add_lt _ _ _ (hhome i) (by omega)
    have hp := pred_wrap_add v.nb (v.home i) t (hhome i) (by omega)
    obtain ⟨r1, r2⟩ := hrh _ hq h1
    rw [hp] at r1 r2
    have hne1 : ¬ v.emp (wrap_add v.nb (v.home i) t) := by
      intro hc
      have := r1 hc
      omega
    exact ⟨hne1, by have := r2 hne1; omega⟩

theorem disp_lt_empty (v : View) (hrh : v.LocalRH) (hhome : ∀ i, v.home i < v.nb) (i e : Nat)
    (hi : i < v.nb) (hne : ¬ v.emp i) (he : e < v.nb) (hE : v.emp e) :
    v.disp i < distance e (v.home i) v.nb := by
  by_contra hc
  have h := chain v hrh hhome i hi hne (v.disp i - distance e (v.home i) v.nb)
    (distance e (v.home i) v.nb) (by omega)
  rw [wrap_add_distance _ _ _ he (hhome i)] at h
  exact h.1 hE

theorem btw_pred_self (nb p e : Nat) (_hp : p < nb) (he : e < nb)
    (h : btw nb p e (pred_idx nb p)) : e = pred_idx nb p := by
  unfold btw pred_idx at *
  split_ifs at * <;> omega

theorem btw_ne (nb p e i : Nat) (h : btw nb p e i) : i ≠ p := by
  unfold btw at h
  omega

theorem btw_pred (nb p e i : Nat) (hp : p < nb) (_he : e < nb) (h : btw nb p e i) :
    (pred_idx nb i = p ∨ btw nb p e (pred_idx nb i)) ∧ pred_idx nb i ≠ e ∧ p ≠ e := by
  unfold btw pred_idx at *
  split_ifs at * <;> omega

theorem not_btw_pred_eq (nb p e i : Nat) (hi : i < nb) (he : e < nb) (_hip : i ≠ p)
    (h : ¬ btw nb p e i) (hq : pred_idx nb i = p) : e = p := by
  unfold btw pred_idx at *
  split_ifs at * <;> omega

theorem not_btw_pred_btw (nb p e i : Nat) (hi : i < nb) (he : e < nb) (_hip : i ≠ p)
    (h : ¬ btw nb p e i) (hq : btw nb p e (pred_idx nb i)) : pred_idx nb i = e := by
  unfold btw pred_idx at *
  split_ifs at * <;> omega

theorem distance_succ (nb q h : Nat) (hq : q < nb) (hh : h < nb)
    (hd : distance q h nb + 1 < nb) :
    distance (next_idx nb q) h nb = distance q h nb + 1 := by
  unfold distance next_idx at *
  split_ifs at * <;> omega

theorem insert_disp_moved (v : View) (p e h : Nat) (k w : List Nat)
    (hp : p < v.nb) (he : e < v.nb) (hE : v.emp e)
    (hrun : ∀ i, i < v.nb → (i = p ∨ btw v.nb p e i) → i ≠ e → ¬ v.emp i)
    (hhome : ∀ i, v.home i < v.nb) (hrh : v.LocalRH) (i : Nat) (hb : btw v.nb p e i) :
    ¬ v.emp (pred_idx v.nb i) ∧
      (v.insert p e h k w).disp i = v.disp (pred_idx v.nb i) + 1 := by
  have hi : i < v.nb := hb.1
  obtain ⟨b1, b2, b3⟩ := btw_pred v.nb p e i hp he hb
  have hq : pred_idx v.nb i < v.nb := pred_lt _ _ hi
  have hne : ¬ v.emp (pred_idx v.nb i) := hrun _ hq b1 b2
  refine ⟨hne, ?_⟩
  have hlt := disp_lt_empty v hrh hhome _ e hq hne he hE
  have hde := distance_lt e (v.home (pred_idx v.nb i)) v.nb he
  have hs := distance_succ v.nb (pred_idx v.nb i) (v.home (pred_idx v.nb i)) hq (hhome _)
    (by unfold View.disp at hlt; omega)
  rw [next_pred _ _ hi] at hs
  unfold View.disp View.insert
  simp only
  rw [if_neg (btw_ne _ _ _ _ hb), if_pos hb]
  exact hs

theorem insert_localRH (v : View) (p e h o : Nat) (k w : List Nat)
    (hp : p < v.nb) (he : e < v.nb) (hh : h < v.nb) (ho : o < v.nb)
    (hpo : p = wrap_add v.nb h o) (hE : v.emp e)
    (hrun : ∀ i, i < v.nb → (i = p ∨ btw v.nb p e i) → i ≠ e → ¬ v.emp i)
    (hprev : 0 < o → ¬ v.emp (pred_idx v.nb p) ∧ o ≤ v.disp (pred_idx v.nb p) + 1)
    (hexit : p ≠ e → v.disp p < o)
    (hhome : ∀ i, v.home i < v.nb) (hrh : v.LocalRH) :
    (v.insert p e h k w).LocalRH := by
  have hdp : (v.insert p e h k w).disp p = o := by
    unfold View.disp View.insert
    simp only [if_true]
    rw [hpo]
    exact distance_wrap_add _ _ _ hh ho
  have hkeep : ∀ i, i ≠ p → ¬ btw v.nb p e i →
      ((v.insert p e h k w).emp i ↔ v.emp i) ∧ (v.insert p e h k w).disp i = v.disp i := by
    intro i h1 h2
    unfold View.disp View.insert
    simp only
    rw [if_neg h1, if_neg h2, if_neg h1, if_neg h2]
    exact ⟨Iff.rfl, rfl⟩
  have hmov : ∀ i, btw v.nb p e i →
      ((v.insert p e h k w).emp i ↔ v.emp (pred_idx v.nb i)) := by
    intro i hb
    unfold View.insert
    simp only
    rw [if_neg (btw_ne _ _ _ _ hb), if_pos hb]
  have hempp : ¬ (v.insert p e h k w).emp p := by
    unfold View.insert
    simp
  intro i hi hne
  have hnb : (v.insert p e h k w).nb = v.nb := rfl
  rw [hnb] at hi ⊢
  have hq : pred_idx v.nb i < v.nb := pred_lt _ _ hi
  by_cases hip : i = p
  · subst hip
    rw [hdp]
    by_cases ho0 : o = 0
    · exact ⟨fun _ => ho0, fun _ => by omega⟩
    · obtain ⟨g1, g2⟩ := hprev (by omega)
      have hqe : pred_idx v.nb i ≠ e := by
        intro hc; rw [hc] at g1; exact g1 hE
      have hqb : ¬ btw v.nb i e (pred_idx v.nb i) := by
        intro hc
        exact hqe (btw_pred_self _ _ _ hp he hc).symm
      have hqp : pred_idx v.nb i ≠ i := by
        intro hc
        unfold pred_idx at hc
        split_ifs at hc
        · have : v.nb = 1 := by omega
          have : e = 0 := by omega
          apply hqe
          unfold pred_idx
          rw [if_pos (by assumption)]
          omega
        · omega
      obtain ⟨k1, k2⟩ := hkeep _ hqp hqb
      rw [k1, k2]
      exact ⟨fun hc => absurd hc g1, fun _ => g2⟩
  · by_cases hb : btw v.nb p e i
    · obtain ⟨m1, m2⟩ := insert_disp_moved v p e h k w hp he hE hrun hhome hrh i hb
      obtain ⟨b1, b2, b3⟩ := btw_pred v.nb p e i hp he hb
      rw [m2]
      rcases b1 with b1 | b1
      · rw [b1, hdp]
        refine ⟨fun hc => absurd hc hempp, fun _ => ?_⟩
        have := hexit b3
        rw [b1] at m1
        omega
      · obtain ⟨n1, n2⟩ :=
          insert_disp_moved v p e h k w hp he hE hrun hhome hrh _ b1
        rw [hmov _ b1, n2]
        refine ⟨fun hc => absurd hc n1, fun _ => ?_⟩
        have := (hrh _ hq m1).2 n1
        omega
    · obtain ⟨k1, k2⟩ := hkeep i hip hb
      rw [k1] at hne
      rw [k2]
      obtain ⟨r1, r2⟩ := hrh i hi hne
      by_cases hqp : pred_idx v.nb i = p
      · have hep := not_btw_pred_eq _ _ _ _ hi he hip hb hqp
        rw [hqp, hdp]
        have : v.disp i = 0 := by
          apply r1
          rw [hqp, ← hep]
          exact hE
        exact ⟨fun _ => this, fun _ => by omega⟩
      · by_cases hqb : btw v.nb p e (pred_idx v.nb i)
        · have hqe := not_btw_pred_btw _ _ _ _ hi he hip hb hqb
          have : v.disp i = 0 := by
            apply r1
            rw [hqe]
            exact hE
          exact ⟨fun _ => this, fun _ => by omega⟩
        · obtain ⟨k3, k4⟩ := hkeep _ hqp hqb
          rw [k3, k4]
          exact ⟨r1, r2⟩

/-! ## Local and global form of the probe invariants -/

theorem view_nb (index : HashIndex) : (view index).nb = index.num_buckets := rfl

theorem view_home_lt (index : HashIndex) (hn : 0 < index.num_buckets) :
    ∀ i, (view index).home i < (view index).nb := fun i => homeOf_lt index i hn

theorem localRH_of_global (index : HashIndex) (hn : 0 < index.num_buckets)
    (hrh : RobinHood index) (hre : Reachable index) : (view index).LocalRH := by
  intro i hi hne
  change i < index.num_buckets at hi
  change ¬ isE index i at hne
  have hq : pred_idx index.num_buckets i < index.num_buckets := pred_lt _ _ hi
  constructor
  · intro hE
    by_contra hc
    change isE index (pred_idx index.num_buckets i) at hE
    change ¬ bucket_distance index i = 0 at hc
    have h1 := hre i hi hne (bucket_distance index i - 1) (by omega)
    have hd := bucket_distance_lt index i hi
    have h2 := pred_wrap_add index.num_buckets (homeOf index i) (bucket_distance index i - 1)
      (homeOf_lt index i hn) (by omega)
    have h3 : bucket_distance index i - 1 + 1 = bucket_distance index i := by omega
    rw [h3] at h2
    have h4 : wrap_add index.num_buckets (homeOf index i) (bucket_distance index i) = i :=
      wrap_add_distance _ _ _ hi (homeOf_lt index i hn)
    rw [h4] at h2
    rw [← h2] at h1
    exact h1 hE
  · intro hE
    have := hrh _ hq hE (by rw [next_pred _ _ hi]; exact hne)
    rw [next_pred _ _ hi] at this
    exact this

theorem global_of_localRH (index : HashIndex) (hn : 0 < index.num_buckets)
    (h : (view index).LocalRH) : RobinHood index ∧ Reachable index := by
  constructor
  · intro i hi hne hne2
    have := (h _ (next_lt _ i hn) hne2).2
    rw [view_nb, pred_next _ _ hi] at this
    exact this hne
  · intro i hi hne j hj
    exact (chain (view index) h (view_home_lt index hn) i hi hne
      (bucket_distance index i - j) j (by rw [view_disp]; omega)).1

/-! ## `hashindex_lookup` -/

theorem home_of_key_eq (index : HashIndex) (i : Nat) (key : Ptr) (hk : 4 ≤ index.key_size)
    (h : keyOf index i = readBytes key 0 index.key_size) :
    homeOf index i = hashindex_index index key := by
  have e := readBytes_inj _ _ _ _ _ h
  unfold homeOf hashindex_index le32 ptr
  have e0 := e 0 (by omega)
  have e1 := e 1 (by omega)
  have e2 := e 2 (by omega)
  have e3 := e 3 (by omega)
  simp only [Nat.zero_add, Nat.add_zero] at e0 e1 e2 e3 ⊢
  rw [e0, e1, e2, e3]

theorem lookup_total (index : HashIndex) (key : Ptr) (hint : Option Nat)
    (hn : 0 < index.num_buckets) :
    ∃ r, hashindex_lookup index key hint = some r := by
  obtain ⟨rv, off, h1, -⟩ := lookup_loop_spec index key (hashindex_index index key)
    (hashindex_index_lt index key hn) index.num_buckets (hashindex_index index key) 0 0
    (by rw [wrap_add_zero _ _ (hashindex_index_lt index key hn)]) (by omega) hn rfl
  unfold hashindex_lookup
  simp only [h1]
  cases rv with
  | none => cases hint <;> exact ⟨_, rfl⟩
  | some i => exact ⟨_, rfl⟩

theorem lookup_sound (index : HashIndex) (key : Ptr) (hint hint1 : Option Nat) (i : Nat)
    (hn : 0 < index.num_buckets)
    (h : hashindex_lookup index key hint = some (some i, hint1)) :
    i < index.num_buckets ∧ ¬ isE index i ∧ keyOf index i = readBytes key 0 index.key_size ∧
      hint1 = hint := by
  have hs := hashindex_index_lt index key hn
  obtain ⟨rv, off, h1, h2, h3, h4, h5⟩ := lookup_loop_spec index key
    (hashindex_index index key) hs index.num_buckets (hashindex_index index key) 0 0
    (by rw [wrap_add_zero _ _ hs]) (by omega) hn rfl
  unfold hashindex_lookup at h
  simp only [h1] at h
  cases rv with
  | none => cases hint <;> simp at h
  | some r =>
    simp only [Option.some.injEq, Prod.mk.injEq] at h
    obtain ⟨e1, e2⟩ := h
    subst e1
    simp only at h5
    refine ⟨?_, h5.2.1, h5.2.2, e2.symm⟩
    rw [h5.1]
    exact wrap_add_lt _ _ _ hs (by omega)

theorem lookup_complete (index : HashIndex) (key : Ptr) (hint : Option Nat) (p : Nat)
    (hz : Sz index) (hn : 0 < index.num_buckets) (hrh : (view index).LocalRH)
    (hd : DistinctKeys index) (hp : p < index.num_buckets) (hne : ¬ isE index p)
    (hk : keyOf index p = readBytes key 0 index.key_size) :
    hashindex_lookup index key hint = some (some p, hint) := by
  have hs := hashindex_index_lt index key hn
  obtain ⟨rv, off, h1, h2, h3, h4, h5⟩ := lookup_loop_spec index key
    (hashindex_index index key) hs index.num_buckets (hashindex_index index key) 0 0
    (by rw [wrap_add_zero _ _ hs]) (by omega) hn rfl
  have hhome := home_of_key_eq index p key hz.1 hk
  have hdp := bucket_distance_lt index p hp
  have hch := chain (view index) hrh (view_home_lt index hn) p hp hne
  have hpos : wrap_add index.num_buckets (hashindex_index index key) (bucket_distance index p)
      = p := by
    rw [← hhome]
    exact wrap_add_distance _ _ _ hp (homeOf_lt index p hn)
  have hoff : off = bucket_distance index p := by
    rcases Nat.lt_trichotomy off (bucket_distance index p) with hlt | heq | hgt
    · exfalso
      obtain ⟨c1, c2⟩ := hch (bucket_distance index p - off) off
        (by rw [view_disp]; omega)
      change ¬ isE index (wrap_add index.num_buckets (homeOf index p) off) at c1
      change off ≤ bucket_distance index (wrap_add index.num_buckets (homeOf index p) off)
        at c2
      rw [hhome] at c1 c2
      cases rv with
      | none =>
        simp only at h5
        rcases h5 with h5 | ⟨_, _, h5 | h5⟩
        · exact c1 h5
        · omega
        · omega
      | some r =>
        simp only at h5
        obtain ⟨r1, r2, r3⟩ := h5
        have hr : r < index.num_buckets := by
          rw [r1]; exact wrap_add_lt _ _ _ hs (by omega)
        have := hd r p hr hp r2 hne (by rw [r3, hk])
        rw [this, ← hpos] at r1
        have := wrap_add_inj _ _ _ _ hs hdp h3 r1
        omega
    · exact heq
    · exfalso
      have := (h4 (bucket_distance index p) (by omega) hgt).2.1
      rw [hpos] at this
      exact this hk
  subst hoff
  rw [hpos] at h5
  unfold hashindex_lookup
  simp only [h1]
  cases rv with
  | none =>
    simp only at h5
    rcases h5 with h5 | ⟨_, h5, _⟩
    · exact absurd h5 hne
    · exact absurd hk h5
  | some r =>
    simp only at h5
    rw [h5.1]

theorem lookup_miss (index : HashIndex) (key : Ptr) (hint : Option Nat)
    (hz : Sz index) (hn : 0 < index.num_buckets) (hrh : (view index).LocalRH)
    (hd : DistinctKeys index)
    (h : hashindex_lookup index key (some 0) = some (none, hint)) :
    ∃ skip, hint = some skip ∧ skip < index.num_buckets ∧
      (∀ j, j < skip → ¬ isE index (wrap_add index.num_buckets (hashindex_index index key) j)) ∧
      (0 < skip → skip - 1 ≤ bucket_distance index
        (wrap_add index.num_buckets (hashindex_index index key) (skip - 1))) ∧
      (∀ i, i < index.num_buckets → ¬ isE index i →
        keyOf index i ≠ readBytes key 0 index.key_size) := by
  have hs := hashindex_index_lt index key hn
  have habs : ∀ i, i < index.num_buckets → ¬ isE index i →
      keyOf index i ≠ readBytes key 0 index.key_size := by
    intro i hi hne hk
    have := lookup_complete index key (some 0) i hz hn hrh hd hi hne hk
    rw [this] at h
    simp at h
  obtain ⟨rv, off, h1, h2, h3, h4, h5⟩ := lookup_loop_spec index key
    (hashindex_index index key) hs index.num_buckets (hashindex_index index key) 0 0
    (by rw [wrap_add_zero _ _ hs]) (by omega) hn rfl
  unfold hashindex_lookup at h
  simp only [h1] at h
  cases rv with
  | some r => simp at h
  | none =>
    simp only [Option.some.injEq, Prod.mk.injEq, true_and] at h
    refine ⟨off - 64, h.symm, by omega, ?_, ?_, habs⟩
    · intro j hj
      exact (h4 j (by omega) (by omega)).1
    · intro hpos
      -- a checkpoint `c` with `off - 65 ≤ c < off` was passed
      have hc : ∃ c, c % 64 = 63 ∧ off - 64 - 1 ≤ c ∧ c < off :=
        ⟨off - 1 - (off % 64), by omega, by omega, by omega⟩
      obtain ⟨c, c1, c2, c3⟩ := hc
      have hcp := (h4 c (by omega) c3).2.2 c1
      -- walk back from the checkpoint along the run
      have hback : ∀ m t, t + m = c →
          t ≤ bucket_distance index
            (wrap_add index.num_buckets (hashindex_index index key) t) := by
        intro m
        induction m with
        | zero =>
          intro t ht
          have : t = c := by omega
          subst this
          exact hcp
        | succ n ih =>
          intro t ht
          have i1 := ih (t + 1) (by omega)
          have hq : wrap_add index.num_buckets (hashindex_index index key) (t + 1)
              < index.num_buckets := wrap_add_lt _ _ _ hs (by omega)
          have r := hrh _ hq (h4 (t + 1) (by omega) (by omega)).1
          rw [view_nb, pred_wrap_add _ _ _ hs (by omega)] at r
          have := r.2 (h4 t (by omega) (by omega)).1
          rw [view_disp, view_disp] at this
          omega
      exact hback (c - (off - 64 - 1)) (off - 64 - 1) (by omega)

/-! ## Counting occupied buckets -/

theorem mem_occupied (index : HashIndex) (i : Nat) :
    i ∈ occupied index ↔ i < index.num_buckets ∧ ¬ isE index i := by
  unfold occupied isE
  simp

theorem run_le_occupied (index : HashIndex) (a b : Nat) (hb : b ≤ index.num_buckets)
    (h : ∀ j, a ≤ j → j < b → ¬ isE index j) : b - a ≤ num_occupied index := by
  have hsub : Finset.Ico a b ⊆ occupied index := by
    intro j hj
    rw [Finset.mem_Ico] at hj
    rw [mem_occupied]
    exact ⟨by omega, h j hj.1 hj.2⟩
  have := Finset.card_le_card hsub
  rw [Nat.card_Ico] at this
  exact this

theorem chunk_fits (index : HashIndex) (hf : FitsInt index) (n : Nat)
    (h : n ≤ num_occupied index) :
    wrap32 (((n : Nat) : Int) * index.bucket_size) = ((n * index.bucket_size : Nat) : Int) := by
  have h1 : n * index.bucket_size ≤ num_occupied index * index.bucket_size :=
    Nat.mul_le_mul_right _ h
  have h2 : (num_occupied index + 1) * index.bucket_size
      = num_occupied index * index.bucket_size + index.bucket_size := by ring
  unfold FitsInt at hf
  rw [wrap32_small]
  · push_cast; rfl
  · positivity
  · have : ((n * index.bucket_size : Nat) : Int) < 2147483648 := by
      have : n * index.bucket_size < 2147483648 := by omega
      exact_mod_cast this
    push_cast at this
    exact this

theorem rshift_chunk_size_spec (index : HashIndex) (hf : FitsInt index) (b : Nat)
    (hb : b ≤ index.num_buckets) :
    (∃ e, b ≤ e ∧ e < index.num_buckets ∧ isE index e ∧ (∀ j, b ≤ j → j < e → ¬ isE index j) ∧
      rshift_chunk_size index b = (((e - b) * index.bucket_size : Nat) : Int)) ∨
    ((∀ j, b ≤ j → j < index.num_buckets → ¬ isE index j) ∧
      rshift_chunk_size index b = -1) := by
  unfold rshift_chunk_size
  rcases rshift_chunk_loop_spec index b (index.num_buckets - b) b (by omega) (le_refl _) with
    ⟨e, h1, h2, h3, h4, h5⟩ | ⟨h1, h2⟩
  · left
    refine ⟨e, h1, h2, h3, h4, ?_⟩
    rw [h5]
    exact chunk_fits index hf _ (run_le_occupied index b e (by omega) h4)
  · right
    exact ⟨h1, h2⟩

theorem lshift_chunk_size_spec (index : HashIndex) (hf : FitsInt index) (b : Nat)
    (hb : b ≤ index.num_buckets) :
    (∃ e, b ≤ e ∧ e < index.num_buckets ∧ (isE index e ∨ bucket_distance index e = 0) ∧
      (∀ j, b ≤ j → j < e → ¬ isE index j ∧ bucket_distance index j ≠ 0) ∧
      lshift_chunk_size index b = (((e - b) * index.bucket_size : Nat) : Int)) ∨
    ((∀ j, b ≤ j → j < index.num_buckets → ¬ isE index j ∧ bucket_distance index j ≠ 0) ∧
      lshift_chunk_size index b = -1) := by
  unfold lshift_chunk_size
  rcases lshift_chunk_loop_spec index b (index.num_buckets - b) b (by omega) (le_refl _) with
    ⟨e, h1, h2, h3, h4, h5⟩ | ⟨h1, h2⟩
  · left
    refine ⟨e, h1, h2, h3, h4, ?_⟩
    rw [h5]
    exact chunk_fits index hf _
      (run_le_occupied index b e (by omega) (fun j a c => (h4 j a c).1))
  · right
    exact ⟨h1, h2⟩

/-! ## `hashindex_set`: the insertion of an absent key -/

/-- Everything but the two buffers coincides. -/
theorem frame_bucket_memmove (index : HashIndex) (d s n : Nat) :
    SameShape (bucket_memmove index d s n) index ∧
      (bucket_memmove index d s n).num_entries = index.num_entries ∧
      (bucket_memmove index d s n).lower_limit = index.lower_limit ∧
      (bucket_memmove index d s n).upper_limit = index.upper_limit :=
  ⟨⟨rfl, rfl, rfl, rfl⟩, rfl, rfl, rfl⟩

theorem frame_write_bucket (index : HashIndex) (idx : Nat) (key value : Ptr) :
    SameShape (write_bucket index idx key value) index ∧
      (write_bucket index idx key value).num_entries = index.num_entries ∧
      (write_bucket index idx key value).lower_limit = index.lower_limit ∧
      (write_bucket index idx key value).upper_limit = index.upper_limit :=
  ⟨⟨rfl, rfl, rfl, rfl⟩, rfl, rfl, rfl⟩

theorem frame_set_shift_simple (index : HashIndex) (idx : Nat) (key value : Ptr) (c : Int) :
    SameShape (set_shift_simple index idx key value c) index ∧
      (set_shift_simple index idx key value c).num_entries = index.num_entries ∧
      (set_shift_simple index idx key value c).lower_limit = index.lower_limit ∧
      (set_shift_simple index idx key value c).upper_limit = index.upper_limit :=
  ⟨⟨rfl, rfl, rfl, rfl⟩, rfl, rfl, rfl⟩

theorem frame_set_shift_wrap (index : HashIndex) (idx : Nat) (key value : Ptr) :
    SameShape (set_shift_wrap index idx key value) index ∧
      (set_shift_wrap index idx key value).num_entries = index.num_entries ∧
      (set_shift_wrap index idx key value).lower_limit = index.lower_limit ∧
      (set_shift_wrap index idx key value).upper_limit = index.upper_limit := by
  unfold set_shift_wrap
  simp only
  split <;> split <;> exact ⟨⟨rfl, rfl, rfl, rfl⟩, rfl, rfl, rfl⟩

theorem slot_eq_of (a b : HashIndex) (i : Nat) (h1 : a.buckets = b.buckets)
    (h2 : a.bucket_size = b.bucket_size) : slot a i = slot b i := by
  unfold slot BUCKET_ADDR
  rw [h1, h2]

theorem set_shift_simple_slots (index : HashIndex) (p e i : Nat) (key value : Ptr)
    (hz : Sz index) :
    slot (set_shift_simple index p key value (((e - p) * index.bucket_size : Nat) : Int)) i
      = if i = p then readBytes key 0 index.key_size ++ readBytes value 0 index.value_size
        else if p + 1 ≤ i ∧ i < p + 1 + (e - p) then slot index (i - (p + 1) + p)
        else slot index i := by
  unfold set_shift_simple
  rw [Int.toNat_ofNat, slot_write_bucket, slot_bucket_memmove]
  all_goals first | rfl | exact hz.2.2

theorem slot_save_tmp_entry (index : HashIndex) (j i : Nat) :
    slot (save_tmp_entry index j) i = slot index i := rfl

theorem set_shift_wrap_slots (index : HashIndex) (p : Nat) (key value : Ptr)
    (hz : Sz index) (hf : FitsInt index) (hp : p < index.num_buckets)
    (hemp : HasEmpty index)
    (hrun : ∀ j, p ≤ j → j < index.num_buckets → ¬ isE index j) :
    ∃ e, e < p ∧ isE index e ∧ (∀ j, j < e → ¬ isE index j) ∧
      ∀ i, slot (set_shift_wrap index p key value) i
        = if i = p then readBytes key 0 index.key_size ++ readBytes value 0 index.value_size
          else if btw index.num_buckets p e i then slot index (pred_idx index.num_buckets i)
          else slot index i := by
  obtain ⟨e0, he0, hE0⟩ := hemp
  have he0p : e0 < p := by
    by_contra hc
    exact hrun e0 (by omega) he0 hE0
  -- the table after the first shift and the store
  generalize h3 : (if p < (save_tmp_entry index (index.num_buckets - 1)).num_buckets - 1 then
      bucket_memmove (save_tmp_entry index (index.num_buckets - 1)) (p + 1) p
        (((save_tmp_entry index (index.num_buckets - 1)).num_buckets - p - 1) *
          (save_tmp_entry index (index.num_buckets - 1)).bucket_size)
    else save_tmp_entry index (index.num_buckets - 1)) = index3
  have f3 : SameShape index3 index ∧ index3.tmp_entry
      = (save_tmp_entry index (index.num_buckets - 1)).tmp_entry := by
    rw [← h3]
    split <;> exact ⟨⟨rfl, rfl, rfl, rfl⟩, rfl⟩
  have s3 : ∀ i, slot index3 i
      = if p + 1 ≤ i ∧ i < index.num_buckets then slot index (i - 1) else slot index i := by
    intro i
    rw [← h3]
    split
    · rename_i hlt
      change p < index.num_buckets - 1 at hlt
      change slot (bucket_memmove (save_tmp_entry index (index.num_buckets - 1)) (p + 1) p
        ((index.num_buckets - p - 1) * (save_tmp_entry index (index.num_buckets - 1)).bucket_size))
        i = _
      rw [slot_bucket_memmove, slot_save_tmp_entry, slot_save_tmp_entry]
      by_cases hc : p + 1 ≤ i ∧ i < index.num_buckets
      · rw [if_pos hc, if_pos (by omega)]
        congr 1
        omega
      · rw [if_neg hc, if_neg (by omega)]
    · rename_i hlt
      change ¬ p < index.num_buckets - 1 at hlt
      rw [slot_save_tmp_entry, if_neg (by omega)]
  generalize h4 : write_bucket index3 p key value = index4
  have f4 : SameShape index4 index ∧ index4.tmp_entry
      = (save_tmp_entry index (index.num_buckets - 1)).tmp_entry := by
    rw [← h4]
    obtain ⟨⟨a1, a2, a3, a4⟩, a5⟩ := f3
    exact ⟨⟨a1, a2, a3, a4⟩, a5⟩
  have hz3 : index3.bucket_size = index3.key_size + index3.value_size := by
    obtain ⟨⟨a1, a2, a3, a4⟩, a5⟩ := f3
    rw [a2, a3, a4]
    exact hz.2.2
  have s4 : ∀ i, slot index4 i
      = if i = p then readBytes key 0 index.key_size ++ readBytes value 0 index.value_size
        else if p + 1 ≤ i ∧ i < index.num_buckets then slot index (i - 1) else slot index i := by
    intro i
    rw [← h4, slot_write_bucket _ _ _ _ _ hz3, s3 i, f3.1.2.1, f3.1.2.2.1]
  have hz4 : Sz index4 := by
    obtain ⟨⟨a1, a2, a3, a4⟩, a5⟩ := f4
    unfold Sz
    rw [a2, a3, a4]
    exact hz
  have hE4 : ∀ j, j < p → (isE index4 j ↔ isE index j) := by
    intro j hj
    have : slot index4 j = slot index j := by
      rw [s4 j, if_neg (by omega), if_neg (by omega)]
    exact (slot_congr index4 index j j f4.1 hz this).1
  have hE4' : ∀ j, j < p → (isE index j ↔ isE index4 j) := fun j hj => (hE4 j hj).symm
  -- the second scan finds the first empty bucket of the table
  have hscan : ∃ e, e < p ∧ isE index e ∧ (∀ j, j < e → ¬ isE index j) ∧
      rshift_chunk_size index4 0 = ((e * index.bucket_size : Nat) : Int) := by
    unfold rshift_chunk_size
    rcases rshift_chunk_loop_spec index4 0 (index4.num_buckets - 0) 0 (by omega) (le_refl _)
      with ⟨e, r1, r2, r3, r4, r5⟩ | ⟨r1, r2⟩
    · have hee : e ≤ e0 := by
        by_contra hc
        exact r4 e0 (by omega) (by omega) ((hE4' e0 he0p).mp hE0)
      have hr : ∀ j, j < e → ¬ isE index j := by
        intro j hj hc
        exact r4 j (by omega) hj ((hE4' j (by omega)).mp hc)
      refine ⟨e, by omega, (hE4 e (by omega)).mp r3, hr, ?_⟩
      rw [r5, f4.1.2.2.2]
      have := chunk_fits index hf (e - 0)
        (run_le_occupied index 0 e (by omega) (fun j _ h => hr j h))
      simpa using this
    · exfalso
      rw [f4.1.1] at r1
      exact r1 e0 (by omega) he0 ((hE4' e0 he0p).mp hE0)
  obtain ⟨e, e1, e2, e3, e4⟩ := hscan
  refine ⟨e, e1, e2, e3, ?_⟩
  intro i
  unfold set_shift_wrap
  simp only [h3, h4, e4]
  have hbs : 0 < index.bucket_size := by
    obtain ⟨z1, z2, z3⟩ := hz
    omega
  have s5 : slot (if ((e * index.bucket_size : Nat) : Int) > 0
        then bucket_memmove index4 1 0 ((e * index.bucket_size : Nat) : Int).toNat
        else index4) i
      = if 1 ≤ i ∧ i < 1 + e then slot index4 (i - 1) else slot index4 i := by
    split
    · rw [Int.toNat_ofNat, ← f4.1.2.2.2, slot_bucket_memmove]
      simp
    · rename_i hc
      have : e = 0 := by
        by_contra hne
        apply hc
        have : 0 < e * index.bucket_size := Nat.mul_pos (by omega) hbs
        exact_mod_cast this
      rw [if_neg (by omega)]
  have t5 : (if ((e * index.bucket_size : Nat) : Int) > 0
        then bucket_memmove index4 1 0 ((e * index.bucket_size : Nat) : Int).toNat
        else index4).tmp_entry = (save_tmp_entry index (index.num_buckets - 1)).tmp_entry := by
    split
    · exact f4.2
    · exact f4.2
  have b5 : (if ((e * index.bucket_size : Nat) : Int) > 0
        then bucket_memmove index4 1 0 ((e * index.bucket_size : Nat) : Int).toNat
        else index4).bucket_size = index.bucket_size := by
    split
    · exact f4.1.2.2.2
    · exact f4.1.2.2.2
  rw [slot_restore_tmp_entry, s5, t5, b5, readBytes_save_tmp_entry]
  by_cases hi0 : i = 0
  · subst hi0
    rw [if_pos rfl, if_neg (by omega), if_pos (by unfold btw; omega)]
    congr 1
  · rw [if_neg hi0]
    by_cases hi1 : 1 ≤ i ∧ i < 1 + e
    · rw [if_pos hi1, s4, if_neg (by omega), if_neg (by omega), if_neg (by omega),
        if_pos (by unfold btw; omega)]
      congr 1
      unfold pred_idx
      rw [if_neg hi0]
    · rw [if_neg hi1, s4]
      by_cases hip : i = p
      · rw [if_pos hip, if_pos hip]
      · rw [if_neg hip, if_neg hip]
        by_cases hb : p + 1 ≤ i ∧ i < index.num_buckets
        · rw [if_pos hb, if_pos (by unfold btw; omega)]
          congr 1
          unfold pred_idx
          rw [if_neg hi0]
        · rw [if_neg hb, if_neg (by unfold btw; omega)]

theorem set_insert_slots (index : HashIndex) (key value : Ptr) (skip : Nat)
    (hz : Sz index) (hn : 0 < index.num_buckets) (hemp : HasEmpty index) (hf : FitsInt index)
    (hskip : skip < index.num_buckets)
    (hpass : ∀ j, j < skip →
      ¬ isE index (wrap_add index.num_buckets (hashindex_index index key) j)) :
    ∃ index1 p e off, set_insert index key value skip = some index1 ∧
      SameShape index1 index ∧ index1.num_entries = index.num_entries + 1 ∧
      index1.lower_limit = index.lower_limit ∧ index1.upper_limit = index.upper_limit ∧
      skip ≤ off ∧ off < index.num_buckets ∧
      p = wrap_add index.num_buckets (hashindex_index index key) off ∧
      e < index.num_buckets ∧ isE index e ∧
      (∀ i, i < index.num_buckets → (i = p ∨ btw index.num_buckets p e i) → i ≠ e →
        ¬ isE index i) ∧
      (∀ j, skip ≤ j → j < off →
        ¬ isE index (wrap_add index.num_buckets (hashindex_index index key) j) ∧
        j ≤ bucket_distance index
          (wrap_add index.num_buckets (hashindex_index index key) j)) ∧
      (p ≠ e → bucket_distance index p < off) ∧
      (∀ i, slot index1 i =
        if i = p then readBytes key 0 index.key_size ++ readBytes value 0 index.value_size
        else if btw index.num_buckets p e i then slot index (pred_idx index.num_buckets i)
        else slot index i) := by
  have hs := hashindex_index_lt index key hn
  obtain ⟨off, l1, l2, l3, l4, l5⟩ := set_slot_loop_spec index (hashindex_index index key) hs
    (index.num_buckets + 1) (wrap_add index.num_buckets (hashindex_index index key) skip) skip
    rfl (by omega) (by omega)
  have hemp0 := hemp
  obtain ⟨e0, he0, hE0⟩ := hemp
  have hoff : off < index.num_buckets := by
    by_contra hc
    have hd := distance_lt e0 (hashindex_index index key) index.num_buckets he0
    have hw := wrap_add_distance index.num_buckets e0 (hashindex_index index key) he0 hs
    by_cases hj : distance e0 (hashindex_index index key) index.num_buckets < skip
    · have := hpass _ hj
      rw [hw] at this
      exact this hE0
    · have := (l4 (distance e0 (hashindex_index index key) index.num_buckets)
        (by omega) (by omega)).1
      rw [hw] at this
      exact this hE0
  have hp : wrap_add index.num_buckets (hashindex_index index key) off < index.num_buckets :=
    wrap_add_lt _ _ _ hs (by omega)
  generalize hpdef : wrap_add index.num_buckets (hashindex_index index key) off = p at *
  have hbs : 0 < index.bucket_size := by
    obtain ⟨z1, z2, z3⟩ := hz
    omega
  have hloop : set_slot_loop index (index.num_buckets + 1)
      (if hashindex_index index key + skip ≥ index.num_buckets
        then hashindex_index index key + skip - index.num_buckets
        else hashindex_index index key + skip) skip = some (p, off) := l1
  unfold set_insert
  simp only [hloop]
  by_cases hE : BUCKET_IS_EMPTY index p = true
  · -- the slot is empty
    simp only [hE, Bool.not_true, Bool.false_eq_true, if_false]
    refine ⟨_, p, p, off, rfl, ⟨rfl, rfl, rfl, rfl⟩, rfl, rfl, rfl, l2, hoff, hpdef.symm, hp, hE,
      ?_, l4, fun h => absurd rfl h, ?_⟩
    · intro i hi h1 h2
      rcases h1 with h1 | h1
      · exact absurd h1 h2
      · unfold btw at h1; omega
    · intro i
      refine Eq.trans (slot_eq_of _ (write_bucket index p key value) i rfl rfl) ?_
      rw [slot_write_bucket _ _ _ _ _ hz.2.2]
      split
      · rfl
      · rw [if_neg]
        unfold btw; omega
  · have hE1 : BUCKET_IS_EMPTY index p = false := by simpa using hE
    simp only [hE1, Bool.not_false, if_true]
    have hexit : bucket_distance index p < off := by
      rcases l5 with l5 | l5
      · exact absurd l5 hE
      · exact l5
    rcases rshift_chunk_size_spec index hf p (by omega) with
      ⟨e, r1, r2, r3, r4, r5⟩ | ⟨r1, r2⟩
    · -- the run ends before the end of the table
      have hpe : p < e := by
        rcases Nat.lt_or_ge p e with h | h
        · exact h
        · have : e = p := by omega
          rw [this] at r3
          exact absurd r3 hE
      have hpos : (((e - p) * index.bucket_size : Nat) : Int) > 0 := by
        have : 0 < (e - p) * index.bucket_size := Nat.mul_pos (by omega) hbs
        exact_mod_cast this
      rw [r5]
      simp only [hpos, if_true]
      obtain ⟨g1, g2, g3, g4⟩ := frame_set_shift_simple index p key value
        (((e - p) * index.bucket_size : Nat) : Int)
      refine ⟨_, p, e, off, rfl, g1, by rw [← g2], g3, g4, l2, hoff, hpdef.symm, r2, r3,
        ?_, l4, fun _ => hexit, ?_⟩
      · intro i hi h1 h2
        apply r4 i
        · unfold btw at h1; omega
        · unfold btw at h1; omega
      · intro i
        refine Eq.trans (slot_eq_of _ (set_shift_simple index p key value
          (((e - p) * index.bucket_size : Nat) : Int)) i rfl rfl) ?_
        rw [set_shift_simple_slots index p e i key value hz]
        split
        · rfl
        · by_cases hb : btw index.num_buckets p e i
          · rw [if_pos hb, if_pos (by unfold btw at hb; omega)]
            congr 1
            unfold btw at hb
            unfold pred_idx
            split <;> omega
          · rw [if_neg hb, if_neg (by unfold btw at hb; omega)]
    · -- the run reaches the end of the table
      rw [r2]
      simp only [show ¬ ((-1 : Int) > 0) by omega, if_false]
      obtain ⟨g1, g2, g3, g4⟩ := frame_set_shift_wrap index p key value
      obtain ⟨e, w1, w2, w3, w4⟩ := set_shift_wrap_slots index p key value hz hf hp hemp0 r1
      refine ⟨_, p, e, off, rfl, g1, by rw [← g2], g3, g4, l2, hoff, hpdef.symm, by omega, w2,
        ?_, l4, fun _ => hexit, ?_⟩
      · intro i hi h1 h2
        by_cases hip : p ≤ i
        · exact r1 i hip hi
        · apply w3 i
          unfold btw at h1
          omega
      · intro i
        refine Eq.trans (slot_eq_of _ (set_shift_wrap index p key value) i rfl rfl) ?_
        exact w4 i

/-! ## Insertion on views: keys, occupancy, contents -/

theorem btw_next (nb p e i : Nat) (hi : i < nb) (_hp : p < nb) (he : e < nb)
    (h : i = p ∨ btw nb p e i) (hie : i ≠ e) :
    btw nb p e (next_idx nb i) ∧ pred_idx nb (next_idx nb i) = i := by
  unfold btw next_idx pred_idx at *
  split_ifs at * <;> omega

theorem btw_end (nb p e : Nat) (he : e < nb) (hpe : p ≠ e) : btw nb p e e := by
  unfold btw
  omega

theorem insert_emp_iff (v : View) (p e h : Nat) (k w : List Nat)
    (hp : p < v.nb) (he : e < v.nb)
    (hrun : ∀ i, i < v.nb → (i = p ∨ btw v.nb p e i) → i ≠ e → ¬ v.emp i)
    (i : Nat) (hi : i < v.nb) :
    ¬ (v.insert p e h k w).emp i ↔ (¬ v.emp i ∨ i = e) := by
  unfold View.insert
  simp only
  by_cases hip : i = p
  · rw [if_pos hip]
    by_cases hpe : p = e
    · simp [hip, hpe]
    · have := hrun p hp (Or.inl rfl) hpe
      simp [hip, this]
  · rw [if_neg hip]
    by_cases hb : btw v.nb p e i
    · rw [if_pos hb]
      obtain ⟨b1, b2, b3⟩ := btw_pred v.nb p e i hp he hb
      have hq := hrun _ (pred_lt _ _ hi) b1 b2
      by_cases hie : i = e
      · exact ⟨fun _ => Or.inr hie, fun _ => hq⟩
      · have := hrun i hi (Or.inr hb) hie
        exact ⟨fun _ => Or.inl this, fun _ => hq⟩
    · rw [if_neg hb]
      have hie : i ≠ e := by
        intro hc
        apply hb
        rw [hc]
        exact btw_end _ _ _ he (by rw [← hc]; exact fun h => hip h.symm)
      simp [hie]

theorem insert_key_src (v : View) (p e h : Nat) (k w : List Nat)
    (i : Nat) (hi : i < v.nb) (hne : ¬ (v.insert p e h k w).emp i) :
    (i = p ∧ (v.insert p e h k w).key i = k ∧ (v.insert p e h k w).val i = w) ∨
    (i ≠ p ∧ ∃ s, s < v.nb ∧ ¬ v.emp s ∧ (v.insert p e h k w).key i = v.key s ∧
      (v.insert p e h k w).val i = v.val s ∧
      ((btw v.nb p e i ∧ s = pred_idx v.nb i) ∨ (¬ btw v.nb p e i ∧ s = i))) := by
  unfold View.insert at hne ⊢
  simp only at hne ⊢
  by_cases hip : i = p
  · left
    rw [if_pos hip, if_pos hip]
    exact ⟨hip, rfl, rfl⟩
  · right
    rw [if_neg hip] at hne
    rw [if_neg hip, if_neg hip]
    refine ⟨hip, ?_⟩
    by_cases hb : btw v.nb p e i
    · rw [if_pos hb] at hne
      rw [if_pos hb, if_pos hb]
      exact ⟨_, pred_lt _ _ hi, hne, rfl, rfl, Or.inl ⟨hb, rfl⟩⟩
    · rw [if_neg hb] at hne
      rw [if_neg hb, if_neg hb]
      exact ⟨i, hi, hne, rfl, rfl, Or.inr ⟨hb, rfl⟩⟩

theorem pred_inj (nb i j : Nat) (hi : i < nb) (hj : j < nb)
    (h : pred_idx nb i = pred_idx nb j) : i = j := by
  unfold pred_idx at h
  split_ifs at h <;> omega

theorem insert_distinct (v : View) (p e h : Nat) (k w : List Nat)
    (hp : p < v.nb) (he : e < v.nb)
    (habs : ∀ i, i < v.nb → ¬ v.emp i → v.key i ≠ k)
    (hd : v.Distinct) : (v.insert p e h k w).Distinct := by
  intro i j hi hj hni hnj hk
  change i < v.nb at hi
  change j < v.nb at hj
  rcases insert_key_src v p e h k w i hi hni with
    ⟨a1, a2, _⟩ | ⟨a1, s, a2, a3, a4, _, a6⟩
  · rcases insert_key_src v p e h k w j hj hnj with
      ⟨b1, b2, _⟩ | ⟨b1, t, b2, b3, b4, _, b6⟩
    · rw [a1, b1]
    · exfalso
      apply habs t b2 b3
      rw [← b4, ← hk, a2]
  · rcases insert_key_src v p e h k w j hj hnj with
      ⟨b1, b2, _⟩ | ⟨b1, t, b2, b3, b4, _, b6⟩
    · exfalso
      apply habs s a2 a3
      rw [← a4, hk, b2]
    · have hst : s = t := hd s t a2 b2 a3 b3 (by rw [← a4, ← b4, hk])
      rcases a6 with ⟨c1, c2⟩ | ⟨c1, c2⟩
      · rcases b6 with ⟨d1, d2⟩ | ⟨d1, d2⟩
        · apply pred_inj v.nb i j hi hj
          rw [← c2, ← d2, hst]
        · exfalso
          obtain ⟨g1, g2, g3⟩ := btw_pred v.nb p e i hp he c1
          rw [← c2, hst, d2] at g1 g2
          rcases g1 with g1 | g1
          · exact b1 g1
          · exact d1 g1
      · rcases b6 with ⟨d1, d2⟩ | ⟨d1, d2⟩
        · exfalso
          obtain ⟨g1, g2, g3⟩ := btw_pred v.nb p e j hp he d1
          rw [← d2, ← hst, c2] at g1 g2
          rcases g1 with g1 | g1
          · exact a1 g1
          · exact c1 g1
        · rw [← c2, ← d2, hst]

theorem insert_holds (v : View) (p e h : Nat) (k w : List Nat)
    (hp : p < v.nb) (he : e < v.nb) (hE : v.emp e)
    (k1 w1 : List Nat) :
    (v.insert p e h k w).Holds k1 w1 ↔ ((k1 = k ∧ w1 = w) ∨ v.Holds k1 w1) := by
  constructor
  · rintro ⟨i, hi, hne, hk, hw⟩
    change i < v.nb at hi
    rcases insert_key_src v p e h k w i hi hne with
      ⟨a1, a2, a3⟩ | ⟨a1, s, a2, a3, a4, a5, _⟩
    · left
      exact ⟨by rw [← hk, a2], by rw [← hw, a3]⟩
    · right
      exact ⟨s, a2, a3, by rw [← a4, hk], by rw [← a5, hw]⟩
  · rintro (⟨h1, h2⟩ | ⟨s, hs, hne, hk, hw⟩)
    · refine ⟨p, hp, ?_, ?_, ?_⟩
      · unfold View.insert; simp
      · unfold View.insert; simp [h1]
      · unfold View.insert; simp [h2]
    · have hse : s ≠ e := by
        intro hc; rw [hc] at hne; exact hne hE
      by_cases hin : s = p ∨ btw v.nb p e s
      · obtain ⟨n1, n2⟩ := btw_next v.nb p e s hs hp he hin hse
        have hn : next_idx v.nb s < v.nb := n1.1
        refine ⟨next_idx v.nb s, hn, ?_, ?_, ?_⟩
        all_goals
          unfold View.insert
          simp only
          rw [if_neg (btw_ne _ _ _ _ n1), if_pos n1, n2]
        · exact hne
        · exact hk
        · exact hw
      · have h1 : s ≠ p := fun hc => hin (Or.inl hc)
        have h2 : ¬ btw v.nb p e s := fun hc => hin (Or.inr hc)
        refine ⟨s, hs, ?_, ?_, ?_⟩
        all_goals
          unfold View.insert
          simp only
          rw [if_neg h1, if_neg h2]
        · exact hne
        · exact hk
        · exact hw

/-! ## From buckets to views -/

theorem sz_of_shape (a b : HashIndex) (hs : SameShape a b) (hz : Sz b) : Sz a := by
  obtain ⟨h1, h2, h3, h4⟩ := hs
  unfold Sz
  rw [h2, h3, h4]
  exact hz

theorem view_insert_of_slots (index index1 : HashIndex) (key value : Ptr) (p e : Nat)
    (hz : Sz index) (hs : SameShape index1 index) (hv : le32 value ≠ EMPTY)
    (hslots : ∀ i, slot index1 i =
      if i = p then readBytes key 0 index.key_size ++ readBytes value 0 index.value_size
      else if btw index.num_buckets p e i then slot index (pred_idx index.num_buckets i)
      else slot index i) :
    view index1 = (view index).insert p e (hashindex_index index key)
      (readBytes key 0 index.key_size) (readBytes value 0 index.value_size) := by
  have hz1 := sz_of_shape index1 index hs hz
  have hp : slot index1 p
      = readBytes key 0 index.key_size ++ readBytes value 0 index.value_size := by
    rw [hslots p, if_pos rfl]
  have ap := accessors_of_slot index1 p hz1 _ _
    (by rw [readBytes_length, hs.2.1]) hp
  have hvE : ¬ isE index1 p := by
    rw [ap.2.2.1, le32_ofBytes_readBytes _ _ hz.2.1]
    exact hv
  have hhome : homeOf index1 p = hashindex_index index key := by
    rw [ap.2.2.2, le32_ofBytes_readBytes _ _ hz.1, hs.1]
    rfl
  have hmov : ∀ i, i ≠ p → btw index.num_buckets p e i →
      slot index1 i = slot index (pred_idx index.num_buckets i) := by
    intro i h1 h2
    rw [hslots i, if_neg h1, if_pos h2]
  have hkeep : ∀ i, i ≠ p → ¬ btw index.num_buckets p e i → slot index1 i = slot index i := by
    intro i h1 h2
    rw [hslots i, if_neg h1, if_neg h2]
  unfold view View.insert
  simp only [View.mk.injEq]
  refine ⟨hs.1, ?_, ?_, ?_, ?_⟩
  · funext i
    by_cases hip : i = p
    · rw [if_pos hip, hip]
      exact propext ⟨fun h => hvE h, fun h => h.elim⟩
    · rw [if_neg hip]
      by_cases hb : btw index.num_buckets p e i
      · rw [if_pos hb]
        exact propext (slot_congr index1 index _ _ hs hz (hmov i hip hb)).1
      · rw [if_neg hb]
        exact propext (slot_congr index1 index _ _ hs hz (hkeep i hip hb)).1
  · funext i
    by_cases hip : i = p
    · rw [if_pos hip, hip]
      exact hhome
    · rw [if_neg hip]
      by_cases hb : btw index.num_buckets p e i
      · rw [if_pos hb]
        exact (slot_congr index1 index _ _ hs hz (hmov i hip hb)).2.2.2
      · rw [if_neg hb]
        exact (slot_congr index1 index _ _ hs hz (hkeep i hip hb)).2.2.2
  · funext i
    by_cases hip : i = p
    · rw [if_pos hip, hip]
      exact ap.1
    · rw [if_neg hip]
      by_cases hb : btw index.num_buckets p e i
      · rw [if_pos hb]
        exact (slot_congr index1 index _ _ hs hz (hmov i hip hb)).2.1
      · rw [if_neg hb]
        exact (slot_congr index1 index _ _ hs hz (hkeep i hip hb)).2.1
  · funext i
    by_cases hip : i = p
    · rw [if_pos hip, hip]
      exact ap.2.1
    · rw [if_neg hip]
      by_cases hb : btw index.num_buckets p e i
      · rw [if_pos hb]
        exact (slot_congr index1 index _ _ hs hz (hmov i hip hb)).2.2.1
      · rw [if_neg hb]
        exact (slot_congr index1 index _ _ hs hz (hkeep i hip hb)).2.2.1

theorem holds_iff_view (index : HashIndex) (k w : List Nat) :
    Holds index k w ↔ (view index).Holds k w := Iff.rfl

theorem distinct_iff_view (index : HashIndex) : DistinctKeys index ↔ (view index).Distinct :=
  Iff.rfl

theorem occupied_of_view_emp (a b : HashIndex) (e : Nat) (hnb : a.num_buckets = b.num_buckets)
    (he : e < b.num_buckets) (hE : isE b e)
    (h : ∀ i, i < b.num_buckets → (¬ isE a i ↔ (¬ isE b i ∨ i = e))) :
    occupied a = insert e (occupied b) ∧ e ∉ occupied b := by
  constructor
  · ext i
    rw [Finset.mem_insert, mem_occupied, mem_occupied, hnb]
    constructor
    · rintro ⟨h1, h2⟩
      rcases (h i h1).mp h2 with h3 | h3
      · exact Or.inr ⟨h1, h3⟩
      · exact Or.inl h3
    · rintro (h1 | ⟨h1, h2⟩)
      · rw [h1]
        exact ⟨he, (h e he).mpr (Or.inr rfl)⟩
      · exact ⟨h1, (h i h1).mpr (Or.inl h2)⟩
  · rw [mem_occupied]
    exact fun hc => hc.2 hE

/-! ## Insertion of an absent key keeps the invariants -/

theorem inv_of_wf (index : HashIndex) (h : WF index) : Inv index :=
  ⟨h.sz, h.pos, localRH_of_global index h.pos h.rh h.reach, h.distinct, h.has_empty, h.fits⟩

theorem set_insert_inv (index : HashIndex) (key value : Ptr) (skip : Nat) (h : Inv index)
    (hv : le32 value ≠ EMPTY) (hskip : skip < index.num_buckets)
    (hpass : ∀ j, j < skip →
      ¬ isE index (wrap_add index.num_buckets (hashindex_index index key) j))
    (hprev : 0 < skip → skip - 1 ≤ bucket_distance index
      (wrap_add index.num_buckets (hashindex_index index key) (skip - 1)))
    (habs : ∀ i, i < index.num_buckets → ¬ isE index i →
      keyOf index i ≠ readBytes key 0 index.key_size) :
    ∃ index1 e, set_insert index key value skip = some index1 ∧
      SameShape index1 index ∧ index1.num_entries = index.num_entries + 1 ∧
      index1.lower_limit = index.lower_limit ∧ index1.upper_limit = index.upper_limit ∧
      (view index1).LocalRH ∧ DistinctKeys index1 ∧
      occupied index1 = insert e (occupied index) ∧ e ∉ occupied index ∧
      (∀ k w, Holds index1 k w ↔
        ((k = readBytes key 0 index.key_size ∧ w = readBytes value 0 index.value_size) ∨
          Holds index k w)) := by
  have hs := hashindex_index_lt index key h.pos
  obtain ⟨index1, p, e, off, s1, s2, s3, s4, s5, s6, s7, s8, s9, s10, s11, s12, s13, s14⟩ :=
    set_insert_slots index key value skip h.sz h.pos h.has_empty h.fits hskip hpass
  have hp : p < index.num_buckets := by
    rw [s8]; exact wrap_add_lt _ _ _ hs (by omega)
  have hview := view_insert_of_slots index index1 key value p e h.sz s2 hv s14
  have hprev1 : 0 < off → ¬ (view index).emp (pred_idx (view index).nb p) ∧
      off ≤ (view index).disp (pred_idx (view index).nb p) + 1 := by
    intro hpos
    have hpred : pred_idx index.num_buckets p
        = wrap_add index.num_buckets (hashindex_index index key) (off - 1) := by
      rw [s8]
      have := pred_wrap_add index.num_buckets (hashindex_index index key) (off - 1) hs
        (by omega)
      rw [← this]
      congr 2
      omega
    rw [view_nb, view_disp, hpred]
    by_cases hlt : skip < off
    · obtain ⟨a1, a2⟩ := s12 (off - 1) (by omega) (by omega)
      exact ⟨a1, by omega⟩
    · have : off = skip := by omega
      subst this
      exact ⟨hpass _ (by omega), by have := hprev hpos; omega⟩
  have hocc : occupied index1 = insert e (occupied index) ∧ e ∉ occupied index := by
    apply occupied_of_view_emp index1 index e s2.1 s9 s10
    intro i hi
    have := insert_emp_iff (view index) p e (hashindex_index index key)
      (readBytes key 0 index.key_size) (readBytes value 0 index.value_size) hp s9 s11 i hi
    rw [← hview] at this
    exact this
  refine ⟨index1, e, s1, s2, s3, s4, s5, ?_, ?_, hocc.1, hocc.2, ?_⟩
  · rw [hview]
    exact insert_localRH (view index) p e (hashindex_index index key) off _ _ hp s9 hs s7 s8
      s10 s11 hprev1 (fun hpe => by rw [view_disp]; exact s13 hpe)
      (view_home_lt index h.pos) h.lrh
  · rw [distinct_iff_view, hview]
    exact insert_distinct (view index) p e _ _ _ hp s9 habs h.distinct
  · intro k w
    rw [holds_iff_view, hview, holds_iff_view]
    exact insert_holds (view index) p e _ _ _ hp s9 s10 k w

/-! ## `hashindex_get` against the contents -/

theorem get_value_of_holds (index : HashIndex) (key : Ptr) (w : List Nat)
    (hz : Sz index) (hn : 0 < index.num_buckets) (hrh : (view index).LocalRH)
    (hd : DistinctKeys index) (h : Holds index (readBytes key 0 index.key_size) w) :
    hashindex_get_value index key = some (some w) := by
  obtain ⟨i, hi, hne, hk, hw⟩ := h
  have hl := lookup_complete index key none i hz hn hrh hd hi hne hk
  unfold hashindex_get_value hashindex_get
  rw [hl]
  simp only [Option.map_some']
  rw [← hw]
  rfl

theorem get_value_of_absent (index : HashIndex) (key : Ptr) (hn : 0 < index.num_buckets)
    (h : ∀ i, i < index.num_buckets → ¬ isE index i →
      keyOf index i ≠ readBytes key 0 index.key_size) :
    hashindex_get_value index key = some none := by
  obtain ⟨r, hr⟩ := lookup_total index key none hn
  obtain ⟨rv, hint⟩ := r
  cases rv with
  | none =>
    unfold hashindex_get_value hashindex_get
    rw [hr]
    rfl
  | some i =>
    obtain ⟨s1, s2, s3, _⟩ := lookup_sound index key none hint i hn hr
    exact absurd s3 (h i s1 s2)

theorem get_value_sound (index : HashIndex) (key : Ptr) (w : List Nat)
    (hn : 0 < index.num_buckets) (h : hashindex_get_value index key = some (some w)) :
    Holds index (readBytes key 0 index.key_size) w := by
  obtain ⟨r, hr⟩ := lookup_total index key none hn
  obtain ⟨rv, hint⟩ := r
  unfold hashindex_get_value hashindex_get at h
  rw [hr] at h
  cases rv with
  | none => simp at h
  | some i =>
    obtain ⟨s1, s2, s3, _⟩ := lookup_sound index key none hint i hn hr
    simp only [Option.map_some', Option.some.injEq] at h
    exact ⟨i, s1, s2, s3, h⟩

/-! ## The update path of `hashindex_set` -/

theorem write_value_view (index : HashIndex) (idx : Nat) (value : Ptr) (hz : Sz index)
    (hv : le32 value ≠ EMPTY) (hne : ¬ isE index idx) :
    (∀ i, (isE (write_value index idx value) i ↔ isE index i)) ∧
    (∀ i, homeOf (write_value index idx value) i = homeOf index i) ∧
    (∀ i, keyOf (write_value index idx value) i = keyOf index i) ∧
    (∀ i, valOf (write_value index idx value) i
      = if i = idx then readBytes value 0 index.value_size else valOf index i) := by
  have hs : SameShape (write_value index idx value) index := ⟨rfl, rfl, rfl, rfl⟩
  have hz1 : Sz (write_value index idx value) := hz
  have hself := accessors_of_slot (write_value index idx value) idx hz1 (keyOf index idx)
    (readBytes value 0 index.value_size) (keyOf_length index idx)
    (by rw [slot_value_update _ _ _ _ hz, if_pos rfl])
  have hother : ∀ i, i ≠ idx → slot (write_value index idx value) i = slot index i := by
    intro i hi
    rw [slot_value_update _ _ _ _ hz, if_neg hi]
  have hk0 := accessors_of_slot index idx hz (keyOf index idx) (valOf index idx)
    (keyOf_length index idx) (slot_split index idx hz)
  refine ⟨?_, ?_, ?_, ?_⟩
  · intro i
    by_cases hi : i = idx
    · subst hi
      rw [hself.2.2.1, le32_ofBytes_readBytes _ _ hz.2.1]
      exact ⟨fun h => absurd h hv, fun h => absurd h hne⟩
    · exact (slot_congr _ index i i hs hz (hother i hi)).1
  · intro i
    by_cases hi : i = idx
    · subst hi
      rw [hself.2.2.2, hk0.2.2.2]
      rfl
    · exact (slot_congr _ index i i hs hz (hother i hi)).2.2.2
  · intro i
    by_cases hi : i = idx
    · subst hi
      exact hself.1
    · exact (slot_congr _ index i i hs hz (hother i hi)).2.1
  · intro i
    by_cases hi : i = idx
    · subst hi
      rw [if_pos rfl]
      exact hself.2.1
    · rw [if_neg hi]
      exact (slot_congr _ index i i hs hz (hother i hi)).2.2.1

theorem view_write_value (index : HashIndex) (idx : Nat) (value : Ptr) (hz : Sz index)
    (hv : le32 value ≠ EMPTY) (hne : ¬ isE index idx) :
    view (write_value index idx value)
      = { view index with
          val := fun i => if i = idx then readBytes value 0 index.value_size
            else valOf index i } := by
  obtain ⟨h1, h2, h3, h4⟩ := write_value_view index idx value hz hv hne
  unfold view
  simp only [View.mk.injEq]
  refine ⟨rfl, ?_, ?_, ?_, ?_⟩
  · funext i; exact propext (h1 i)
  · funext i; exact h2 i
  · funext i; exact h3 i
  · funext i; exact h4 i

theorem occupied_congr (a b : HashIndex) (hnb : a.num_buckets = b.num_buckets)
    (h : ∀ i, isE a i ↔ isE b i) : occupied a = occupied b := by
  ext i
  rw [mem_occupied, mem_occupied, hnb, h i]

/-! ## `hashindex_set` without resize -/

theorem holds_unique (index : HashIndex) (hd : DistinctKeys index) (k w1 w2 : List Nat)
    (h1 : Holds index k w1) (h2 : Holds index k w2) : w1 = w2 := by
  obtain ⟨i, a1, a2, a3, a4⟩ := h1
  obtain ⟨j, b1, b2, b3, b4⟩ := h2
  have := hd i j a1 b1 a2 b2 (by rw [a3, b3])
  subst this
  rw [← a4, ← b4]

theorem set_hit (fuel : Nat) (index : HashIndex) (key value : Ptr) (idx : Nat)
    (hint : Option Nat) (hz : Sz index) (hn : 0 < index.num_buckets)
    (hd : DistinctKeys index) (hv : le32 value ≠ EMPTY)
    (hl : hashindex_lookup index key (some 0) = some (some idx, hint)) :
    hashindex_set fuel index key value = some (1, write_value index idx value) ∧
      idx < index.num_buckets ∧ ¬ isE index idx ∧ keyOf index idx = keyBytes index key ∧
      view (write_value index idx value)
        = { view index with
            val := fun i => if i = idx then readBytes value 0 index.value_size
              else valOf index i } ∧
      DistinctKeys (write_value index idx value) ∧
      occupied (write_value index idx value) = occupied index ∧
      SetPost index (write_value index idx value) (keyBytes index key)
        (valueBytes index value) := by
  obtain ⟨s1, s2, s3, _⟩ := lookup_sound index key (some 0) hint idx hn hl
  have hset : hashindex_set fuel index key value = some (1, write_value index idx value) := by
    cases fuel <;> (unfold hashindex_set set_with; simp only [hl])
  obtain ⟨w1, w2, w3, w4⟩ := write_value_view index idx value hz hv s2
  have hview := view_write_value index idx value hz hv s2
  have hd1 : DistinctKeys (write_value index idx value) := by
    intro i j hi hj hni hnj hk
    rw [w1] at hni hnj
    rw [w3, w3] at hk
    exact hd i j hi hj hni hnj hk
  refine ⟨hset, s1, s2, s3, hview, hd1, occupied_congr _ _ rfl w1, ?_⟩
  intro k w
  constructor
  · rintro ⟨i, a1, a2, a3, a4⟩
    change i < index.num_buckets at a1
    rw [w1] at a2
    rw [w3] at a3
    rw [w4] at a4
    by_cases hi : i = idx
    · left
      rw [if_pos hi] at a4
      rw [hi] at a3
      exact ⟨by rw [← a3]; exact s3, a4.symm⟩
    · right
      rw [if_neg hi] at a4
      refine ⟨?_, i, a1, a2, a3, a4⟩
      intro hk
      apply hi
      apply hd i idx a1 s1 a2 s2
      rw [a3, hk]
      exact s3.symm
  · rintro (⟨h1, h2⟩ | ⟨h1, i, a1, a2, a3, a4⟩)
    · refine ⟨idx, s1, ?_, ?_, ?_⟩
      · rw [w1]; exact s2
      · rw [w3, h1]; exact s3
      · rw [w4, if_pos rfl, h2]; rfl
    · have hi : i ≠ idx := by
        intro hc
        apply h1
        rw [← a3, hc]
        exact s3
      refine ⟨i, a1, ?_, ?_, ?_⟩
      · rw [w1]; exact a2
      · rw [w3]; exact a3
      · rw [w4, if_neg hi]; exact a4

theorem setpost_of_absent (index index1 : HashIndex) (K V : List Nat)
    (habs : ∀ i, i < index.num_buckets → ¬ isE index i → keyOf index i ≠ K)
    (h : ∀ k w, Holds index1 k w ↔ ((k = K ∧ w = V) ∨ Holds index k w)) :
    SetPost index index1 K V := by
  intro k w
  rw [h k w]
  constructor
  · rintro (h1 | ⟨i, a1, a2, a3, a4⟩)
    · exact Or.inl h1
    · right
      refine ⟨?_, i, a1, a2, a3, a4⟩
      intro hk
      exact habs i a1 a2 (by rw [a3, hk])
  · rintro (h1 | ⟨_, h2⟩)
    · exact Or.inl h1
    · exact Or.inr h2

theorem set_miss_no_grow (fuel : Nat) (index : HashIndex) (key value : Ptr)
    (hint : Option Nat) (h : Inv index) (hv : le32 value ≠ EMPTY)
    (hu : ¬ index.num_entries > index.upper_limit)
    (hl : hashindex_lookup index key (some 0) = some (none, hint)) :
    ∃ index1 e, hashindex_set fuel index key value = some (1, index1) ∧
      SameShape index1 index ∧ index1.num_entries = index.num_entries + 1 ∧
      index1.lower_limit = index.lower_limit ∧ index1.upper_limit = index.upper_limit ∧
      (view index1).LocalRH ∧ DistinctKeys index1 ∧
      occupied index1 = insert e (occupied index) ∧ e ∉ occupied index ∧
      (∀ i, i < index.num_buckets → ¬ isE index i → keyOf index i ≠ keyBytes index key) ∧
      SetPost index index1 (keyBytes index key) (valueBytes index value) := by
  obtain ⟨skip, m1, m2, m3, m4, m5⟩ :=
    lookup_miss index key hint h.sz h.pos h.lrh h.distinct hl
  obtain ⟨index1, e, i1, i2, i3, i4, i5, i6, i7, i8, i9, i10⟩ :=
    set_insert_inv index key value skip h hv m2 m3 m4 m5
  refine ⟨index1, e, ?_, i2, i3, i4, i5, i6, i7, i8, i9, m5,
    setpost_of_absent index index1 _ _ m5 i10⟩
  have hopt : hint.getD 0 = skip := by rw [m1]; rfl
  cases fuel <;>
    (unfold hashindex_set set_with; simp only [hl, hu, if_false, hopt, i1, Option.map_some'])

/-! ## `hashindex_init` -/

theorem init_mark_loop_frame (index : HashIndex) (n : Nat) :
    SameShape (init_mark_loop index n) index ∧
      (init_mark_loop index n).num_entries = index.num_entries ∧
      (init_mark_loop index n).lower_limit = index.lower_limit ∧
      (init_mark_loop index n).upper_limit = index.upper_limit := by
  induction n with
  | zero => exact ⟨⟨rfl, rfl, rfl, rfl⟩, rfl, rfl, rfl⟩
  | succ m ih =>
    obtain ⟨⟨a1, a2, a3, a4⟩, a5, a6, a7⟩ := ih
    exact ⟨⟨a1, a2, a3, a4⟩, a5, a6, a7⟩

theorem store32_empty_keeps (mem : Ptr) (a b : Nat) (h : mem b = 255) :
    store32 mem a EMPTY b = 255 := by
  unfold store32
  split
  · rename_i hc
    have : b - a = 0 ∨ b - a = 1 ∨ b - a = 2 ∨ b - a = 3 := by omega
    rcases this with e | e | e | e <;> rw [e] <;> decide
  · exact h

theorem init_mark_loop_bytes (index : HashIndex) (n i r : Nat) (hi : i < n) (hr : r < 4) :
    (init_mark_loop index n).buckets (i * index.bucket_size + index.key_size + r) = 255 := by
  induction n with
  | zero => omega
  | succ m ih =>
    obtain ⟨⟨_, a2, _, a4⟩, _⟩ := init_mark_loop_frame index m
    change store32 (init_mark_loop index m).buckets
      (BUCKET_ADDR (init_mark_loop index m) m + (init_mark_loop index m).key_size) EMPTY _ = 255
    by_cases him : i = m
    · subst him
      unfold BUCKET_ADDR store32
      rw [a2, a4, if_pos (by omega)]
      have e : i * index.bucket_size + index.key_size + r
          - (i * index.bucket_size + index.key_size) = r := by omega
      rw [e]
      have : r = 0 ∨ r = 1 ∨ r = 2 ∨ r = 3 := by omega
      rcases this with e | e | e | e <;> rw [e] <;> decide
    · exact store32_empty_keeps _ _ _ (ih (by omega))

theorem isE_of_bytes (index : HashIndex) (i : Nat)
    (h : ∀ r, r < 4 → index.buckets (i * index.bucket_size + index.key_size + r) = 255) :
    isE index i := by
  unfold isE BUCKET_IS_EMPTY le32 ptr BUCKET_ADDR
  have h0 := h 0 (by omega)
  have h1 := h 1 (by omega)
  have h2 := h 2 (by omega)
  have h3 := h 3 (by omega)
  simp only [Nat.add_zero] at h0
  rw [Nat.add_zero, h0, h1, h2, h3]
  decide

theorem init_frame (capacity : Int) (ks vs : Nat) :
    (hashindex_init capacity ks vs).num_buckets = fit_size capacity ∧
    (hashindex_init capacity ks vs).num_entries = 0 ∧
    (hashindex_init capacity ks vs).key_size = ks ∧
    (hashindex_init capacity ks vs).value_size = vs ∧
    (hashindex_init capacity ks vs).bucket_size = ks + vs ∧
    (hashindex_init capacity ks vs).lower_limit = get_lower_limit (fit_size capacity) ∧
    (hashindex_init capacity ks vs).upper_limit = get_upper_limit (fit_size capacity) := by
  unfold hashindex_init
  simp only
  obtain ⟨⟨a1, a2, a3, a4⟩, a5, a6, a7⟩ := init_mark_loop_frame
    { buckets := fun _ => 0, tmp_entry := fun _ => 0, num_entries := 0, key_size := ks,
      value_size := vs, num_buckets := fit_size capacity, bucket_size := ks + vs,
      lower_limit := get_lower_limit (fit_size capacity),
      upper_limit := get_upper_limit (fit_size capacity) } (fit_size capacity)
  exact ⟨a1, a5, a2, a3, a4, a6, a7⟩

theorem init_all_empty (capacity : Int) (ks vs : Nat) (i : Nat) (hi : i < fit_size capacity) :
    isE (hashindex_init capacity ks vs) i := by
  obtain ⟨f1, f2, f3, f4, f5, f6, f7⟩ := init_frame capacity ks vs
  apply isE_of_bytes
  intro r hr
  rw [f3, f5]
  exact init_mark_loop_bytes
    { buckets := fun _ => 0, tmp_entry := fun _ => 0, num_entries := 0, key_size := ks,
      value_size := vs, num_buckets := fit_size capacity, bucket_size := ks + vs,
      lower_limit := get_lower_limit (fit_size capacity),
      upper_limit := get_upper_limit (fit_size capacity) } (fit_size capacity) i r hi hr

theorem occupied_init (capacity : Int) (ks vs : Nat) :
    occupied (hashindex_init capacity ks vs) = ∅ := by
  ext i
  rw [mem_occupied, (init_frame capacity ks vs).1]
  constructor
  · rintro ⟨h1, h2⟩
    exact absurd (init_all_empty capacity ks vs i h1) h2
  · intro h
    exact absurd h (Finset.not_mem_empty i)

/-! ## The size ladder -/

theorem nelems_eq : NELEMS_hash_sizes = 58 := by decide

theorem ladder_ge (i : Nat) (hi : i ≤ 57) : 1031 ≤ hash_sizes.getD i 0 := by
  have h : ∀ j, j < 58 → 1031 ≤ hash_sizes.getD j 0 := by decide
  exact h i (by omega)

theorem ladder_le (i : Nat) (hi : i ≤ 57) : hash_sizes.getD i 0 ≤ 2062383853 := by
  have h : ∀ j, j < 58 → hash_sizes.getD j 0 ≤ 2062383853 := by decide
  exact h i (by omega)

theorem ladder_step (i : Nat) (hi : i < 57) :
    hash_sizes.getD i 0 < hash_sizes.getD (i + 1) 0 ∧
    (hash_sizes.getD i 0 : Int) ≤ get_upper_limit (hash_sizes.getD (i + 1) 0) := by
  have h : ∀ j, j < 57 →
      hash_sizes.getD j 0 < hash_sizes.getD (j + 1) 0 ∧
      (hash_sizes.getD j 0 : Int) ≤ get_upper_limit (hash_sizes.getD (j + 1) 0) := by
    decide
  exact h i hi

theorem ladder_upper (i : Nat) (hi : i ≤ 57) :
    get_upper_limit (hash_sizes.getD i 0) + 1 < (hash_sizes.getD i 0 : Int) ∨ i = 57 := by
  have h : ∀ j, j < 58 →
      (get_upper_limit (hash_sizes.getD j 0) + 1 < (hash_sizes.getD j 0 : Int) ∨ j = 57) := by
    decide
  exact h i (by omega)

theorem ladder_shrink (i : Nat) (hi : i < 57) :
    ((hash_sizes.getD (i + 1) 0 / 4 : Nat) : Int) ≤ get_upper_limit (hash_sizes.getD i 0) ∧
    hash_sizes.getD (i + 1) 0 / 4 < hash_sizes.getD i 0 := by
  have h : ∀ j, j < 57 →
      ((hash_sizes.getD (j + 1) 0 / 4 : Nat) : Int) ≤ get_upper_limit (hash_sizes.getD j 0) ∧
      hash_sizes.getD (j + 1) 0 / 4 < hash_sizes.getD j 0 := by
    decide
  exact h i hi

theorem size_idx_loop_spec (size : Int) :
    ∀ fuel i, i + fuel = 58 → i < 58 →
      (∀ j, j < i → (hash_sizes.getD j 0 : Int) < size) →
      i + 1 ≤ size_idx_loop size fuel i ∧ size_idx_loop size fuel i ≤ 58 ∧
      (∀ j, j + 1 < size_idx_loop size fuel i → (hash_sizes.getD j 0 : Int) < size) ∧
      (size ≤ hash_sizes.getD (size_idx_loop size fuel i - 1) 0 ∨
        size_idx_loop size fuel i = 58) := by
  intro fuel
  induction fuel with
  | zero => intro i h1 h2; omega
  | succ n ih =>
    intro i h1 h2 h3
    unfold size_idx_loop
    simp only [nelems_eq]
    by_cases hc : (hash_sizes.getD i 0 : Int) < size ∧ i + 1 < 58
    · rw [if_pos hc]
      obtain ⟨r1, r2, r3, r4⟩ := ih (i + 1) (by omega) hc.2 (by
        intro j hj
        by_cases hji : j = i
        · rw [hji]; exact hc.1
        · exact h3 j (by omega))
      exact ⟨by omega, r2, r3, r4⟩
    · rw [if_neg hc]
      refine ⟨le_refl _, by omega, fun j hj => h3 j (by omega), ?_⟩
      by_cases h58 : i + 1 < 58
      · left
        have : ¬ (hash_sizes.getD i 0 : Int) < size := fun h => hc ⟨h, h58⟩
        simp only [Nat.add_sub_cancel]
        omega
      · right; omega

theorem size_idx_spec (size : Int) :
    size_idx size ≤ 57 ∧ (∀ j, j < size_idx size → (hash_sizes.getD j 0 : Int) < size) ∧
      (size ≤ hash_sizes.getD (size_idx size) 0 ∨ size_idx size = 57) := by
  obtain ⟨r1, r2, r3, r4⟩ := size_idx_loop_spec size 58 0 (by omega) (by omega)
    (fun j hj => by omega)
  have e : size_idx size = size_idx_loop size 58 0 - 1 := by
    unfold size_idx
    simp only [nelems_eq]
    split
    · omega
    · rfl
  rw [e]
  refine ⟨by omega, fun j hj => r3 j (by omega), ?_⟩
  rcases r4 with r4 | r4
  · exact Or.inl r4
  · right; omega

theorem fit_size_ge (capacity : Int) : 1031 ≤ fit_size capacity :=
  ladder_ge _ (size_idx_spec capacity).1

theorem fit_size_pos (capacity : Int) : 0 < fit_size capacity := by
  have := fit_size_ge capacity
  omega

theorem fit_size_of_ladder (i : Nat) (hi : i ≤ 57) :
    fit_size (hash_sizes.getD i 0 : Nat) = hash_sizes.getD i 0 := by
  have h : ∀ j, j < 58 → fit_size (hash_sizes.getD j 0 : Nat) = hash_sizes.getD j 0 := by
    decide
  exact h i (by omega)

theorem get_upper_limit_top (nb : Nat) (h : 2062383853 ≤ nb) : get_upper_limit nb = nb := by
  unfold get_upper_limit
  have e : hash_sizes.getD (NELEMS_hash_sizes - 1) 0 = 2062383853 := by decide
  simp only [e]
  rw [if_pos (by omega)]

/-- Growing a table that is not at the top of the ladder: the next size is larger and its
upper limit admits as many entries as the old table has buckets. -/
theorem grow_size_spec (nb : Nat) (h : nb < 2062383853) :
    ∃ i, i ≤ 57 ∧ grow_size nb = hash_sizes.getD i 0 ∧ nb < grow_size nb ∧
      (nb : Int) ≤ get_upper_limit (grow_size nb) := by
  obtain ⟨s1, s2, s3⟩ := size_idx_spec (nb : Int)
  have hle : (nb : Int) ≤ hash_sizes.getD (size_idx (nb : Int)) 0 := by
    rcases s3 with s3 | s3
    · exact s3
    · rw [s3]
      have e : hash_sizes.getD 57 0 = 2062383853 := by decide
      rw [e]
      omega
  unfold grow_size
  simp only [nelems_eq]
  by_cases hi : size_idx (nb : Int) + 1 ≥ 58
  · rw [if_pos hi]
    have e : hash_sizes.getD (58 - 1) 0 = 2062383853 := by decide
    rw [e]
    refine ⟨57, le_refl _, by decide, h, ?_⟩
    rw [get_upper_limit_top _ (le_refl _)]
    omega
  · rw [if_neg hi]
    obtain ⟨l1, l2⟩ := ladder_step (size_idx (nb : Int)) (by omega)
    refine ⟨size_idx (nb : Int) + 1, by omega, rfl, ?_, ?_⟩
    · have : (nb : Int) < hash_sizes.getD (size_idx (nb : Int) + 1) 0 := by
        have : (hash_sizes.getD (size_idx (nb : Int)) 0 : Int)
            < hash_sizes.getD (size_idx (nb : Int) + 1) 0 := by exact_mod_cast l1
        omega
      exact_mod_cast this
    · omega

/-! ## `hashindex_resize` -/

theorem next_key_unfold (index : HashIndex) (key : Option Nat) :
    hashindex_next_key index key =
      if cursor_idx index key = index.num_buckets then some none
      else next_key_loop index (index.num_buckets - cursor_idx index key)
        (cursor_idx index key) := by
  unfold hashindex_next_key cursor_idx
  cases key <;> rfl

theorem cursor_idx_addr (index : HashIndex) (e : Nat) (hbs : 0 < index.bucket_size) :
    cursor_idx index (some (BUCKET_ADDR index e)) = e + 1 := by
  unfold cursor_idx BUCKET_ADDR
  simp only
  rw [Nat.mul_div_cancel _ hbs]
  omega

theorem resize_loop_rule (set : HashIndex → Ptr → Ptr → Option (Int × HashIndex))
    (index : HashIndex) (hbs : 0 < index.bucket_size) (P : HashIndex → Nat → Prop)
    (hskip : ∀ new c, P new c → c < index.num_buckets → isE index c → P new (c + 1))
    (hstep : ∀ new c, P new c → c < index.num_buckets → ¬ isE index c →
      ∃ new1, set new (ptr index.buckets (BUCKET_ADDR index c))
          (ptr index.buckets (BUCKET_ADDR index c + index.key_size)) = some (1, new1) ∧
        P new1 (c + 1)) :
    ∀ fuel new cursor, cursor_idx index cursor ≤ index.num_buckets →
      index.num_buckets + 1 ≤ fuel + cursor_idx index cursor →
      P new (cursor_idx index cursor) →
      ∃ newF, resize_loop set index fuel new cursor = some (some newF) ∧
        P newF index.num_buckets := by
  have hmany : ∀ new d c, P new c → c + d ≤ index.num_buckets →
      (∀ j, c ≤ j → j < c + d → isE index j) → P new (c + d) := by
    intro new d
    induction d with
    | zero => intro c h _ _; exact h
    | succ n ih =>
      intro c h1 h2 h3
      have := ih c h1 (by omega) (fun j a b => h3 j a (by omega))
      exact hskip new (c + n) this (by omega) (h3 (c + n) (by omega) (by omega))
  intro fuel
  induction fuel with
  | zero => intro new cursor h1 h2 _; omega
  | succ n ih =>
    intro new cursor h1 h2 hP
    unfold resize_loop
    rw [next_key_unfold]
    by_cases hc : cursor_idx index cursor = index.num_buckets
    · rw [if_pos hc]
      rw [hc] at hP
      exact ⟨new, rfl, hP⟩
    · rw [if_neg hc]
      rcases next_key_loop_spec index (index.num_buckets - cursor_idx index cursor)
          (cursor_idx index cursor) (by omega) (by omega) with
        ⟨e, r1, r2, r3, r4, r5⟩ | ⟨r1, r2⟩
      · rw [r5]
        simp only
        have hPe : P new e := by
          have := hmany new (e - cursor_idx index cursor) (cursor_idx index cursor) hP
            (by omega) (fun j a b => r4 j a (by omega))
          have e1 : cursor_idx index cursor + (e - cursor_idx index cursor) = e := by omega
          rw [e1] at this
          exact this
        obtain ⟨new1, s1, s2⟩ := hstep new e hPe r2 r3
        rw [s1]
        simp only [show ¬ ((1 : Int) = 0) by omega, if_false]
        have hci := cursor_idx_addr index e hbs
        exact ih new1 (some (BUCKET_ADDR index e)) (by omega) (by omega) (by rw [hci]; exact s2)
      · rw [r2]
        simp only
        have := hmany new (index.num_buckets - cursor_idx index cursor)
          (cursor_idx index cursor) hP (by omega) (fun j a b => r1 j a (by omega))
        have e1 : cursor_idx index cursor + (index.num_buckets - cursor_idx index cursor)
            = index.num_buckets := by omega
        rw [e1] at this
        exact ⟨new, rfl, this⟩

theorem has_empty_of_count (index : HashIndex) (h : num_occupied index < index.num_buckets) :
    HasEmpty index := by
  by_contra hc
  have hall : ∀ i, i < index.num_buckets → ¬ isE index i := by
    intro i hi hE
    exact hc ⟨i, hi, hE⟩
  have := run_le_occupied index 0 index.num_buckets (le_refl _) (fun j _ hj => hall j hj)
  omega

theorem num_occupied_lt_of_has_empty (index : HashIndex) (h : HasEmpty index) :
    num_occupied index < index.num_buckets := by
  obtain ⟨e, he, hE⟩ := h
  have hsub : occupied index ⊆ (Finset.range index.num_buckets).erase e := by
    intro i hi
    rw [mem_occupied] at hi
    rw [Finset.mem_erase, Finset.mem_range]
    refine ⟨?_, hi.1⟩
    intro hc
    rw [hc] at hi
    exact hi.2 hE
  have := Finset.card_le_card hsub
  rw [Finset.card_erase_of_mem (Finset.mem_range.mpr he), Finset.card_range] at this
  unfold num_occupied
  omega

theorem readBytes_ptr (mem : Ptr) (a n : Nat) : readBytes (ptr mem a) 0 n = readBytes mem a n := by
  apply readBytes_ext
  intro r _
  unfold ptr
  simp

theorem filter_lt_succ_occupied (index : HashIndex) (c : Nat) (hc : c < index.num_buckets)
    (hne : ¬ isE index c) :
    (occupied index).filter (fun i => i < c + 1)
      = insert c ((occupied index).filter (fun i => i < c)) ∧
    c ∉ (occupied index).filter (fun i => i < c) := by
  constructor
  · ext i
    simp only [Finset.mem_filter, Finset.mem_insert, mem_occupied]
    constructor
    · rintro ⟨⟨h1, h2⟩, h3⟩
      by_cases hi : i = c
      · exact Or.inl hi
      · exact Or.inr ⟨⟨h1, h2⟩, by omega⟩
    · rintro (h | ⟨⟨h1, h2⟩, h3⟩)
      · rw [h]; exact ⟨⟨hc, hne⟩, by omega⟩
      · exact ⟨⟨h1, h2⟩, by omega⟩
  · simp

theorem filter_lt_succ_empty (index : HashIndex) (c : Nat) (hE : isE index c) :
    (occupied index).filter (fun i => i < c + 1) = (occupied index).filter (fun i => i < c) := by
  ext i
  simp only [Finset.mem_filter, mem_occupied]
  constructor
  · rintro ⟨⟨h1, h2⟩, h3⟩
    have : i ≠ c := by
      intro hc; rw [hc] at h2; exact h2 hE
    exact ⟨⟨h1, h2⟩, by omega⟩
  · rintro ⟨⟨h1, h2⟩, h3⟩
    exact ⟨⟨h1, h2⟩, by omega⟩

theorem resize_inv_init (index : HashIndex) (capacity : Int) (hz : Sz index) :
    ResizeInv index (fit_size capacity)
      (hashindex_init capacity index.key_size index.value_size) 0 := by
  obtain ⟨f1, f2, f3, f4, f5, f6, f7⟩ :=
    init_frame capacity index.key_size index.value_size
  have hE := init_all_empty capacity index.key_size index.value_size
  have hocc := occupied_init capacity index.key_size index.value_size
  refine ⟨?_, ?_, ?_, f1, f3, f4, f6, f7, ?_, ?_, ?_⟩
  · unfold Sz
    rw [f3, f4, f5]
    exact ⟨hz.1, hz.2.1, rfl⟩
  · intro i hi hne
    rw [view_nb, f1] at hi
    exact absurd (hE i hi) hne
  · intro i j hi _ hne
    rw [f1] at hi
    exact absurd (hE i hi) hne
  · unfold num_occupied
    rw [f2, hocc]
    rfl
  · unfold num_occupied
    rw [hocc]
    simp
  · intro k w
    constructor
    · rintro ⟨i, hi, hne, _⟩
      rw [f1] at hi
      exact absurd (hE i hi) hne
    · rintro ⟨i, hi, _⟩
      omega

theorem resize_inv_skip (index : HashIndex) (N : Nat) (new : HashIndex) (c : Nat)
    (h : ResizeInv index N new c) (hE : isE index c) : ResizeInv index N new (c + 1) := by
  refine ⟨h.sz, h.lrh, h.distinct, h.nb, h.ks, h.vs, h.lower, h.upper, h.entries, ?_, ?_⟩
  · rw [filter_lt_succ_empty index c hE]
    exact h.count
  · intro k w
    rw [h.holds k w]
    constructor
    · rintro ⟨i, h1, h2⟩
      exact ⟨i, by omega, h2⟩
    · rintro ⟨i, h1, h2, h3, h4⟩
      have : i ≠ c := by
        intro hc; rw [hc] at h3; exact h3 hE
      exact ⟨i, by omega, h2, h3, h4⟩

theorem resize_inv_step (fuel : Nat) (index : HashIndex) (N : Nat) (new : HashIndex) (c : Nat)
    (hz : Sz index) (hd : DistinctKeys index) (hN : 0 < N)
    (hcount1 : (num_occupied index : Int) ≤ get_upper_limit N + 1)
    (hcount2 : num_occupied index < N) (hf : FitsInt index)
    (h : ResizeInv index N new c) (hc : c < index.num_buckets) (hne : ¬ isE index c) :
    ∃ new1, hashindex_set fuel new (ptr index.buckets (BUCKET_ADDR index c))
        (ptr index.buckets (BUCKET_ADDR index c + index.key_size)) = some (1, new1) ∧
      ResizeInv index N new1 (c + 1) := by
  obtain ⟨fl1, fl2⟩ := filter_lt_succ_occupied index c hc hne
  have hsub : (occupied index).filter (fun i => i < c + 1) ⊆ occupied index :=
    Finset.filter_subset _ _
  have hcard := Finset.card_le_card hsub
  rw [fl1, Finset.card_insert_of_not_mem fl2, ← h.count] at hcard
  change num_occupied new + 1 ≤ num_occupied index at hcard
  have hbs : new.bucket_size = index.bucket_size := by
    rw [h.sz.2.2, hz.2.2, h.ks, h.vs]
  have hinv : Inv new := by
    refine ⟨h.sz, by rw [h.nb]; exact hN, h.lrh, h.distinct, ?_, ?_⟩
    · apply has_empty_of_count
      rw [h.nb]
      omega
    · unfold FitsInt at hf ⊢
      rw [hbs]
      have : (num_occupied new + 1) * index.bucket_size
          ≤ (num_occupied index + 1) * index.bucket_size :=
        Nat.mul_le_mul_right _ (by omega)
      omega
  have hv : le32 (ptr index.buckets (BUCKET_ADDR index c + index.key_size)) ≠ EMPTY := by
    intro hc2
    apply hne
    unfold isE BUCKET_IS_EMPTY
    rw [hc2]
    simp
  have hkb : keyBytes new (ptr index.buckets (BUCKET_ADDR index c)) = keyOf index c := by
    unfold keyBytes keyOf
    rw [readBytes_ptr, h.ks]
  have hvb : valueBytes new (ptr index.buckets (BUCKET_ADDR index c + index.key_size))
      = valOf index c := by
    unfold valueBytes valOf
    rw [readBytes_ptr, h.vs]
  have hu : ¬ new.num_entries > new.upper_limit := by
    rw [h.entries, h.upper]
    omega
  obtain ⟨r, hr⟩ := lookup_total new (ptr index.buckets (BUCKET_ADDR index c)) (some 0) hinv.pos
  obtain ⟨rv, hint⟩ := r
  cases rv with
  | some idx =>
    exfalso
    obtain ⟨s1, s2, s3, _⟩ := lookup_sound new _ (some 0) hint idx hinv.pos hr
    have hh : Holds new (keyOf index c) (valOf new idx) :=
      ⟨idx, s1, s2, by rw [s3]; exact hkb, rfl⟩
    obtain ⟨i, a1, a2, a3, a4, _⟩ := (h.holds _ _).mp hh
    have := hd i c a2 hc a3 hne a4
    omega
  | none =>
    obtain ⟨new1, e, m1, m2, m3, m4, m5, m6, m7, m8, m9, m10, m11⟩ :=
      set_miss_no_grow fuel new _ _ hint hinv hv hu hr
    refine ⟨new1, m1, ?_⟩
    have hocc1 : num_occupied new1 = num_occupied new + 1 := by
      unfold num_occupied
      rw [m8, Finset.card_insert_of_not_mem m9]
    refine ⟨sz_of_shape new1 new m2 h.sz, m6, m7, by rw [m2.1, h.nb], by rw [m2.2.1, h.ks],
      by rw [m2.2.2.1, h.vs], by rw [m4, h.lower], by rw [m5, h.upper], ?_, ?_, ?_⟩
    · rw [m3, h.entries, hocc1]
      push_cast
      rfl
    · rw [hocc1, fl1, Finset.card_insert_of_not_mem fl2, h.count]
    · intro k w
      rw [m11 k w, hkb, hvb]
      constructor
      · rintro (⟨h1, h2⟩ | ⟨h1, h2⟩)
        · exact ⟨c, by omega, hc, hne, h1.symm, h2.symm⟩
        · obtain ⟨i, a1, a2⟩ := (h.holds k w).mp h2
          exact ⟨i, by omega, a2⟩
      · rintro ⟨i, a1, a2, a3, a4, a5⟩
        by_cases hic : i = c
        · left
          rw [hic] at a4 a5
          exact ⟨a4.symm, a5.symm⟩
        · right
          refine ⟨?_, (h.holds k w).mpr ⟨i, by omega, a2, a3, a4, a5⟩⟩
          intro hk
          apply hic
          exact hd i c a2 hc a3 hne (by rw [a4, hk])

theorem view_eq_of_slots (a b : HashIndex) (hs : SameShape a b) (hz : Sz b)
    (h : ∀ i, slot a i = slot b i) : view a = view b := by
  unfold view
  simp only [View.mk.injEq]
  refine ⟨hs.1, ?_, ?_, ?_, ?_⟩
  · funext i; exact propext (slot_congr a b i i hs hz (h i)).1
  · funext i; exact (slot_congr a b i i hs hz (h i)).2.2.2
  · funext i; exact (slot_congr a b i i hs hz (h i)).2.1
  · funext i; exact (slot_congr a b i i hs hz (h i)).2.2.1

theorem occupied_eq_of_view (a b : HashIndex) (h : view a = view b) : occupied a = occupied b := by
  have hnb : a.num_buckets = b.num_buckets := congrArg View.nb h
  have hemp : isE a = isE b := congrArg View.emp h
  exact occupied_congr a b hnb (fun i => by rw [hemp])

theorem holds_eq_of_view (a b : HashIndex) (h : view a = view b) (k w : List Nat) :
    Holds a k w ↔ Holds b k w := by
  rw [holds_iff_view, holds_iff_view, h]

theorem resize_spec (fuel : Nat) (index : HashIndex) (capacity : Int) (hz : Sz index)
    (hd : DistinctKeys index)
    (hcount1 : (num_occupied index : Int) ≤ get_upper_limit (fit_size capacity) + 1)
    (hcount2 : num_occupied index < fit_size capacity) (hf : FitsInt index) :
    ∃ index1, hashindex_resize fuel index capacity = some (1, index1) ∧
      index1.num_buckets = fit_size capacity ∧ index1.key_size = index.key_size ∧
      index1.value_size = index.value_size ∧ index1.bucket_size = index.bucket_size ∧
      index1.num_entries = index.num_entries ∧ LimitsDerived index1 ∧
      Sz index1 ∧ (view index1).LocalRH ∧ DistinctKeys index1 ∧
      occupied index1 ⊆ Finset.range (fit_size capacity) ∧
      num_occupied index1 = num_occupied index ∧
      (∀ k w, Holds index1 k w ↔ Holds index k w) := by
  have hbs : 0 < index.bucket_size := by
    obtain ⟨z1, z2, z3⟩ := hz
    omega
  obtain ⟨newF, l1, l2⟩ := resize_loop_rule (hashindex_set fuel) index hbs
    (ResizeInv index (fit_size capacity))
    (fun new c h _ hE => resize_inv_skip index _ new c h hE)
    (fun new c h hc hne => resize_inv_step fuel index _ new c hz hd (fit_size_pos capacity)
      hcount1 hcount2 hf h hc hne)
    (index.num_buckets + 1) (hashindex_init capacity index.key_size index.value_size) none
    (Nat.zero_le _) (by unfold cursor_idx; omega) (resize_inv_init index capacity hz)
  unfold hashindex_resize resize_with
  simp only [l1]
  have hbs1 : index.bucket_size = newF.bucket_size := by
    rw [l2.sz.2.2, hz.2.2, l2.ks, l2.vs]
  have hshape : SameShape
      { index with
        buckets := newF.buckets
        num_buckets := newF.num_buckets
        lower_limit := newF.lower_limit
        upper_limit := newF.upper_limit } newF :=
    ⟨rfl, l2.ks.symm, l2.vs.symm, hbs1⟩
  have hview := view_eq_of_slots _ newF hshape l2.sz
    (fun i => slot_eq_of _ newF i rfl hbs1)
  have hfilter : (occupied index).filter (fun i => i < index.num_buckets) = occupied index := by
    apply Finset.filter_true_of_mem
    intro i hi
    exact ((mem_occupied index i).mp hi).1
  refine ⟨_, rfl, l2.nb, rfl, rfl, rfl, rfl, ⟨?_, ?_⟩, sz_of_shape _ newF hshape l2.sz, ?_, ?_,
    ?_, ?_, ?_⟩
  · exact l2.nb ▸ l2.lower
  · exact l2.nb ▸ l2.upper
  · rw [hview]; exact l2.lrh
  · rw [distinct_iff_view, hview]; exact l2.distinct
  · intro i hi
    rw [occupied_eq_of_view _ newF hview, mem_occupied, l2.nb] at hi
    exact Finset.mem_range.mpr hi.1
  · unfold num_occupied
    rw [occupied_eq_of_view _ newF hview]
    have := l2.count
    rw [hfilter] at this
    exact this
  · intro k w
    rw [holds_eq_of_view _ newF hview, l2.holds k w]
    constructor
    · rintro ⟨i, _, a2, a3, a4, a5⟩
      exact ⟨i, a2, a3, a4, a5⟩
    · rintro ⟨i, a2, a3, a4, a5⟩
      exact ⟨i, a2, a2, a3, a4, a5⟩

/-! ## `hashindex_set` on a well-formed index -/

theorem present_of_hit (index : HashIndex) (key : Ptr) (idx : Nat) (hint h0 : Option Nat)
    (hn : 0 < index.num_buckets)
    (hl : hashindex_lookup index key h0 = some (some idx, hint)) :
    Present index (keyBytes index key) := by
  obtain ⟨s1, s2, s3, _⟩ := lookup_sound index key h0 hint idx hn hl
  exact ⟨idx, s1, s2, s3⟩

theorem set_spec (fuel : Nat) (index : HashIndex) (key value : Ptr) (hwf : WF index)
    (hv : le32 value ≠ EMPTY) (hfuel : 1 ≤ fuel) :
    ∃ index1, hashindex_set fuel index key value = some (1, index1) ∧
      SetOk index index1 (keyBytes index key) (valueBytes index value) := by
  have hinv := inv_of_wf index hwf
  obtain ⟨r, hr⟩ := lookup_total index key (some 0) hwf.pos
  obtain ⟨rv, hint⟩ := r
  cases rv with
  | some idx =>
    obtain ⟨h1, h2, h3, h4, h5, h6, h7, h8⟩ :=
      set_hit fuel index key value idx hint hwf.sz hwf.pos hwf.distinct hv hr
    have hshape : SameShape (write_value index idx value) index := ⟨rfl, rfl, rfl, rfl⟩
    have hocc : num_occupied (write_value index idx value) = num_occupied index := by
      unfold num_occupied; rw [h7]
    refine ⟨_, h1, ⟨hwf.sz, hwf.pos, ?_, h6, rfl, rfl, hwf.limits, h8, ?_, ?_, ?_, Or.inl rfl⟩⟩
    · rw [h5]
      exact hinv.lrh
    · rw [hocc]
      exact hwf.count
    · intro _
      exact ⟨rfl, hocc, hshape⟩
    · intro hc
      exact absurd ⟨idx, h2, h3, h4⟩ hc
  | none =>
    obtain ⟨skip, m1, m2, m3, m4, m5⟩ :=
      lookup_miss index key hint hwf.sz hwf.pos hinv.lrh hwf.distinct hr
    have hcnt := num_occupied_lt_of_has_empty index hwf.has_empty
    by_cases hu : index.num_entries > index.upper_limit
    · -- the table grows first
      obtain ⟨f, rfl⟩ : ∃ f, fuel = f + 1 := ⟨fuel - 1, by omega⟩
      have hnb : index.num_buckets < 2062383853 := by
        by_contra hc
        have := get_upper_limit_top index.num_buckets (by omega)
        rw [hwf.limits.2, this, hwf.count] at hu
        omega
      obtain ⟨gi, g1, g2, g3, g4⟩ := grow_size_spec index.num_buckets hnb
      have hfit : fit_size (grow_size index.num_buckets : Nat) = grow_size index.num_buckets := by
        rw [g2]
        exact fit_size_of_ladder gi g1
      obtain ⟨index1, r1, r2, r3, r4, r5, r6, r7, r8, r9, r10, r11, r12, r13⟩ :=
        resize_spec f index (grow_size index.num_buckets : Nat) hwf.sz hwf.distinct
          (by rw [hfit]; omega) (by rw [hfit]; omega) hwf.fits
      rw [hfit] at r2
      have hinv1 : Inv index1 := by
        refine ⟨r8, by omega, r9, r10, ?_, ?_⟩
        · apply has_empty_of_count
          omega
        · unfold FitsInt
          rw [r12, r5]
          exact hwf.fits
      have hs1 : hashindex_index index1 key < index1.num_buckets :=
        hashindex_index_lt index1 key hinv1.pos
      have habs1 : ∀ i, i < index1.num_buckets → ¬ isE index1 i →
          keyOf index1 i ≠ readBytes key 0 index1.key_size := by
        intro i hi hne hk
        have hh : Holds index1 (readBytes key 0 index1.key_size) (valOf index1 i) :=
          ⟨i, hi, hne, hk, rfl⟩
        obtain ⟨j, a1, a2, a3, _⟩ := (r13 _ _).mp hh
        rw [r3] at a3
        exact m5 j a1 a2 a3
      obtain ⟨index2, e, i1, i2, i3, i4, i5, i6, i7, i8, i9, i10⟩ :=
        set_insert_inv index1 key value 0 hinv1 hv hinv1.pos (fun j hj => by omega)
          (fun hj => by omega) habs1
      have hset : hashindex_set (f + 1) index key value = some (1, index2) := by
        have hres : resize_with (hashindex_set f) index (grow_size index.num_buckets : Nat)
            = some (1, index1) := r1
        unfold hashindex_set set_with
        simp only [hr, hu, if_true, hres, show ¬ ((1 : Int) = 0) by omega, if_false, i1,
          Option.map_some']
      have hocc2 : num_occupied index2 = num_occupied index + 1 := by
        unfold num_occupied
        rw [i8, Finset.card_insert_of_not_mem i9]
        change num_occupied index1 + 1 = _
        rw [r12]
        rfl
      refine ⟨index2, hset, ⟨sz_of_shape index2 index1 i2 r8, by rw [i2.1]; exact hinv1.pos, i6,
        i7, by rw [i2.2.1, r3], by rw [i2.2.2.1, r4], ?_, ?_, ?_, ?_, ?_, ?_⟩⟩
      · unfold LimitsDerived
        rw [i4, i5, i2.1]
        exact r7
      · apply setpost_of_absent index index2 _ _ m5
        intro k w
        rw [i10 k w, r13 k w, r3, r4]
        rfl
      · rw [i3, r6, hwf.count, hocc2]
        push_cast
        rfl
      · rintro ⟨i, a1, a2, a3⟩
        exact absurd a3 (m5 i a1 a2)
      · intro _
        exact ⟨by rw [i3, r6], hocc2, Or.inr ⟨hu, by rw [i2.1, r2]⟩⟩
      · right
        exact ⟨hu, by rw [i2.1, r2]⟩
    · obtain ⟨index1, e, n1, n2, n3, n4, n5, n6, n7, n8, n9, n10, n11⟩ :=
        set_miss_no_grow fuel index key value hint hinv hv hu hr
      have hocc1 : num_occupied index1 = num_occupied index + 1 := by
        unfold num_occupied
        rw [n8, Finset.card_insert_of_not_mem n9]
      refine ⟨index1, n1, ⟨sz_of_shape index1 index n2 hwf.sz, by rw [n2.1]; exact hwf.pos, n6,
        n7, n2.2.1, n2.2.2.1, ?_, n11, ?_, ?_, ?_, Or.inl n2.1⟩⟩
      · unfold LimitsDerived
        rw [n4, n5, n2.1]
        exact hwf.limits
      · rw [n3, hwf.count, hocc1]
        push_cast
        rfl
      · rintro ⟨i, a1, a2, a3⟩
        exact absurd a3 (n10 i a1 a2)
      · intro _
        exact ⟨n3, hocc1, Or.inl ⟨hu, n2.1⟩⟩

/-! ## `hashindex_delete`: the bucket surgery -/

theorem frame_mark (index : HashIndex) (m : Nat) :
    SameShape (BUCKET_MARK_EMPTY index m) index ∧
      (BUCKET_MARK_EMPTY index m).num_entries = index.num_entries ∧
      (BUCKET_MARK_EMPTY index m).lower_limit = index.lower_limit ∧
      (BUCKET_MARK_EMPTY index m).upper_limit = index.upper_limit :=
  ⟨⟨rfl, rfl, rfl, rfl⟩, rfl, rfl, rfl⟩

theorem delete_simple_slots (index : HashIndex) (idx e : Nat) (hz : Sz index)
    (he : idx + 1 ≤ e) :
    ∃ index1, delete_shift_simple index idx ((((e - (idx + 1)) * index.bucket_size : Nat)) : Int)
        = some index1 ∧
      SameShape index1 index ∧ index1.num_entries = index.num_entries ∧
      index1.lower_limit = index.lower_limit ∧ index1.upper_limit = index.upper_limit ∧
      isE index1 (e - 1) ∧
      (∀ i, i ≠ e - 1 → slot index1 i
        = if idx ≤ i ∧ i < e - 1 then slot index (i + 1) else slot index i) := by
  have hbs : 0 < index.bucket_size := by
    obtain ⟨z1, z2, z3⟩ := hz
    omega
  have hk4 : index.key_size + 4 ≤ index.bucket_size := by
    obtain ⟨z1, z2, z3⟩ := hz
    omega
  unfold delete_shift_simple
  have hnn : ¬ ((((e - (idx + 1)) * index.bucket_size : Nat)) : Int) < 0 := by omega
  rw [if_neg hnn]
  simp only [Int.toNat_ofNat]
  rw [Nat.mul_div_cancel _ hbs]
  have hm : idx + (e - (idx + 1)) = e - 1 := by omega
  rw [hm]
  by_cases hc : e = idx + 1
  · have h0 : ((((e - (idx + 1)) * index.bucket_size : Nat)) : Int) = 0 := by
      rw [hc]; simp
    rw [h0]
    simp only [ne_eq, not_true_eq_false, if_false]
    refine ⟨_, rfl, ⟨rfl, rfl, rfl, rfl⟩, rfl, rfl, rfl, isE_mark_self _ _, ?_⟩
    intro i hi
    rw [slot_mark_other _ _ _ hi hk4, if_neg (by omega)]
  · have h0 : ((((e - (idx + 1)) * index.bucket_size : Nat)) : Int) ≠ 0 := by
      have : 0 < (e - (idx + 1)) * index.bucket_size := Nat.mul_pos (by omega) hbs
      omega
    rw [if_pos h0]
    refine ⟨_, rfl, ⟨rfl, rfl, rfl, rfl⟩, rfl, rfl, rfl, isE_mark_self _ _, ?_⟩
    intro i hi
    rw [slot_mark_other _ _ _ hi, slot_bucket_memmove]
    · by_cases hin : idx ≤ i ∧ i < e - 1
      · rw [if_pos hin, if_pos (by omega)]
        congr 1
        omega
      · rw [if_neg hin, if_neg (by omega)]
    · exact hk4

theorem delete_wrap_slots (index : HashIndex) (idx : Nat) (hz : Sz index) (hf : FitsInt index)
    (hidx : idx < index.num_buckets) (hne : ¬ isE index idx)
    (hrun : ∀ j, idx < j → j < index.num_buckets → ¬ isE index j) (hemp : HasEmpty index) :
    ∃ (index1 : HashIndex) (m : Nat) (src : Nat → Nat),
      delete_shift_wrap index idx = some index1 ∧
      SameShape index1 index ∧ index1.num_entries = index.num_entries ∧
      index1.lower_limit = index.lower_limit ∧ index1.upper_limit = index.upper_limit ∧
      m < index.num_buckets ∧ ¬ isE index m ∧ isE index1 m ∧
      (∀ i, i < index.num_buckets → i ≠ m →
        src i < index.num_buckets ∧ src i ≠ idx ∧ slot index1 i = slot index (src i) ∧
        (isE index (src i) ↔ isE index i)) ∧
      (∀ i j, i < index.num_buckets → j < index.num_buckets → i ≠ m → j ≠ m →
        src i = src j → i = j) := by
  have hbs : 0 < index.bucket_size := by
    obtain ⟨z1, z2, z3⟩ := hz
    omega
  have hk4 : index.key_size + 4 ≤ index.bucket_size := by
    obtain ⟨z1, z2, z3⟩ := hz
    omega
  obtain ⟨e0, he0, hE0⟩ := hemp
  have he0i : e0 < idx := by
    by_contra hc
    by_cases h : e0 = idx
    · rw [h] at hE0; exact hne hE0
    · exact hrun e0 (by omega) he0 hE0
  -- first shift
  generalize h1 : bucket_memmove index idx (idx + 1)
    ((index.num_buckets - idx - 1) * index.bucket_size) = index1
  have f1 : SameShape index1 index ∧ index1.num_entries = index.num_entries ∧
      index1.lower_limit = index.lower_limit ∧ index1.upper_limit = index.upper_limit := by
    rw [← h1]
    exact frame_bucket_memmove _ _ _ _
  have s1 : ∀ i, slot index1 i
      = if idx ≤ i ∧ i < index.num_buckets - 1 then slot index (i + 1) else slot index i := by
    intro i
    rw [← h1, slot_bucket_memmove]
    by_cases hc : idx ≤ i ∧ i < index.num_buckets - 1
    · rw [if_pos hc, if_pos (by omega)]
      congr 1
      omega
    · rw [if_neg hc, if_neg (by omega)]
  have hz1 : Sz index1 := sz_of_shape index1 index f1.1 hz
  have hE1 : ∀ j, j < idx → (isE index1 j ↔ isE index j) := by
    intro j hj
    have : slot index1 j = slot index j := by rw [s1 j, if_neg (by omega)]
    exact (slot_congr index1 index j j f1.1 hz this).1
  unfold delete_shift_wrap
  simp only [h1]
  by_cases hb0 : BUCKET_IS_EMPTY index1 0 = true
  · -- bucket 0 is empty
    rw [if_pos hb0]
    have hk41 : index1.key_size + 4 ≤ index1.bucket_size := by
      rw [f1.1.2.1, f1.1.2.2.2]; exact hk4
    obtain ⟨g1, g2, g3, g4⟩ := frame_mark index1 (index1.num_buckets - 1)
    refine ⟨_, index.num_buckets - 1, fun i => if idx ≤ i ∧ i < index.num_buckets - 1
      then i + 1 else i, rfl, ?_, by rw [g2, f1.2.1], by rw [g3, f1.2.2.1],
      by rw [g4, f1.2.2.2], by omega, ?_, ?_, ?_, ?_⟩
    · obtain ⟨a1, a2, a3, a4⟩ := g1
      obtain ⟨b1, b2, b3, b4⟩ := f1.1
      exact ⟨by rw [a1, b1], by rw [a2, b2], by rw [a3, b3], by rw [a4, b4]⟩
    · by_cases h : idx = index.num_buckets - 1
      · rw [← h]; exact hne
      · exact hrun _ (by omega) (by omega)
    · rw [f1.1.1]
      exact isE_mark_self _ _
    · intro i hi him
      simp only
      have hslot : slot (BUCKET_MARK_EMPTY index1 (index1.num_buckets - 1)) i
          = slot index1 i := by
        apply slot_mark_other _ _ _ _ hk41
        rw [f1.1.1]; exact him
      by_cases hc : idx ≤ i ∧ i < index.num_buckets - 1
      · rw [if_pos hc]
        refine ⟨by omega, by omega, by rw [hslot, s1 i, if_pos hc], ?_⟩
        have a := hrun (i + 1) (by omega) (by omega)
        have b : ¬ isE index i := by
          by_cases h : i = idx
          · rw [h]; exact hne
          · exact hrun i (by omega) hi
        exact ⟨fun h => absurd h a, fun h => absurd h b⟩
      · rw [if_neg hc]
        refine ⟨hi, by omega, by rw [hslot, s1 i, if_neg hc], Iff.rfl⟩
    · intro i j hi hj him hjm
      simp only
      split <;> split <;> omega
  · -- bucket 0 is occupied: it moves to the last bucket
    rw [if_neg hb0]
    have hidx1 : 1 ≤ idx := by omega
    have hocc0 : ¬ isE index 0 := by
      intro hc
      exact hb0 ((hE1 0 (by omega)).mpr hc)
    generalize h2 : bucket_memmove index1 (index1.num_buckets - 1) 0 index1.bucket_size = index2
    have f2 : SameShape index2 index ∧ index2.num_entries = index.num_entries ∧
        index2.lower_limit = index.lower_limit ∧ index2.upper_limit = index.upper_limit := by
      rw [← h2]
      obtain ⟨⟨b1, b2, b3, b4⟩, b5, b6, b7⟩ := f1
      exact ⟨⟨b1, b2, b3, b4⟩, b5, b6, b7⟩
    have s2 : ∀ i, slot index2 i
        = if i = index.num_buckets - 1 then slot index 0
          else if idx ≤ i ∧ i < index.num_buckets - 1 then slot index (i + 1)
          else slot index i := by
      intro i
      have hmm := slot_bucket_memmove index1 (index1.num_buckets - 1) 0 1 i
      rw [Nat.one_mul, h2, f1.1.1] at hmm
      rw [hmm]
      by_cases hc : i = index.num_buckets - 1
      · rw [if_pos (by omega), if_pos hc, s1, if_neg (by omega)]
        congr 1
        omega
      · rw [if_neg (by omega), if_neg hc, s1 i]
    have hz2 : Sz index2 := sz_of_shape index2 index f2.1 hz
    have hacc2 : ∀ j, j < idx → ((isE index2 j ↔ isE index j) ∧
        bucket_distance index2 j = bucket_distance index j) := by
      intro j hj
      have : slot index2 j = slot index j := by
        rw [s2 j, if_neg (by omega), if_neg (by omega)]
      have c := slot_congr index2 index j j f2.1 hz this
      refine ⟨c.1, ?_⟩
      rw [bucket_distance_eq, bucket_distance_eq, c.2.2.2, f2.1.1]
    have he01 : 1 ≤ e0 := by
      by_contra hc
      have : e0 = 0 := by omega
      rw [this] at hE0
      exact hocc0 hE0
    -- the scan from bucket 1
    have hscan : ∃ e, 1 ≤ e ∧ e ≤ e0 ∧ (∀ j, 1 ≤ j → j < e → ¬ isE index j) ∧
        lshift_chunk_size index2 1 = ((((e - 1) * index.bucket_size : Nat)) : Int) := by
      unfold lshift_chunk_size
      rcases lshift_chunk_loop_spec index2 1 (index2.num_buckets - 1) 1
        (by rw [f2.1.1]; omega) (le_refl _) with ⟨e, r1, r2, r3, r4, r5⟩ | ⟨r1, r2⟩
      · have hee : e ≤ e0 := by
          by_contra hc
          exact (r4 e0 (by omega) (by omega)).1 ((hacc2 e0 he0i).1.mpr hE0)
        have hr : ∀ j, 1 ≤ j → j < e → ¬ isE index j := by
          intro j hj1 hj2 hc
          exact (r4 j hj1 hj2).1 ((hacc2 j (by omega)).1.mpr hc)
        refine ⟨e, r1, hee, hr, ?_⟩
        rw [r5, f2.1.2.2.2]
        exact chunk_fits index hf (e - 1)
          (run_le_occupied index 1 e (by omega) hr)
      · exfalso
        rw [f2.1.1] at r1
        exact (r1 e0 (by omega) he0).1 ((hacc2 e0 he0i).1.mpr hE0)
    obtain ⟨e, e1, e2, e3, e4⟩ := hscan
    have hk42 : index2.key_size + 4 ≤ index2.bucket_size := by
      rw [f2.1.2.1, f2.1.2.2.2]; exact hk4
    simp only [h2, e4]
    -- the common description of the result
    have hsrc_inj : ∀ i j, i < index.num_buckets → j < index.num_buckets → i ≠ e - 1 →
        j ≠ e - 1 →
        (if i = index.num_buckets - 1 then 0
          else if i < e - 1 ∨ (idx ≤ i ∧ i < index.num_buckets - 1) then i + 1 else i)
        = (if j = index.num_buckets - 1 then 0
          else if j < e - 1 ∨ (idx ≤ j ∧ j < index.num_buckets - 1) then j + 1 else j) →
        i = j := by
      intro i j hi hj him hjm
      split <;> split <;> (try split) <;> (try split) <;> omega
    have hfacts : ∀ index3 : HashIndex, SameShape index3 index →
        (∀ i, i ≠ e - 1 → slot index3 i
          = if i < e - 1 then slot index2 (i + 1) else slot index2 i) →
        ∀ i, i < index.num_buckets → i ≠ e - 1 →
          (if i = index.num_buckets - 1 then 0
            else if i < e - 1 ∨ (idx ≤ i ∧ i < index.num_buckets - 1) then i + 1 else i)
            < index.num_buckets ∧
          (if i = index.num_buckets - 1 then 0
            else if i < e - 1 ∨ (idx ≤ i ∧ i < index.num_buckets - 1) then i + 1 else i)
            ≠ idx ∧
          slot index3 i = slot index
            (if i = index.num_buckets - 1 then 0
              else if i < e - 1 ∨ (idx ≤ i ∧ i < index.num_buckets - 1) then i + 1 else i) ∧
          (isE index
            (if i = index.num_buckets - 1 then 0
              else if i < e - 1 ∨ (idx ≤ i ∧ i < index.num_buckets - 1) then i + 1 else i)
            ↔ isE index i) := by
      intro index3 _ hs3 i hi him
      have hocci : ∀ j, idx ≤ j → j < index.num_buckets → ¬ isE index j := by
        intro j h1 h2
        by_cases h : j = idx
        · rw [h]; exact hne
        · exact hrun j (by omega) h2
      by_cases c1 : i = index.num_buckets - 1
      · rw [if_pos c1]
        refine ⟨by omega, by omega, ?_, ?_⟩
        · rw [hs3 i him, if_neg (by omega), s2 i, if_pos c1]
        · exact ⟨fun h => absurd h hocc0, fun h => absurd h (hocci i (by omega) hi)⟩
      · rw [if_neg c1]
        by_cases c2 : i < e - 1
        · rw [if_pos (Or.inl c2)]
          refine ⟨by omega, by omega, ?_, ?_⟩
          · rw [hs3 i him, if_pos c2, s2 (i + 1), if_neg (by omega), if_neg (by omega)]
          · have a := e3 (i + 1) (by omega) (by omega)
            have b : ¬ isE index i := by
              by_cases h : i = 0
              · rw [h]; exact hocc0
              · exact e3 i (by omega) (by omega)
            exact ⟨fun h => absurd h a, fun h => absurd h b⟩
        · by_cases c3 : idx ≤ i ∧ i < index.num_buckets - 1
          · rw [if_pos (Or.inr c3)]
            refine ⟨by omega, by omega, ?_, ?_⟩
            · rw [hs3 i him, if_neg c2, s2 i, if_neg c1, if_pos c3]
            · exact ⟨fun h => absurd h (hocci (i + 1) (by omega) (by omega)),
                fun h => absurd h (hocci i (by omega) hi)⟩
          · rw [if_neg (by omega)]
            refine ⟨hi, by omega, ?_, Iff.rfl⟩
            rw [hs3 i him, if_neg c2, s2 i, if_neg c1, if_neg c3]
    have hem : ¬ isE index (e - 1) := by
      by_cases h : e - 1 = 0
      · rw [h]; exact hocc0
      · exact e3 (e - 1) (by omega) (by omega)
    by_cases hc0 : e = 1
    · have h0 : ((((e - 1) * index.bucket_size : Nat)) : Int) = 0 := by
        rw [hc0]; simp
      rw [if_pos h0]
      obtain ⟨g1, g2, g3, g4⟩ := frame_mark index2 0
      have hshape : SameShape (BUCKET_MARK_EMPTY index2 0) index := by
        obtain ⟨a1, a2, a3, a4⟩ := g1
        obtain ⟨b1, b2, b3, b4⟩ := f2.1
        exact ⟨by rw [a1, b1], by rw [a2, b2], by rw [a3, b3], by rw [a4, b4]⟩
      have hm0 : e - 1 = 0 := by omega
      refine ⟨_, e - 1, _, rfl, hshape, by rw [g2, f2.2.1], by rw [g3, f2.2.2.1],
        by rw [g4, f2.2.2.2], by omega, hem, ?_, ?_, hsrc_inj⟩
      · rw [hm0]; exact isE_mark_self _ _
      · apply hfacts _ hshape
        intro i hi
        rw [if_neg (by omega)]
        apply slot_mark_other _ _ _ _ hk42
        omega
    · have h0 : ¬ ((((e - 1) * index.bucket_size : Nat)) : Int) = 0 := by
        have : 0 < (e - 1) * index.bucket_size := Nat.mul_pos (by omega) hbs
        omega
      have hnn : ¬ ((((e - 1) * index.bucket_size : Nat)) : Int) < 0 := by omega
      rw [if_neg h0, if_neg hnn]
      simp only [Int.toNat_ofNat]
      have hb3 : (bucket_memmove index2 0 1 ((e - 1) * index.bucket_size)).bucket_size
          = index.bucket_size := f2.1.2.2.2
      rw [hb3, Nat.mul_div_cancel _ hbs]
      obtain ⟨g1, g2, g3, g4⟩ :=
        frame_mark (bucket_memmove index2 0 1 ((e - 1) * index.bucket_size)) (e - 1)
      have hshape : SameShape (BUCKET_MARK_EMPTY
          (bucket_memmove index2 0 1 ((e - 1) * index.bucket_size)) (e - 1)) index := by
        obtain ⟨b1, b2, b3, b4⟩ := f2.1
        exact ⟨b1, b2, b3, b4⟩
      refine ⟨_, e - 1, _, rfl, hshape, f2.2.1, f2.2.2.1, f2.2.2.2, by omega, hem,
        isE_mark_self _ _, ?_, hsrc_inj⟩
      apply hfacts _ hshape
      intro i hi
      rw [slot_mark_other _ _ _ hi]
      · have hmm := slot_bucket_memmove index2 0 1 (e - 1) i
        rw [f2.1.2.2.2] at hmm
        rw [hmm]
        by_cases c : i < e - 1
        · rw [if_pos (by omega), if_pos c, Nat.sub_zero]
        · rw [if_neg (by omega), if_neg c]
      · exact hk42

theorem delete_shift_spec (index : HashIndex) (idx : Nat) (hz : Sz index) (hf : FitsInt index)
    (hemp : HasEmpty index) (hidx : idx < index.num_buckets) (hne : ¬ isE index idx) :
    ∃ (index1 : HashIndex) (m : Nat) (src : Nat → Nat),
      delete_shift index idx = some index1 ∧
      SameShape index1 index ∧ index1.num_entries = index.num_entries ∧
      index1.lower_limit = index.lower_limit ∧ index1.upper_limit = index.upper_limit ∧
      m < index.num_buckets ∧ ¬ isE index m ∧ isE index1 m ∧
      (∀ i, i < index.num_buckets → i ≠ m →
        src i < index.num_buckets ∧ src i ≠ idx ∧ slot index1 i = slot index (src i) ∧
        (isE index (src i) ↔ isE index i)) ∧
      (∀ i j, i < index.num_buckets → j < index.num_buckets → i ≠ m → j ≠ m →
        src i = src j → i = j) := by
  unfold delete_shift
  by_cases hlast : idx + 1 < index.num_buckets
  · simp only [hlast, if_true]
    rcases lshift_chunk_size_spec index hf (idx + 1) (by omega) with
      ⟨e, r1, r2, r3, r4, r5⟩ | ⟨r1, r2⟩
    · rw [r5]
      have hne1 : ((((e - (idx + 1)) * index.bucket_size : Nat)) : Int) ≠ -1 := by omega
      rw [if_pos hne1]
      obtain ⟨index1, d1, d2, d3, d4, d5, d6, d7⟩ := delete_simple_slots index idx e hz r1
      have hocc : ∀ j, idx ≤ j → j < e → ¬ isE index j := by
        intro j h1 h2
        by_cases h : j = idx
        · rw [h]; exact hne
        · exact (r4 j (by omega) h2).1
      refine ⟨index1, e - 1, fun i => if idx ≤ i ∧ i < e - 1 then i + 1 else i, d1, d2, d3, d4,
        d5, by omega, hocc _ (by omega) (by omega), d6, ?_, ?_⟩
      · intro i hi him
        simp only
        by_cases hc : idx ≤ i ∧ i < e - 1
        · rw [if_pos hc]
          refine ⟨by omega, by omega, by rw [d7 i him, if_pos hc], ?_⟩
          exact ⟨fun h => absurd h (hocc (i + 1) (by omega) (by omega)),
            fun h => absurd h (hocc i (by omega) (by omega))⟩
        · rw [if_neg hc]
          refine ⟨hi, by omega, by rw [d7 i him, if_neg hc], Iff.rfl⟩
      · intro i j hi hj him hjm
        simp only
        split <;> split <;> omega
    · rw [r2]
      simp only [ne_eq, not_true_eq_false, if_false]
      exact delete_wrap_slots index idx hz hf hidx hne
        (fun j h1 h2 => (r1 j (by omega) h2).1) hemp
  · simp only [hlast, if_false, ne_eq, not_true_eq_false]
    exact delete_wrap_slots index idx hz hf hidx hne (fun j h1 h2 => by omega) hemp

theorem delete_shift_facts (index : HashIndex) (idx : Nat) (hz : Sz index) (hf : FitsInt index)
    (hemp : HasEmpty index) (hidx : idx < index.num_buckets) (hne : ¬ isE index idx) :
    ∃ (index1 : HashIndex) (m : Nat), delete_shift index idx = some index1 ∧
      SameShape index1 index ∧ index1.num_entries = index.num_entries ∧
      index1.lower_limit = index.lower_limit ∧ index1.upper_limit = index.upper_limit ∧
      m ∈ occupied index ∧ occupied index1 = (occupied index).erase m ∧
      (∀ k w, Holds index1 k w → ∃ j, j < index.num_buckets ∧ j ≠ idx ∧ ¬ isE index j ∧
        keyOf index j = k ∧ valOf index j = w) ∧
      (DistinctKeys index → DistinctKeys index1) := by
  obtain ⟨index1, m, src, d1, d2, d3, d4, d5, d6, d7, d8, d9, d10⟩ :=
    delete_shift_spec index idx hz hf hemp hidx hne
  have hacc : ∀ i, i < index.num_buckets → i ≠ m →
      (isE index1 i ↔ isE index (src i)) ∧ keyOf index1 i = keyOf index (src i) ∧
      valOf index1 i = valOf index (src i) := by
    intro i hi him
    obtain ⟨a1, a2, a3, a4⟩ := d9 i hi him
    have c := slot_congr index1 index i (src i) d2 hz a3
    exact ⟨c.1, c.2.1, c.2.2.1⟩
  refine ⟨index1, m, d1, d2, d3, d4, d5, (mem_occupied index m).mpr ⟨d6, d7⟩, ?_, ?_, ?_⟩
  · ext i
    rw [Finset.mem_erase, mem_occupied, mem_occupied, d2.1]
    constructor
    · rintro ⟨h1, h2⟩
      have him : i ≠ m := by
        intro hc; rw [hc] at h2; exact h2 d8
      refine ⟨him, h1, ?_⟩
      rw [← (d9 i h1 him).2.2.2, ← (hacc i h1 him).1]
      exact h2
    · rintro ⟨h1, h2, h3⟩
      refine ⟨h2, ?_⟩
      rw [(hacc i h2 h1).1, (d9 i h2 h1).2.2.2]
      exact h3
  · rintro k w ⟨i, h1, h2, h3, h4⟩
    rw [d2.1] at h1
    have him : i ≠ m := by
      intro hc; rw [hc] at h2; exact h2 d8
    obtain ⟨a1, a2, a3, a4⟩ := d9 i h1 him
    obtain ⟨b1, b2, b3⟩ := hacc i h1 him
    exact ⟨src i, a1, a2, by rw [← b1]; exact h2, by rw [← b2]; exact h3,
      by rw [← b3]; exact h4⟩
  · intro hd i j hi hj hni hnj hk
    rw [d2.1] at hi hj
    have him : i ≠ m := by
      intro hc; rw [hc] at hni; exact hni d8
    have hjm : j ≠ m := by
      intro hc; rw [hc] at hnj; exact hnj d8
    obtain ⟨a1, a2, a3, a4⟩ := d9 i hi him
    obtain ⟨b1, b2, b3⟩ := hacc i hi him
    obtain ⟨a5, a6, a7, a8⟩ := d9 j hj hjm
    obtain ⟨b4, b5, b6⟩ := hacc j hj hjm
    apply d10 i j hi hj him hjm
    apply hd (src i) (src j) a1 a5
    · rw [← b1]; exact hni
    · rw [← b4]; exact hnj
    · rw [← b2, ← b5]; exact hk

/-! ## `hashindex_resize` in general: the new table may grow while it is filled -/

theorem wf_of_parts (index : HashIndex) (hz : Sz index) (hn : 0 < index.num_buckets)
    (hlrh : (view index).LocalRH) (hd : DistinctKeys index)
    (hroom : num_occupied index < index.num_buckets)
    (hcount : index.num_entries = num_occupied index) (hl : LimitsDerived index)
    (hf : FitsInt index) : WF index :=
  ⟨hz, hn, hd, (global_of_localRH index hn hlrh).1, (global_of_localRH index hn hlrh).2,
    has_empty_of_count index hroom, hcount, hl, hf⟩

theorem fits_count_bound (index : HashIndex) (hz : Sz index) (hf : FitsInt index) :
    num_occupied index + 1 < 268435456 := by
  unfold FitsInt at hf
  obtain ⟨z1, z2, z3⟩ := hz
  have h8 : 8 ≤ index.bucket_size := by omega
  have : (num_occupied index + 1) * 8 ≤ (num_occupied index + 1) * index.bucket_size :=
    Nat.mul_le_mul_left _ h8
  omega

theorem resize_inv2_init (index : HashIndex) (capacity : Int) (hz : Sz index) :
    ResizeInv2 index (hashindex_init capacity index.key_size index.value_size) 0 := by
  have h := resize_inv_init index capacity hz
  obtain ⟨s1, _, _⟩ := size_idx_spec capacity
  have hocc := occupied_init capacity index.key_size index.value_size
  refine ⟨h.sz, h.lrh, h.distinct, ⟨size_idx capacity, s1, h.nb⟩, h.ks, h.vs,
    ⟨by rw [h.lower, h.nb], by rw [h.upper, h.nb]⟩, h.entries, ?_, h.count, h.holds⟩
  unfold num_occupied
  rw [hocc, h.nb]
  exact fit_size_pos capacity

theorem resize_inv2_skip (index : HashIndex) (new : HashIndex) (c : Nat)
    (h : ResizeInv2 index new c) (hE : isE index c) : ResizeInv2 index new (c + 1) := by
  refine ⟨h.sz, h.lrh, h.distinct, h.ladder, h.ks, h.vs, h.limits, h.entries, h.room, ?_, ?_⟩
  · rw [filter_lt_succ_empty index c hE]
    exact h.count
  · intro k w
    rw [h.holds k w]
    constructor
    · rintro ⟨i, h1, h2⟩
      exact ⟨i, by omega, h2⟩
    · rintro ⟨i, h1, h2, h3, h4⟩
      have : i ≠ c := by
        intro hc; rw [hc] at h3; exact h3 hE
      exact ⟨i, by omega, h2, h3, h4⟩

theorem resize_inv2_step (fuel : Nat) (index : HashIndex) (new : HashIndex) (c : Nat)
    (hfuel : 1 ≤ fuel) (hz : Sz index) (hd : DistinctKeys index) (hf : FitsInt index)
    (h : ResizeInv2 index new c) (hc : c < index.num_buckets) (hne : ¬ isE index c) :
    ∃ new1, hashindex_set fuel new (ptr index.buckets (BUCKET_ADDR index c))
        (ptr index.buckets (BUCKET_ADDR index c + index.key_size)) = some (1, new1) ∧
      ResizeInv2 index new1 (c + 1) := by
  obtain ⟨fl1, fl2⟩ := filter_lt_succ_occupied index c hc hne
  have hsub : (occupied index).filter (fun i => i < c + 1) ⊆ occupied index :=
    Finset.filter_subset _ _
  have hcard := Finset.card_le_card hsub
  rw [fl1, Finset.card_insert_of_not_mem fl2, ← h.count] at hcard
  change num_occupied new + 1 ≤ num_occupied index at hcard
  have hbound := fits_count_bound index hz hf
  have hbs : new.bucket_size = index.bucket_size := by
    rw [h.sz.2.2, hz.2.2, h.ks, h.vs]
  have hfits : ∀ x : HashIndex, x.bucket_size = index.bucket_size →
      num_occupied x ≤ num_occupied index → FitsInt x := by
    intro x hx hle
    unfold FitsInt at hf ⊢
    rw [hx]
    have : (num_occupied x + 1) * index.bucket_size
        ≤ (num_occupied index + 1) * index.bucket_size :=
      Nat.mul_le_mul_right _ (by omega)
    omega
  obtain ⟨gi, g1, g2⟩ := h.ladder
  have hpos : 0 < new.num_buckets := by
    have := ladder_ge gi g1
    omega
  have hwf : WF new := wf_of_parts new h.sz hpos h.lrh h.distinct h.room h.entries h.limits
    (hfits new hbs (by omega))
  have hv : le32 (ptr index.buckets (BUCKET_ADDR index c + index.key_size)) ≠ EMPTY := by
    intro hc2
    apply hne
    unfold isE BUCKET_IS_EMPTY
    rw [hc2]
    simp
  have hkb : keyBytes new (ptr index.buckets (BUCKET_ADDR index c)) = keyOf index c := by
    unfold keyBytes keyOf
    rw [readBytes_ptr, h.ks]
  have hvb : valueBytes new (ptr index.buckets (BUCKET_ADDR index c + index.key_size))
      = valOf index c := by
    unfold valueBytes valOf
    rw [readBytes_ptr, h.vs]
  obtain ⟨new1, s1, s2⟩ := set_spec fuel new _ _ hwf hv hfuel
  rw [hkb, hvb] at s2
  have habs : ¬ Present new (keyOf index c) := by
    rintro ⟨i, a1, a2, a3⟩
    have hh : Holds new (keyOf index c) (valOf new i) := ⟨i, a1, a2, a3, rfl⟩
    obtain ⟨j, b1, b2, b3, b4, _⟩ := (h.holds _ _).mp hh
    have := hd j c b2 hc b3 hne b4
    omega
  obtain ⟨t1, t2, t3⟩ := s2.absent habs
  have hbs1 : new1.bucket_size = index.bucket_size := by
    rw [s2.sz.2.2, hz.2.2, s2.ks, s2.vs, h.ks, h.vs]
  refine ⟨new1, s1, ⟨s2.sz, s2.lrh, s2.distinct, ?_, by rw [s2.ks, h.ks], by rw [s2.vs, h.vs],
    s2.limits, s2.count, ?_, ?_, ?_⟩⟩
  · rcases t3 with ⟨_, t3⟩ | ⟨hu, t3⟩
    · exact ⟨gi, g1, by rw [t3, g2]⟩
    · have hnb : new.num_buckets < 2062383853 := by
        by_contra hcc
        have := get_upper_limit_top new.num_buckets (by omega)
        rw [h.limits.2, this, h.entries] at hu
        have := h.room
        omega
      obtain ⟨gj, j1, j2, _, _⟩ := grow_size_spec new.num_buckets hnb
      exact ⟨gj, j1, by rw [t3, j2]⟩
  · rw [t2]
    rcases t3 with ⟨hu, t3⟩ | ⟨hu, t3⟩
    · rw [t3]
      rcases ladder_upper gi g1 with hl | hl
      · rw [← g2, ← h.limits.2] at hl
        rw [h.entries] at hu
        omega
      · have e57 : hash_sizes.getD 57 0 = 2062383853 := by decide
        rw [g2, hl, e57]
        omega
    · have hnb : new.num_buckets < 2062383853 := by
        by_contra hcc
        have := get_upper_limit_top new.num_buckets (by omega)
        rw [h.limits.2, this, h.entries] at hu
        have := h.room
        omega
      obtain ⟨gj, j1, j2, j3, _⟩ := grow_size_spec new.num_buckets hnb
      rw [t3]
      have := h.room
      omega
  · rw [t2, fl1, Finset.card_insert_of_not_mem fl2, h.count]
  · intro k w
    rw [s2.post k w]
    constructor
    · rintro (⟨h1, h2⟩ | ⟨h1, h2⟩)
      · exact ⟨c, by omega, hc, hne, h1.symm, h2.symm⟩
      · obtain ⟨i, a1, a2⟩ := (h.holds k w).mp h2
        exact ⟨i, by omega, a2⟩
    · rintro ⟨i, a1, a2, a3, a4, a5⟩
      by_cases hic : i = c
      · left
        rw [hic] at a4 a5
        exact ⟨a4.symm, a5.symm⟩
      · right
        refine ⟨?_, (h.holds k w).mpr ⟨i, by omega, a2, a3, a4, a5⟩⟩
        intro hk
        apply hic
        exact hd i c a2 hc a3 hne (by rw [a4, hk])

theorem resize_spec2 (fuel : Nat) (index : HashIndex) (capacity : Int) (hfuel : 1 ≤ fuel)
    (hz : Sz index) (hd : DistinctKeys index) (hf : FitsInt index) :
    ∃ index1, hashindex_resize fuel index capacity = some (1, index1) ∧
      (∃ gi, gi ≤ 57 ∧ index1.num_buckets = hash_sizes.getD gi 0) ∧
      index1.key_size = index.key_size ∧
      index1.value_size = index.value_size ∧ index1.bucket_size = index.bucket_size ∧
      index1.num_entries = index.num_entries ∧ LimitsDerived index1 ∧
      Sz index1 ∧ (view index1).LocalRH ∧ DistinctKeys index1 ∧
      num_occupied index1 < index1.num_buckets ∧
      num_occupied index1 = num_occupied index ∧
      (∀ k w, Holds index1 k w ↔ Holds index k w) := by
  have hbs : 0 < index.bucket_size := by
    obtain ⟨z1, z2, z3⟩ := hz
    omega
  obtain ⟨newF, l1, l2⟩ := resize_loop_rule (hashindex_set fuel) index hbs
    (ResizeInv2 index)
    (fun new c h _ hE => resize_inv2_skip index new c h hE)
    (fun new c h hc hne => resize_inv2_step fuel index new c hfuel hz hd hf h hc hne)
    (index.num_buckets + 1) (hashindex_init capacity index.key_size index.value_size) none
    (Nat.zero_le _) (by unfold cursor_idx; omega) (resize_inv2_init index capacity hz)
  unfold hashindex_resize resize_with
  simp only [l1]
  have hbs1 : index.bucket_size = newF.bucket_size := by
    rw [l2.sz.2.2, hz.2.2, l2.ks, l2.vs]
  have hshape : SameShape
      { index with
        buckets := newF.buckets
        num_buckets := newF.num_buckets
        lower_limit := newF.lower_limit
        upper_limit := newF.upper_limit } newF :=
    ⟨rfl, l2.ks.symm, l2.vs.symm, hbs1⟩
  have hview := view_eq_of_slots _ newF hshape l2.sz
    (fun i => slot_eq_of _ newF i rfl hbs1)
  have hfilter : (occupied index).filter (fun i => i < index.num_buckets) = occupied index := by
    apply Finset.filter_true_of_mem
    intro i hi
    exact ((mem_occupied index i).mp hi).1
  have hocc : num_occupied { index with
        buckets := newF.buckets
        num_buckets := newF.num_buckets
        lower_limit := newF.lower_limit
        upper_limit := newF.upper_limit } = num_occupied newF := by
    unfold num_occupied
    rw [occupied_eq_of_view _ newF hview]
  refine ⟨_, rfl, l2.ladder, rfl, rfl, rfl, rfl, l2.limits, sz_of_shape _ newF hshape l2.sz,
    ?_, ?_, ?_, ?_, ?_⟩
  · rw [hview]; exact l2.lrh
  · rw [distinct_iff_view, hview]; exact l2.distinct
  · rw [hocc]; exact l2.room
  · rw [hocc]
    have := l2.count
    rw [hfilter] at this
    exact this
  · intro k w
    rw [holds_eq_of_view _ newF hview, l2.holds k w]
    constructor
    · rintro ⟨i, _, a2, a3, a4, a5⟩
      exact ⟨i, a2, a3, a4, a5⟩
    · rintro ⟨i, a2, a3, a4, a5⟩
      exact ⟨i, a2, a2, a3, a4, a5⟩

/-! ## `hashindex_delete` -/

theorem fits_of_le (a b : HashIndex) (hbs : a.bucket_size = b.bucket_size)
    (hle : num_occupied a ≤ num_occupied b) (hf : FitsInt b) : FitsInt a := by
  unfold FitsInt at hf ⊢
  rw [hbs]
  have : (num_occupied a + 1) * b.bucket_size ≤ (num_occupied b + 1) * b.bucket_size :=
    Nat.mul_le_mul_right _ (by omega)
  omega

theorem absent_of_holds (index : HashIndex) (K : List Nat) (hn : 0 < index.num_buckets)
    (h : ∀ k w, Holds index k w → k ≠ K) :
    ∀ i, i < index.num_buckets → ¬ isE index i → keyOf index i ≠ K := by
  intro i hi hne
  have _hn := hn
  exact h _ _ ⟨i, hi, hne, rfl, rfl⟩

theorem delete_hit_shrink (fuel : Nat) (index : HashIndex) (key : Ptr) (idx : Nat)
    (hint : Option Nat) (index1 index2 index3 : HashIndex)
    (hr : hashindex_lookup index key none = some (some idx, hint))
    (f1 : delete_shift index idx = some index1)
    (hi2 : index2 = { index1 with num_entries := index1.num_entries - 1 })
    (hlow : index2.num_entries < index2.lower_limit)
    (r1 : hashindex_resize fuel index2 (shrink_size index2.num_buckets : Nat)
      = some (1, index3)) :
    hashindex_delete fuel index key = some (1, index3) := by
  subst hi2
  unfold hashindex_delete
  rw [hr]
  simp only [f1]
  rw [if_pos hlow, r1]
  simp

theorem delete_hit_keep (fuel : Nat) (index : HashIndex) (key : Ptr) (idx : Nat)
    (hint : Option Nat) (index1 index2 : HashIndex)
    (hr : hashindex_lookup index key none = some (some idx, hint))
    (f1 : delete_shift index idx = some index1)
    (hi2 : index2 = { index1 with num_entries := index1.num_entries - 1 })
    (hlow : ¬ index2.num_entries < index2.lower_limit) :
    hashindex_delete fuel index key = some (1, index2) := by
  subst hi2
  unfold hashindex_delete
  rw [hr]
  simp only [f1]
  rw [if_neg hlow]

theorem delete_spec (fuel : Nat) (index : HashIndex) (key : Ptr) (hfuel : 1 ≤ fuel)
    (hz : Sz index) (hn : 0 < index.num_buckets) (hd : DistinctKeys index)
    (hemp : HasEmpty index) (hf : FitsInt index) :
    ∃ index1, hashindex_delete fuel index key = some (1, index1) ∧
      Sz index1 ∧ 0 < index1.num_buckets ∧
      index1.key_size = index.key_size ∧ index1.value_size = index.value_size ∧
      DistinctKeys index1 ∧
      hashindex_get_value index1 key = some none ∧
      (∀ hint, hashindex_lookup index key none = some (none, hint) → index1 = index) ∧
      (∀ idx hint, hashindex_lookup index key none = some (some idx, hint) →
        index1.num_entries = index.num_entries - 1 ∧
        num_occupied index1 + 1 = num_occupied index ∧
        (∀ k w, Holds index1 k w → k ≠ keyBytes index key ∧ Holds index k w)) := by
  obtain ⟨r, hr⟩ := lookup_total index key none hn
  obtain ⟨rv, hint⟩ := r
  cases rv with
  | none =>
    refine ⟨index, ?_, hz, hn, rfl, rfl, hd, ?_, fun _ _ => rfl, ?_⟩
    · unfold hashindex_delete
      rw [hr]
    · unfold hashindex_get_value hashindex_get
      rw [hr]
      rfl
    · intro idx hint1 h
      rw [hr] at h
      simp at h
  | some idx =>
    obtain ⟨s1, s2, s3, _⟩ := lookup_sound index key none hint idx hn hr
    obtain ⟨index1, m, f1, f2, f3, f4, f5, f6, f7, f8, f9⟩ :=
      delete_shift_facts index idx hz hf hemp s1 s2
    have hcard : num_occupied index1 + 1 = num_occupied index := by
      unfold num_occupied
      rw [f7, Finset.card_erase_of_mem f6]
      have : 0 < (occupied index).card := Finset.card_pos.mpr ⟨m, f6⟩
      omega
    have hholds1 : ∀ k w, Holds index1 k w → k ≠ keyBytes index key ∧ Holds index k w := by
      intro k w hh
      obtain ⟨j, j1, j2, j3, j4, j5⟩ := f8 k w hh
      refine ⟨?_, ⟨j, j1, j3, j4, j5⟩⟩
      intro hk
      apply j2
      apply hd j idx j1 s1 j3 s2
      rw [j4, hk, s3]
      rfl
    have hz1 : Sz index1 := sz_of_shape index1 index f2 hz
    have hn1 : 0 < index1.num_buckets := by rw [f2.1]; exact hn
    have hd1 : DistinctKeys index1 := f9 hd
    obtain ⟨index2, hi2⟩ : ∃ x : HashIndex,
        x = { index1 with num_entries := index1.num_entries - 1 } := ⟨_, rfl⟩
    have e_b : index2.buckets = index1.buckets := by rw [hi2]
    have e_nb : index2.num_buckets = index1.num_buckets := by rw [hi2]
    have e_ks : index2.key_size = index1.key_size := by rw [hi2]
    have e_vs : index2.value_size = index1.value_size := by rw [hi2]
    have e_bs : index2.bucket_size = index1.bucket_size := by rw [hi2]
    have e_ne : index2.num_entries = index1.num_entries - 1 := by rw [hi2]
    have e_ll : index2.lower_limit = index1.lower_limit := by rw [hi2]
    have hshape2 : SameShape index2 index1 := ⟨e_nb, e_ks, e_vs, e_bs⟩
    have hz2 : Sz index2 := sz_of_shape index2 index1 hshape2 hz1
    have hview2 : view index2 = view index1 :=
      view_eq_of_slots index2 index1 hshape2 hz1
        (fun i => slot_eq_of index2 index1 i (by rw [e_b]) e_bs)
    have hocc2 : num_occupied index2 = num_occupied index1 := by
      unfold num_occupied
      rw [occupied_eq_of_view index2 index1 hview2]
    have hd2 : DistinctKeys index2 := by
      rw [distinct_iff_view, hview2, ← distinct_iff_view]
      exact hd1
    have hholds2 : ∀ k w, Holds index2 k w ↔ Holds index1 k w :=
      fun k w => holds_eq_of_view index2 index1 hview2 k w
    have hf2 : FitsInt index2 :=
      fits_of_le index2 index (by rw [e_bs, f2.2.2.2]) (by omega) hf
    by_cases hlow : index2.num_entries < index2.lower_limit
    · obtain ⟨index3, r1, r2, r3, r4, r5, r6, r7, r8, r9, r10, r11, r12, r13⟩ :=
        resize_spec2 fuel index2 (shrink_size index2.num_buckets) hfuel hz2 hd2 hf2
      obtain ⟨gi, g1, g2⟩ := r2
      have hn3 : 0 < index3.num_buckets := by
        have := ladder_ge gi g1
        omega
      have hholds3 : ∀ k w, Holds index3 k w → k ≠ keyBytes index key ∧ Holds index k w :=
        fun k w hh => hholds1 k w ((hholds2 k w).mp ((r13 k w).mp hh))
      refine ⟨index3, ?_, r8, hn3, by rw [r3, e_ks, f2.2.1], by rw [r4, e_vs, f2.2.2.1],
        r10, ?_, ?_, ?_⟩
      · exact delete_hit_shrink fuel index key idx hint index1 index2 index3 hr f1 hi2 hlow r1
      · apply get_value_of_absent index3 key hn3
        rw [r3, e_ks, f2.2.1]
        exact absent_of_holds index3 _ hn3 (fun k w hh => (hholds3 k w hh).1)
      · intro hint1 h
        rw [hr] at h
        simp at h
      · intro _ _ _
        refine ⟨by rw [r6, e_ne, f3], by rw [r12, hocc2]; exact hcard, hholds3⟩
    · have hn2 : 0 < index2.num_buckets := by rw [e_nb]; exact hn1
      have hholds3 : ∀ k w, Holds index2 k w → k ≠ keyBytes index key ∧ Holds index k w :=
        fun k w hh => hholds1 k w ((hholds2 k w).mp hh)
      refine ⟨index2, ?_, hz2, hn2, by rw [e_ks, f2.2.1], by rw [e_vs, f2.2.2.1],
        hd2, ?_, ?_, ?_⟩
      · exact delete_hit_keep fuel index key idx hint index1 index2 hr f1 hi2 hlow
      · apply get_value_of_absent index2 key hn2
        rw [e_ks, f2.2.1]
        exact absent_of_holds index2 _ hn2 (fun k w hh => (hholds3 k w hh).1)
      · intro hint1 h
        rw [hr] at h
        simp at h
      · intro _ _ _
        refine ⟨by rw [e_ne, f3], by rw [hocc2]; exact hcard, hholds3⟩

/-! ## Lookup misses and insertion without the probe invariants -/

theorem lookup_miss_pass (index : HashIndex) (key : Ptr) (hint : Option Nat)
    (hn : 0 < index.num_buckets)
    (h : hashindex_lookup index key (some 0) = some (none, hint)) :
    ∃ skip, hint = some skip ∧ skip < index.num_buckets ∧
      (∀ j, j < skip →
        ¬ isE index (wrap_add index.num_buckets (hashindex_index index key) j)) := by
  have hs := hashindex_index_lt index key hn
  obtain ⟨rv, off, h1, h2, h3, h4, h5⟩ := lookup_loop_spec index key
    (hashindex_index index key) hs index.num_buckets (hashindex_index index key) 0 0
    (by rw [wrap_add_zero _ _ hs]) (by omega) hn rfl
  unfold hashindex_lookup at h
  simp only [h1] at h
  cases rv with
  | some r => simp at h
  | none =>
    simp only [Option.some.injEq, Prod.mk.injEq, true_and] at h
    refine ⟨off - 64, h.symm, by omega, ?_⟩
    intro j hj
    exact (h4 j (by omega) (by omega)).1

theorem set_insert_count (index : HashIndex) (key value : Ptr) (skip : Nat)
    (hz : Sz index) (hn : 0 < index.num_buckets) (hemp : HasEmpty index) (hf : FitsInt index)
    (hv : le32 value ≠ EMPTY) (hskip : skip < index.num_buckets)
    (hpass : ∀ j, j < skip →
      ¬ isE index (wrap_add index.num_buckets (hashindex_index index key) j)) :
    ∃ index1 e, set_insert index key value skip = some index1 ∧
      SameShape index1 index ∧ index1.num_entries = index.num_entries + 1 ∧
      index1.lower_limit = index.lower_limit ∧ index1.upper_limit = index.upper_limit ∧
      occupied index1 = insert e (occupied index) ∧ e ∉ occupied index ∧
      (∀ k w, Holds index1 k w ↔
        ((k = readBytes key 0 index.key_size ∧ w = readBytes value 0 index.value_size) ∨
          Holds index k w)) := by
  have hs := hashindex_index_lt index key hn
  obtain ⟨index1, p, e, off, s1, s2, s3, s4, s5, s6, s7, s8, s9, s10, s11, s12, s13, s14⟩ :=
    set_insert_slots index key value skip hz hn hemp hf hskip hpass
  have hp : p < index.num_buckets := by
    rw [s8]; exact wrap_add_lt _ _ _ hs (by omega)
  have hview := view_insert_of_slots index index1 key value p e hz s2 hv s14
  have hocc : occupied index1 = insert e (occupied index) ∧ e ∉ occupied index := by
    apply occupied_of_view_emp index1 index e s2.1 s9 s10
    intro i hi
    have := insert_emp_iff (view index) p e (hashindex_index index key)
      (readBytes key 0 index.key_size) (readBytes value 0 index.value_size) hp s9 s11 i hi
    rw [← hview] at this
    exact this
  refine ⟨index1, e, s1, s2, s3, s4, s5, hocc.1, hocc.2, ?_⟩
  intro k w
  rw [holds_iff_view, hview, holds_iff_view]
  exact insert_holds (view index) p e _ _ _ hp s9 s10 k w

/-! ## `hashindex_resize` of a table whose keys need not be distinct -/

theorem resize_inv3_init (index : HashIndex) (capacity : Int) (hz : Sz index) :
    ResizeInv3 index capacity (hashindex_init capacity index.key_size index.value_size) 0 := by
  have h := resize_inv2_init index capacity hz
  have hnb := (init_frame capacity index.key_size index.value_size).1
  refine ⟨h.sz, h.lrh, h.distinct, h.ladder, h.ks, h.vs, h.limits, h.entries, h.room,
    le_of_eq h.count, le_of_eq hnb.symm, fun _ => hnb⟩

theorem resize_inv3_skip (index : HashIndex) (cap : Int) (new : HashIndex) (c : Nat)
    (h : ResizeInv3 index cap new c) (hE : isE index c) :
    ResizeInv3 index cap new (c + 1) := by
  refine ⟨h.sz, h.lrh, h.distinct, h.ladder, h.ks, h.vs, h.limits, h.entries, h.room, ?_,
    h.nb_ge, ?_⟩
  · rw [filter_lt_succ_empty index c hE]
    exact h.count
  · rw [filter_lt_succ_empty index c hE]
    exact h.nb_eq

theorem resize_inv3_step (fuel : Nat) (index : HashIndex) (cap : Int) (new : HashIndex)
    (c : Nat) (hfuel : 1 ≤ fuel) (hz : Sz index) (hf : FitsInt index)
    (h : ResizeInv3 index cap new c) (hc : c < index.num_buckets) (hne : ¬ isE index c) :
    ∃ new1, hashindex_set fuel new (ptr index.buckets (BUCKET_ADDR index c))
        (ptr index.buckets (BUCKET_ADDR index c + index.key_size)) = some (1, new1) ∧
      ResizeInv3 index cap new1 (c + 1) := by
  obtain ⟨fl1, fl2⟩ := filter_lt_succ_occupied index c hc hne
  have hsub : (occupied index).filter (fun i => i < c + 1) ⊆ occupied index :=
    Finset.filter_subset _ _
  have hcard := Finset.card_le_card hsub
  have hcs : ((occupied index).filter (fun i => i < c + 1)).card
      = ((occupied index).filter (fun i => i < c)).card + 1 := by
    rw [fl1, Finset.card_insert_of_not_mem fl2]
  rw [hcs] at hcard
  change _ ≤ num_occupied index at hcard
  have hcount := h.count
  have hbound := fits_count_bound index hz hf
  have hbs : new.bucket_size = index.bucket_size := by
    rw [h.sz.2.2, hz.2.2, h.ks, h.vs]
  obtain ⟨gi, g1, g2⟩ := h.ladder
  have hpos : 0 < new.num_buckets := by
    have := ladder_ge gi g1
    omega
  have hwf : WF new := wf_of_parts new h.sz hpos h.lrh h.distinct h.room h.entries h.limits
    (fits_of_le new index hbs (by omega) hf)
  have hv : le32 (ptr index.buckets (BUCKET_ADDR index c + index.key_size)) ≠ EMPTY := by
    intro hc2
    apply hne
    unfold isE BUCKET_IS_EMPTY
    rw [hc2]
    simp
  obtain ⟨new1, s1, s2⟩ := set_spec fuel new _ _ hwf hv hfuel
  by_cases hpres : Present new
      (keyBytes new (ptr index.buckets (BUCKET_ADDR index c)))
  · obtain ⟨t1, t2, t3⟩ := s2.present hpres
    refine ⟨new1, s1, ⟨s2.sz, s2.lrh, s2.distinct, ⟨gi, g1, by rw [t3.1, g2]⟩,
      by rw [s2.ks, h.ks], by rw [s2.vs, h.vs], s2.limits, s2.count, ?_, ?_, ?_, ?_⟩⟩
    · rw [t2, t3.1]
      exact h.room
    · rw [t2, hcs]
      omega
    · rw [t3.1]
      exact h.nb_ge
    · intro hle
      rw [t3.1]
      apply h.nb_eq
      rw [hcs] at hle
      push_cast at hle
      omega
  · obtain ⟨t1, t2, t3⟩ := s2.absent hpres
    refine ⟨new1, s1, ⟨s2.sz, s2.lrh, s2.distinct, ?_, by rw [s2.ks, h.ks],
      by rw [s2.vs, h.vs], s2.limits, s2.count, ?_, ?_, ?_, ?_⟩⟩
    · rcases t3 with ⟨_, t3⟩ | ⟨hu, t3⟩
      · exact ⟨gi, g1, by rw [t3, g2]⟩
      · have hnb : new.num_buckets < 2062383853 := by
          by_contra hcc
          have := get_upper_limit_top new.num_buckets (by omega)
          rw [h.limits.2, this, h.entries] at hu
          have := h.room
          omega
        obtain ⟨gj, j1, j2, _, _⟩ := grow_size_spec new.num_buckets hnb
        exact ⟨gj, j1, by rw [t3, j2]⟩
    · rw [t2]
      rcases t3 with ⟨hu, t3⟩ | ⟨hu, t3⟩
      · rw [t3]
        rcases ladder_upper gi g1 with hl | hl
        · rw [← g2, ← h.limits.2] at hl
          rw [h.entries] at hu
          omega
        · have e57 : hash_sizes.getD 57 0 = 2062383853 := by decide
          rw [g2, hl, e57]
          omega
      · have hnb : new.num_buckets < 2062383853 := by
          by_contra hcc
          have := get_upper_limit_top new.num_buckets (by omega)
          rw [h.limits.2, this, h.entries] at hu
          have := h.room
          omega
        obtain ⟨gj, j1, j2, j3, _⟩ := grow_size_spec new.num_buckets hnb
        rw [t3]
        have := h.room
        omega
    · rw [t2, hcs]
      omega
    · rcases t3 with ⟨_, t3⟩ | ⟨hu, t3⟩
      · rw [t3]
        exact h.nb_ge
      · have hnb : new.num_buckets < 2062383853 := by
          by_contra hcc
          have := get_upper_limit_top new.num_buckets (by omega)
          rw [h.limits.2, this, h.entries] at hu
          have := h.room
          omega
        obtain ⟨gj, j1, j2, j3, _⟩ := grow_size_spec new.num_buckets hnb
        rw [t3]
        have := h.nb_ge
        omega
    · intro hle
      rw [hcs] at hle
      push_cast at hle
      have heq := h.nb_eq (by omega)
      rcases t3 with ⟨_, t3⟩ | ⟨hu, t3⟩
      · rw [t3]
        exact heq
      · exfalso
        rw [h.limits.2, heq, h.entries] at hu
        omega

theorem resize_spec3 (fuel : Nat) (index : HashIndex) (capacity : Int) (hfuel : 1 ≤ fuel)
    (hz : Sz index) (hf : FitsInt index) :
    ∃ index1, hashindex_resize fuel index capacity = some (1, index1) ∧
      Resized index index1 capacity := by
  have hbs : 0 < index.bucket_size := by
    obtain ⟨z1, z2, z3⟩ := hz
    omega
  obtain ⟨newF, l1, l2⟩ := resize_loop_rule (hashindex_set fuel) index hbs
    (ResizeInv3 index capacity)
    (fun new c h _ hE => resize_inv3_skip index capacity new c h hE)
    (fun new c h hc hne => resize_inv3_step fuel index capacity new c hfuel hz hf h hc hne)
    (index.num_buckets + 1) (hashindex_init capacity index.key_size index.value_size) none
    (Nat.zero_le _) (by unfold cursor_idx; omega) (resize_inv3_init index capacity hz)
  unfold hashindex_resize resize_with
  simp only [l1]
  have hbs1 : index.bucket_size = newF.bucket_size := by
    rw [l2.sz.2.2, hz.2.2, l2.ks, l2.vs]
  have hshape : SameShape
      { index with
        buckets := newF.buckets
        num_buckets := newF.num_buckets
        lower_limit := newF.lower_limit
        upper_limit := newF.upper_limit } newF :=
    ⟨rfl, l2.ks.symm, l2.vs.symm, hbs1⟩
  have hview := view_eq_of_slots _ newF hshape l2.sz
    (fun i => slot_eq_of _ newF i rfl hbs1)
  have hfilter : (occupied index).filter (fun i => i < index.num_buckets) = occupied index := by
    apply Finset.filter_true_of_mem
    intro i hi
    exact ((mem_occupied index i).mp hi).1
  have hocc : num_occupied { index with
        buckets := newF.buckets
        num_buckets := newF.num_buckets
        lower_limit := newF.lower_limit
        upper_limit := newF.upper_limit } = num_occupied newF := by
    unfold num_occupied
    rw [occupied_eq_of_view _ newF hview]
  have hcount := l2.count
  have hnbeq := l2.nb_eq
  rw [hfilter] at hcount hnbeq
  refine ⟨_, rfl, ⟨l2.ladder, rfl, rfl, rfl, rfl, l2.limits, sz_of_shape _ newF hshape l2.sz,
    ?_, ?_, ?_, ?_, l2.nb_ge, hnbeq⟩⟩
  · rw [hview]; exact l2.lrh
  · rw [distinct_iff_view, hview]; exact l2.distinct
  · rw [hocc]; exact l2.room
  · rw [hocc]; exact hcount

/-! ## Counting through `hashindex_set` and `hashindex_delete` -/

theorem resize_result_unique (fuel : Nat) (index : HashIndex) (capacity : Int)
    (a b : Int × HashIndex) (ha : hashindex_resize fuel index capacity = some a)
    (hb : hashindex_resize fuel index capacity = some b) : a = b := by
  rw [ha] at hb
  exact Option.some.inj hb

theorem set_count (fuel : Nat) (index : HashIndex) (key value : Ptr) (hz : Sz index)
    (hn : 0 < index.num_buckets) (hemp : HasEmpty index) (hf : FitsInt index)
    (hv : le32 value ≠ EMPTY) (hfuel : 2 ≤ fuel) :
    ∃ index1, hashindex_set fuel index key value = some (1, index1) ∧
      Sz index1 ∧ index1.key_size = index.key_size ∧ index1.value_size = index.value_size ∧
      ((∃ idx hint, hashindex_lookup index key (some 0) = some (some idx, hint) ∧
          index1 = write_value index idx value ∧ occupied index1 = occupied index) ∨
       (∃ hint, hashindex_lookup index key (some 0) = some (none, hint) ∧
          ¬ index.num_entries > index.upper_limit ∧ SameShape index1 index ∧
          index1.num_entries = index.num_entries + 1 ∧
          index1.lower_limit = index.lower_limit ∧ index1.upper_limit = index.upper_limit ∧
          num_occupied index1 = num_occupied index + 1) ∨
       (∃ hint index2, hashindex_lookup index key (some 0) = some (none, hint) ∧
          index.num_entries > index.upper_limit ∧
          Resized index index2 (grow_size index.num_buckets : Nat) ∧
          (DistinctKeys index → num_occupied index2 = num_occupied index) ∧
          SameShape index1 index2 ∧
          index1.num_entries = index.num_entries + 1 ∧
          index1.lower_limit = index2.lower_limit ∧ index1.upper_limit = index2.upper_limit ∧
          num_occupied index1 = num_occupied index2 + 1)) := by
  obtain ⟨r, hr⟩ := lookup_total index key (some 0) hn
  obtain ⟨rv, hint⟩ := r
  cases rv with
  | some idx =>
    obtain ⟨s1, s2, s3, _⟩ := lookup_sound index key (some 0) hint idx hn hr
    have hset : hashindex_set fuel index key value = some (1, write_value index idx value) := by
      cases fuel <;> (unfold hashindex_set set_with; simp only [hr])
    obtain ⟨w1, w2, w3, w4⟩ := write_value_view index idx value hz hv s2
    exact ⟨_, hset, hz, rfl, rfl, Or.inl ⟨idx, hint, hr, rfl, occupied_congr _ _ rfl w1⟩⟩
  | none =>
    obtain ⟨skip, m1, m2, m3⟩ := lookup_miss_pass index key hint hn hr
    by_cases hu : index.num_entries > index.upper_limit
    · obtain ⟨f, rfl⟩ : ∃ f, fuel = f + 1 := ⟨fuel - 1, by omega⟩
      obtain ⟨index2, r1, r2⟩ :=
        resize_spec3 f index (grow_size index.num_buckets : Nat) (by omega) hz hf
      obtain ⟨gi, g1, g2⟩ := r2.ladder
      have hpos2 : 0 < index2.num_buckets := by
        have := ladder_ge gi g1
        omega
      obtain ⟨index1, e, i1, i2, i3, i4, i5, i6, i7, _⟩ :=
        set_insert_count index2 key value 0 r2.sz hpos2 (has_empty_of_count index2 r2.room)
          (fits_of_le index2 index r2.bs r2.count hf) hv hpos2 (fun j hj => by omega)
      have hset : hashindex_set (f + 1) index key value = some (1, index1) := by
        have hres : resize_with (hashindex_set f) index (grow_size index.num_buckets : Nat)
            = some (1, index2) := r1
        unfold hashindex_set set_with
        simp only [hr, hu, if_true, hres, show ¬ ((1 : Int) = 0) by omega, if_false, i1,
          Option.map_some']
      have hocc : num_occupied index1 = num_occupied index2 + 1 := by
        unfold num_occupied
        rw [i6, Finset.card_insert_of_not_mem i7]
      refine ⟨index1, hset, sz_of_shape index1 index2 i2 r2.sz, by rw [i2.2.1, r2.ks],
        by rw [i2.2.2.1, r2.vs], Or.inr (Or.inr ⟨hint, index2, hr, hu, r2, ?_, i2,
          by rw [i3, r2.entries], i4, i5, hocc⟩)⟩
      intro hd
      obtain ⟨index3, q1, q2⟩ :=
        resize_spec2 f index (grow_size index.num_buckets : Nat) (by omega) hz hd hf
      have := resize_result_unique f index _ _ _ r1 q1
      simp only [Prod.mk.injEq, true_and] at this
      rw [this]
      exact q2.2.2.2.2.2.2.2.2.2.2.1
    · obtain ⟨index1, e, i1, i2, i3, i4, i5, i6, i7, _⟩ :=
        set_insert_count index key value skip hz hn hemp hf hv m2 m3
      have hopt : hint.getD 0 = skip := by rw [m1]; rfl
      have hset : hashindex_set fuel index key value = some (1, index1) := by
        cases fuel <;>
          (unfold hashindex_set set_with
           simp only [hr, hu, if_false, hopt, i1, Option.map_some'])
      have hocc : num_occupied index1 = num_occupied index + 1 := by
        unfold num_occupied
        rw [i6, Finset.card_insert_of_not_mem i7]
      exact ⟨index1, hset, sz_of_shape index1 index i2 hz, i2.2.1, i2.2.2.1,
        Or.inr (Or.inl ⟨hint, hr, hu, i2, i3, i4, i5, hocc⟩)⟩

theorem delete_count (fuel : Nat) (index : HashIndex) (key : Ptr) (hfuel : 1 ≤ fuel)
    (hz : Sz index) (hn : 0 < index.num_buckets) (hemp : HasEmpty index) (hf : FitsInt index) :
    ∃ index1, hashindex_delete fuel index key = some (1, index1) ∧
      Sz index1 ∧ index1.key_size = index.key_size ∧ index1.value_size = index.value_size ∧
      ((∃ hint, hashindex_lookup index key none = some (none, hint) ∧ index1 = index) ∨
       (∃ idx hint, hashindex_lookup index key none = some (some idx, hint) ∧
          ¬ index.num_entries - 1 < index.lower_limit ∧ SameShape index1 index ∧
          index1.num_entries = index.num_entries - 1 ∧
          index1.lower_limit = index.lower_limit ∧ index1.upper_limit = index.upper_limit ∧
          num_occupied index1 + 1 = num_occupied index) ∨
       (∃ idx hint index2, hashindex_lookup index key none = some (some idx, hint) ∧
          index.num_entries - 1 < index.lower_limit ∧ SameShape index2 index ∧
          index2.num_entries = index.num_entries - 1 ∧
          num_occupied index2 + 1 = num_occupied index ∧
          Resized index2 index1 (shrink_size index.num_buckets : Nat))) := by
  obtain ⟨r, hr⟩ := lookup_total index key none hn
  obtain ⟨rv, hint⟩ := r
  cases rv with
  | none =>
    refine ⟨index, ?_, hz, rfl, rfl, Or.inl ⟨hint, hr, rfl⟩⟩
    unfold hashindex_delete
    rw [hr]
  | some idx =>
    obtain ⟨s1, s2, s3, _⟩ := lookup_sound index key none hint idx hn hr
    obtain ⟨index1, m, f1, f2, f3, f4, f5, f6, f7, f8, f9⟩ :=
      delete_shift_facts index idx hz hf hemp s1 s2
    have hcard : num_occupied index1 + 1 = num_occupied index := by
      unfold num_occupied
      rw [f7, Finset.card_erase_of_mem f6]
      have : 0 < (occupied index).card := Finset.card_pos.mpr ⟨m, f6⟩
      omega
    have hz1 : Sz index1 := sz_of_shape index1 index f2 hz
    obtain ⟨index2, hi2⟩ : ∃ x : HashIndex,
        x = { index1 with num_entries := index1.num_entries - 1 } := ⟨_, rfl⟩
    have e_b : index2.buckets = index1.buckets := by rw [hi2]
    have e_nb : index2.num_buckets = index1.num_buckets := by rw [hi2]
    have e_ks : index2.key_size = index1.key_size := by rw [hi2]
    have e_vs : index2.value_size = index1.value_size := by rw [hi2]
    have e_bs : index2.bucket_size = index1.bucket_size := by rw [hi2]
    have e_ne : index2.num_entries = index1.num_entries - 1 := by rw [hi2]
    have e_ll : index2.lower_limit = index1.lower_limit := by rw [hi2]
    have e_ul : index2.upper_limit = index1.upper_limit := by rw [hi2]
    have hshape2 : SameShape index2 index1 := ⟨e_nb, e_ks, e_vs, e_bs⟩
    have hshape : SameShape index2 index :=
      ⟨by rw [e_nb, f2.1], by rw [e_ks, f2.2.1], by rw [e_vs, f2.2.2.1],
        by rw [e_bs, f2.2.2.2]⟩
    have hz2 : Sz index2 := sz_of_shape index2 index1 hshape2 hz1
    have hview2 : view index2 = view index1 :=
      view_eq_of_slots index2 index1 hshape2 hz1
        (fun i => slot_eq_of index2 index1 i (by rw [e_b]) e_bs)
    have hocc2 : num_occupied index2 = num_occupied index1 := by
      unfold num_occupied
      rw [occupied_eq_of_view index2 index1 hview2]
    have hf2 : FitsInt index2 :=
      fits_of_le index2 index (by rw [e_bs, f2.2.2.2]) (by omega) hf
    by_cases hlow : index2.num_entries < index2.lower_limit
    · obtain ⟨index3, r1, r2⟩ :=
        resize_spec3 fuel index2 (shrink_size index2.num_buckets : Nat) hfuel hz2 hf2
      refine ⟨index3, ?_, r2.sz, by rw [r2.ks, hshape.2.1], by rw [r2.vs, hshape.2.2.1],
        Or.inr (Or.inr ⟨idx, hint, index2, hr, ?_, hshape, by rw [e_ne, f3],
          by rw [hocc2]; exact hcard, ?_⟩)⟩
      · exact delete_hit_shrink fuel index key idx hint index1 index2 index3 hr f1 hi2 hlow r1
      · rw [e_ne, e_ll, f3, f4] at hlow
        exact hlow
      · rw [← hshape.1]
        exact r2
    · refine ⟨index2, ?_, hz2, hshape.2.1, hshape.2.2.1,
        Or.inr (Or.inl ⟨idx, hint, hr, ?_, hshape, by rw [e_ne, f3], by rw [e_ll, f4],
          by rw [e_ul, f5], by rw [hocc2]; exact hcard⟩)⟩
      · exact delete_hit_keep fuel index key idx hint index1 index2 hr f1 hi2 hlow
      · rw [e_ne, e_ll, f3, f4] at hlow
        exact hlow

/-! ## `hashindex_set` on an index with arbitrary limits -/

theorem set_spec2 (fuel : Nat) (index : HashIndex) (key value : Ptr) (hinv : Inv index)
    (hv : le32 value ≠ EMPTY) (hfuel : 2 ≤ fuel) :
    ∃ index1, hashindex_set fuel index key value = some (1, index1) ∧
      SetOk2 index index1 (keyBytes index key) (valueBytes index value) := by
  obtain ⟨r, hr⟩ := lookup_total index key (some 0) hinv.pos
  obtain ⟨rv, hint⟩ := r
  cases rv with
  | some idx =>
    obtain ⟨h1, h2, h3, h4, h5, h6, h7, h8⟩ :=
      set_hit fuel index key value idx hint hinv.sz hinv.pos hinv.distinct hv hr
    have hshape : SameShape (write_value index idx value) index := ⟨rfl, rfl, rfl, rfl⟩
    have hocc : num_occupied (write_value index idx value) = num_occupied index := by
      unfold num_occupied; rw [h7]
    refine ⟨_, h1, ⟨hinv.sz, hinv.pos, ?_, h6, rfl, rfl, h8, ?_, ?_⟩⟩
    · rw [h5]
      exact hinv.lrh
    · intro _
      exact ⟨rfl, hocc, hshape, rfl, rfl⟩
    · intro hc
      exact absurd ⟨idx, h2, h3, h4⟩ hc
  | none =>
    obtain ⟨skip, m1, m2, m3, m4, m5⟩ :=
      lookup_miss index key hint hinv.sz hinv.pos hinv.lrh hinv.distinct hr
    by_cases hu : index.num_entries > index.upper_limit
    · obtain ⟨f, rfl⟩ : ∃ f, fuel = f + 1 := ⟨fuel - 1, by omega⟩
      obtain ⟨index1, r1, r2, r3, r4, r5, r6, r7, r8, r9, r10, r11, r12, r13⟩ :=
        resize_spec2 f index (grow_size index.num_buckets : Nat) (by omega) hinv.sz
          hinv.distinct hinv.fits
      obtain ⟨gi, g1, g2⟩ := r2
      have hpos1 : 0 < index1.num_buckets := by
        have := ladder_ge gi g1
        omega
      have hinv1 : Inv index1 := by
        refine ⟨r8, hpos1, r9, r10, has_empty_of_count index1 r11, ?_⟩
        unfold FitsInt
        rw [r12, r5]
        exact hinv.fits
      have habs1 : ∀ i, i < index1.num_buckets → ¬ isE index1 i →
          keyOf index1 i ≠ readBytes key 0 index1.key_size := by
        intro i hi hne hk
        have hh : Holds index1 (readBytes key 0 index1.key_size) (valOf index1 i) :=
          ⟨i, hi, hne, hk, rfl⟩
        obtain ⟨j, a1, a2, a3, _⟩ := (r13 _ _).mp hh
        rw [r3] at a3
        exact m5 j a1 a2 a3
      obtain ⟨index2, e, i1, i2, i3, i4, i5, i6, i7, i8, i9, i10⟩ :=
        set_insert_inv index1 key value 0 hinv1 hv hinv1.pos (fun j hj => by omega)
          (fun hj => by omega) habs1
      have hset : hashindex_set (f + 1) index key value = some (1, index2) := by
        have hres : resize_with (hashindex_set f) index (grow_size index.num_buckets : Nat)
            = some (1, index1) := r1
        unfold hashindex_set set_with
        simp only [hr, hu, if_true, hres, show ¬ ((1 : Int) = 0) by omega, if_false, i1,
          Option.map_some']
      have hocc2 : num_occupied index2 = num_occupied index + 1 := by
        unfold num_occupied
        rw [i8, Finset.card_insert_of_not_mem i9]
        change num_occupied index1 + 1 = _
        rw [r12]
        rfl
      refine ⟨index2, hset, ⟨sz_of_shape index2 index1 i2 r8, by rw [i2.1]; exact hpos1, i6,
        i7, by rw [i2.2.1, r3], by rw [i2.2.2.1, r4], ?_, ?_, ?_⟩⟩
      · apply setpost_of_absent index index2 _ _ m5
        intro k w
        rw [i10 k w, r13 k w, r3, r4]
        rfl
      · rintro ⟨i, a1, a2, a3⟩
        exact absurd a3 (m5 i a1 a2)
      · intro _
        exact ⟨by rw [i3, r6], hocc2⟩
    · obtain ⟨index1, e, n1, n2, n3, n4, n5, n6, n7, n8, n9, n10, n11⟩ :=
        set_miss_no_grow fuel index key value hint hinv hv hu hr
      have hocc1 : num_occupied index1 = num_occupied index + 1 := by
        unfold num_occupied
        rw [n8, Finset.card_insert_of_not_mem n9]
      refine ⟨index1, n1, ⟨sz_of_shape index1 index n2 hinv.sz, by rw [n2.1]; exact hinv.pos,
        n6, n7, n2.2.1, n2.2.2.1, n11, ?_, ?_⟩⟩
      · rintro ⟨i, a1, a2, a3⟩
        exact absurd a3 (n10 i a1 a2)
      · intro _
        exact ⟨n3, hocc1⟩

/-! ## Freshly initialised indexes, and the results of lookups -/

theorem init_sz (capacity : Int) (ks vs : Nat) (hks : 4 ≤ ks) (hvs : 4 ≤ vs) :
    Sz (hashindex_init capacity ks vs) := by
  obtain ⟨f1, f2, f3, f4, f5, f6, f7⟩ := init_frame capacity ks vs
  unfold Sz
  rw [f3, f4, f5]
  exact ⟨hks, hvs, rfl⟩

theorem init_wf (capacity : Int) (ks vs : Nat) (hks : 4 ≤ ks) (hvs : 4 ≤ vs)
    (hfit : ks + vs < 2147483648) : WF (hashindex_init capacity ks vs) := by
  obtain ⟨f1, f2, f3, f4, f5, f6, f7⟩ := init_frame capacity ks vs
  have hE := init_all_empty capacity ks vs
  have hocc := occupied_init capacity ks vs
  have hpos : 0 < (hashindex_init capacity ks vs).num_buckets := by
    rw [f1]; exact fit_size_pos capacity
  refine ⟨init_sz capacity ks vs hks hvs, hpos, ?_, ?_, ?_, ?_, ?_, ⟨by rw [f6, f1],
    by rw [f7, f1]⟩, ?_⟩
  · intro i j hi _ hne
    rw [f1] at hi
    exact absurd (hE i hi) hne
  · intro i hi hne
    rw [f1] at hi
    exact absurd (hE i hi) hne
  · intro i hi hne
    rw [f1] at hi
    exact absurd (hE i hi) hne
  · exact ⟨0, hpos, hE 0 (fit_size_pos capacity)⟩
  · unfold num_occupied
    rw [f2, hocc]
    rfl
  · unfold FitsInt num_occupied
    rw [hocc, f5]
    simp only [Finset.card_empty]
    omega

theorem lookup_rv_indep (index : HashIndex) (key : Ptr) (h0 h1 : Option Nat) :
    (hashindex_lookup index key h0).map Prod.fst
      = (hashindex_lookup index key h1).map Prod.fst := by
  unfold hashindex_lookup
  simp only
  cases lookup_loop index key (hashindex_index index key) index.num_buckets
      (hashindex_index index key) 0 0 with
  | none => rfl
  | some r =>
    obtain ⟨rv, off⟩ := r
    cases rv with
    | some i => rfl
    | none => cases h0 <;> cases h1 <;> rfl

theorem lookup_hit_indep (index : HashIndex) (key : Ptr) (h0 h1 hint : Option Nat) (idx : Nat)
    (h : hashindex_lookup index key h0 = some (some idx, hint)) :
    ∃ hint1, hashindex_lookup index key h1 = some (some idx, hint1) := by
  have e := lookup_rv_indep index key h0 h1
  rw [h] at e
  cases hq : hashindex_lookup index key h1 with
  | none => rw [hq] at e; simp at e
  | some r =>
    obtain ⟨rv, hint1⟩ := r
    rw [hq] at e
    simp only [Option.map_some', Option.some.injEq] at e
    exact ⟨hint1, by rw [← e]⟩

theorem lookup_miss_indep (index : HashIndex) (key : Ptr) (h0 h1 hint : Option Nat)
    (h : hashindex_lookup index key h0 = some (none, hint)) :
    ∃ hint1, hashindex_lookup index key h1 = some (none, hint1) := by
  have e := lookup_rv_indep index key h0 h1
  rw [h] at e
  cases hq : hashindex_lookup index key h1 with
  | none => rw [hq] at e; simp at e
  | some r =>
    obtain ⟨rv, hint1⟩ := r
    rw [hq] at e
    simp only [Option.map_some', Option.some.injEq] at e
    exact ⟨hint1, by rw [← e]⟩

theorem get_value_cases (index : HashIndex) (key : Ptr) (hn : 0 < index.num_buckets) :
    (∃ hint, hashindex_lookup index key none = some (none, hint) ∧
      hashindex_get_value index key = some none) ∨
    (∃ idx hint, hashindex_lookup index key none = some (some idx, hint) ∧
      hashindex_get_value index key = some (some (valOf index idx))) := by
  obtain ⟨r, hr⟩ := lookup_total index key none hn
  obtain ⟨rv, hint⟩ := r
  cases rv with
  | none =>
    left
    refine ⟨hint, hr, ?_⟩
    unfold hashindex_get_value hashindex_get
    rw [hr]
    rfl
  | some idx =>
    right
    refine ⟨idx, hint, hr, ?_⟩
    unfold hashindex_get_value hashindex_get
    rw [hr]
    rfl

/-- On a table with the probe invariants, `hashindex_get` is determined by the contents. -/
theorem get_value_congr (a b : HashIndex) (ka kb : Ptr)
    (hza : Sz a) (hna : 0 < a.num_buckets) (hra : (view a).LocalRH) (hda : DistinctKeys a)
    (hzb : Sz b) (hnb : 0 < b.num_buckets) (hrb : (view b).LocalRH) (hdb : DistinctKeys b)
    (h : ∀ w, Holds a (readBytes ka 0 a.key_size) w ↔ Holds b (readBytes kb 0 b.key_size) w) :
    hashindex_get_value a ka = hashindex_get_value b kb := by
  rcases get_value_cases a ka hna with ⟨hint, h1, h2⟩ | ⟨idx, hint, h1, h2⟩
  · rw [h2]
    symm
    apply get_value_of_absent b kb hnb
    intro i hi hne hk
    have hb : Holds b (readBytes kb 0 b.key_size) (valOf b i) := ⟨i, hi, hne, hk, rfl⟩
    have ha := (h _).mpr hb
    have := get_value_of_holds a ka _ hza hna hra hda ha
    rw [h2] at this
    simp at this
  · rw [h2]
    symm
    obtain ⟨s1, s2, s3, _⟩ := lookup_sound a ka none hint idx hna h1
    have ha : Holds a (readBytes ka 0 a.key_size) (valOf a idx) := ⟨idx, s1, s2, s3, rfl⟩
    exact get_value_of_holds b kb _ hzb hnb hrb hdb ((h _).mp ha)

theorem pos_of_has_empty (index : HashIndex) (h : HasEmpty index) : 0 < index.num_buckets := by
  obtain ⟨e, he, _⟩ := h
  omega

theorem inv_of_parts (index : HashIndex) (hz : Sz index) (hd : DistinctKeys index)
    (hrh : RobinHood index) (hreach : Reachable index) (hemp : HasEmpty index)
    (hf : FitsInt index) : Inv index :=
  ⟨hz, pos_of_has_empty index hemp,
    localRH_of_global index (pos_of_has_empty index hemp) hrh hreach, hd, hemp, hf⟩

theorem get_none_of_value (index : HashIndex) (key : Ptr)
    (h : hashindex_get_value index key = some none) : hashindex_get index key = some none := by
  unfold hashindex_get_value at h
  cases hg : hashindex_get index key with
  | none => rw [hg] at h; simp at h
  | some r =>
    rw [hg] at h
    cases r with
    | none => rfl
    | some a => simp at h

theorem lookup_miss_of_get (index : HashIndex) (key : Ptr) (hn : 0 < index.num_buckets)
    (h : hashindex_get_value index key = some none) :
    ∃ hint, hashindex_lookup index key none = some (none, hint) := by
  rcases get_value_cases index key hn with ⟨hint, h1, _⟩ | ⟨idx, hint, _, h2⟩
  · exact ⟨hint, h1⟩
  · rw [h2] at h
    simp at h

theorem delete_of_miss (fuel : Nat) (index : HashIndex) (key : Ptr) (h0 hint : Option Nat)
    (hl : hashindex_lookup index key h0 = some (none, hint)) :
    hashindex_delete fuel index key = some (1, index) := by
  obtain ⟨hint1, h1⟩ := lookup_miss_indep index key h0 none hint hl
  unfold hashindex_delete
  rw [h1]

theorem set_of_hit (fuel : Nat) (index : HashIndex) (key value : Ptr) (h0 hint : Option Nat)
    (idx : Nat) (hl : hashindex_lookup index key h0 = some (some idx, hint)) :
    hashindex_set fuel index key value = some (1, write_value index idx value) := by
  obtain ⟨hint1, h1⟩ := lookup_hit_indep index key h0 (some 0) hint idx hl
  cases fuel <;> (unfold hashindex_set set_with; simp only [h1])

theorem init_next_key (capacity : Int) (ks vs : Nat) :
    hashindex_next_key (hashindex_init capacity ks vs) none = some none := by
  have hnb := (init_frame capacity ks vs).1
  have hpos := fit_size_pos capacity
  rw [next_key_unfold]
  have hc : cursor_idx (hashindex_init capacity ks vs) none = 0 := rfl
  rw [hc, if_neg (by omega)]
  rcases next_key_loop_spec (hashindex_init capacity ks vs)
      ((hashindex_init capacity ks vs).num_buckets - 0) 0 (by omega) (by omega) with
    ⟨e, _, h2, h3, _⟩ | ⟨_, h2⟩
  · rw [hnb] at h2
    exact absurd (init_all_empty capacity ks vs e h2) h3
  · exact h2

/-! ## The sample table -/

theorem small_isE (i : Nat) (hi : i < 4) : isE small_index i ↔ (i = 0 ∨ i = 3) := by
  have h : ∀ j, j < 4 → (BUCKET_IS_EMPTY small_index j = true ↔ (j = 0 ∨ j = 3)) := by
    decide
  exact h i hi

theorem small_sz : Sz small_index := by
  unfold Sz
  decide

theorem small_distinct : DistinctKeys small_index := by
  intro i j hi hj hni hnj hk
  change i < 4 at hi
  change j < 4 at hj
  rw [small_isE i hi] at hni
  rw [small_isE j hj] at hnj
  have hi2 : i = 1 ∨ i = 2 := by omega
  have hj2 : j = 1 ∨ j = 2 := by omega
  have hk12 : keyOf small_index 1 ≠ keyOf small_index 2 := by decide
  rcases hi2 with rfl | rfl <;> rcases hj2 with rfl | rfl
  · rfl
  · exact absurd hk hk12
  · exact absurd hk.symm hk12
  · rfl

theorem small_rh : RobinHood small_index := by
  intro i hi hni hnn
  change i < 4 at hi
  rw [small_isE i hi] at hni
  have hi2 : i = 1 ∨ i = 2 := by omega
  rcases hi2 with rfl | rfl
  · decide
  · exfalso
    apply hnn
    have : next_idx small_index.num_buckets 2 = 3 := by decide
    rw [this, small_isE 3 (by omega)]
    omega

theorem small_reach : Reachable small_index := by
  intro i hi hni j hj
  change i < 4 at hi
  rw [small_isE i hi] at hni
  have hi2 : i = 1 ∨ i = 2 := by omega
  rcases hi2 with rfl | rfl
  · have : bucket_distance small_index 1 = 0 := by decide
    omega
  · have hb : bucket_distance small_index 2 = 1 := by decide
    have hj0 : j = 0 := by omega
    subst hj0
    have : wrap_add small_index.num_buckets (homeOf small_index 2) 0 = 1 := by decide
    rw [this, small_isE 1 (by omega)]
    omega

theorem small_has_empty : HasEmpty small_index :=
  ⟨0, by decide, (small_isE 0 (by omega)).mpr (Or.inl rfl)⟩

theorem small_occupied : num_occupied small_index = 2 := by
  unfold num_occupied occupied
  decide

theorem small_fits : FitsInt small_index := by
  unfold FitsInt
  rw [small_occupied]
  decide

/-! ## Well-formedness along a run of `hashindex_set` calls -/

theorem init_on_ladder (capacity : Int) (ks vs : Nat) :
    OnLadder (hashindex_init capacity ks vs) :=
  ⟨size_idx capacity, (size_idx_spec capacity).1, (init_frame capacity ks vs).1⟩

theorem wfl_after_set (fuel : Nat) (index : HashIndex) (key value : Ptr) (hwf : WF index)
    (hl : OnLadder index) (hv : le32 value ≠ EMPTY) (hfuel : 1 ≤ fuel)
    (hfit : (num_occupied index + 2) * index.bucket_size < 2147483648) :
    ∃ index1, hashindex_set fuel index key value = some (1, index1) ∧
      WF index1 ∧ OnLadder index1 ∧
      SetOk index index1 (keyBytes index key) (valueBytes index value) := by
  obtain ⟨index1, s1, s2⟩ := set_spec fuel index key value hwf hv hfuel
  obtain ⟨gi, g1, g2⟩ := hl
  have hroom := num_occupied_lt_of_has_empty index hwf.has_empty
  have hbs : index1.bucket_size = index.bucket_size := by
    rw [s2.sz.2.2, hwf.sz.2.2, s2.ks, s2.vs]
  have hz := hwf.sz
  have h8 : 8 ≤ index.bucket_size := by
    obtain ⟨z1, z2, z3⟩ := hz
    omega
  have hbound : num_occupied index + 2 < 268435456 := by
    have : (num_occupied index + 2) * 8 ≤ (num_occupied index + 2) * index.bucket_size :=
      Nat.mul_le_mul_left _ h8
    omega
  have key_facts : num_occupied index1 ≤ num_occupied index + 1 ∧
      num_occupied index1 < index1.num_buckets ∧ OnLadder index1 := by
    by_cases hp : Present index (keyBytes index key)
    · obtain ⟨t1, t2, t3⟩ := s2.present hp
      exact ⟨by omega, by rw [t2, t3.1]; exact hroom, ⟨gi, g1, by rw [t3.1, g2]⟩⟩
    · obtain ⟨t1, t2, t3⟩ := s2.absent hp
      refine ⟨by omega, ?_, ?_⟩
      · rw [t2]
        rcases t3 with ⟨hu, t3⟩ | ⟨hu, t3⟩
        · rw [t3]
          rcases ladder_upper gi g1 with hl | hl
          · rw [← g2, ← hwf.limits.2] at hl
            rw [hwf.count] at hu
            omega
          · have e57 : hash_sizes.getD 57 0 = 2062383853 := by decide
            rw [g2, hl, e57]
            omega
        · have hnb : index.num_buckets < 2062383853 := by
            by_contra hcc
            have := get_upper_limit_top index.num_buckets (by omega)
            rw [hwf.limits.2, this, hwf.count] at hu
            omega
          obtain ⟨gj, j1, j2, j3, _⟩ := grow_size_spec index.num_buckets hnb
          rw [t3]
          omega
      · rcases t3 with ⟨_, t3⟩ | ⟨hu, t3⟩
        · exact ⟨gi, g1, by rw [t3, g2]⟩
        · have hnb : index.num_buckets < 2062383853 := by
            by_contra hcc
            have := get_upper_limit_top index.num_buckets (by omega)
            rw [hwf.limits.2, this, hwf.count] at hu
            omega
          obtain ⟨gj, j1, j2, _, _⟩ := grow_size_spec index.num_buckets hnb
          exact ⟨gj, j1, by rw [t3, j2]⟩
  obtain ⟨k1, k2, k3⟩ := key_facts
  refine ⟨index1, s1, wf_of_parts index1 s2.sz s2.pos s2.lrh s2.distinct k2 s2.count s2.limits
    ?_, k3, s2⟩
  unfold FitsInt
  rw [hbs]
  have : (num_occupied index1 + 1) * index.bucket_size
      ≤ (num_occupied index + 2) * index.bucket_size :=
    Nat.mul_le_mul_right _ (by omega)
  omega

/-! ## The wrap-around path of `hashindex_delete` -/

set_option maxRecDepth 100000 in
theorem delete_wrap_scenario_eval :
    delete_wrap_scenario
      = some (1, some (some [7, 0, 0, 0, 0, 0, 0, 0, 0, 0, 0, 0]), some none) := by
  decide

/-! ## More ladder arithmetic -/

theorem ladder_lower_upper (i : Nat) (hi : i < 57) :
    get_lower_limit (hash_sizes.getD (i + 1) 0) ≤ get_upper_limit (hash_sizes.getD i 0) := by
  have h : ∀ j, j < 57 →
      get_lower_limit (hash_sizes.getD (j + 1) 0) ≤ get_upper_limit (hash_sizes.getD j 0) := by
    decide
  exact h i hi

theorem ladder_lower_step (i : Nat) (hi : i < 57) :
    get_lower_limit (hash_sizes.getD i 0) + 1 ≤ get_lower_limit (hash_sizes.getD (i + 1) 0) := by
  have h : ∀ j, j < 57 →
      get_lower_limit (hash_sizes.getD j 0) + 1
        ≤ get_lower_limit (hash_sizes.getD (j + 1) 0) := by
    decide
  exact h i hi

theorem ladder_shrink_size (i : Nat) (hi : i ≤ 57) :
    shrink_size (hash_sizes.getD i 0 : Nat) = hash_sizes.getD (i - 1) 0 := by
  have h : ∀ j, j < 58 →
      shrink_size (hash_sizes.getD j 0 : Nat) = hash_sizes.getD (j - 1) 0 := by
    decide
  exact h i (by omega)

theorem ladder_grow_size (i : Nat) (hi : i < 57) :
    grow_size (hash_sizes.getD i 0 : Nat) = hash_sizes.getD (i + 1) 0 := by
  have h : ∀ j, j < 57 →
      grow_size (hash_sizes.getD j 0 : Nat) = hash_sizes.getD (j + 1) 0 := by
    decide
  exact h i hi

theorem ladder_lower_zero : get_lower_limit (hash_sizes.getD 0 0) = 0 := by decide

theorem ladder_inj (i j : Nat) (hi : i ≤ 57) (hj : j ≤ 57)
    (h : hash_sizes.getD i 0 = hash_sizes.getD j 0) : i = j := by
  have hmono : ∀ a, a < 58 → ∀ b, b < 58 → hash_sizes.getD a 0 = hash_sizes.getD b 0 → a = b := by
    decide
  exact hmono i (by omega) j (by omega) h

/-! ## The invariant of indexes reached by public mutations -/

theorem get_upper_limit_nonneg (n : Nat) : 0 ≤ get_upper_limit n := by
  unfold get_upper_limit
  simp only
  split_ifs
  · exact Int.ofNat_nonneg _
  · exact Int.ofNat_nonneg _

theorem get_lower_limit_nonneg (n : Nat) : 0 ≤ get_lower_limit n := by
  unfold get_lower_limit
  simp only
  split_ifs
  · exact le_refl _
  · exact Int.ofNat_nonneg _

theorem good_init (capacity : Int) (ks vs : Nat) (hks : 4 ≤ ks) (hvs : 4 ≤ vs) :
    Good (hashindex_init capacity ks vs) := by
  obtain ⟨f1, f2, f3, f4, f5, f6, f7⟩ := init_frame capacity ks vs
  have ho : num_occupied (hashindex_init capacity ks vs) = 0 := by
    unfold num_occupied
    rw [occupied_init]
    rfl
  refine ⟨init_sz capacity ks vs hks hvs, init_on_ladder capacity ks vs,
    ⟨by rw [f6, f1], by rw [f7, f1]⟩, by rw [ho, f2]; rfl, ?_⟩
  intro _
  rw [f2, f7]
  have := get_upper_limit_nonneg (fit_size capacity)
  omega

theorem good_room (index : HashIndex) (hg : Good index) (hf : FitsInt index) :
    num_occupied index < index.num_buckets := by
  obtain ⟨gi, g1, g2⟩ := hg.ladder
  have hb := fits_count_bound index hg.sz hf
  by_cases htop : index.num_buckets < 2062383853
  · have hu := hg.upper htop
    have ho := hg.occ_le
    rcases ladder_upper gi g1 with hl | hl
    · rw [← g2, ← hg.limits.2] at hl
      omega
    · have e57 : hash_sizes.getD 57 0 = 2062383853 := by decide
      rw [hl, e57] at g2
      omega
  · omega

theorem good_set (fuel : Nat) (index : HashIndex) (key value : Ptr) (hg : Good index)
    (hf : FitsInt index) (hv : le32 value ≠ EMPTY) (hfuel : 2 ≤ fuel) :
    ∃ index1, hashindex_set fuel index key value = some (1, index1) ∧ Good index1 ∧
      num_occupied index1 ≤ num_occupied index + 1 ∧
      index1.bucket_size = index.bucket_size ∧ (Low index → Low index1) := by
  have hroom := good_room index hg hf
  have hn : 0 < index.num_buckets := by omega
  obtain ⟨gi, g1, g2⟩ := hg.ladder
  obtain ⟨index1, s1, s2, s3, s4, s5⟩ :=
    set_count fuel index key value hg.sz hn (has_empty_of_count index hroom) hf hv hfuel
  have hbs : index1.bucket_size = index.bucket_size := by
    rw [s2.2.2, hg.sz.2.2, s3, s4]
  refine ⟨index1, s1, ?_⟩
  rcases s5 with ⟨idx, hint, a1, a2, a3⟩ | ⟨hint, a1, a2, a3, a4, a5, a6, a7⟩ |
    ⟨hint, index2, a1, a2, a3, a4, a5, a6, a7, a8, a9⟩
  · have hocc : num_occupied index1 = num_occupied index := by
      unfold num_occupied; rw [a3]
    subst a2
    refine ⟨⟨s2, hg.ladder, hg.limits, ?_, hg.upper⟩, by omega, hbs, fun h => h⟩
    rw [hocc]
    exact hg.occ_le
  · refine ⟨⟨s2, ⟨gi, g1, by rw [a3.1, g2]⟩, ?_, ?_, ?_⟩, by omega, hbs, ?_⟩
    · unfold LimitsDerived
      rw [a5, a6, a3.1]
      exact hg.limits
    · rw [a7, a4]
      have := hg.occ_le
      push_cast
      omega
    · intro _
      rw [a4, a6]
      omega
    · intro hlow
      unfold Low at hlow ⊢
      rw [a4, a5]
      omega
  · have ho := hg.occ_le
    obtain ⟨gj, j1, j2⟩ := a3.ladder
    have hnb1 : index1.num_buckets = index2.num_buckets := a5.1
    have hlim1 : LimitsDerived index1 := by
      unfold LimitsDerived
      rw [a7, a8, hnb1]
      exact a3.limits
    have hocc1 : (num_occupied index1 : Int) ≤ index1.num_entries := by
      rw [a9, a6]
      have := a3.count
      push_cast
      omega
    by_cases htop : index.num_buckets < 2062383853
    · have hu := hg.upper htop
      have hgi : gi < 57 := by
        by_contra hc
        have : gi = 57 := by omega
        have e57 : hash_sizes.getD 57 0 = 2062383853 := by decide
        rw [this, e57] at g2
        omega
      have hgrow : grow_size (index.num_buckets : Nat) = hash_sizes.getD (gi + 1) 0 := by
        rw [g2]
        exact ladder_grow_size gi hgi
      have hfit : fit_size (grow_size (index.num_buckets : Nat) : Nat)
          = hash_sizes.getD (gi + 1) 0 := by
        rw [hgrow]
        exact fit_size_of_ladder (gi + 1) (by omega)
      obtain ⟨st1, st2⟩ := ladder_step gi hgi
      have hup : get_upper_limit (hash_sizes.getD gi 0) + 1 < (hash_sizes.getD gi 0 : Int) := by
        rcases ladder_upper gi g1 with hl | hl
        · exact hl
        · omega
      have hul : index.upper_limit = get_upper_limit (hash_sizes.getD gi 0) := by
        rw [hg.limits.2, g2]
      have hnb2 : index2.num_buckets = hash_sizes.getD (gi + 1) 0 := by
        rw [← hfit]
        apply a3.nb_eq
        rw [hfit]
        omega
      have hul1 : index1.upper_limit = get_upper_limit (hash_sizes.getD (gi + 1) 0) := by
        rw [hlim1.2, hnb1, hnb2]
      have hll1 : index1.lower_limit = get_lower_limit (hash_sizes.getD (gi + 1) 0) := by
        rw [hlim1.1, hnb1, hnb2]
      refine ⟨⟨s2, ⟨gj, j1, by rw [hnb1, j2]⟩, hlim1, hocc1, ?_⟩, ?_, hbs, ?_⟩
      · intro _
        rw [a6, hul1]
        omega
      · rw [a9]
        have := a3.count
        omega
      · intro _
        unfold Low
        rw [a6, hll1]
        have := ladder_lower_upper gi hgi
        omega
    · have hnbtop : index.num_buckets = 2062383853 := by
        have := ladder_le gi g1
        omega
      have hge := a3.nb_ge
      have hfit : fit_size (grow_size (index.num_buckets : Nat) : Nat) = 2062383853 := by
        rw [hnbtop]
        decide
      have hnb2 : index2.num_buckets = 2062383853 := by
        have := ladder_le gj j1
        omega
      refine ⟨⟨s2, ⟨gj, j1, by rw [hnb1, j2]⟩, hlim1, hocc1, ?_⟩, ?_, hbs, ?_⟩
      · intro hc
        rw [hnb1, hnb2] at hc
        omega
      · rw [a9]
        have := a3.count
        omega
      · intro hlow
        unfold Low at hlow ⊢
        rw [a6, hlim1.1, hnb1, hnb2, ← hnbtop, ← hg.limits.1]
        omega

theorem good_delete (fuel : Nat) (index : HashIndex) (key : Ptr) (hg : Good index)
    (hf : FitsInt index) (hfuel : 1 ≤ fuel) :
    ∃ index1, hashindex_delete fuel index key = some (1, index1) ∧ Good index1 ∧
      num_occupied index1 ≤ num_occupied index ∧
      index1.bucket_size = index.bucket_size ∧ (Low index → Low index1) := by
  have hroom := good_room index hg hf
  have hn : 0 < index.num_buckets := by omega
  obtain ⟨gi, g1, g2⟩ := hg.ladder
  obtain ⟨index1, s1, s2, s3, s4, s5⟩ :=
    delete_count fuel index key hfuel hg.sz hn (has_empty_of_count index hroom) hf
  have hbs : index1.bucket_size = index.bucket_size := by
    rw [s2.2.2, hg.sz.2.2, s3, s4]
  have ho := hg.occ_le
  refine ⟨index1, s1, ?_⟩
  rcases s5 with ⟨hint, a1, a2⟩ | ⟨idx, hint, a1, a2, a3, a4, a5, a6, a7⟩ |
    ⟨idx, hint, index2, a1, a2, a3, a4, a5, a6⟩
  · subst a2
    exact ⟨hg, le_refl _, rfl, fun h => h⟩
  · refine ⟨⟨s2, ⟨gi, g1, by rw [a3.1, g2]⟩, ?_, ?_, ?_⟩, by omega, hbs, ?_⟩
    · unfold LimitsDerived
      rw [a5, a6, a3.1]
      exact hg.limits
    · rw [a4]
      omega
    · intro hc
      rw [a3.1] at hc
      have := hg.upper hc
      rw [a4, a6]
      omega
    · intro _
      unfold Low
      rw [a4, a5]
      omega
  · have hll : index.lower_limit = get_lower_limit (hash_sizes.getD gi 0) := by
      rw [hg.limits.1, g2]
    have hgi : 0 < gi := by
      by_contra hc
      have : gi = 0 := by omega
      rw [this, ladder_lower_zero] at hll
      omega
    obtain ⟨gp, rfl⟩ : ∃ gp, gi = gp + 1 := ⟨gi - 1, by omega⟩
    have hshr : shrink_size (index.num_buckets : Nat) = hash_sizes.getD gp 0 := by
      rw [g2]
      exact ladder_shrink_size (gp + 1) g1
    have hfit : fit_size (shrink_size (index.num_buckets : Nat) : Nat)
        = hash_sizes.getD gp 0 := by
      rw [hshr]
      exact fit_size_of_ladder gp (by omega)
    have hlu := ladder_lower_upper gp (by omega)
    have hls := ladder_lower_step gp (by omega)
    have hnb1 : index1.num_buckets = hash_sizes.getD gp 0 := by
      rw [← hfit]
      apply a6.nb_eq
      rw [hfit]
      omega
    have hcount := a6.count
    refine ⟨⟨s2, a6.ladder, a6.limits, ?_, ?_⟩, by omega, hbs, ?_⟩
    · rw [a6.entries, a4]
      omega
    · intro _
      rw [a6.entries, a4, a6.limits.2, hnb1]
      omega
    · intro hlow
      unfold Low at hlow ⊢
      rw [a6.entries, a4, a6.limits.1, hnb1]
      omega

theorem run_ops_nil (fuel : Nat) (index : HashIndex) : run_ops fuel index [] = some index :=
  rfl

theorem run_ops_cons (fuel : Nat) (index index1 : HashIndex) (op : Op) (ops : List Op)
    (rc : Int) (h : apply_op fuel index op = some (rc, index1)) :
    run_ops fuel index (op :: ops) = run_ops fuel index1 ops := by
  conv_lhs => unfold run_ops
  simp only [h]

theorem good_apply (fuel : Nat) (index : HashIndex) (op : Op) (hg : Good index)
    (hf : FitsInt index) (hok : op_ok op) (hfuel : 2 ≤ fuel) :
    ∃ index1, apply_op fuel index op = some (1, index1) ∧ Good index1 ∧
      num_occupied index1 ≤ num_occupied index + 1 ∧
      index1.bucket_size = index.bucket_size ∧ (Low index → Low index1) := by
  cases op with
  | set key value =>
    exact good_set fuel index key value hg hf hok hfuel
  | delete key =>
    obtain ⟨index1, h1, h2, h3, h4, h5⟩ := good_delete fuel index key hg hf (by omega)
    exact ⟨index1, h1, h2, by omega, h4, h5⟩

theorem run_good (fuel : Nat) (hfuel : 2 ≤ fuel) :
    ∀ (ops : List Op) (index : HashIndex) (n : Nat), Good index → num_occupied index ≤ n →
      (∀ op, op ∈ ops → op_ok op) →
      (n + ops.length + 1) * index.bucket_size < 2147483648 →
      ∃ index1, run_ops fuel index ops = some index1 ∧ Good index1 ∧
        num_occupied index1 ≤ n + ops.length ∧
        index1.bucket_size = index.bucket_size ∧ (Low index → Low index1) := by
  intro ops
  induction ops with
  | nil =>
    intro index n hg hn _ _
    exact ⟨index, rfl, hg, by simpa using hn, rfl, fun h => h⟩
  | cons op ops ih =>
    intro index n hg hn hok hsize
    simp only [List.length_cons] at hsize
    have hf : FitsInt index := by
      unfold FitsInt
      have : (num_occupied index + 1) * index.bucket_size
          ≤ (n + (ops.length + 1) + 1) * index.bucket_size :=
        Nat.mul_le_mul_right _ (by omega)
      omega
    obtain ⟨index1, a1, a2, a3, a4, a5⟩ :=
      good_apply fuel index op hg hf (hok op (List.mem_cons_self _ _)) hfuel
    obtain ⟨index2, b1, b2, b3, b4, b5⟩ := ih index1 (n + 1) a2 (by omega)
      (fun o ho => hok o (List.mem_cons_of_mem _ ho))
      (by rw [a4]
          have : n + 1 + ops.length + 1 = n + (ops.length + 1) + 1 := by omega
          rw [this]
          exact hsize)
    refine ⟨index2, ?_, b2, ?_, by rw [b4, a4], fun h => b5 (a5 h)⟩
    · rw [run_ops_cons fuel index index1 op ops 1 a1]
      exact b1
    · simp only [List.length_cons]
      omega

/-! ## Inserting distinct keys below the upper limit -/

theorem present_after_set (index index1 : HashIndex) (K V k : List Nat)
    (hpost : SetPost index index1 K V) (hk : k ≠ K) (hp : Present index1 k) :
    Present index k := by
  obtain ⟨i, a1, a2, a3⟩ := hp
  have hh : Holds index1 k (valOf index1 i) := ⟨i, a1, a2, a3, rfl⟩
  rcases (hpost _ _).mp hh with ⟨b, _⟩ | ⟨_, j, c1, c2, c3, _⟩
  · exact absurd b hk
  · exact ⟨j, c1, c2, c3⟩

theorem insert_run (fuel : Nat) (hfuel : 1 ≤ fuel) :
    ∀ (kvs : List (Ptr × Ptr)) (index : HashIndex), WF index → OnLadder index →
      (kvs.map (fun kv => readBytes kv.1 0 index.key_size)).Nodup →
      (∀ kv, kv ∈ kvs → ¬ Present index (readBytes kv.1 0 index.key_size)) →
      (∀ kv, kv ∈ kvs → le32 kv.2 ≠ EMPTY) →
      index.num_entries + kvs.length ≤ index.upper_limit + 1 →
      (num_occupied index + kvs.length + 1) * index.bucket_size < 2147483648 →
      ∃ index1, run_ops fuel index (set_ops kvs) = some index1 ∧ WF index1 ∧
        index1.num_entries = index.num_entries + kvs.length ∧
        index1.num_buckets = index.num_buckets ∧
        index1.bucket_size = index.bucket_size ∧
        index1.upper_limit = index.upper_limit ∧
        index1.lower_limit = index.lower_limit := by
  intro kvs
  induction kvs with
  | nil =>
    intro index hwf _ _ _ _ _ _
    exact ⟨index, rfl, hwf, by simp, rfl, rfl, rfl, rfl⟩
  | cons kv rest ih =>
    intro index hwf hl hnd habs hvs hroom hsize
    simp only [List.length_cons] at hroom hsize
    simp only [List.map_cons, List.nodup_cons] at hnd
    obtain ⟨hnd1, hnd2⟩ := hnd
    obtain ⟨index1, s1, s2, s3, s4⟩ := wfl_after_set fuel index kv.1 kv.2 hwf hl
      (hvs kv (List.mem_cons_self _ _)) hfuel (by
        have : (num_occupied index + 2) * index.bucket_size
            ≤ (num_occupied index + (rest.length + 1) + 1) * index.bucket_size :=
          Nat.mul_le_mul_right _ (by omega)
        omega)
    have hK : keyBytes index kv.1 = readBytes kv.1 0 index.key_size := rfl
    obtain ⟨t1, t2, t3⟩ := s4.absent (habs kv (List.mem_cons_self _ _))
    have hnb : index1.num_buckets = index.num_buckets := by
      rcases t3 with ⟨_, t3⟩ | ⟨hu, _⟩
      · exact t3
      · push_cast at hroom
        omega
    have hbs : index1.bucket_size = index.bucket_size := by
      rw [s2.sz.2.2, hwf.sz.2.2, s4.ks, s4.vs]
    have hul : index1.upper_limit = index.upper_limit := by
      rw [s2.limits.2, hwf.limits.2, hnb]
    have hll : index1.lower_limit = index.lower_limit := by
      rw [s2.limits.1, hwf.limits.1, hnb]
    obtain ⟨index2, r1, r2, r3, r4, r5, r6, r7⟩ := ih index1 s2 s3
      (by rw [s4.ks]; exact hnd2)
      (by
        intro kv1 hkv1 hp
        rw [s4.ks] at hp
        have hne : readBytes kv1.1 0 index.key_size ≠ keyBytes index kv.1 := by
          intro he
          apply hnd1
          rw [hK] at he
          rw [← he]
          exact List.mem_map_of_mem _ hkv1
        exact habs kv1 (List.mem_cons_of_mem _ hkv1)
          (present_after_set index index1 _ _ _ s4.post hne hp))
      (fun kv1 hkv1 => hvs kv1 (List.mem_cons_of_mem _ hkv1))
      (by rw [t1, hul]; push_cast at hroom; omega)
      (by
        rw [t2, hbs]
        have : num_occupied index + 1 + rest.length + 1
            = num_occupied index + (rest.length + 1) + 1 := by omega
        rw [this]
        exact hsize)
    refine ⟨index2, ?_, r2, ?_, by rw [r4, hnb], by rw [r5, hbs], by rw [r6, hul],
      by rw [r7, hll]⟩
    · have hops : set_ops (kv :: rest) = Op.set kv.1 kv.2 :: set_ops rest := rfl
      rw [hops, run_ops_cons fuel index index1 (Op.set kv.1 kv.2) (set_ops rest) 1 s1]
      exact r1
    · rw [r3, t1]
      simp only [List.length_cons]
      push_cast
      omega

theorem nat_key_bytes (i j n : Nat) (hn : 2 ≤ n) (hi : i < 65536) (hj : j < 65536)
    (h : readBytes (nat_key i) 0 n = readBytes (nat_key j) 0 n) : i = j := by
  have h0 := readBytes_inj _ _ _ _ _ h 0 (by omega)
  have h1 := readBytes_inj _ _ _ _ _ h 1 (by omega)
  unfold nat_key ofBytes at h0 h1
  simp at h0 h1
  omega

theorem nat_pairs_length (n : Nat) : (nat_pairs n).length = n := by
  simp [nat_pairs]

theorem nat_pairs_nodup (n ks : Nat) (hn : n ≤ 65536) (hks : 2 ≤ ks) :
    ((nat_pairs n).map (fun kv => readBytes kv.1 0 ks)).Nodup := by
  unfold nat_pairs
  rw [List.map_map]
  apply List.Nodup.map_on _ (List.nodup_range n)
  intro a ha b hb hab
  rw [List.mem_range] at ha hb
  exact nat_key_bytes a b ks hks (by omega) (by omega) hab

theorem nat_pairs_values (n : Nat) : ∀ kv, kv ∈ nat_pairs n → le32 kv.2 ≠ EMPTY := by
  intro kv hkv
  unfold nat_pairs at hkv
  rw [List.mem_map] at hkv
  obtain ⟨i, _, rfl⟩ := hkv
  have h : le32 sample_value ≠ EMPTY := by decide
  exact h

theorem set_ops_ok (kvs : List (Ptr × Ptr)) (h : ∀ kv, kv ∈ kvs → le32 kv.2 ≠ EMPTY) :
    ∀ op, op ∈ set_ops kvs → op_ok op := by
  intro op hop
  unfold set_ops at hop
  rw [List.mem_map] at hop
  obtain ⟨kv, hkv, rfl⟩ := hop
  exact h kv hkv

theorem init_absent (capacity : Int) (ks vs : Nat) (k : List Nat) :
    ¬ Present (hashindex_init capacity ks vs) k := by
  rintro ⟨i, h1, h2, _⟩
  rw [(init_frame capacity ks vs).1] at h1
  exact h2 (init_all_empty capacity ks vs i h1)

/-- Filling a fresh 1031-bucket table with 1021 distinct keys does not grow it. -/
theorem fill_1021 (fuel : Nat) (hfuel : 1 ≤ fuel) (kvs : List (Ptr × Ptr))
    (hlen : kvs.length = 1021)
    (hnd : (kvs.map (fun kv => readBytes kv.1 0 32)).Nodup)
    (hvs : ∀ kv, kv ∈ kvs → le32 kv.2 ≠ EMPTY) :
    ∃ index, run_ops fuel (hashindex_init 0 32 12) (set_ops kvs) = some index ∧
      hashindex_len index = 1021 ∧ index.num_buckets = 1031 ∧ index.upper_limit = 1020 ∧
      hashindex_size index = 45382 := by
  obtain ⟨f1, f2, f3, f4, f5, f6, f7⟩ := init_frame 0 32 12
  have hfit : fit_size 0 = 1031 := by decide
  have hup : get_upper_limit 1031 = 1020 := by decide
  have hocc : num_occupied (hashindex_init 0 32 12) = 0 := by
    unfold num_occupied
    rw [occupied_init]
    rfl
  obtain ⟨index, r1, r2, r3, r4, r5, r6, r7⟩ := insert_run fuel hfuel kvs
    (hashindex_init 0 32 12) (init_wf 0 32 12 (by decide) (by decide) (by decide))
    (init_on_ladder 0 32 12) (by rw [f3]; exact hnd)
    (fun kv _ => init_absent 0 32 12 _) hvs
    (by rw [f2, f7, hfit, hup, hlen]; decide)
    (by rw [hocc, f5, hlen]; decide)
  refine ⟨index, r1, ?_, by rw [r4, f1, hfit], by rw [r6, f7, hfit, hup], ?_⟩
  · unfold hashindex_len
    rw [r3, f2, hlen]
    rfl
  · unfold hashindex_size
    rw [r4, r5, f1, f5, hfit]
    decide

/-! ## Load bounds along runs from a fresh index -/

theorem sample_ops_ok : ∀ op, op ∈ sample_ops → op_ok op := by
  intro op hop
  unfold sample_ops at hop
  simp only [List.mem_cons, List.mem_singleton, List.not_mem_nil, or_false] at hop
  rcases hop with rfl | rfl
  · have h : le32 sample_value ≠ EMPTY := by decide
    exact h
  · exact trivial

theorem fit_size_small (capacity : Int) (h : capacity ≤ 1031) : fit_size capacity = 1031 := by
  obtain ⟨s1, s2, _⟩ := size_idx_spec capacity
  have h0 : size_idx capacity = 0 := by
    by_contra hc
    have := s2 0 (by omega)
    have e : hash_sizes.getD 0 0 = 1031 := by decide
    rw [e] at this
    omega
  unfold fit_size
  rw [h0]
  decide

theorem run_from_init (fuel : Nat) (capacity : Int) (ks vs : Nat) (ops : List Op)
    (hks : 4 ≤ ks) (hvs : 4 ≤ vs) (hfuel : 2 ≤ fuel) (hops : ∀ op, op ∈ ops → op_ok op)
    (hsize : (ops.length + 1) * (ks + vs) < 2147483648) :
    ∃ index, run_ops fuel (hashindex_init capacity ks vs) ops = some index ∧ Good index ∧
      FitsInt index ∧
      (Low (hashindex_init capacity ks vs) → Low index) := by
  have hbs := (init_frame capacity ks vs).2.2.2.2.1
  have hocc : num_occupied (hashindex_init capacity ks vs) = 0 := by
    unfold num_occupied
    rw [occupied_init]
    rfl
  obtain ⟨index, r1, r2, r3, r4, r5⟩ := run_good fuel hfuel ops
    (hashindex_init capacity ks vs) 0 (good_init capacity ks vs hks hvs) (by omega) hops
    (by rw [hbs, Nat.zero_add]; exact hsize)
  refine ⟨index, r1, r2, ?_, r5⟩
  unfold FitsInt
  rw [r4, hbs]
  have : (num_occupied index + 1) * (ks + vs) ≤ (ops.length + 1) * (ks + vs) :=
    Nat.mul_le_mul_right _ (by omega)
  omega

/-! ## Field-level effect of the mutations, for every call that returns -/

theorem ladder_mono (i j : Nat) (hij : i < j) (hj : j ≤ 57) :
    hash_sizes.getD i 0 < hash_sizes.getD j 0 := by
  induction j with
  | zero => omega
  | succ n ih =>
    have hs := (ladder_step n (by omega)).1
    by_cases h : i = n
    · rw [h]; exact hs
    · have := ih (by omega) (by omega)
      omega

theorem ladder_upper_le (i : Nat) (hi : i ≤ 57) :
    get_upper_limit (hash_sizes.getD i 0) ≤ (hash_sizes.getD i 0 : Int) := by
  rcases ladder_upper i hi with h | h
  · omega
  · rw [h]
    decide

theorem ladder_upper_mono (i j : Nat) (hij : i ≤ j) (hj : j ≤ 57) :
    get_upper_limit (hash_sizes.getD i 0) ≤ get_upper_limit (hash_sizes.getD j 0) := by
  induction j with
  | zero =>
    have : i = 0 := by omega
    rw [this]
  | succ n ih =>
    by_cases h : i = n + 1
    · rw [h]
    · have h1 := ih (by omega) (by omega)
      have h2 := (ladder_step n (by omega)).2
      have h3 := ladder_upper_le n (by omega)
      omega

theorem upper_mono_of_ladder (a b : HashIndex) (ha : OnLadder a) (hb : OnLadder b)
    (h : a.num_buckets ≤ b.num_buckets) :
    get_upper_limit a.num_buckets ≤ get_upper_limit b.num_buckets := by
  obtain ⟨i, i1, i2⟩ := ha
  obtain ⟨j, j1, j2⟩ := hb
  rw [i2, j2]
  apply ladder_upper_mono i j _ j1
  by_contra hc
  have := ladder_mono j i (by omega) i1
  omega

theorem set_insert_fields (index index1 : HashIndex) (key value : Ptr) (off : Nat)
    (h : set_insert index key value off = some index1) :
    SameShape index1 index ∧ index1.num_entries = index.num_entries + 1 ∧
      index1.lower_limit = index.lower_limit ∧ index1.upper_limit = index.upper_limit := by
  unfold set_insert at h
  simp only at h
  split at h
  · simp at h
  · rename_i idx off1 _
    simp only [Option.some.injEq] at h
    subst h
    split
    · split
      · obtain ⟨a, b, c, d⟩ := frame_set_shift_simple index idx key value
          (rshift_chunk_size index idx)
        exact ⟨a, by simp only [b], c, d⟩
      · obtain ⟨a, b, c, d⟩ := frame_set_shift_wrap index idx key value
        exact ⟨a, by simp only [b], c, d⟩
    · exact ⟨⟨rfl, rfl, rfl, rfl⟩, rfl, rfl, rfl⟩

theorem delete_shift_simple_fields (index index1 : HashIndex) (idx : Nat) (c : Int)
    (h : delete_shift_simple index idx c = some index1) :
    SameShape index1 index ∧ index1.num_entries = index.num_entries ∧
      index1.lower_limit = index.lower_limit ∧ index1.upper_limit = index.upper_limit := by
  unfold delete_shift_simple at h
  simp only at h
  split_ifs at h <;> (cases h; exact ⟨⟨rfl, rfl, rfl, rfl⟩, rfl, rfl, rfl⟩)

theorem delete_shift_wrap_fields (index index1 : HashIndex) (idx : Nat)
    (h : delete_shift_wrap index idx = some index1) :
    SameShape index1 index ∧ index1.num_entries = index.num_entries ∧
      index1.lower_limit = index.lower_limit ∧ index1.upper_limit = index.upper_limit := by
  unfold delete_shift_wrap at h
  simp only at h
  split_ifs at h <;> (cases h; exact ⟨⟨rfl, rfl, rfl, rfl⟩, rfl, rfl, rfl⟩)

theorem delete_shift_fields (index index1 : HashIndex) (idx : Nat)
    (h : delete_shift index idx = some index1) :
    SameShape index1 index ∧ index1.num_entries = index.num_entries ∧
      index1.lower_limit = index.lower_limit ∧ index1.upper_limit = index.upper_limit := by
  unfold delete_shift at h
  simp only at h
  split_ifs at h
  · exact delete_shift_simple_fields index index1 idx _ h
  · exact delete_shift_wrap_fields index index1 idx h
  · exact delete_shift_simple_fields index index1 idx _ h
  · exact delete_shift_wrap_fields index index1 idx h

theorem resize_loop_partial (set : HashIndex → Ptr → Ptr → Option (Int × HashIndex))
    (index : HashIndex) (P : HashIndex → Prop)
    (hstep : ∀ new k v rc new1, P new → set new k v = some (rc, new1) → rc = 1 ∧ P new1) :
    ∀ fuel new cursor r, P new → resize_loop set index fuel new cursor = some r →
      ∃ newF, r = some newF ∧ P newF := by
  intro fuel
  induction fuel with
  | zero =>
    intro new cursor r _ h
    unfold resize_loop at h
    simp at h
  | succ n ih =>
    intro new cursor r hP h
    unfold resize_loop at h
    cases hk : hashindex_next_key index cursor with
    | none => rw [hk] at h; simp at h
    | some kk =>
      rw [hk] at h
      cases kk with
      | none =>
        simp only [Option.some.injEq] at h
        exact ⟨new, h.symm, hP⟩
      | some k =>
        simp only at h
        cases hs : set new (ptr index.buckets k) (ptr index.buckets (k + index.key_size)) with
        | none => rw [hs] at h; simp at h
        | some res =>
          obtain ⟨rc, new1⟩ := res
          rw [hs] at h
          simp only at h
          obtain ⟨hrc, hP1⟩ := hstep new _ _ rc new1 hP hs
          rw [if_neg (by omega)] at h
          exact ih new1 (some k) r hP1 h

theorem grow_fit_ge (index : HashIndex) (h : OnLadder index) :
    index.num_buckets ≤ fit_size (grow_size index.num_buckets : Nat) := by
  obtain ⟨gi, g1, g2⟩ := h
  rw [g2]
  by_cases hgi : gi < 57
  · rw [ladder_grow_size gi hgi, fit_size_of_ladder (gi + 1) (by omega)]
    exact le_of_lt (ladder_step gi hgi).1
  · have : gi = 57 := by omega
    rw [this]
    decide

/-- The property of `hashindex_set` that `set_fields` establishes, as a hypothesis on the
function `hashindex_resize` calls. -/
theorem resize_with_fields (set : HashIndex → Ptr → Ptr → Option (Int × HashIndex))
    (hset : ∀ (new : HashIndex) (k v : Ptr) (rc : Int) (new1 : HashIndex),
      set new k v = some (rc, new1) →
      rc = 1 ∧ new1.key_size = new.key_size ∧ new1.value_size = new.value_size ∧
      ((SameShape new1 new ∧ new1.lower_limit = new.lower_limit ∧
          new1.upper_limit = new.upper_limit) ∨
       (OnLadder new1 ∧ LimitsDerived new1 ∧
          fit_size (grow_size new.num_buckets : Nat) ≤ new1.num_buckets)))
    (index : HashIndex) (capacity : Int) (rc : Int) (index1 : HashIndex)
    (h : resize_with set index capacity = some (rc, index1)) :
    rc = 1 ∧ OnLadder index1 ∧ LimitsDerived index1 ∧
      fit_size capacity ≤ index1.num_buckets ∧
      index1.num_entries = index.num_entries ∧ index1.key_size = index.key_size ∧
      index1.value_size = index.value_size ∧ index1.bucket_size = index.bucket_size := by
  unfold resize_with at h
  simp only at h
  cases hr : resize_loop set index (index.num_buckets + 1)
      (hashindex_init capacity index.key_size index.value_size) none with
  | none => rw [hr] at h; simp at h
  | some r =>
    obtain ⟨newF, e1, e2⟩ := resize_loop_partial set index
      (fun new => OnLadder new ∧ LimitsDerived new ∧ fit_size capacity ≤ new.num_buckets)
      (by
        intro new k v rc1 new1 hP hs
        obtain ⟨p1, p2, p3⟩ := hP
        obtain ⟨q1, q2, q3, q4⟩ := hset new k v rc1 new1 hs
        refine ⟨q1, ?_⟩
        rcases q4 with ⟨s1, s2, s3⟩ | ⟨s3, s4, s5⟩
        · obtain ⟨gi, g1, g2⟩ := p1
          refine ⟨⟨gi, g1, by rw [s1.1, g2]⟩, ?_, by rw [s1.1]; exact p3⟩
          unfold LimitsDerived
          rw [s2, s3, s1.1]
          exact p2
        · have := grow_fit_ge new p1
          exact ⟨s3, s4, by omega⟩)
      (index.num_buckets + 1) _ none r
      ⟨init_on_ladder _ _ _,
        ⟨by rw [(init_frame _ _ _).2.2.2.2.2.1, (init_frame _ _ _).1],
          by rw [(init_frame _ _ _).2.2.2.2.2.2, (init_frame _ _ _).1]⟩,
        by rw [(init_frame _ _ _).1]⟩ hr
    subst e1
    rw [hr] at h
    simp only [Option.some.injEq, Prod.mk.injEq] at h
    obtain ⟨h1, h2⟩ := h
    subst h2
    obtain ⟨p1, p2, p3⟩ := e2
    exact ⟨h1.symm, p1, p2, p3, rfl, rfl, rfl, rfl⟩

/-- What a returning `hashindex_set` does to the fields. -/
theorem set_fields (fuel : Nat) :
    ∀ (index : HashIndex) (key value : Ptr) (rc : Int) (index1 : HashIndex),
      hashindex_set fuel index key value = some (rc, index1) →
      rc = 1 ∧ index1.key_size = index.key_size ∧ index1.value_size = index.value_size ∧
      ((SameShape index1 index ∧ index1.lower_limit = index.lower_limit ∧
          index1.upper_limit = index.upper_limit ∧
          ((index1.num_entries = index.num_entries ∧
              ∃ idx hint, hashindex_lookup index key (some 0) = some (some idx, hint)) ∨
            (index1.num_entries = index.num_entries + 1 ∧
              ¬ index.num_entries > index.upper_limit))) ∨
       (index.num_entries > index.upper_limit ∧
          index1.num_entries = index.num_entries + 1 ∧ OnLadder index1 ∧
          LimitsDerived index1 ∧
          fit_size (grow_size index.num_buckets : Nat) ≤ index1.num_buckets)) := by
  induction fuel with
  | zero =>
    intro index key value rc index1 h
    unfold hashindex_set set_with at h
    cases hl : hashindex_lookup index key (some 0) with
    | none => rw [hl] at h; simp at h
    | some r =>
      obtain ⟨rv, hint⟩ := r
      rw [hl] at h
      cases rv with
      | some idx =>
        simp only [Option.some.injEq, Prod.mk.injEq] at h
        obtain ⟨h1, h2⟩ := h
        subst h2
        exact ⟨h1.symm, rfl, rfl,
          Or.inl ⟨⟨rfl, rfl, rfl, rfl⟩, rfl, rfl, Or.inl ⟨rfl, idx, hint, rfl⟩⟩⟩
      | none =>
        simp only at h
        by_cases hu : index.num_entries > index.upper_limit
        · rw [if_pos hu] at h
          simp at h
        · rw [if_neg hu] at h
          cases hi : set_insert index key value (hint.getD 0) with
          | none => rw [hi] at h; simp at h
          | some x =>
            rw [hi] at h
            simp only [Option.map_some', Option.some.injEq, Prod.mk.injEq] at h
            obtain ⟨h1, h2⟩ := h
            subst h2
            obtain ⟨a, b, c, d⟩ := set_insert_fields index x key value _ hi
            exact ⟨h1.symm, a.2.1, a.2.2.1, Or.inl ⟨a, c, d, Or.inr ⟨b, hu⟩⟩⟩
  | succ n ih =>
    intro index key value rc index1 h
    unfold hashindex_set set_with at h
    cases hl : hashindex_lookup index key (some 0) with
    | none => rw [hl] at h; simp at h
    | some r =>
      obtain ⟨rv, hint⟩ := r
      rw [hl] at h
      cases rv with
      | some idx =>
        simp only [Option.some.injEq, Prod.mk.injEq] at h
        obtain ⟨h1, h2⟩ := h
        subst h2
        exact ⟨h1.symm, rfl, rfl,
          Or.inl ⟨⟨rfl, rfl, rfl, rfl⟩, rfl, rfl, Or.inl ⟨rfl, idx, hint, rfl⟩⟩⟩
      | none =>
        simp only at h
        by_cases hu : index.num_entries > index.upper_limit
        · rw [if_pos hu] at h
          cases hr : resize_with (hashindex_set n) index (grow_size index.num_buckets : Nat) with
          | none => rw [hr] at h; simp at h
          | some res =>
            obtain ⟨rc1, x⟩ := res
            obtain ⟨r1, r2, r3, r4, r5, r6, r7, _⟩ := resize_with_fields (hashindex_set n)
              (by
                intro new k v rc2 new1 hs
                obtain ⟨q1, q2, q3, q4⟩ := ih new k v rc2 new1 hs
                refine ⟨q1, q2, q3, ?_⟩
                rcases q4 with ⟨s1, s2, s3, _⟩ | ⟨_, _, s3, s4, s5⟩
                · exact Or.inl ⟨s1, s2, s3⟩
                · exact Or.inr ⟨s3, s4, s5⟩)
              index _ rc1 x hr
            subst r1
            rw [hr] at h
            simp only [show ¬ ((1 : Int) = 0) by omega, if_false] at h
            cases hi : set_insert x key value 0 with
            | none => rw [hi] at h; simp at h
            | some y =>
              rw [hi] at h
              simp only [Option.map_some', Option.some.injEq, Prod.mk.injEq] at h
              obtain ⟨h1, h2⟩ := h
              subst h2
              obtain ⟨a, b, c, d⟩ := set_insert_fields x y key value _ hi
              obtain ⟨gi, g1, g2⟩ := r2
              refine ⟨h1.symm, by rw [a.2.1, r6], by rw [a.2.2.1, r7],
                Or.inr ⟨hu, by rw [b, r5], ⟨gi, g1, by rw [a.1, g2]⟩, ?_,
                  by rw [a.1]; exact r4⟩⟩
              unfold LimitsDerived
              rw [c, d, a.1]
              exact r3
        · rw [if_neg hu] at h
          cases hi : set_insert index key value (hint.getD 0) with
          | none => rw [hi] at h; simp at h
          | some x =>
            rw [hi] at h
            simp only [Option.map_some', Option.some.injEq, Prod.mk.injEq] at h
            obtain ⟨h1, h2⟩ := h
            subst h2
            obtain ⟨a, b, c, d⟩ := set_insert_fields index x key value _ hi
            exact ⟨h1.symm, a.2.1, a.2.2.1, Or.inl ⟨a, c, d, Or.inr ⟨b, hu⟩⟩⟩

theorem resize_fields (fuel : Nat) (index : HashIndex) (capacity : Int) (rc : Int)
    (index1 : HashIndex) (h : hashindex_resize fuel index capacity = some (rc, index1)) :
    rc = 1 ∧ OnLadder index1 ∧ LimitsDerived index1 ∧
      fit_size capacity ≤ index1.num_buckets ∧
      index1.num_entries = index.num_entries ∧ index1.key_size = index.key_size ∧
      index1.value_size = index.value_size ∧ index1.bucket_size = index.bucket_size := by
  apply resize_with_fields (hashindex_set fuel) _ index capacity rc index1 h
  intro new k v rc2 new1 hs
  obtain ⟨q1, q2, q3, q4⟩ := set_fields fuel new k v rc2 new1 hs
  refine ⟨q1, q2, q3, ?_⟩
  rcases q4 with ⟨s1, s2, s3, _⟩ | ⟨_, _, s3, s4, s5⟩
  · exact Or.inl ⟨s1, s2, s3⟩
  · exact Or.inr ⟨s3, s4, s5⟩

/-- What a returning `hashindex_delete` does to the fields. -/
theorem delete_fields (fuel : Nat) (index : HashIndex) (key : Ptr) (rc : Int)
    (index1 : HashIndex) (h : hashindex_delete fuel index key = some (rc, index1)) :
    rc = 1 ∧ index1.key_size = index.key_size ∧ index1.value_size = index.value_size ∧
      (index1 = index ∨
       (SameShape index1 index ∧ index1.lower_limit = index.lower_limit ∧
          index1.upper_limit = index.upper_limit ∧
          index1.num_entries = index.num_entries - 1 ∧
          ¬ index.num_entries - 1 < index.lower_limit) ∨
       (index.num_entries - 1 < index.lower_limit ∧
          index1.num_entries = index.num_entries - 1 ∧ OnLadder index1 ∧
          LimitsDerived index1 ∧
          fit_size (shrink_size index.num_buckets : Nat) ≤ index1.num_buckets)) := by
  unfold hashindex_delete at h
  cases hl : hashindex_lookup index key none with
  | none => rw [hl] at h; simp at h
  | some r =>
    obtain ⟨rv, hint⟩ := r
    rw [hl] at h
    cases rv with
    | none =>
      simp only [Option.some.injEq, Prod.mk.injEq] at h
      obtain ⟨h1, h2⟩ := h
      exact ⟨h1.symm, by rw [h2], by rw [h2], Or.inl h2.symm⟩
    | some idx =>
      simp only at h
      cases hd : delete_shift index idx with
      | none => rw [hd] at h; simp at h
      | some x =>
        rw [hd] at h
        simp only at h
        obtain ⟨a, b, c, d⟩ := delete_shift_fields index x idx hd
        by_cases hlow : x.num_entries - 1 < x.lower_limit
        · rw [if_pos hlow] at h
          cases hr : hashindex_resize fuel { x with num_entries := x.num_entries - 1 }
              (shrink_size x.num_buckets : Nat) with
          | none => rw [hr] at h; simp at h
          | some res =>
            obtain ⟨rc1, y⟩ := res
            rw [hr] at h
            obtain ⟨r1, r2, r3, r4, r5, r6, r7, _⟩ := resize_fields fuel _ _ rc1 y hr
            subst r1
            simp only [show ¬ ((1 : Int) = 0) by omega, if_false, Option.some.injEq,
              Prod.mk.injEq] at h
            obtain ⟨h1, h2⟩ := h
            subst h2
            rw [b, c] at hlow
            refine ⟨h1.symm, by rw [r6]; exact a.2.1, by rw [r7]; exact a.2.2.1,
              Or.inr (Or.inr ⟨hlow, by rw [r5]; simp only; rw [b], r2, r3, ?_⟩)⟩
            rw [← a.1]
            exact r4
        · rw [if_neg hlow] at h
          simp only [Option.some.injEq, Prod.mk.injEq] at h
          obtain ⟨h1, h2⟩ := h
          subst h2
          rw [b, c] at hlow
          exact ⟨h1.symm, a.2.1, a.2.2.1,
            Or.inr (Or.inl ⟨a, c, d, by simp only; rw [b], hlow⟩)⟩

/-! ## The upper load bound, for every run that returns -/

theorem bounded_init (capacity : Int) (ks vs : Nat) :
    Bounded (hashindex_init capacity ks vs) := by
  obtain ⟨f1, f2, f3, f4, f5, f6, f7⟩ := init_frame capacity ks vs
  refine ⟨init_on_ladder capacity ks vs, ⟨by rw [f6, f1], by rw [f7, f1]⟩, ?_⟩
  intro _
  rw [f2, f7]
  have := get_upper_limit_nonneg (fit_size capacity)
  omega

theorem bounded_set (fuel : Nat) (index : HashIndex) (key value : Ptr) (rc : Int)
    (index1 : HashIndex) (hb : Bounded index)
    (h : hashindex_set fuel index key value = some (rc, index1)) : Bounded index1 := by
  obtain ⟨_, _, _, q4⟩ := set_fields fuel index key value rc index1 h
  obtain ⟨gi, g1, g2⟩ := hb.ladder
  rcases q4 with ⟨s1, s2, s3, s4⟩ | ⟨s1, s2, s3, s4, s5⟩
  · refine ⟨⟨gi, g1, by rw [s1.1, g2]⟩, ?_, ?_⟩
    · unfold LimitsDerived
      rw [s2, s3, s1.1]
      exact hb.limits
    · intro hc
      rw [s1.1] at hc
      have := hb.upper hc
      rw [s3]
      rcases s4 with ⟨e, _⟩ | ⟨e, hu⟩
      · rw [e]; exact this
      · rw [e]; omega
  · refine ⟨s3, s4, ?_⟩
    intro hc
    have hge := grow_fit_ge index hb.ladder
    have hnb : index.num_buckets < 2062383853 := by omega
    have hu := hb.upper hnb
    have hgi : gi < 57 := by
      by_contra hcc
      have : gi = 57 := by omega
      have e57 : hash_sizes.getD 57 0 = 2062383853 := by decide
      rw [this, e57] at g2
      omega
    have hfit : fit_size (grow_size (index.num_buckets : Nat) : Nat)
        = hash_sizes.getD (gi + 1) 0 := by
      rw [g2, ladder_grow_size gi hgi, fit_size_of_ladder (gi + 1) (by omega)]
    obtain ⟨gj, j1, j2⟩ := s3
    have hij : gi + 1 ≤ gj := by
      by_contra hcc
      have := ladder_mono gj (gi + 1) (by omega) (by omega)
      rw [hfit] at s5
      omega
    have hm := ladder_upper_mono (gi + 1) gj hij j1
    have hst := (ladder_step gi hgi).2
    have hup : get_upper_limit (hash_sizes.getD gi 0) + 1 < (hash_sizes.getD gi 0 : Int) := by
      rcases ladder_upper gi g1 with hl | hl
      · exact hl
      · omega
    rw [s2, s4.2, j2]
    rw [hb.limits.2, g2] at hu
    omega

theorem bounded_delete (fuel : Nat) (index : HashIndex) (key : Ptr) (rc : Int)
    (index1 : HashIndex) (hb : Bounded index)
    (h : hashindex_delete fuel index key = some (rc, index1)) : Bounded index1 := by
  obtain ⟨_, _, _, q4⟩ := delete_fields fuel index key rc index1 h
  obtain ⟨gi, g1, g2⟩ := hb.ladder
  rcases q4 with e | ⟨s1, s2, s3, s4, s5⟩ | ⟨s1, s2, s3, s4, s5⟩
  · rw [e]; exact hb
  · refine ⟨⟨gi, g1, by rw [s1.1, g2]⟩, ?_, ?_⟩
    · unfold LimitsDerived
      rw [s2, s3, s1.1]
      exact hb.limits
    · intro hc
      rw [s1.1] at hc
      have := hb.upper hc
      rw [s3, s4]
      omega
  · refine ⟨s3, s4, ?_⟩
    intro _
    obtain ⟨gj, j1, j2⟩ := s3
    rw [s2, s4.2, j2]
    have hll : index.lower_limit = get_lower_limit (hash_sizes.getD gi 0) := by
      rw [hb.limits.1, g2]
    have hnn := get_upper_limit_nonneg (hash_sizes.getD gj 0)
    by_cases hgi : gi = 0
    · rw [hgi, ladder_lower_zero] at hll
      omega
    · obtain ⟨gp, rfl⟩ : ∃ gp, gi = gp + 1 := ⟨gi - 1, by omega⟩
      have hfit : fit_size (shrink_size (index.num_buckets : Nat) : Nat)
          = hash_sizes.getD gp 0 := by
        rw [g2, ladder_shrink_size (gp + 1) g1]
        exact fit_size_of_ladder gp (by omega)
      have hij : gp ≤ gj := by
        by_contra hcc
        have := ladder_mono gj gp (by omega) (by omega)
        rw [hfit] at s5
        omega
      have hm := ladder_upper_mono gp gj hij j1
      have hlu := ladder_lower_upper gp (by omega)
      omega

theorem bounded_run (fuel : Nat) :
    ∀ (ops : List Op) (index index1 : HashIndex), Bounded index →
      run_ops fuel index ops = some index1 → Bounded index1 := by
  intro ops
  induction ops with
  | nil =>
    intro index index1 hb h
    unfold run_ops at h
    simp only [Option.some.injEq] at h
    rw [← h]
    exact hb
  | cons op ops ih =>
    intro index index1 hb h
    unfold run_ops at h
    cases ha : apply_op fuel index op with
    | none => rw [ha] at h; simp at h
    | some res =>
      obtain ⟨rc, x⟩ := res
      rw [ha] at h
      simp only at h
      apply ih x index1 _ h
      cases op with
      | set key value => exact bounded_set fuel index key value rc x hb ha
      | delete key => exact bounded_delete fuel index key rc x hb ha

/-- A `hashindex_set` whose lookup misses while `num_entries` is above `upper_limit` grows
a table that is not yet at the top of the ladder. -/
theorem set_grows (fuel : Nat) (index : HashIndex) (key value : Ptr) (rc : Int)
    (index1 : HashIndex) (hint : Option Nat) (hl : OnLadder index)
    (hm : hashindex_lookup index key (some 0) = some (none, hint))
    (hu : index.num_entries > index.upper_limit) (htop : index.num_buckets < 2062383853)
    (h : hashindex_set fuel index key value = some (rc, index1)) :
    index.num_buckets < index1.num_buckets := by
  obtain ⟨_, _, _, q4⟩ := set_fields fuel index key value rc index1 h
  rcases q4 with ⟨_, _, _, s4⟩ | ⟨_, _, _, _, s5⟩
  · rcases s4 with ⟨_, idx, hint1, hh⟩ | ⟨_, hn⟩
    · rw [hm] at hh
      simp at hh
    · exact absurd hu hn
  · obtain ⟨gi, g1, g2⟩ := hl
    have hgi : gi < 57 := by
      by_contra hcc
      have : gi = 57 := by omega
      have e57 : hash_sizes.getD 57 0 = 2062383853 := by decide
      rw [this, e57] at g2
      omega
    have hfit : fit_size (grow_size (index.num_buckets : Nat) : Nat)
        = hash_sizes.getD (gi + 1) 0 := by
      rw [g2, ladder_grow_size gi hgi, fit_size_of_ladder (gi + 1) (by omega)]
    have := (ladder_step gi hgi).1
    omega

/-! ## `fit_size` on the ladder -/

theorem mem_ladder_iff (s : Nat) : s ∈ hash_sizes ↔ ∃ j, j ≤ 57 ∧ s = hash_sizes.getD j 0 := by
  have hlen : hash_sizes.length = 58 := by decide
  constructor
  · intro h
    obtain ⟨j, hj, e⟩ := List.getElem_of_mem h
    refine ⟨j, by omega, ?_⟩
    rw [List.getD_eq_getElem _ _ hj, e]
  · rintro ⟨j, hj, rfl⟩
    have hj2 : j < hash_sizes.length := by omega
    rw [List.getD_eq_getElem _ _ hj2]
    exact List.getElem_mem _

theorem ladder_mono_le (i j : Nat) (hij : i ≤ j) (hj : j ≤ 57) :
    hash_sizes.getD i 0 ≤ hash_sizes.getD j 0 := by
  by_cases h : i = j
  · rw [h]
  · exact le_of_lt (ladder_mono i j (by omega) hj)

theorem fit_size_least (n : Int) (j : Nat) (hj : j ≤ 57) (h : n ≤ hash_sizes.getD j 0) :
    n ≤ fit_size n ∧ fit_size n ≤ hash_sizes.getD j 0 := by
  obtain ⟨s1, s2, s3⟩ := size_idx_spec n
  have hle : size_idx n ≤ j := by
    by_contra hc
    have := s2 j (by omega)
    omega
  have hm := ladder_mono_le (size_idx n) j hle hj
  unfold fit_size
  refine ⟨?_, hm⟩
  rcases s3 with s3 | s3
  · exact s3
  · have : j = 57 := by omega
    rw [s3]
    rw [this] at h
    exact h

theorem fit_size_top (n : Int) (h : ∀ j, j ≤ 57 → (hash_sizes.getD j 0 : Int) < n) :
    fit_size n = 2062383853 := by
  obtain ⟨s1, s2, s3⟩ := size_idx_spec n
  have h57 : size_idx n = 57 := by
    rcases s3 with s3 | s3
    · have := h (size_idx n) s1
      omega
    · exact s3
  unfold fit_size
  rw [h57]
  decide

/-! ## Iteration with `hashindex_next_key` -/

theorem range_filter_ge (n lo : Nat) (h : lo < n) :
    (List.range n).filter (fun i => decide (lo ≤ i))
      = lo :: (List.range n).filter (fun i => decide (lo + 1 ≤ i)) := by
  induction n with
  | zero => omega
  | succ m ih =>
    rw [List.range_succ, List.filter_append, List.filter_append]
    by_cases hm : lo < m
    · rw [ih hm]
      have e1 : [m].filter (fun i => decide (lo ≤ i)) = [m] := by
        simp only [List.filter_cons, List.filter_nil]
        rw [if_pos (by simp only [decide_eq_true_eq]; omega)]
      have e2 : [m].filter (fun i => decide (lo + 1 ≤ i)) = [m] := by
        simp only [List.filter_cons, List.filter_nil]
        rw [if_pos (by simp only [decide_eq_true_eq]; omega)]
      rw [e1, e2]
      rfl
    · have hlo : lo = m := by omega
      subst hlo
      have e1 : (List.range lo).filter (fun i => decide (lo ≤ i)) = [] := by
        rw [List.filter_eq_nil_iff]
        intro a ha
        rw [List.mem_range] at ha
        simp only [decide_eq_true_eq]
        omega
      have e2 : (List.range lo).filter (fun i => decide (lo + 1 ≤ i)) = [] := by
        rw [List.filter_eq_nil_iff]
        intro a ha
        rw [List.mem_range] at ha
        simp only [decide_eq_true_eq]
        omega
      rw [e1, e2]
      simp

theorem range_filter_ge_nil (n lo : Nat) (h : n ≤ lo) :
    (List.range n).filter (fun i => decide (lo ≤ i)) = [] := by
  rw [List.filter_eq_nil_iff]
  intro a ha
  rw [List.mem_range] at ha
  simp only [decide_eq_true_eq]
  omega

theorem occupied_from_empty (index : HashIndex) (lo : Nat) (hE : isE index lo) :
    occupied_from index lo = occupied_from index (lo + 1) := by
  unfold occupied_from
  by_cases h : lo < index.num_buckets
  · rw [range_filter_ge _ _ h, List.filter_cons]
    unfold isE at hE
    rw [hE]
    rfl
  · rw [range_filter_ge_nil _ _ (by omega), range_filter_ge_nil _ _ (by omega)]

theorem occupied_from_occupied (index : HashIndex) (lo : Nat) (h : lo < index.num_buckets)
    (hE : ¬ isE index lo) :
    occupied_from index lo = lo :: occupied_from index (lo + 1) := by
  unfold occupied_from
  rw [range_filter_ge _ _ h, List.filter_cons]
  unfold isE at hE
  have : BUCKET_IS_EMPTY index lo = false := by simpa using hE
  rw [this]
  rfl

theorem occupied_from_end (index : HashIndex) (lo : Nat) (h : index.num_buckets ≤ lo) :
    occupied_from index lo = [] := by
  unfold occupied_from
  rw [range_filter_ge_nil _ _ h]
  rfl

theorem occupied_from_skip (index : HashIndex) (lo e : Nat) (hle : lo ≤ e)
    (h : ∀ j, lo ≤ j → j < e → isE index j) :
    occupied_from index lo = occupied_from index e := by
  obtain ⟨d, rfl⟩ : ∃ d, e = lo + d := ⟨e - lo, by omega⟩
  clear hle
  induction d with
  | zero => rfl
  | succ n ih =>
    rw [ih (fun j a b => h j a (by omega))]
    exact occupied_from_empty index (lo + n) (h (lo + n) (by omega) (by omega))

/-- What `hashindex_next_key` returns for a cursor that stands for "start at bucket `c`". -/
theorem next_key_spec (index : HashIndex) (cursor : Option Nat)
    (hc : cursor_idx index cursor ≤ index.num_buckets) :
    (∃ e, cursor_idx index cursor ≤ e ∧ e < index.num_buckets ∧ ¬ isE index e ∧
      (∀ j, cursor_idx index cursor ≤ j → j < e → isE index j) ∧
      hashindex_next_key index cursor = some (some (BUCKET_ADDR index e))) ∨
    ((∀ j, cursor_idx index cursor ≤ j → j < index.num_buckets → isE index j) ∧
      hashindex_next_key index cursor = some none) := by
  rw [next_key_unfold]
  by_cases h : cursor_idx index cursor = index.num_buckets
  · right
    rw [if_pos h]
    exact ⟨fun j a b => by omega, rfl⟩
  · rw [if_neg h]
    exact next_key_loop_spec index _ _ (by omega) (by omega)

theorem iterate_keys_spec (index : HashIndex) (hbs : 0 < index.bucket_size) :
    ∀ fuel cursor, cursor_idx index cursor ≤ index.num_buckets →
      index.num_buckets + 1 ≤ fuel + cursor_idx index cursor →
      iterate_keys index fuel cursor
        = some ((occupied_from index (cursor_idx index cursor)).map (BUCKET_ADDR index)) := by
  intro fuel
  induction fuel with
  | zero => intro cursor h1 h2; omega
  | succ n ih =>
    intro cursor h1 h2
    unfold iterate_keys
    rcases next_key_spec index cursor h1 with ⟨e, a1, a2, a3, a4, a5⟩ | ⟨a1, a2⟩
    · rw [a5]
      simp only
      have hce := cursor_idx_addr index e hbs
      rw [ih (some (BUCKET_ADDR index e)) (by rw [hce]; omega) (by rw [hce]; omega), hce,
        occupied_from_skip index _ e a1 a4, occupied_from_occupied index e a2 a3]
      rfl
    · rw [a2]
      simp only
      rw [occupied_from_skip index _ index.num_buckets h1 a1,
        occupied_from_end index _ (le_refl _)]
      rfl

theorem isE_iff_true (index : HashIndex) (i : Nat) :
    isE index i ↔ BUCKET_IS_EMPTY index i = true := Iff.rfl

theorem not_isE_iff_false (index : HashIndex) (i : Nat) :
    ¬ isE index i ↔ BUCKET_IS_EMPTY index i = false := by
  unfold isE
  simp

theorem mem_occupied_from (index : HashIndex) (lo i : Nat) :
    i ∈ occupied_from index lo ↔
      lo ≤ i ∧ i < index.num_buckets ∧ BUCKET_IS_EMPTY index i = false := by
  unfold occupied_from
  rw [List.mem_filter, List.mem_filter, List.mem_range]
  simp only [decide_eq_true_eq, Bool.not_eq_true']
  constructor
  · rintro ⟨⟨a, b⟩, c⟩
    exact ⟨b, a, c⟩
  · rintro ⟨a, b, c⟩
    exact ⟨⟨b, a⟩, c⟩

theorem occupied_from_sorted (index : HashIndex) (lo : Nat) :
    List.Pairwise (fun a b => a < b) (occupied_from index lo) := by
  unfold occupied_from
  exact ((List.pairwise_lt_range _).filter _).filter _

theorem next_key_first (index : HashIndex) (cursor : Option Nat) (e : Nat)
    (hc : cursor_idx index cursor ≤ e) (he : e < index.num_buckets)
    (hne : BUCKET_IS_EMPTY index e = false)
    (hlow : ∀ j, cursor_idx index cursor ≤ j → j < e → BUCKET_IS_EMPTY index j = true) :
    hashindex_next_key index cursor = some (some (BUCKET_ADDR index e)) := by
  rcases next_key_spec index cursor (by omega) with ⟨e1, a1, a2, a3, a4, a5⟩ | ⟨a1, a2⟩
  · have : e1 = e := by
      rcases Nat.lt_trichotomy e1 e with h | h | h
      · exact absurd (hlow e1 a1 h) a3
      · exact h
      · have := a4 e hc h
        unfold isE at this
        rw [hne] at this
        simp at this
    rw [a5, this]
  · have := a1 e hc he
    unfold isE at this
    rw [hne] at this
    simp at this

theorem next_key_none (index : HashIndex) (cursor : Option Nat)
    (hc : cursor_idx index cursor ≤ index.num_buckets)
    (hall : ∀ j, cursor_idx index cursor ≤ j → j < index.num_buckets →
      BUCKET_IS_EMPTY index j = true) :
    hashindex_next_key index cursor = some none := by
  rcases next_key_spec index cursor hc with ⟨e1, a1, a2, a3, a4, a5⟩ | ⟨a1, a2⟩
  · exact absurd (hall e1 a1 a2) a3
  · exact a2

/-! ## The sample table with a DELETED bucket -/

theorem deleted_not_empty (index : HashIndex) (i : Nat)
    (h : BUCKET_IS_DELETED index i = true) : BUCKET_IS_EMPTY index i = false := by
  unfold BUCKET_IS_DELETED at h
  unfold BUCKET_IS_EMPTY
  rw [beq_iff_eq] at h
  rw [h]
  decide

theorem tombstone_isE (i : Nat) (hi : i < 4) : isE tombstone_index i ↔ (i = 0 ∨ i = 3) := by
  have h : ∀ j, j < 4 → (BUCKET_IS_EMPTY tombstone_index j = true ↔ (j = 0 ∨ j = 3)) := by
    decide
  exact h i hi

theorem tombstone_sz : Sz tombstone_index := by
  unfold Sz
  decide

theorem tombstone_distinct : DistinctKeys tombstone_index := by
  intro i j hi hj hni hnj hk
  change i < 4 at hi
  change j < 4 at hj
  rw [tombstone_isE i hi] at hni
  rw [tombstone_isE j hj] at hnj
  have hi2 : i = 1 ∨ i = 2 := by omega
  have hj2 : j = 1 ∨ j = 2 := by omega
  have hk12 : keyOf tombstone_index 1 ≠ keyOf tombstone_index 2 := by decide
  rcases hi2 with rfl | rfl <;> rcases hj2 with rfl | rfl
  · rfl
  · exact absurd hk hk12
  · exact absurd hk.symm hk12
  · rfl

theorem tombstone_rh : RobinHood tombstone_index := by
  intro i hi hni hnn
  change i < 4 at hi
  rw [tombstone_isE i hi] at hni
  have hi2 : i = 1 ∨ i = 2 := by omega
  rcases hi2 with rfl | rfl
  · decide
  · exfalso
    apply hnn
    have : next_idx tombstone_index.num_buckets 2 = 3 := by decide
    rw [this, tombstone_isE 3 (by omega)]
    omega

theorem tombstone_reach : Reachable tombstone_index := by
  intro i hi hni j hj
  change i < 4 at hi
  rw [tombstone_isE i hi] at hni
  have hi2 : i = 1 ∨ i = 2 := by omega
  rcases hi2 with rfl | rfl
  · have : bucket_distance tombstone_index 1 = 0 := by decide
    omega
  · have hb : bucket_distance tombstone_index 2 = 1 := by decide
    have hj0 : j = 0 := by omega
    subst hj0
    have : wrap_add tombstone_index.num_buckets (homeOf tombstone_index 2) 0 = 1 := by decide
    rw [this, tombstone_isE 1 (by omega)]
    omega

theorem tombstone_has_empty : HasEmpty tombstone_index :=
  ⟨0, by decide, (tombstone_isE 0 (by omega)).mpr (Or.inl rfl)⟩

/-! ## The wrap-around delete scenario, observed at the buckets -/

set_option maxRecDepth 100000 in
theorem delete_wrap_layout_eval :
    delete_wrap_layout = some (1, 1031, false, 0, 1030, true) := by
  decide

theorem wrap_setup_wf :
    ∃ index0 index,
      hashindex_set 1 (hashindex_init 0 32 12) wrap_key_last sample_value
        = some (1, index0) ∧
      hashindex_set 1 index0 wrap_key_first sample_value = some (1, index) ∧
      Sz index ∧ DistinctKeys index ∧ RobinHood index ∧ Reachable index ∧ HasEmpty index ∧
      index.num_entries = num_occupied index := by
  have hv : le32 sample_value ≠ EMPTY := by decide
  have hwf0 := init_wf 0 32 12 (by decide) (by decide) (by decide)
  have hocc0 : num_occupied (hashindex_init 0 32 12) = 0 := by
    unfold num_occupied
    rw [occupied_init]
    rfl
  have hbs0 := (init_frame 0 32 12).2.2.2.2.1
  obtain ⟨index0, a1, a2, a3, a4⟩ := wfl_after_set 1 (hashindex_init 0 32 12) wrap_key_last
    sample_value hwf0 (init_on_ladder 0 32 12) hv (by omega) (by rw [hocc0, hbs0]; decide)
  have hks0 : index0.key_size = 32 := by rw [a4.ks, (init_frame 0 32 12).2.2.1]
  have hvs0 : index0.value_size = 12 := by rw [a4.vs, (init_frame 0 32 12).2.2.2.1]
  have hbs1 : index0.bucket_size = 44 := by rw [a2.sz.2.2, hks0, hvs0]
  have hocc1 : num_occupied index0 ≤ 1 := by
    by_cases hp : Present (hashindex_init 0 32 12) (keyBytes (hashindex_init 0 32 12)
        wrap_key_last)
    · have := (a4.present hp).2.1
      omega
    · have := (a4.absent hp).2.1
      omega
  obtain ⟨index, b1, b2, b3, b4⟩ := wfl_after_set 1 index0 wrap_key_first sample_value a2 a3
    hv (by omega) (by
      rw [hbs1]
      have : (num_occupied index0 + 2) * 44 ≤ 3 * 44 := Nat.mul_le_mul_right _ (by omega)
      omega)
  exact ⟨index0, index, a1, b1, b2.sz, b2.distinct, b2.rh, b2.reach, b2.has_empty, b2.count⟩

/-! ## Probe-reachability alone is preserved by insertion -/

theorem reachable_iff_view (index : HashIndex) : Reachable index ↔ (view index).Reach :=
  Iff.rfl

theorem reach_disp_succ (v : View) (hr : v.Reach) (hhome : ∀ i, v.home i < v.nb)
    (q e : Nat) (hq : q < v.nb) (hne : ¬ v.emp q) (he : e < v.nb) (hE : v.emp e) :
    v.disp q + 1 < v.nb := by
  by_contra hc
  have hd : v.disp q < v.nb := distance_lt q (v.home q) v.nb hq
  have hde := distance_lt e (v.home q) v.nb he
  have hwe := wrap_add_distance v.nb e (v.home q) he (hhome q)
  have hwq := wrap_add_distance v.nb q (v.home q) hq (hhome q)
  by_cases hlt : distance e (v.home q) v.nb < v.disp q
  · have := hr q hq hne _ hlt
    rw [hwe] at this
    exact this hE
  · have heq : distance e (v.home q) v.nb = distance q (v.home q) v.nb := by
      unfold View.disp at hc hd hlt
      omega
    rw [heq, hwq] at hwe
    rw [hwe] at hne
    exact hne hE

theorem insert_reach (v : View) (p e h o : Nat) (k w : List Nat)
    (hp : p < v.nb) (he : e < v.nb) (hh : h < v.nb) (ho : o < v.nb)
    (hpo : p = wrap_add v.nb h o) (hE : v.emp e)
    (hrun : ∀ i, i < v.nb → (i = p ∨ btw v.nb p e i) → i ≠ e → ¬ v.emp i)
    (hpath : ∀ j, j < o → ¬ v.emp (wrap_add v.nb h j))
    (hhome : ∀ i, v.home i < v.nb) (hr : v.Reach) :
    (v.insert p e h k w).Reach := by
  have hmono : ∀ x, x < v.nb → ¬ v.emp x → ¬ (v.insert p e h k w).emp x := by
    intro x hx hne
    exact (insert_emp_iff v p e h k w hp he hrun x hx).mpr (Or.inl hne)
  intro i hi hne
  have hnb : (v.insert p e h k w).nb = v.nb := rfl
  rw [hnb] at hi ⊢
  by_cases hip : i = p
  · subst hip
    have hdp : (v.insert i e h k w).disp i = o := by
      unfold View.disp View.insert
      simp only [if_true]
      rw [hpo]
      exact distance_wrap_add _ _ _ hh ho
    have hhp : (v.insert i e h k w).home i = h := by
      unfold View.insert
      simp only [if_true]
    rw [hdp, hhp]
    intro j hj
    exact hmono _ (wrap_add_lt _ _ _ hh (by omega)) (hpath j hj)
  · by_cases hb : btw v.nb p e i
    · obtain ⟨b1, b2, b3⟩ := btw_pred v.nb p e i hp he hb
      have hq : pred_idx v.nb i < v.nb := pred_lt _ _ hi
      have hqne : ¬ v.emp (pred_idx v.nb i) := hrun _ hq b1 b2
      have hsucc := reach_disp_succ v hr hhome _ e hq hqne he hE
      have hs := distance_succ v.nb (pred_idx v.nb i) (v.home (pred_idx v.nb i)) hq (hhome _)
        (by unfold View.disp at hsucc; exact hsucc)
      rw [next_pred _ _ hi] at hs
      have hhi : (v.insert p e h k w).home i = v.home (pred_idx v.nb i) := by
        unfold View.insert
        simp only
        rw [if_neg hip, if_pos hb]
      have hdi : (v.insert p e h k w).disp i = v.disp (pred_idx v.nb i) + 1 := by
        unfold View.disp
        rw [hhi]
        exact hs
      rw [hdi, hhi]
      intro j hj
      by_cases hjl : j < v.disp (pred_idx v.nb i)
      · exact hmono _ (wrap_add_lt _ _ _ (hhome _) (by omega))
          (hr _ hq hqne j hjl)
      · have hje : j = v.disp (pred_idx v.nb i) := by omega
        have hwq := wrap_add_distance v.nb (pred_idx v.nb i) (v.home (pred_idx v.nb i)) hq
          (hhome _)
        rw [hje]
        unfold View.disp
        rw [hwq]
        exact hmono _ hq hqne
    · have hei : (v.insert p e h k w).emp i ↔ v.emp i := by
        unfold View.insert
        simp only
        rw [if_neg hip, if_neg hb]
      have hhi : (v.insert p e h k w).home i = v.home i := by
        unfold View.insert
        simp only
        rw [if_neg hip, if_neg hb]
      have hdi : (v.insert p e h k w).disp i = v.disp i := by
        unfold View.disp
        rw [hhi]
        rfl
      have hne0 : ¬ v.emp i := fun hc => hne (hei.mpr hc)
      rw [hdi, hhi]
      intro j hj
      have hd : v.disp i < v.nb := distance_lt i (v.home i) v.nb hi
      exact hmono _ (wrap_add_lt _ _ _ (hhome _) (by omega)) (hr i hi hne0 j hj)

theorem set_insert_reach (index : HashIndex) (key value : Ptr) (skip : Nat)
    (hz : Sz index) (hemp : HasEmpty index) (hf : FitsInt index) (hreach : Reachable index)
    (hv : le32 value ≠ EMPTY) (hskip : skip < index.num_buckets)
    (hpass : ∀ j, j < skip →
      ¬ isE index (wrap_add index.num_buckets (hashindex_index index key) j)) :
    ∃ index1, set_insert index key value skip = some index1 ∧ SameShape index1 index ∧
      Reachable index1 := by
  have hn := pos_of_has_empty index hemp
  have hs := hashindex_index_lt index key hn
  obtain ⟨index1, p, e, off, s1, s2, s3, s4, s5, s6, s7, s8, s9, s10, s11, s12, s13, s14⟩ :=
    set_insert_slots index key value skip hz hn hemp hf hskip hpass
  have hp : p < index.num_buckets := by
    rw [s8]; exact wrap_add_lt _ _ _ hs (by omega)
  have hview := view_insert_of_slots index index1 key value p e hz s2 hv s14
  refine ⟨index1, s1, s2, ?_⟩
  rw [reachable_iff_view, hview]
  apply insert_reach (view index) p e (hashindex_index index key) off _ _ hp s9 hs s7 s8 s10
    s11 _ (view_home_lt index hn) hreach
  intro j hj
  by_cases hjs : j < skip
  · exact hpass j hjs
  · exact (s12 j (by omega) hj).1

theorem set_reach (fuel : Nat) (index : HashIndex) (key value : Ptr)
    (hz : Sz index) (hreach : Reachable index) (hemp : HasEmpty index) (hf : FitsInt index)
    (hv : le32 value ≠ EMPTY) (hfuel : 2 ≤ fuel) :
    ∃ index1, hashindex_set fuel index key value = some (1, index1) ∧ Reachable index1 := by
  have hn := pos_of_has_empty index hemp
  obtain ⟨r, hr⟩ := lookup_total index key (some 0) hn
  obtain ⟨rv, hint⟩ := r
  cases rv with
  | some idx =>
    obtain ⟨s1, s2, s3, _⟩ := lookup_sound index key (some 0) hint idx hn hr
    have hset : hashindex_set fuel index key value
        = some (1, write_value index idx value) := by
      cases fuel <;> (unfold hashindex_set set_with; simp only [hr])
    refine ⟨_, hset, ?_⟩
    rw [reachable_iff_view, view_write_value index idx value hz hv s2]
    exact hreach
  | none =>
    obtain ⟨skip, m1, m2, m3⟩ := lookup_miss_pass index key hint hn hr
    by_cases hu : index.num_entries > index.upper_limit
    · obtain ⟨f, rfl⟩ : ∃ f, fuel = f + 1 := ⟨fuel - 1, by omega⟩
      obtain ⟨index1, r1, r2⟩ :=
        resize_spec3 f index (grow_size index.num_buckets : Nat) (by omega) hz hf
      have hemp1 := has_empty_of_count index1 r2.room
      have hpos1 := pos_of_has_empty index1 hemp1
      have hf1 : FitsInt index1 := by
        unfold FitsInt at hf ⊢
        rw [r2.bs]
        have := Nat.mul_le_mul_right index.bucket_size
          (Nat.add_le_add_right r2.count 1)
        omega
      obtain ⟨index2, i1, _, i3⟩ := set_insert_reach index1 key value 0 r2.sz hemp1 hf1
        (global_of_localRH index1 hpos1 r2.lrh).2 hv hpos1 (fun j hj => by omega)
      have hset : hashindex_set (f + 1) index key value = some (1, index2) := by
        have hres : resize_with (hashindex_set f) index (grow_size index.num_buckets : Nat)
            = some (1, index1) := r1
        unfold hashindex_set set_with
        simp only [hr, hu, if_true, hres, show ¬ ((1 : Int) = 0) by omega, if_false, i1,
          Option.map_some']
      exact ⟨index2, hset, i3⟩
    · obtain ⟨index1, i1, _, i3⟩ := set_insert_reach index key value skip hz hemp hf hreach
        hv m2 m3
      have hopt : hint.getD 0 = skip := by rw [m1]; rfl
      refine ⟨index1, ?_, i3⟩
      cases fuel <;>
        (unfold hashindex_set set_with
         simp only [hr, hu, if_false, hopt, i1, Option.map_some'])

/-! ## Persistence: the header written and read back -/

theorem wrap32_mod (x : Int) (h0 : -2147483648 ≤ x) (h1 : x < 2147483648) :
    wrap32 (((x % 4294967296).toNat : Nat) : Int) = x := by
  have hnn : 0 ≤ x % 4294967296 := Int.emod_nonneg _ (by omega)
  rw [Int.toNat_of_nonneg hnn]
  unfold wrap32
  omega

theorem wrap8_byte (k : Nat) (h : k ≤ 127) : wrap8 ((k % 256 : Nat) : Int) = k := by
  unfold wrap8
  omega

theorem le32_bytes_length (x : Int) : (le32_bytes x).length = 4 := rfl

theorem le32_le32_bytes (x : Int) (t : List Nat) :
    (le32 (ofBytes (le32_bytes x ++ t)) : Int) = ((x % 4294967296).toNat : Nat) := by
  have hnn : 0 ≤ x % 4294967296 := Int.emod_nonneg _ (by omega)
  have hlt : x % 4294967296 < 4294967296 := Int.emod_lt_of_pos _ (by omega)
  have hu : (x % 4294967296).toNat < 4294967296 := by omega
  unfold le32 ofBytes le32_bytes
  simp only [List.cons_append, List.getD_cons_zero, List.getD_cons_succ]
  generalize (x % 4294967296).toNat = u at hu
  norm_cast
  omega

theorem write_header_length (index : HashIndex) :
    (MAGIC ++ le32_bytes index.num_entries ++ le32_bytes index.num_buckets ++
      [index.key_size % 256, index.value_size % 256]).length = 18 := rfl

theorem write_take_header (index : HashIndex) :
    (hashindex_write index).take 18
      = MAGIC ++ le32_bytes index.num_entries ++ le32_bytes index.num_buckets ++
        [index.key_size % 256, index.value_size % 256] := by
  unfold hashindex_write
  exact List.take_left' (write_header_length index)

theorem write_drop_header (index : HashIndex) :
    (hashindex_write index).drop 18
      = readBytes index.buckets 0 (index.num_buckets * index.bucket_size) := by
  unfold hashindex_write
  exact List.drop_left' (write_header_length index)

theorem write_length (index : HashIndex) :
    (hashindex_write index).length = 18 + index.num_buckets * index.bucket_size := by
  unfold hashindex_write
  simp only []
  rw [List.length_append, write_header_length, readBytes_length]

theorem written_num_entries (index : HashIndex) (h0 : -2147483648 ≤ index.num_entries)
    (h1 : index.num_entries < 2147483648) :
    header_num_entries (MAGIC ++ le32_bytes index.num_entries ++
      le32_bytes index.num_buckets ++ [index.key_size % 256, index.value_size % 256])
      = index.num_entries := by
  unfold header_num_entries
  have hd : (MAGIC ++ le32_bytes index.num_entries ++ le32_bytes index.num_buckets ++
      [index.key_size % 256, index.value_size % 256]).drop 8
      = le32_bytes index.num_entries ++ (le32_bytes index.num_buckets ++
        [index.key_size % 256, index.value_size % 256]) := by
    rw [List.append_assoc, List.append_assoc]
    exact List.drop_left' rfl
  rw [hd, le32_le32_bytes]
  exact wrap32_mod _ h0 h1

theorem written_num_buckets (index : HashIndex) (h1 : index.num_buckets < 2147483648) :
    header_num_buckets (MAGIC ++ le32_bytes index.num_entries ++
      le32_bytes index.num_buckets ++ [index.key_size % 256, index.value_size % 256])
      = index.num_buckets := by
  unfold header_num_buckets
  have hd : (MAGIC ++ le32_bytes index.num_entries ++ le32_bytes index.num_buckets ++
      [index.key_size % 256, index.value_size % 256]).drop 12
      = le32_bytes index.num_buckets ++ [index.key_size % 256, index.value_size % 256] := by
    rw [List.append_assoc]
    exact List.drop_left' rfl
  rw [hd, le32_le32_bytes]
  exact wrap32_mod _ (by omega) (by omega)

theorem written_key_size (index : HashIndex) (h : index.key_size ≤ 127) :
    header_key_size (MAGIC ++ le32_bytes index.num_entries ++
      le32_bytes index.num_buckets ++ [index.key_size % 256, index.value_size % 256])
      = index.key_size := by
  unfold header_key_size
  have hg : (MAGIC ++ le32_bytes index.num_entries ++ le32_bytes index.num_buckets ++
      [index.key_size % 256, index.value_size % 256]).getD 16 0 = index.key_size % 256 := rfl
  rw [hg]
  exact wrap8_byte _ h

theorem written_value_size (index : HashIndex) (h : index.value_size ≤ 127) :
    header_value_size (MAGIC ++ le32_bytes index.num_entries ++
      le32_bytes index.num_buckets ++ [index.key_size % 256, index.value_size % 256])
      = index.value_size := by
  unfold header_value_size
  have hg : (MAGIC ++ le32_bytes index.num_entries ++ le32_bytes index.num_buckets ++
      [index.key_size % 256, index.value_size % 256]).getD 17 0 = index.value_size % 256 := rfl
  rw [hg]
  exact wrap8_byte _ h

theorem written_magic (index : HashIndex) :
    (MAGIC ++ le32_bytes index.num_entries ++ le32_bytes index.num_buckets ++
      [index.key_size % 256, index.value_size % 256]).take 8 = MAGIC := by
  rw [List.append_assoc, List.append_assoc]
  exact List.take_left' rfl

theorem lower_limit_signed_nat (n : Nat) : get_lower_limit_signed (n : Int) = get_lower_limit n := by
  unfold get_lower_limit_signed get_lower_limit
  simp only [Int.toNat_ofNat, Nat.cast_le]

theorem upper_limit_signed_nat (n : Nat) : get_upper_limit_signed (n : Int) = get_upper_limit n := by
  unfold get_upper_limit_signed get_upper_limit
  simp only [Int.toNat_ofNat, ge_iff_le, Nat.cast_le]
  split_ifs with h1 h2
  · rfl
  · rfl
  · omega

theorem alloc_ok_small (x : Int) (h0 : 0 ≤ x) (h1 : x < 9223372036854775808) :
    alloc_ok x = true := by
  unfold alloc_ok
  rw [decide_eq_true_eq]
  omega

theorem read_written (index : HashIndex)
    (hks : index.key_size ≤ 127) (hvs : index.value_size ≤ 127)
    (hbs : index.bucket_size = index.key_size + index.value_size)
    (hnb : index.num_buckets < 2147483648)
    (h0 : -2147483648 ≤ index.num_entries) (h1 : index.num_entries < 2147483648) :
    hashindex_read (hashindex_write index) = some
      { buckets := ofBytes (readBytes index.buckets 0 (index.num_buckets * index.bucket_size))
        tmp_entry := fun _ => 0
        num_entries := index.num_entries
        num_buckets := index.num_buckets
        key_size := index.key_size
        value_size := index.value_size
        bucket_size := (index.key_size : Int) + index.value_size
        lower_limit := get_lower_limit index.num_buckets
        upper_limit := get_upper_limit index.num_buckets } := by
  have e1 := written_num_entries index h0 h1
  have e2 := written_num_buckets index hnb
  have e3 := written_key_size index hks
  have e4 := written_value_size index hvs
  have e5 := written_magic index
  have hprod : index.num_buckets * index.bucket_size < 2147483648 * 255 :=
    Nat.mul_lt_mul_of_lt_of_le hnb (by omega) (by omega)
  have hbl : (index.num_buckets : Int) * ((index.key_size : Int) + index.value_size)
      = ((index.num_buckets * index.bucket_size : Nat) : Int) := by
    rw [hbs]
    push_cast
    rfl
  have hmod : ((index.num_buckets * index.bucket_size : Nat) : Int) % 18446744073709551616
      = ((index.num_buckets * index.bucket_size : Nat) : Int) := by
    omega
  have htake : (readBytes index.buckets 0 (index.num_buckets * index.bucket_size)).take
      (index.num_buckets * index.bucket_size)
      = readBytes index.buckets 0 (index.num_buckets * index.bucket_size) := by
    apply List.take_of_length_le
    rw [readBytes_length]
  unfold hashindex_read
  simp only []
  rw [write_take_header, write_drop_header, write_length, e1, e2, e3, e4, e5, hbl, hmod,
    Int.toNat_ofNat, htake, readBytes_length, lower_limit_signed_nat, upper_limit_signed_nat,
    write_header_length]
  rw [if_neg (by simp), if_neg (by simp), if_neg (by push_cast; omega),
    if_neg (by rw [alloc_ok_small _ (by omega) (by omega)]; simp),
    if_neg (by rw [alloc_ok_small _ (by omega) (by omega)]; simp),
    if_neg (by simp)]

/-! ## `hashindex_lookup` reads the bucket array only -/

theorem bucket_region (nb bs i c : Nat) (hi : i < nb) (hc : c < bs) : i * bs + c < nb * bs := by
  have h : (i + 1) * bs ≤ nb * bs := Nat.mul_le_mul_right bs hi
  rw [Nat.add_mul, Nat.one_mul] at h
  omega

theorem le32_region (m m1 : Ptr) (a n : Nat) (h : ∀ r, r < n → m r = m1 r) (ha : a + 4 ≤ n) :
    le32 (ptr m a) = le32 (ptr m1 a) := by
  unfold le32 ptr
  rw [h (a + 0) (by omega), h (a + 1) (by omega), h (a + 2) (by omega), h (a + 3) (by omega)]

theorem accessors_congr (a b : HashIndex) (key : Ptr) (hs : SameShape a b)
    (hvs : 4 ≤ b.value_size) (hbs : b.bucket_size = b.key_size + b.value_size)
    (hmem : ∀ r, r < b.num_buckets * b.bucket_size → a.buckets r = b.buckets r)
    (i : Nat) (hi : i < b.num_buckets) :
    BUCKET_IS_EMPTY a i = BUCKET_IS_EMPTY b i ∧
    BUCKET_MATCHES_KEY a i key = BUCKET_MATCHES_KEY b i key ∧
    bucket_distance a i = bucket_distance b i := by
  obtain ⟨s1, s2, s3, s4⟩ := hs
  have hreg := bucket_region b.num_buckets b.bucket_size i
  refine ⟨?_, ?_, ?_⟩
  · unfold BUCKET_IS_EMPTY BUCKET_ADDR
    rw [s2, s4, le32_region a.buckets b.buckets _ _ hmem
      (by have := hreg (b.key_size + 3) hi (by omega); omega)]
  · unfold BUCKET_MATCHES_KEY BUCKET_ADDR
    rw [s2, s4, Bool.eq_iff_iff, List.all_eq_true, List.all_eq_true]
    constructor
    · intro h r hr
      have hr1 := List.mem_range.mp hr
      rw [← hmem _ (hreg r hi (by omega))]
      exact h r hr
    · intro h r hr
      have hr1 := List.mem_range.mp hr
      rw [hmem _ (hreg r hi (by omega))]
      exact h r hr
  · unfold bucket_distance hashindex_index BUCKET_ADDR
    rw [s1, s4, le32_region a.buckets b.buckets _ _ hmem
      (by have := hreg 3 hi (by omega); omega)]

theorem lookup_loop_congr (a b : HashIndex) (key : Ptr) (start : Nat) (hs : SameShape a b)
    (hpos : 0 < b.num_buckets)
    (hacc : ∀ i, i < b.num_buckets →
      BUCKET_IS_EMPTY a i = BUCKET_IS_EMPTY b i ∧
      BUCKET_MATCHES_KEY a i key = BUCKET_MATCHES_KEY b i key ∧
      bucket_distance a i = bucket_distance b i) :
    ∀ fuel idx offset period, idx < b.num_buckets →
      lookup_loop a key start fuel idx offset period
        = lookup_loop b key start fuel idx offset period := by
  intro fuel
  induction fuel with
  | zero =>
    intro idx offset period _
    rfl
  | succ n ih =>
    intro idx offset period hidx
    obtain ⟨c1, c2, c3⟩ := hacc idx hidx
    unfold lookup_loop
    rw [c1, c2, c3, hs.1]
    simp only []
    rw [ih _ _ _ (by split_ifs <;> omega)]

theorem lookup_congr (a b : HashIndex) (key : Ptr) (hint : Option Nat) (hs : SameShape a b)
    (hpos : 0 < b.num_buckets) (hvs : 4 ≤ b.value_size)
    (hbs : b.bucket_size = b.key_size + b.value_size)
    (hmem : ∀ r, r < b.num_buckets * b.bucket_size → a.buckets r = b.buckets r) :
    hashindex_lookup a key hint = hashindex_lookup b key hint := by
  have hacc := accessors_congr a b key hs hvs hbs hmem
  have hidx : hashindex_index a key = hashindex_index b key := by
    unfold hashindex_index
    rw [hs.1]
  unfold hashindex_lookup
  simp only []
  rw [hidx, hs.1, lookup_loop_congr a b key _ hs hpos hacc _ _ _ _
    (hashindex_index_lt b key hpos)]

theorem get_congr (a b : HashIndex) (key : Ptr) (hs : SameShape a b)
    (hpos : 0 < b.num_buckets) (hvs : 4 ≤ b.value_size)
    (hbs : b.bucket_size = b.key_size + b.value_size)
    (hmem : ∀ r, r < b.num_buckets * b.bucket_size → a.buckets r = b.buckets r) :
    hashindex_get a key = hashindex_get b key := by
  unfold hashindex_get BUCKET_ADDR
  rw [lookup_congr a b key none hs hpos hvs hbs hmem, hs.2.1, hs.2.2.2]

theorem get_value_region_congr (a b : HashIndex) (key : Ptr) (hs : SameShape a b)
    (hpos : 0 < b.num_buckets) (hvs : 4 ≤ b.value_size)
    (hbs : b.bucket_size = b.key_size + b.value_size)
    (hmem : ∀ r, r < b.num_buckets * b.bucket_size → a.buckets r = b.buckets r) :
    hashindex_get_value a key = hashindex_get_value b key := by
  have hl := lookup_congr a b key none hs hpos hvs hbs hmem
  unfold hashindex_get_value hashindex_get BUCKET_ADDR
  rw [hl, hs.2.1, hs.2.2.1, hs.2.2.2]
  cases hr : hashindex_lookup b key none with
  | none => rfl
  | some r =>
    obtain ⟨rv, hint1⟩ := r
    cases rv with
    | none => rfl
    | some i =>
      obtain ⟨s1, _, _, _⟩ := lookup_sound b key none hint1 i hpos hr
      simp only [Option.map_some']
      rw [readBytes_ext a.buckets b.buckets _ _ b.value_size]
      intro r hr1
      apply hmem
      have := bucket_region b.num_buckets b.bucket_size i (b.key_size + r) s1 (by omega)
      omega

theorem ofBytes_readBytes_region (m : Ptr) (n r : Nat) (h : r < n) :
    ofBytes (readBytes m 0 n) r = m r := by
  unfold ofBytes
  rw [readBytes_getD m 0 n r h, Nat.zero_add]

/-! ## When `hashindex_read` fails -/

theorem wrap32_range (x : Int) : -2147483648 ≤ wrap32 x ∧ wrap32 x < 2147483648 := by
  unfold wrap32
  omega

theorem wrap8_range (x : Int) : -128 ≤ wrap8 x ∧ wrap8 x < 128 := by
  unfold wrap8
  omega

theorem buckets_length_range (nb s : Int) (h1 : -2147483648 ≤ nb) (h2 : nb < 2147483648)
    (h3 : -256 ≤ s) (h4 : s < 256) :
    -549755813888 ≤ nb * s ∧ nb * s ≤ 549755813888 := by
  have h : |nb * s| ≤ 2147483648 * 256 := by
    rw [abs_mul]
    exact mul_le_mul (abs_le.mpr ⟨by omega, by omega⟩) (abs_le.mpr ⟨by omega, by omega⟩)
      (abs_nonneg _) (by norm_num)
  have := abs_le.mp h
  omega

theorem header_length_range (header : List Nat) :
    -549755813888 ≤ header_num_buckets header *
        (header_key_size header + header_value_size header) ∧
      header_num_buckets header * (header_key_size header + header_value_size header)
        ≤ 549755813888 := by
  have a := wrap32_range (le32 (ofBytes (header.drop 12)))
  have b := wrap8_range (header.getD 16 0)
  have c := wrap8_range (header.getD 17 0)
  exact buckets_length_range _ _ a.1 a.2 (by unfold header_key_size header_value_size; omega)
    (by unfold header_key_size header_value_size; omega)

theorem read_short (file : List Nat) (h : file.length < 18) : hashindex_read file = none := by
  unfold hashindex_read
  simp only []
  rw [if_pos (by rw [List.length_take]; omega)]

theorem take_header_length (file : List Nat) (h : 18 ≤ file.length) :
    (file.take 18).length = 18 := by
  rw [List.length_take]
  omega

theorem take_header_magic (file : List Nat) : (file.take 18).take 8 = file.take 8 := by
  rw [List.take_take]
  rfl

theorem read_bad_magic (file : List Nat) (h : file.take 8 ≠ MAGIC) :
    hashindex_read file = none := by
  unfold hashindex_read
  simp only []
  by_cases h1 : (file.take 18).length ≠ 18
  · rw [if_pos h1]
  · rw [if_neg h1, if_pos (by rw [take_header_magic]; exact h)]

theorem read_bad_length (file : List Nat) (hlen : file.length < 9223372036854775808)
    (h : (file.length : Int) ≠ 18 + header_num_buckets (file.take 18) *
      (header_key_size (file.take 18) + header_value_size (file.take 18))) :
    hashindex_read file = none := by
  have hr := header_length_range (file.take 18)
  unfold hashindex_read
  simp only []
  by_cases h1 : (file.take 18).length ≠ 18
  · rw [if_pos h1]
  · by_cases h2 : (file.take 18).take 8 ≠ MAGIC
    · rw [if_neg h1, if_pos h2]
    · rw [if_neg h1, if_neg h2, if_pos]
      generalize header_num_buckets (file.take 18) *
        (header_key_size (file.take 18) + header_value_size (file.take 18)) = bl at hr h
      omega

theorem read_negative_width (file : List Nat)
    (h : header_key_size (file.take 18) + header_value_size (file.take 18) < 0) :
    hashindex_read file = none := by
  have b := wrap8_range ((file.take 18).getD 16 0)
  have c := wrap8_range ((file.take 18).getD 17 0)
  have hal : alloc_ok (header_key_size (file.take 18) + header_value_size (file.take 18))
      = false := by
    unfold alloc_ok
    rw [decide_eq_false_iff_not]
    unfold header_key_size header_value_size at h ⊢
    omega
  unfold hashindex_read
  simp only []
  by_cases h1 : (file.take 18).length ≠ 18
  · rw [if_pos h1]
  · by_cases h2 : (file.take 18).take 8 ≠ MAGIC
    · rw [if_neg h1, if_pos h2]
    · rw [if_neg h1, if_neg h2, if_pos hal]
      split_ifs <;> rfl

theorem read_ok (file : List Nat) (hlen : file.length < 9223372036854775808)
    (h18 : 18 ≤ file.length) (hm : file.take 8 = MAGIC)
    (hl : (file.length : Int) = 18 + header_num_buckets (file.take 18) *
      (header_key_size (file.take 18) + header_value_size (file.take 18)))
    (hs : 0 ≤ header_key_size (file.take 18) + header_value_size (file.take 18)) :
    hashindex_read file = some
      { buckets := ofBytes (file.drop 18)
        tmp_entry := fun _ => 0
        num_entries := header_num_entries (file.take 18)
        num_buckets := header_num_buckets (file.take 18)
        key_size := header_key_size (file.take 18)
        value_size := header_value_size (file.take 18)
        bucket_size := header_key_size (file.take 18) + header_value_size (file.take 18)
        lower_limit := get_lower_limit_signed (header_num_buckets (file.take 18))
        upper_limit := get_upper_limit_signed (header_num_buckets (file.take 18)) } := by
  have b := wrap8_range ((file.take 18).getD 16 0)
  have c := wrap8_range ((file.take 18).getD 17 0)
  have hal : alloc_ok (header_key_size (file.take 18) + header_value_size (file.take 18))
      = true := by
    apply alloc_ok_small _ hs
    unfold header_key_size header_value_size
    omega
  have hbl : header_num_buckets (file.take 18) *
      (header_key_size (file.take 18) + header_value_size (file.take 18))
      = ((file.length - 18 : Nat) : Int) := by
    omega
  have hmod : ((file.length - 18 : Nat) : Int) % 18446744073709551616
      = ((file.length - 18 : Nat) : Int) := by
    omega
  have htake : (file.drop 18).take (file.length - 18) = file.drop 18 := by
    apply List.take_of_length_le
    rw [List.length_drop]
  unfold hashindex_read
  simp only []
  rw [hbl, hmod, Int.toNat_ofNat, htake, List.length_drop, hal, take_header_magic,
    take_header_length file h18,
    alloc_ok_small _ (by omega : (0 : Int) ≤ ((file.length - 18 : Nat) : Int)) (by omega)]
  rw [if_neg (by simp), if_neg (by simp [hm]), if_neg (by omega), if_neg (by simp),
    if_neg (by simp), if_neg (by simp)]

/-! ## The oversized sample file -/

theorem huge_take_header :
    huge_count_file.take 18 = MAGIC ++ [0, 0, 0, 0, 0, 0, 0, 128, 1, 0] := by
  unfold huge_count_file
  exact List.take_left' rfl

theorem huge_length : huge_count_file.length = 2147483666 := by
  unfold huge_count_file
  rw [List.length_append, List.length_replicate]
  rfl

theorem huge_magic : huge_count_file.take 8 = MAGIC := by
  rw [← take_header_magic, huge_take_header]
  rfl

/-! ## The skip hint of `hashindex_lookup` -/

theorem lookup_miss_hint (index : HashIndex) (key : Ptr) (hint : Option Nat)
    (hn : 0 < index.num_buckets) (hrh : (view index).LocalRH)
    (h : hashindex_lookup index key (some 0) = some (none, hint)) :
    ∃ offset, lookup_loop index key (hashindex_index index key) index.num_buckets
        (hashindex_index index key) 0 0 = some (none, offset) ∧
      hint = some (offset - 64) ∧ offset < index.num_buckets ∧
      (∀ j, j < offset - 64 →
        ¬ isE index (wrap_add index.num_buckets (hashindex_index index key) j) ∧
        j ≤ bucket_distance index
          (wrap_add index.num_buckets (hashindex_index index key) j)) := by
  have hs := hashindex_index_lt index key hn
  obtain ⟨rv, off, h1, h2, h3, h4, h5⟩ := lookup_loop_spec index key
    (hashindex_index index key) hs index.num_buckets (hashindex_index index key) 0 0
    (by rw [wrap_add_zero _ _ hs]) (by omega) hn rfl
  unfold hashindex_lookup at h
  simp only [h1] at h
  cases rv with
  | some r => simp at h
  | none =>
    simp only [Option.some.injEq, Prod.mk.injEq, true_and] at h
    refine ⟨off, h1, h.symm, h3, ?_⟩
    intro j hj
    refine ⟨(h4 j (by omega) (by omega)).1, ?_⟩
    have hc : ∃ c, c % 64 = 63 ∧ off - 64 - 1 ≤ c ∧ c < off :=
      ⟨off - 1 - (off % 64), by omega, by omega, by omega⟩
    obtain ⟨c, c1, c2, c3⟩ := hc
    have hcp := (h4 c (by omega) c3).2.2 c1
    have hback : ∀ m t, t + m = c →
        t ≤ bucket_distance index
          (wrap_add index.num_buckets (hashindex_index index key) t) := by
      intro m
      induction m with
      | zero =>
        intro t ht
        have : t = c := by omega
        subst this
        exact hcp
      | succ n ih =>
        intro t ht
        have i1 := ih (t + 1) (by omega)
        have hq : wrap_add index.num_buckets (hashindex_index index key) (t + 1)
            < index.num_buckets := wrap_add_lt _ _ _ hs (by omega)
        have r := hrh _ hq (h4 (t + 1) (by omega) (by omega)).1
        rw [view_nb, pred_wrap_add _ _ _ hs (by omega)] at r
        have := r.2 (h4 t (by omega) (by omega)).1
        rw [view_disp, view_disp] at this
        omega
    exact hback (c - j) j (by omega)

theorem slot_offset_lt (index : HashIndex) (start off : Nat) (hs : start < index.num_buckets)
    (hemp : HasEmpty index) (hoff : off ≤ index.num_buckets)
    (hpass : ∀ j, j < off → ¬ isE index (wrap_add index.num_buckets start j)) :
    off < index.num_buckets := by
  obtain ⟨e, he, hE⟩ := hemp
  by_contra hc
  have hd := distance_lt e start index.num_buckets he
  have := hpass (distance e start index.num_buckets) (by omega)
  rw [wrap_add_distance _ _ _ he hs] at this
  exact this hE

theorem set_slot_from_hint (index : HashIndex) (start skip : Nat)
    (hs : start < index.num_buckets) (hemp : HasEmpty index) (hskip : skip < index.num_buckets)
    (hpass : ∀ j, j < skip →
      ¬ isE index (wrap_add index.num_buckets start j) ∧
      j ≤ bucket_distance index (wrap_add index.num_buckets start j)) :
    ∃ off, set_slot_loop index (index.num_buckets + 1) (wrap_add index.num_buckets start skip)
          skip = some (wrap_add index.num_buckets start off, off) ∧
      set_slot_loop index (index.num_buckets + 1) start 0
          = some (wrap_add index.num_buckets start off, off) ∧
      skip ≤ off ∧ off < index.num_buckets ∧
      (∀ j, j < off →
        ¬ isE index (wrap_add index.num_buckets start j) ∧
        j ≤ bucket_distance index (wrap_add index.num_buckets start j)) ∧
      (isE index (wrap_add index.num_buckets start off) ∨
        bucket_distance index (wrap_add index.num_buckets start off) < off) := by
  obtain ⟨off1, a1, a2, a3, a4, a5⟩ := set_slot_loop_spec index start hs
    (index.num_buckets + 1) (wrap_add index.num_buckets start skip) skip rfl (by omega)
    (by omega)
  obtain ⟨off0, b1, b2, b3, b4, b5⟩ := set_slot_loop_spec index start hs
    (index.num_buckets + 1) start 0 (wrap_add_zero _ _ hs).symm (by omega) (by omega)
  have hall1 : ∀ j, j < off1 →
      ¬ isE index (wrap_add index.num_buckets start j) ∧
      j ≤ bucket_distance index (wrap_add index.num_buckets start j) := by
    intro j hj
    by_cases hjs : j < skip
    · exact hpass j hjs
    · exact a4 j (by omega) hj
  have heq : off0 = off1 := by
    rcases Nat.lt_trichotomy off0 off1 with hlt | heq | hgt
    · obtain ⟨p1, p2⟩ := hall1 off0 hlt
      rcases b5 with c | c
      · exact absurd c p1
      · omega
    · exact heq
    · obtain ⟨p1, p2⟩ := b4 off1 (Nat.zero_le _) hgt
      rcases a5 with c | c
      · exact absurd c p1
      · omega
  rw [heq] at b1
  exact ⟨off1, a1, b1, a2,
    slot_offset_lt index start off1 hs hemp a3 (fun j hj => (hall1 j hj).1), hall1, a5⟩

/-! ## `hashindex_set` with a value that carries the `EMPTY` tag -/

theorem set_insert_empty_value (index : HashIndex) (key value : Ptr) (skip : Nat)
    (hz : Sz index) (hemp : HasEmpty index) (hf : FitsInt index)
    (hv : le32 value = EMPTY) (hskip : skip < index.num_buckets)
    (hpass : ∀ j, j < skip →
      ¬ isE index (wrap_add index.num_buckets (hashindex_index index key) j))
    (habs : ∀ i, i < index.num_buckets → ¬ isE index i →
      keyOf index i ≠ readBytes key 0 index.key_size) :
    ∃ index1, set_insert index key value skip = some index1 ∧ SameShape index1 index ∧
      index1.num_entries = index.num_entries + 1 ∧
      num_occupied index1 = num_occupied index ∧
      (∀ i, i < index1.num_buckets → ¬ isE index1 i →
        keyOf index1 i ≠ readBytes key 0 index1.key_size) := by
  have hn := pos_of_has_empty index hemp
  have hs := hashindex_index_lt index key hn
  obtain ⟨index1, p, e, off, s1, s2, s3, s4, s5, s6, s7, s8, s9, s10, s11, s12, s13, s14⟩ :=
    set_insert_slots index key value skip hz hn hemp hf hskip hpass
  have hp : p < index.num_buckets := by
    rw [s8]; exact wrap_add_lt _ _ _ hs (by omega)
  have hz1 := sz_of_shape index1 index s2 hz
  have hslotp : slot index1 p
      = readBytes key 0 index.key_size ++ readBytes value 0 index.value_size := by
    rw [s14 p, if_pos rfl]
  have ap := accessors_of_slot index1 p hz1 _ _ (by rw [readBytes_length, s2.2.1]) hslotp
  have hEp : isE index1 p := by
    rw [ap.2.2.1, le32_ofBytes_readBytes _ _ hz.2.1]
    exact hv
  have hmov : ∀ i, i ≠ p → btw index.num_buckets p e i →
      ((isE index1 i ↔ isE index (pred_idx index.num_buckets i)) ∧
        keyOf index1 i = keyOf index (pred_idx index.num_buckets i)) := by
    intro i h1 h2
    have := slot_congr index1 index i (pred_idx index.num_buckets i) s2 hz
      (by rw [s14 i, if_neg h1, if_pos h2])
    exact ⟨this.1, this.2.1⟩
  have hkeep : ∀ i, i ≠ p → ¬ btw index.num_buckets p e i →
      ((isE index1 i ↔ isE index i) ∧ keyOf index1 i = keyOf index i) := by
    intro i h1 h2
    have := slot_congr index1 index i i s2 hz (by rw [s14 i, if_neg h1, if_neg h2])
    exact ⟨this.1, this.2.1⟩
  have hchar : ∀ i, i < index.num_buckets →
      (¬ isE index1 i ↔ (i ≠ p ∧ (¬ isE index i ∨ i = e))) := by
    intro i hi
    by_cases hip : i = p
    · subst hip
      exact ⟨fun h => absurd hEp h, fun h => absurd rfl h.1⟩
    · by_cases hb : btw index.num_buckets p e i
      · obtain ⟨b1, b2, b3⟩ := btw_pred index.num_buckets p e i hp s9 hb
        have hq := s11 _ (pred_lt _ _ hi) b1 b2
        rw [(hmov i hip hb).1]
        refine ⟨fun _ => ⟨hip, ?_⟩, fun _ => hq⟩
        by_cases hie : i = e
        · exact Or.inr hie
        · exact Or.inl (s11 i hi (Or.inr hb) hie)
      · rw [(hkeep i hip hb).1]
        have hie : i ≠ e := by
          intro hc
          apply hb
          rw [hc]
          exact btw_end _ _ _ s9 (by rw [← hc]; exact fun h => hip h.symm)
        exact ⟨fun h => ⟨hip, Or.inl h⟩, fun h => h.2.resolve_right hie⟩
  have hocc : occupied index1 = (insert e (occupied index)).erase p := by
    ext i
    rw [Finset.mem_erase, Finset.mem_insert, mem_occupied, mem_occupied, s2.1]
    constructor
    · rintro ⟨h1, h2⟩
      obtain ⟨c1, c2⟩ := (hchar i h1).mp h2
      refine ⟨c1, ?_⟩
      rcases c2 with c | c
      · exact Or.inr ⟨h1, c⟩
      · exact Or.inl c
    · rintro ⟨h1, h2 | ⟨h2, h3⟩⟩
      · rw [h2]
        exact ⟨s9, (hchar e s9).mpr ⟨by rw [← h2]; exact h1, Or.inr rfl⟩⟩
      · exact ⟨h2, (hchar i h2).mpr ⟨h1, Or.inl h3⟩⟩
  have hne : e ∉ occupied index := by
    rw [mem_occupied]
    exact fun h => h.2 s10
  have hcard : num_occupied index1 = num_occupied index := by
    unfold num_occupied
    rw [hocc]
    by_cases hpe : p = e
    · rw [hpe, Finset.erase_insert hne]
    · have hpo : p ∈ insert e (occupied index) := by
        rw [Finset.mem_insert, mem_occupied]
        exact Or.inr ⟨hp, s11 p hp (Or.inl rfl) hpe⟩
      rw [Finset.card_erase_of_mem hpo, Finset.card_insert_of_not_mem hne]
      rfl
  refine ⟨index1, s1, s2, s3, hcard, ?_⟩
  intro i hi hnE
  rw [s2.1] at hi
  rw [s2.2.1]
  have hip : i ≠ p := ((hchar i hi).mp hnE).1
  by_cases hb : btw index.num_buckets p e i
  · rw [(hmov i hip hb).2]
    exact habs _ (pred_lt _ _ hi) (fun h => hnE ((hmov i hip hb).1.mpr h))
  · rw [(hkeep i hip hb).2]
    exact habs i hi (fun h => hnE ((hkeep i hip hb).1.mpr h))

theorem get_none_of_absent (index : HashIndex) (key : Ptr) (hn : 0 < index.num_buckets)
    (habs : ∀ i, i < index.num_buckets → ¬ isE index i →
      keyOf index i ≠ readBytes key 0 index.key_size) :
    hashindex_get index key = some none := by
  obtain ⟨r, hr⟩ := lookup_total index key none hn
  obtain ⟨rv, hint⟩ := r
  cases rv with
  | some i =>
    obtain ⟨s1, s2, s3, _⟩ := lookup_sound index key none hint i hn hr
    exact absurd s3 (habs i s1 s2)
  | none =>
    unfold hashindex_get
    rw [hr]

theorem set_empty_value (fuel : Nat) (index : HashIndex) (key value : Ptr)
    (hz : Sz index) (hd : DistinctKeys index) (hemp : HasEmpty index) (hf : FitsInt index)
    (hv : le32 value = EMPTY) (hfuel : 2 ≤ fuel)
    (habs : ∀ i, i < index.num_buckets → ¬ isE index i →
      keyOf index i ≠ readBytes key 0 index.key_size) :
    ∃ index1, hashindex_set fuel index key value = some (1, index1) ∧
      index1.num_entries = index.num_entries + 1 ∧
      num_occupied index1 = num_occupied index ∧
      hashindex_get index1 key = some none := by
  have hn := pos_of_has_empty index hemp
  obtain ⟨r, hr⟩ := lookup_total index key (some 0) hn
  obtain ⟨rv, hint⟩ := r
  cases rv with
  | some i =>
    obtain ⟨s1, s2, s3, _⟩ := lookup_sound index key (some 0) hint i hn hr
    exact absurd s3 (habs i s1 s2)
  | none =>
    obtain ⟨skip, m1, m2, m3⟩ := lookup_miss_pass index key hint hn hr
    by_cases hu : index.num_entries > index.upper_limit
    · obtain ⟨f, rfl⟩ : ∃ f, fuel = f + 1 := ⟨fuel - 1, by omega⟩
      obtain ⟨index1, r1, r2, r3, r4, r5, r6, r7, r8, r9, r10, r11, r12, r13⟩ :=
        resize_spec2 f index (grow_size index.num_buckets : Nat) (by omega) hz hd hf
      have hemp1 := has_empty_of_count index1 r11
      have hpos1 := pos_of_has_empty index1 hemp1
      have hf1 : FitsInt index1 := by
        unfold FitsInt
        rw [r12, r5]
        exact hf
      have habs1 : ∀ i, i < index1.num_buckets → ¬ isE index1 i →
          keyOf index1 i ≠ readBytes key 0 index1.key_size := by
        intro i hi hne hk
        have hh : Holds index1 (readBytes key 0 index1.key_size) (valOf index1 i) :=
          ⟨i, hi, hne, hk, rfl⟩
        obtain ⟨j, a1, a2, a3, _⟩ := (r13 _ _).mp hh
        rw [r3] at a3
        exact habs j a1 a2 a3
      obtain ⟨index2, i1, i2, i3, i4, i5⟩ := set_insert_empty_value index1 key value 0 r8
        hemp1 hf1 hv hpos1 (fun j hj => by omega) habs1
      have hset : hashindex_set (f + 1) index key value = some (1, index2) := by
        have hres : resize_with (hashindex_set f) index (grow_size index.num_buckets : Nat)
            = some (1, index1) := r1
        unfold hashindex_set set_with
        simp only [hr, hu, if_true, hres, show ¬ ((1 : Int) = 0) by omega, if_false, i1,
          Option.map_some']
      exact ⟨index2, hset, by rw [i3, r6], by rw [i4, r12],
        get_none_of_absent index2 key (by rw [i2.1]; exact hpos1) i5⟩
    · obtain ⟨index1, i1, i2, i3, i4, i5⟩ := set_insert_empty_value index key value skip hz
        hemp hf hv m2 m3 habs
      have hopt : hint.getD 0 = skip := by rw [m1]; rfl
      refine ⟨index1, ?_, i3, i4, get_none_of_absent index1 key (by rw [i2.1]; exact hn) i5⟩
      cases fuel <;>
        (unfold hashindex_set set_with
         simp only [hr, hu, if_false, hopt, i1, Option.map_some'])

/-! ## The claims -/

/-- C1: on a well-formed index (key and value widths at least 4, pairwise distinct keys in
Robin-Hood order, every occupied bucket reachable from its home without crossing an EMPTY
bucket, at least one EMPTY bucket, chunk byte lengths within the range of `int`), for every
key and every value whose first four bytes are not the EMPTY sentinel, `hashindex_set`
returns 1 and a following `hashindex_get` of the same key returns the `value_size` bytes of
the value; the key may have been present or absent and the table may have grown. -/
theorem set_then_get (fuel : Nat) (index : HashIndex) (key value : Ptr)
    (hz : Sz index) (hd : DistinctKeys index) (hrh : RobinHood index)
    (hreach : Reachable index) (hemp : HasEmpty index) (hf : FitsInt index)
    (hv : le32 value ≠ EMPTY) (hfuel : 2 ≤ fuel) :
    ∃ index1, hashindex_set fuel index key value = some (1, index1) ∧
      hashindex_get_value index1 key = some (some (readBytes value 0 index.value_size)) := by
  obtain ⟨index1, h1, h2⟩ :=
    set_spec2 fuel index key value (inv_of_parts index hz hd hrh hreach hemp hf) hv hfuel
  refine ⟨index1, h1, ?_⟩
  apply get_value_of_holds index1 key _ h2.sz h2.pos h2.lrh h2.distinct
  rw [h2.ks]
  exact (h2.post _ _).mpr (Or.inl ⟨rfl, rfl⟩)

theorem set_then_get_witness :
    ∃ index1, hashindex_set 2 small_index other_key sample_value = some (1, index1) ∧
      hashindex_get_value index1 other_key
        = some (some (readBytes sample_value 0 small_index.value_size)) :=
  set_then_get 2 small_index other_key sample_value small_sz small_distinct small_rh
    small_reach small_has_empty small_fits (by decide) (by decide)

/-- C2: the claim fails on the wrap-around path of `hashindex_delete`.  The index reached
from `hashindex_init(0, 32, 12)` by setting a key with hash 1030 and a key with hash 0 is
well formed (distinct keys, Robin-Hood order, reachable, EMPTY buckets); `hashindex_get` of
the second key returns its value; after `hashindex_delete` of the first key (which returns
1) `hashindex_get` of the second key returns absence, because bucket 0, which sits at its
home, is moved to the last bucket. -/
theorem delete_wrap_loses_key :
    ∃ index0 index index1,
      hashindex_set 1 (hashindex_init 0 32 12) wrap_key_last sample_value
        = some (1, index0) ∧
      hashindex_set 1 index0 wrap_key_first sample_value = some (1, index) ∧
      Sz index ∧ DistinctKeys index ∧ RobinHood index ∧ Reachable index ∧ HasEmpty index ∧
      index.num_entries = num_occupied index ∧
      readBytes wrap_key_first 0 index.key_size ≠ readBytes wrap_key_last 0 index.key_size ∧
      hashindex_get_value index wrap_key_first
        = some (some [7, 0, 0, 0, 0, 0, 0, 0, 0, 0, 0, 0]) ∧
      hashindex_delete 1 index wrap_key_last = some (1, index1) ∧
      hashindex_get_value index1 wrap_key_first = some none := by
  have hv : le32 sample_value ≠ EMPTY := by decide
  have hwf0 := init_wf 0 32 12 (by decide) (by decide) (by decide)
  have hocc0 : num_occupied (hashindex_init 0 32 12) = 0 := by
    unfold num_occupied
    rw [occupied_init]
    rfl
  have hbs0 := (init_frame 0 32 12).2.2.2.2.1
  obtain ⟨index0, a1, a2, a3, a4⟩ := wfl_after_set 1 (hashindex_init 0 32 12) wrap_key_last
    sample_value hwf0 (init_on_ladder 0 32 12) hv (by omega) (by rw [hocc0, hbs0]; decide)
  have hks0 : index0.key_size = 32 := by rw [a4.ks, (init_frame 0 32 12).2.2.1]
  have hvs0 : index0.value_size = 12 := by rw [a4.vs, (init_frame 0 32 12).2.2.2.1]
  have hbs1 : index0.bucket_size = 44 := by rw [a2.sz.2.2, hks0, hvs0]
  have hocc1 : num_occupied index0 ≤ 1 := by
    by_cases hp : Present (hashindex_init 0 32 12) (keyBytes (hashindex_init 0 32 12)
        wrap_key_last)
    · have := (a4.present hp).2.1
      omega
    · have := (a4.absent hp).2.1
      omega
  obtain ⟨index, b1, b2, b3, b4⟩ := wfl_after_set 1 index0 wrap_key_first sample_value a2 a3
    hv (by omega) (by
      rw [hbs1]
      have : (num_occupied index0 + 2) * 44 ≤ 3 * 44 := Nat.mul_le_mul_right _ (by omega)
      omega)
  have hks : index.key_size = 32 := by rw [b4.ks, hks0]
  have hs := delete_wrap_scenario_eval
  unfold delete_wrap_scenario at hs
  rw [a1] at hs
  simp only [Option.some_bind] at hs
  rw [b1] at hs
  simp only [Option.some_bind] at hs
  cases hdel : hashindex_delete 1 index wrap_key_last with
  | none =>
    rw [hdel] at hs
    simp at hs
  | some r =>
    obtain ⟨rc, index1⟩ := r
    rw [hdel] at hs
    simp only [Option.some_bind, Option.some.injEq, Prod.mk.injEq] at hs
    obtain ⟨c1, c2, c3⟩ := hs
    subst c1
    refine ⟨index0, index, index1, a1, b1, b2.sz, b2.distinct, b2.rh, b2.reach, b2.has_empty,
      b2.count, ?_, c2, hdel, c3⟩
    rw [hks]
    decide

/-- C3: on a well-formed index (as in C1), for every key `key`, every value whose first
four bytes are not the EMPTY sentinel and every other key `key1` with different key bytes,
`hashindex_get` of `key1` after `hashindex_set` of `key` returns what it returned before,
whichever insertion path (plain, shift, wrap-around, grow first) the set takes. -/
theorem set_keeps_other_keys (fuel : Nat) (index : HashIndex) (key value key1 : Ptr)
    (hz : Sz index) (hd : DistinctKeys index) (hrh : RobinHood index)
    (hreach : Reachable index) (hemp : HasEmpty index) (hf : FitsInt index)
    (hv : le32 value ≠ EMPTY) (hfuel : 2 ≤ fuel)
    (hne : readBytes key1 0 index.key_size ≠ readBytes key 0 index.key_size) :
    ∃ index1, hashindex_set fuel index key value = some (1, index1) ∧
      hashindex_get_value index1 key1 = hashindex_get_value index key1 := by
  have hinv := inv_of_parts index hz hd hrh hreach hemp hf
  obtain ⟨index1, h1, h2⟩ := set_spec2 fuel index key value hinv hv hfuel
  refine ⟨index1, h1, ?_⟩
  apply get_value_congr index1 index key1 key1 h2.sz h2.pos h2.lrh h2.distinct
    hinv.sz hinv.pos hinv.lrh hinv.distinct
  intro w
  rw [h2.ks, h2.post _ w]
  constructor
  · rintro (⟨a, _⟩ | ⟨_, b⟩)
    · exact absurd a hne
    · exact b
  · intro b
    exact Or.inr ⟨hne, b⟩

theorem set_keeps_other_keys_witness :
    ∃ index1, hashindex_set 2 small_index other_key sample_value = some (1, index1) ∧
      hashindex_get_value index1 displaced_key
        = hashindex_get_value small_index displaced_key :=
  set_keeps_other_keys 2 small_index other_key sample_value displaced_key small_sz
    small_distinct small_rh small_reach small_has_empty small_fits (by decide) (by decide)
    (by decide)

/-- C4: on an index whose occupied buckets hold pairwise distinct keys and that has at
least one EMPTY bucket (key and value widths at least 4, chunk byte lengths within the
range of `int`), for every key, `hashindex_delete` returns 1 and a following
`hashindex_get` of that key returns absence (NULL). -/
theorem delete_then_get (fuel : Nat) (index : HashIndex) (key : Ptr)
    (hz : Sz index) (hd : DistinctKeys index) (hemp : HasEmpty index) (hf : FitsInt index)
    (hfuel : 1 ≤ fuel) :
    ∃ index1, hashindex_delete fuel index key = some (1, index1) ∧
      hashindex_get index1 key = some none := by
  obtain ⟨index1, h1, _, _, _, _, _, h7, _⟩ :=
    delete_spec fuel index key hfuel hz (pos_of_has_empty index hemp) hd hemp hf
  refine ⟨index1, h1, ?_⟩
  unfold hashindex_get_value at h7
  cases hg : hashindex_get index1 key with
  | none => rw [hg] at h7; simp at h7
  | some r =>
    rw [hg] at h7
    cases r with
    | none => rfl
    | some a => simp at h7

theorem delete_then_get_witness :
    ∃ index1, hashindex_delete 1 small_index sample_key = some (1, index1) ∧
      hashindex_get index1 sample_key = some none :=
  delete_then_get 1 small_index sample_key small_sz small_distinct small_has_empty
    small_fits (by decide)

/-- C5: for every index and key for which `hashindex_lookup` hits at bucket `idx`,
`hashindex_set` returns 1, replaces exactly the `value_size` value bytes of bucket `idx` by
the new value and leaves every other byte of the bucket array (the key bytes of bucket
`idx` and all other buckets), `num_entries`, `num_buckets`, the widths and both limits
unchanged; there is no resize. -/
theorem set_update_frame (fuel : Nat) (index : HashIndex) (key value : Ptr)
    (h0 hint : Option Nat) (idx : Nat)
    (hl : hashindex_lookup index key h0 = some (some idx, hint)) :
    ∃ index1, hashindex_set fuel index key value = some (1, index1) ∧
      (∀ r, r < index.value_size →
        index1.buckets (BUCKET_ADDR index idx + index.key_size + r) = value r) ∧
      (∀ a, ¬ (BUCKET_ADDR index idx + index.key_size ≤ a ∧
          a < BUCKET_ADDR index idx + index.key_size + index.value_size) →
        index1.buckets a = index.buckets a) ∧
      index1.num_entries = index.num_entries ∧ index1.num_buckets = index.num_buckets ∧
      index1.key_size = index.key_size ∧ index1.value_size = index.value_size ∧
      index1.bucket_size = index.bucket_size ∧
      index1.lower_limit = index.lower_limit ∧ index1.upper_limit = index.upper_limit ∧
      hashindex_len index1 = hashindex_len index := by
  refine ⟨write_value index idx value, set_of_hit fuel index key value h0 hint idx hl, ?_, ?_,
    rfl, rfl, rfl, rfl, rfl, rfl, rfl, rfl⟩
  · intro r hr
    unfold write_value memcpy
    simp only
    rw [if_pos (by omega)]
    congr 1
    omega
  · intro a ha
    unfold write_value memcpy
    simp only
    rw [if_neg ha]

theorem set_update_frame_witness :
    ∃ index1, hashindex_set 1 small_index displaced_key sample_value = some (1, index1) ∧
      (∀ r, r < small_index.value_size →
        index1.buckets (BUCKET_ADDR small_index 2 + small_index.key_size + r)
          = sample_value r) ∧
      (∀ a, ¬ (BUCKET_ADDR small_index 2 + small_index.key_size ≤ a ∧
          a < BUCKET_ADDR small_index 2 + small_index.key_size + small_index.value_size) →
        index1.buckets a = small_index.buckets a) ∧
      index1.num_entries = small_index.num_entries ∧
      index1.num_buckets = small_index.num_buckets ∧
      index1.key_size = small_index.key_size ∧ index1.value_size = small_index.value_size ∧
      index1.bucket_size = small_index.bucket_size ∧
      index1.lower_limit = small_index.lower_limit ∧
      index1.upper_limit = small_index.upper_limit ∧
      hashindex_len index1 = hashindex_len small_index :=
  set_update_frame 1 small_index displaced_key sample_value none none 2 (by decide)

/-- C6: for every index and key for which `hashindex_lookup` misses, `hashindex_delete`
returns 1 and leaves the whole index (bucket bytes, `num_entries`, `num_buckets`, limits)
unchanged, without a shrink.  Hence, on an index with distinct keys and an EMPTY bucket, a
second delete of the same key directly after a first one returns 1 and changes nothing. -/
theorem delete_miss_noop (fuel : Nat) (index : HashIndex) (key : Ptr) :
    (∀ h0 hint, hashindex_lookup index key h0 = some (none, hint) →
      hashindex_delete fuel index key = some (1, index)) ∧
    (Sz index → DistinctKeys index → HasEmpty index → FitsInt index → 1 ≤ fuel →
      ∃ index1, hashindex_delete fuel index key = some (1, index1) ∧
        hashindex_delete fuel index1 key = some (1, index1)) := by
  refine ⟨fun h0 hint hl => delete_of_miss fuel index key h0 hint hl, ?_⟩
  intro hz hd hemp hf hfuel
  obtain ⟨index1, h1, _, h3, _, _, _, h7, _⟩ :=
    delete_spec fuel index key hfuel hz (pos_of_has_empty index hemp) hd hemp hf
  obtain ⟨hint, hm⟩ := lookup_miss_of_get index1 key h3 h7
  exact ⟨index1, h1, delete_of_miss fuel index1 key none hint hm⟩

theorem delete_miss_noop_witness :
    hashindex_delete 1 small_index other_key = some (1, small_index) ∧
    ∃ index1, hashindex_delete 1 small_index sample_key = some (1, index1) ∧
      hashindex_delete 1 index1 sample_key = some (1, index1) :=
  ⟨(delete_miss_noop 1 small_index other_key).1 none none (by decide),
    (delete_miss_noop 1 small_index sample_key).2 small_sz small_distinct small_has_empty
      small_fits (by decide)⟩

/-- C7: the equality `num_entries` = number of non-EMPTY buckets is an invariant.  It holds
for the result of `hashindex_init`; and if it holds for an index with distinct keys, an
EMPTY bucket and widths at least 4 (chunk byte lengths within `int`), then it holds after
`hashindex_set` with any key and any value not tagged EMPTY (when the lookup of the key
misses both sides grow by exactly 1, when it hits both are unchanged) and after
`hashindex_delete` with any key (hit: both shrink by exactly 1; miss: both unchanged),
resizes included.  When the index is moreover in Robin-Hood order with every bucket
reachable, the lookup hits exactly when the key is present. -/
theorem count_invariant (capacity : Int) (ks vs : Nat) (fuel : Nat) (index : HashIndex)
    (key value : Ptr) (hz : Sz index) (hd : DistinctKeys index) (hemp : HasEmpty index)
    (hf : FitsInt index) (hcount : index.num_entries = num_occupied index)
    (hv : le32 value ≠ EMPTY) (hfuel : 2 ≤ fuel) :
    (hashindex_init capacity ks vs).num_entries
      = num_occupied (hashindex_init capacity ks vs) ∧
    (∃ index1, hashindex_set fuel index key value = some (1, index1) ∧
      index1.num_entries = num_occupied index1 ∧
      ((∃ idx hint, hashindex_lookup index key none = some (some idx, hint)) →
        index1.num_entries = index.num_entries ∧
          num_occupied index1 = num_occupied index) ∧
      ((∃ hint, hashindex_lookup index key none = some (none, hint)) →
        index1.num_entries = index.num_entries + 1 ∧
          num_occupied index1 = num_occupied index + 1)) ∧
    (∃ index1, hashindex_delete fuel index key = some (1, index1) ∧
      index1.num_entries = num_occupied index1 ∧
      ((∃ idx hint, hashindex_lookup index key none = some (some idx, hint)) →
        index1.num_entries = index.num_entries - 1 ∧
          num_occupied index1 + 1 = num_occupied index) ∧
      ((∃ hint, hashindex_lookup index key none = some (none, hint)) →
        index1.num_entries = index.num_entries ∧
          num_occupied index1 = num_occupied index)) ∧
    (RobinHood index → Reachable index →
      ((∃ idx hint, hashindex_lookup index key none = some (some idx, hint)) ↔
        Present index (keyBytes index key))) := by
  have hn := pos_of_has_empty index hemp
  refine ⟨?_, ?_, ?_, ?_⟩
  · rw [(init_frame capacity ks vs).2.1]
    unfold num_occupied
    rw [occupied_init capacity ks vs]
    rfl
  · obtain ⟨index1, s1, _, _, _, s5⟩ := set_count fuel index key value hz hn hemp hf hv hfuel
    refine ⟨index1, s1, ?_⟩
    rcases s5 with ⟨idx, hint, a1, a2, a3⟩ | ⟨hint, a1, a2, a3, a4, a5, a6, a7⟩ |
      ⟨hint, index2, a1, a2, a3, a4, a5, a6, a7, a8, a9⟩
    · have hne : index1.num_entries = index.num_entries := by rw [a2]; rfl
      have hocc : num_occupied index1 = num_occupied index := by
        unfold num_occupied; rw [a3]
      refine ⟨by rw [hne, hocc]; exact hcount, fun _ => ⟨hne, hocc⟩, ?_⟩
      rintro ⟨hint1, hm⟩
      obtain ⟨hint2, hm2⟩ := lookup_miss_indep index key none (some 0) hint1 hm
      rw [a1] at hm2
      simp at hm2
    · refine ⟨by rw [a4, a7, hcount]; push_cast; rfl, ?_, fun _ => ⟨a4, a7⟩⟩
      rintro ⟨idx, hint1, hh⟩
      obtain ⟨hint2, hh2⟩ := lookup_hit_indep index key none (some 0) hint1 idx hh
      rw [a1] at hh2
      simp at hh2
    · have hocc : num_occupied index1 = num_occupied index + 1 := by rw [a9, a4 hd]
      refine ⟨by rw [a6, hocc, hcount]; push_cast; rfl, ?_, fun _ => ⟨a6, hocc⟩⟩
      rintro ⟨idx, hint1, hh⟩
      obtain ⟨hint2, hh2⟩ := lookup_hit_indep index key none (some 0) hint1 idx hh
      rw [a1] at hh2
      simp at hh2
  · obtain ⟨index1, d1, _, _, _, _, _, _, d8, d9⟩ :=
      delete_spec fuel index key (by omega) hz hn hd hemp hf
    refine ⟨index1, d1, ?_⟩
    obtain ⟨r, hr⟩ := lookup_total index key none hn
    obtain ⟨rv, hint⟩ := r
    cases rv with
    | none =>
      have := d8 hint hr
      subst this
      refine ⟨hcount, ?_, fun _ => ⟨rfl, rfl⟩⟩
      rintro ⟨idx, hint1, hh⟩
      rw [hr] at hh
      simp at hh
    | some idx =>
      obtain ⟨e1, e2, _⟩ := d9 idx hint hr
      refine ⟨by rw [e1, hcount, ← e2]; push_cast; omega, fun _ => ⟨e1, e2⟩, ?_⟩
      rintro ⟨hint1, hm⟩
      rw [hr] at hm
      simp at hm
  · intro hrh hreach
    constructor
    · rintro ⟨idx, hint, hh⟩
      exact present_of_hit index key idx hint none hn hh
    · rintro ⟨i, a1, a2, a3⟩
      exact ⟨i, none, lookup_complete index key none i hz hn
        (localRH_of_global index hn hrh hreach) hd a1 a2 a3⟩

theorem count_invariant_witness :
    (hashindex_init 0 32 12).num_entries = num_occupied (hashindex_init 0 32 12) ∧
    (∃ index1, hashindex_set 2 small_index other_key sample_value = some (1, index1) ∧
      index1.num_entries = num_occupied index1 ∧
      ((∃ idx hint, hashindex_lookup small_index other_key none = some (some idx, hint)) →
        index1.num_entries = small_index.num_entries ∧
          num_occupied index1 = num_occupied small_index) ∧
      ((∃ hint, hashindex_lookup small_index other_key none = some (none, hint)) →
        index1.num_entries = small_index.num_entries + 1 ∧
          num_occupied index1 = num_occupied small_index + 1)) ∧
    (∃ index1, hashindex_delete 2 small_index other_key = some (1, index1) ∧
      index1.num_entries = num_occupied index1 ∧
      ((∃ idx hint, hashindex_lookup small_index other_key none = some (some idx, hint)) →
        index1.num_entries = small_index.num_entries - 1 ∧
          num_occupied index1 + 1 = num_occupied small_index) ∧
      ((∃ hint, hashindex_lookup small_index other_key none = some (none, hint)) →
        index1.num_entries = small_index.num_entries ∧
          num_occupied index1 = num_occupied small_index)) ∧
    (RobinHood small_index → Reachable small_index →
      ((∃ idx hint, hashindex_lookup small_index other_key none = some (some idx, hint)) ↔
        Present small_index (keyBytes small_index other_key))) :=
  count_invariant 0 32 12 2 small_index other_key sample_value small_sz small_distinct
    small_has_empty small_fits (by rw [small_occupied]; rfl) (by decide) (by decide)

/-- C8, counterexample: 1021 distinct keys set on `hashindex_init(0, 32, 12)` leave an
index with `num_entries = 1021` above `upper_limit = 1020`, still with 1031 buckets (not
2053) and size 45382 (not 90350). -/
theorem fill_exceeds_upper_limit :
    ∃ index, run_ops 2 (hashindex_init 0 32 12) (set_ops (nat_pairs 1021)) = some index ∧
      hashindex_len index = 1021 ∧ index.num_buckets = 1031 ∧ index.upper_limit = 1020 ∧
      hashindex_size index = 45382 :=
  fill_1021 2 (by decide) (nat_pairs 1021) (nat_pairs_length 1021)
    (nat_pairs_nodup 1021 32 (by decide) (by decide)) (nat_pairs_values 1021)

/-- C8, corrected: immediately after every `hashindex_set` on an index built from
`hashindex_init` by set/delete calls, `upper_limit` is `get_upper_limit(num_buckets)` and,
below the last ladder size, `num_entries <= upper_limit + 1`: the test
`num_entries > upper_limit` precedes the insertion, so a set can leave `num_entries` one
above the limit, and it is the next set whose lookup misses that grows the table.  The
calls return 1 when the widths are at least 4, the stored values are not tagged EMPTY and
the byte sizes stay within `int`.  In particular, setting 1021 distinct keys on
`hashindex_init(0, 32, 12)` ends with `len = 1021`, `num_buckets = 1031` and
`size = 45382`. -/
theorem upper_bound_after_set (capacity : Int) (ks vs fuel : Nat) (ops : List Op)
    (key value : Ptr) (kvs : List (Ptr × Ptr)) :
    (∀ index rc index1, run_ops fuel (hashindex_init capacity ks vs) ops = some index →
      hashindex_set fuel index key value = some (rc, index1) →
      index1.upper_limit = get_upper_limit index1.num_buckets ∧
      (index1.num_buckets < 2062383853 → index1.num_entries ≤ index1.upper_limit + 1) ∧
      (∀ hint, hashindex_lookup index key (some 0) = some (none, hint) →
        index.num_entries > index.upper_limit → index.num_buckets < 2062383853 →
        index.num_buckets < index1.num_buckets)) ∧
    (4 ≤ ks → 4 ≤ vs → 2 ≤ fuel → (∀ op, op ∈ ops → op_ok op) → le32 value ≠ EMPTY →
      (ops.length + 1) * (ks + vs) < 2147483648 →
      ∃ index index1, run_ops fuel (hashindex_init capacity ks vs) ops = some index ∧
        hashindex_set fuel index key value = some (1, index1)) ∧
    (1 ≤ fuel → kvs.length = 1021 →
      (kvs.map (fun kv => readBytes kv.1 0 32)).Nodup →
      (∀ kv, kv ∈ kvs → le32 kv.2 ≠ EMPTY) →
      ∃ index, run_ops fuel (hashindex_init 0 32 12) (set_ops kvs) = some index ∧
        hashindex_len index = 1021 ∧ index.num_buckets = 1031 ∧
        hashindex_size index = 45382) := by
  refine ⟨?_, ?_, ?_⟩
  · intro index rc index1 hrun hset
    have hb := bounded_run fuel ops _ index (bounded_init capacity ks vs) hrun
    have hb1 := bounded_set fuel index key value rc index1 hb hset
    exact ⟨hb1.limits.2, hb1.upper, fun hint hm hu htop =>
      set_grows fuel index key value rc index1 hint hb.ladder hm hu htop hset⟩
  · intro hks hvs hfuel hops hv hsize
    obtain ⟨index, r1, r2, r3, _⟩ :=
      run_from_init fuel capacity ks vs ops hks hvs hfuel hops hsize
    obtain ⟨index1, s1, _⟩ := good_set fuel index key value r2 r3 hv hfuel
    exact ⟨index, index1, r1, s1⟩
  · intro hfuel hlen hnd hvals
    obtain ⟨index, r1, r2, r3, _, r5⟩ := fill_1021 fuel hfuel kvs hlen hnd hvals
    exact ⟨index, r1, r2, r3, r5⟩

theorem upper_bound_after_set_witness :
    (∃ index index1, run_ops 2 (hashindex_init 0 32 12) sample_ops = some index ∧
      hashindex_set 2 index other_key sample_value = some (1, index1) ∧
      index1.upper_limit = get_upper_limit index1.num_buckets ∧
      (index1.num_buckets < 2062383853 → index1.num_entries ≤ index1.upper_limit + 1)) ∧
    (∃ index, run_ops 2 (hashindex_init 0 32 12) (set_ops (nat_pairs 1021)) = some index ∧
      hashindex_len index = 1021 ∧ index.num_buckets = 1031 ∧
      hashindex_size index = 45382) := by
  obtain ⟨index, index1, h1, h2⟩ :=
    (upper_bound_after_set 0 32 12 2 sample_ops other_key sample_value (nat_pairs 1021)).2.1
      (by decide) (by decide) (by decide) sample_ops_ok (by decide) (by decide)
  have h3 :=
    (upper_bound_after_set 0 32 12 2 sample_ops other_key sample_value (nat_pairs 1021)).1
      index 1 index1 h1 h2
  exact ⟨⟨index, index1, h1, h2, h3.1, h3.2.1⟩,
    (upper_bound_after_set 0 32 12 2 sample_ops other_key sample_value (nat_pairs 1021)).2.2
      (by decide) (nat_pairs_length 1021) (nat_pairs_nodup 1021 32 (by decide) (by decide))
      (nat_pairs_values 1021)⟩

/-- C9, counterexample: `hashindex_init(5000, 32, 12)` has 8209 buckets and lower limit
2052; after one `hashindex_set` the index has `num_entries = 1 < 2052` although
`num_buckets` is not 1031. -/
theorem set_below_lower_limit :
    ∃ index1, hashindex_set 2 (hashindex_init 5000 32 12) sample_key sample_value
        = some (1, index1) ∧
      index1.num_buckets = 8209 ∧ index1.lower_limit = 2052 ∧ index1.num_entries = 1 := by
  obtain ⟨f1, f2, f3, f4, f5, f6, f7⟩ := init_frame 5000 32 12
  have hfit : fit_size 5000 = 8209 := by decide
  have hlow : get_lower_limit 8209 = 2052 := by decide
  have hwf := init_wf 5000 32 12 (by decide) (by decide) (by decide)
  obtain ⟨index1, s1, s2⟩ := set_spec 2 (hashindex_init 5000 32 12) sample_key sample_value
    hwf (by decide) (by decide)
  obtain ⟨t1, t2, t3⟩ := s2.absent (init_absent 5000 32 12 _)
  have hnb : index1.num_buckets = 8209 := by
    rcases t3 with ⟨_, t3⟩ | ⟨hu, _⟩
    · rw [t3, f1, hfit]
    · rw [f2, f7] at hu
      have := get_upper_limit_nonneg (fit_size 5000)
      omega
  refine ⟨index1, s1, hnb, by rw [s2.limits.1, hnb, hlow], by rw [t1, f2]; rfl⟩

/-- C9, corrected: for every index created by `hashindex_init` with a capacity of at most
1031 (so that the table starts at the smallest ladder size) and legal widths, after any
subsequent run of `hashindex_set` (of values not tagged EMPTY) and `hashindex_delete` calls
the lower load bound `lower_limit <= num_entries` holds; in particular it holds after a
delete that triggered a shrink. -/
theorem lower_bound_after_ops (capacity : Int) (ks vs fuel : Nat) (ops : List Op)
    (hcap : capacity ≤ 1031) (hks : 4 ≤ ks) (hvs : 4 ≤ vs) (hfuel : 2 ≤ fuel)
    (hops : ∀ op, op ∈ ops → op_ok op)
    (hsize : (ops.length + 1) * (ks + vs) < 2147483648) :
    ∃ index, run_ops fuel (hashindex_init capacity ks vs) ops = some index ∧
      index.lower_limit = get_lower_limit index.num_buckets ∧
      index.lower_limit ≤ index.num_entries := by
  obtain ⟨f1, f2, f3, f4, f5, f6, f7⟩ := init_frame capacity ks vs
  obtain ⟨index, r1, r2, _, r4⟩ :=
    run_from_init fuel capacity ks vs ops hks hvs hfuel hops hsize
  refine ⟨index, r1, r2.limits.1, r4 ?_⟩
  unfold Low
  rw [f6, f2, fit_size_small capacity hcap]
  decide

theorem lower_bound_after_ops_witness :
    ∃ index, run_ops 2 (hashindex_init 0 32 12) sample_ops = some index ∧
      index.lower_limit = get_lower_limit index.num_buckets ∧
      index.lower_limit ≤ index.num_entries :=
  lower_bound_after_ops 0 32 12 2 sample_ops (by decide) (by decide) (by decide) (by decide)
    sample_ops_ok (by decide)

/-- C10: for every capacity and all widths with `value_size >= 4`, `hashindex_init` yields
an index with `num_buckets = fit_size(capacity)` (1031 for capacity 0), `num_entries = 0`,
`bucket_size = key_size + value_size`, the limits computed from `num_buckets`, and every
bucket tagged EMPTY, so that `hashindex_get` of any key returns absence and
`hashindex_next_key(NULL)` returns NULL. -/
theorem init_spec (capacity : Int) (ks vs : Nat) (hvs : 4 ≤ vs) :
    (hashindex_init capacity ks vs).num_buckets = fit_size capacity ∧
    fit_size 0 = 1031 ∧
    (hashindex_init capacity ks vs).num_entries = 0 ∧
    (hashindex_init capacity ks vs).key_size = ks ∧
    (hashindex_init capacity ks vs).value_size = vs ∧
    (hashindex_init capacity ks vs).bucket_size = ks + vs ∧
    (hashindex_init capacity ks vs).lower_limit
      = get_lower_limit (hashindex_init capacity ks vs).num_buckets ∧
    (hashindex_init capacity ks vs).upper_limit
      = get_upper_limit (hashindex_init capacity ks vs).num_buckets ∧
    (∀ i, i < (hashindex_init capacity ks vs).num_buckets →
      BUCKET_IS_EMPTY (hashindex_init capacity ks vs) i = true) ∧
    (∀ key, hashindex_get (hashindex_init capacity ks vs) key = some none) ∧
    hashindex_next_key (hashindex_init capacity ks vs) none = some none := by
  have _h := hvs
  obtain ⟨f1, f2, f3, f4, f5, f6, f7⟩ := init_frame capacity ks vs
  have hE := init_all_empty capacity ks vs
  refine ⟨f1, by decide, f2, f3, f4, f5, by rw [f6, f1], by rw [f7, f1], ?_, ?_,
    init_next_key capacity ks vs⟩
  · intro i hi
    rw [f1] at hi
    exact hE i hi
  · intro key
    apply get_none_of_value
    apply get_value_of_absent _ key (by rw [f1]; exact fit_size_pos capacity)
    intro i hi hne
    rw [f1] at hi
    exact absurd (hE i hi) hne

theorem init_spec_witness :
    (hashindex_init 0 32 12).num_buckets = fit_size 0 ∧
    fit_size 0 = 1031 ∧
    (hashindex_init 0 32 12).num_entries = 0 ∧
    (hashindex_init 0 32 12).key_size = 32 ∧
    (hashindex_init 0 32 12).value_size = 12 ∧
    (hashindex_init 0 32 12).bucket_size = 32 + 12 ∧
    (hashindex_init 0 32 12).lower_limit
      = get_lower_limit (hashindex_init 0 32 12).num_buckets ∧
    (hashindex_init 0 32 12).upper_limit
      = get_upper_limit (hashindex_init 0 32 12).num_buckets ∧
    (∀ i, i < (hashindex_init 0 32 12).num_buckets →
      BUCKET_IS_EMPTY (hashindex_init 0 32 12) i = true) ∧
    (∀ key, hashindex_get (hashindex_init 0 32 12) key = some none) ∧
    hashindex_next_key (hashindex_init 0 32 12) none = some none :=
  init_spec 0 32 12 (by decide)

/-- C11: round trip of the file format.  For every index with `key_size <= 127`,
`value_size <= 127`, `bucket_size = key_size + value_size`, limits derived from
`num_buckets` (and `num_buckets`, `num_entries` within `int`), the bytes `hashindex_write`
produces are the 18-byte header (`BORG_IDX`, `num_entries` and `num_buckets` in 4
little-endian bytes each, the `key_size` byte, the `value_size` byte) followed by the
`num_buckets * bucket_size` bucket bytes; `hashindex_read` accepts them and yields an index
with the same `num_entries`, `num_buckets`, `key_size`, `value_size`, `bucket_size`,
`lower_limit`, `upper_limit` and identical bucket bytes.  `hashindex_len` and
`hashindex_size` agree, and when the index has a bucket and `value_size >= 4` (the widths
for which `hashindex_lookup` stays inside the bucket array) `hashindex_get` returns the
same bucket and the same value bytes for every key. -/
theorem write_read_round_trip (index : HashIndex)
    (hks : index.key_size ≤ 127) (hvs : index.value_size ≤ 127)
    (hbs : index.bucket_size = index.key_size + index.value_size)
    (hlim : LimitsDerived index) (hnb : index.num_buckets < 2147483648)
    (h0 : -2147483648 ≤ index.num_entries) (h1 : index.num_entries < 2147483648) :
    hashindex_write index
      = MAGIC ++ le32_bytes index.num_entries ++ le32_bytes index.num_buckets ++
        [index.key_size, index.value_size] ++
        readBytes index.buckets 0 (index.num_buckets * index.bucket_size) ∧
    (hashindex_write index).length = 18 + index.num_buckets * index.bucket_size ∧
    ∃ l, hashindex_read (hashindex_write index) = some l ∧
      l.num_entries = index.num_entries ∧ l.num_buckets = index.num_buckets ∧
      l.key_size = index.key_size ∧ l.value_size = index.value_size ∧
      l.bucket_size = index.bucket_size ∧
      l.lower_limit = index.lower_limit ∧ l.upper_limit = index.upper_limit ∧
      readBytes l.buckets 0 (index.num_buckets * index.bucket_size)
        = readBytes index.buckets 0 (index.num_buckets * index.bucket_size) ∧
      hashindex_len l.toIndex = hashindex_len index ∧
      hashindex_size l.toIndex = hashindex_size index ∧
      (4 ≤ index.value_size → 0 < index.num_buckets →
        ∀ key, hashindex_get l.toIndex key = hashindex_get index key ∧
          hashindex_get_value l.toIndex key = hashindex_get_value index key) := by
  have hread := read_written index hks hvs hbs hnb h0 h1
  have hmem : ∀ r, r < index.num_buckets * index.bucket_size →
      ofBytes (readBytes index.buckets 0 (index.num_buckets * index.bucket_size)) r
        = index.buckets r :=
    fun r hr => ofBytes_readBytes_region _ _ r hr
  have hbsz : (((index.key_size : Int) + index.value_size).toNat) = index.bucket_size := by
    rw [hbs]
    omega
  refine ⟨?_, write_length index, _, hread, rfl, rfl, rfl, rfl, ?_, hlim.1.symm,
    hlim.2.symm, ?_, rfl, ?_, ?_⟩
  · unfold hashindex_write
    simp only []
    rw [Nat.mod_eq_of_lt (by omega : index.key_size < 256),
      Nat.mod_eq_of_lt (by omega : index.value_size < 256)]
  · simp only []
    rw [hbs]
    push_cast
    rfl
  · exact readBytes_ext _ _ 0 0 _ (fun r hr => by rw [Nat.zero_add]; exact hmem r hr)
  · unfold hashindex_size LoadedIndex.toIndex
    simp only [Int.toNat_ofNat]
    rw [hbsz]
  · intro hv4 hpos key
    have hs : SameShape
        (LoadedIndex.toIndex
          { buckets := ofBytes
              (readBytes index.buckets 0 (index.num_buckets * index.bucket_size))
            tmp_entry := fun _ => 0
            num_entries := index.num_entries
            num_buckets := index.num_buckets
            key_size := index.key_size
            value_size := index.value_size
            bucket_size := (index.key_size : Int) + index.value_size
            lower_limit := get_lower_limit index.num_buckets
            upper_limit := get_upper_limit index.num_buckets }) index := by
      exact ⟨rfl, rfl, rfl, hbsz⟩
    exact ⟨get_congr _ index key hs hpos hv4 hbs hmem,
      get_value_region_congr _ index key hs hpos hv4 hbs hmem⟩

theorem write_read_round_trip_witness :
    hashindex_write small_index = small_file ∧
    ∃ l, hashindex_read (hashindex_write small_index) = some l ∧
      l.num_entries = 2 ∧ l.num_buckets = 4 ∧
      hashindex_get_value l.toIndex displaced_key = some (some [8, 0, 0, 0]) := by
  obtain ⟨_, _, l, a1, a2, a3, _, _, _, _, _, _, _, _, a4⟩ :=
    write_read_round_trip small_index (by decide) (by decide) (by decide)
      ⟨by decide, by decide⟩ (by decide) (by decide) (by decide)
  refine ⟨by decide, l, a1, a2, a3, ?_⟩
  rw [(a4 (by decide) (by decide) displaced_key).2]
  decide

/-- C12 (counterexample): two files with the right magic whose length is exactly
18 + num_buckets * (key_size + value_size), and `hashindex_read` returns NULL for both.
`negative_width_file` has 18 bytes, `num_buckets = 0`, `key_size = -1`, `value_size = 0`:
`calloc(1, key_size + value_size)` is asked for `(size_t)-1` bytes and fails.
`huge_count_file` has 18 + 2147483648 bytes, the `num_buckets` bytes `00 00 00 80`
(2147483648 when read as unsigned), `key_size = 1`, `value_size = 0`: the header field is
an `int32_t`, the length expected by `hashindex_read` is 18 - 2147483648. -/
theorem read_rejects_matching_length :
    (negative_width_file.take 8 = MAGIC ∧
      header_num_buckets (negative_width_file.take 18) = 0 ∧
      header_key_size (negative_width_file.take 18) = -1 ∧
      header_value_size (negative_width_file.take 18) = 0 ∧
      (negative_width_file.length : Int) = 18 + 0 * (-1 + 0) ∧
      hashindex_read negative_width_file = none) ∧
    (huge_count_file.take 8 = MAGIC ∧
      le32 (ofBytes ((huge_count_file.take 18).drop 12)) = 2147483648 ∧
      header_num_buckets (huge_count_file.take 18) = -2147483648 ∧
      header_key_size (huge_count_file.take 18) = 1 ∧
      header_value_size (huge_count_file.take 18) = 0 ∧
      huge_count_file.length = 18 + 2147483648 * (1 + 0) ∧
      hashindex_read huge_count_file = none) := by
  refine ⟨⟨by decide, by decide, by decide, by decide, by decide, ?_⟩,
    huge_magic, ?_, ?_, ?_, ?_, huge_length, ?_⟩
  · rw [← Option.isNone_iff_eq_none]
    decide
  · rw [huge_take_header]
    decide
  · rw [huge_take_header]
    decide
  · rw [huge_take_header]
    decide
  · rw [huge_take_header]
    decide
  · apply read_bad_length huge_count_file (by rw [huge_length]; omega)
    rw [huge_take_header, huge_length]
    decide

/-- C12 (amended): with the header fields read as `HashHeader` declares them
(`num_entries` and `num_buckets` as signed 32-bit little-endian integers, `key_size` and
`value_size` as signed bytes), for every file content (of a length an `off_t` holds)
`hashindex_read` returns NULL exactly when the content is shorter than the 18-byte header,
or its first 8 bytes differ from `BORG_IDX`, or its length differs from
18 + num_buckets * (key_size + value_size), or key_size + value_size is negative; for every
other content it returns an index with the header's `num_entries`, `num_buckets`,
`key_size`, `value_size`, `bucket_size = key_size + value_size`, the limits computed from
`num_buckets`, and the bytes after the header as bucket array. -/
theorem read_fails_iff (file : List Nat) (hlen : file.length < 9223372036854775808) :
    (hashindex_read file = none ↔
      (file.length < 18 ∨ file.take 8 ≠ MAGIC ∨
        (file.length : Int) ≠ 18 + header_num_buckets (file.take 18) *
          (header_key_size (file.take 18) + header_value_size (file.take 18)) ∨
        header_key_size (file.take 18) + header_value_size (file.take 18) < 0)) ∧
    (-2147483648 ≤ header_num_buckets (file.take 18) ∧
      header_num_buckets (file.take 18) < 2147483648 ∧
      -128 ≤ header_key_size (file.take 18) ∧ header_key_size (file.take 18) < 128 ∧
      -128 ≤ header_value_size (file.take 18) ∧ header_value_size (file.take 18) < 128) ∧
    (∀ l, hashindex_read file = some l →
      (l.num_entries = header_num_entries (file.take 18) ∧
        l.num_buckets = header_num_buckets (file.take 18) ∧
        l.key_size = header_key_size (file.take 18) ∧
        l.value_size = header_value_size (file.take 18) ∧
        l.bucket_size = l.key_size + l.value_size ∧
        l.lower_limit = get_lower_limit_signed l.num_buckets ∧
        l.upper_limit = get_upper_limit_signed l.num_buckets ∧
        l.buckets = ofBytes (file.drop 18))) := by
  have hcases : (file.length < 18 ∨ file.take 8 ≠ MAGIC ∨
        (file.length : Int) ≠ 18 + header_num_buckets (file.take 18) *
          (header_key_size (file.take 18) + header_value_size (file.take 18)) ∨
        header_key_size (file.take 18) + header_value_size (file.take 18) < 0) ∨
      (18 ≤ file.length ∧ file.take 8 = MAGIC ∧
        (file.length : Int) = 18 + header_num_buckets (file.take 18) *
          (header_key_size (file.take 18) + header_value_size (file.take 18)) ∧
        0 ≤ header_key_size (file.take 18) + header_value_size (file.take 18)) := by
    by_cases c1 : file.length < 18
    · exact Or.inl (Or.inl c1)
    by_cases c2 : file.take 8 ≠ MAGIC
    · exact Or.inl (Or.inr (Or.inl c2))
    by_cases c3 : (file.length : Int) ≠ 18 + header_num_buckets (file.take 18) *
          (header_key_size (file.take 18) + header_value_size (file.take 18))
    · exact Or.inl (Or.inr (Or.inr (Or.inl c3)))
    by_cases c4 : header_key_size (file.take 18) + header_value_size (file.take 18) < 0
    · exact Or.inl (Or.inr (Or.inr (Or.inr c4)))
    · exact Or.inr ⟨by omega, not_not.mp c2, not_not.mp c3, by omega⟩
  have hnone : (file.length < 18 ∨ file.take 8 ≠ MAGIC ∨
        (file.length : Int) ≠ 18 + header_num_buckets (file.take 18) *
          (header_key_size (file.take 18) + header_value_size (file.take 18)) ∨
        header_key_size (file.take 18) + header_value_size (file.take 18) < 0) →
      hashindex_read file = none := by
    rintro (c | c | c | c)
    · exact read_short file c
    · exact read_bad_magic file c
    · exact read_bad_length file hlen c
    · exact read_negative_width file c
  refine ⟨⟨?_, hnone⟩, ?_, ?_⟩
  · intro hn
    rcases hcases with c | ⟨c1, c2, c3, c4⟩
    · exact c
    · rw [read_ok file hlen c1 c2 c3 c4] at hn
      exact absurd hn (by simp)
  · have a := wrap32_range (le32 (ofBytes ((file.take 18).drop 12)))
    have b := wrap8_range ((file.take 18).getD 16 0)
    have c := wrap8_range ((file.take 18).getD 17 0)
    exact ⟨a.1, a.2, b.1, b.2, c.1, c.2⟩
  · intro l hl
    rcases hcases with c | ⟨c1, c2, c3, c4⟩
    · rw [hnone c] at hl
      exact absurd hl (by simp)
    · rw [read_ok file hlen c1 c2 c3 c4] at hl
      simp only [Option.some.injEq] at hl
      subst hl
      refine ⟨rfl, rfl, rfl, rfl, rfl, ?_, ?_, rfl⟩
      · simp only []
      · simp only []

theorem read_fails_iff_witness :
    hashindex_read small_file ≠ none ∧ hashindex_read negative_width_file = none :=
  ⟨fun h => by
      rcases (read_fails_iff small_file
          (by have : small_file.length = 50 := rfl; omega)).1.mp h with c | c | c | c
      · revert c; decide
      · revert c; decide
      · revert c; decide
      · revert c; decide,
   (read_fails_iff negative_width_file
     (by have : negative_width_file.length = 18 := rfl; omega)).1.mpr (Or.inr (Or.inr (Or.inr
     (by decide))))⟩

/-- C13: `hashindex_size` does not return the file length for the ladder size 57429683 with
44-byte buckets (key_size 32, value_size 12): the file `hashindex_write` produces has
18 + 57429683 * 44 = 2526906070 bytes, the `int` returned is -1768061226. -/
theorem size_overflows_int :
    (hashindex_init 57429683 32 12).num_buckets = 57429683 ∧
    57429683 ∈ hash_sizes ∧
    (hashindex_init 57429683 32 12).bucket_size = 44 ∧
    (18 : Int) + ((hashindex_init 57429683 32 12).num_buckets : Int)
      * (hashindex_init 57429683 32 12).bucket_size = 2526906070 ∧
    hashindex_size (hashindex_init 57429683 32 12) = -1768061226 := by
  obtain ⟨f1, _, _, _, f5, _, _⟩ := init_frame 57429683 32 12
  have hfit : fit_size 57429683 = 57429683 := by decide
  have hsz : hashindex_size (hashindex_init 57429683 32 12) = -1768061226 := by
    unfold hashindex_size
    rw [f1, f5, hfit]
    decide
  refine ⟨by rw [f1, hfit], by decide, by rw [f5], ?_, hsz⟩
  rw [f1, f5, hfit]
  decide

/-- C14: for every index with `value_size >= 4`, the iteration that starts
`hashindex_next_key` at NULL and feeds each returned bucket back as the cursor ends within
`num_buckets + 1` calls and yields exactly the non-EMPTY buckets, each once, in strictly
increasing bucket-index order.  `hashindex_next_key(NULL)` is the lowest non-EMPTY bucket, or
NULL when there is none; for the cursor of bucket `p` it is the lowest non-EMPTY bucket with
index greater than `p`, or NULL. -/
theorem next_key_iteration (index : HashIndex) (hvs : 4 ≤ index.value_size)
    (hbs : index.bucket_size = index.key_size + index.value_size) :
    iterate_keys index (index.num_buckets + 1) none
      = some ((occupied_from index 0).map (BUCKET_ADDR index)) ∧
    (∀ i, i ∈ occupied_from index 0 ↔
      (i < index.num_buckets ∧ BUCKET_IS_EMPTY index i = false)) ∧
    List.Pairwise (fun a b => a < b) (occupied_from index 0) ∧
    (∀ e, e < index.num_buckets → BUCKET_IS_EMPTY index e = false →
      (∀ j, j < e → BUCKET_IS_EMPTY index j = true) →
      hashindex_next_key index none = some (some (BUCKET_ADDR index e))) ∧
    ((∀ j, j < index.num_buckets → BUCKET_IS_EMPTY index j = true) →
      hashindex_next_key index none = some none) ∧
    (∀ p e, p < e → e < index.num_buckets → BUCKET_IS_EMPTY index e = false →
      (∀ j, p < j → j < e → BUCKET_IS_EMPTY index j = true) →
      hashindex_next_key index (some (BUCKET_ADDR index p))
        = some (some (BUCKET_ADDR index e))) ∧
    (∀ p, p < index.num_buckets →
      (∀ j, p < j → j < index.num_buckets → BUCKET_IS_EMPTY index j = true) →
      hashindex_next_key index (some (BUCKET_ADDR index p)) = some none) := by
  have hpos : 0 < index.bucket_size := by omega
  have hc0 : cursor_idx index none = 0 := rfl
  refine ⟨?_, ?_, occupied_from_sorted index 0, ?_, ?_, ?_, ?_⟩
  · have := iterate_keys_spec index hpos (index.num_buckets + 1) none
      (by have := hc0; omega) (by have := hc0; omega)
    rw [hc0] at this
    exact this
  · intro i
    rw [mem_occupied_from]
    constructor
    · rintro ⟨_, a, b⟩
      exact ⟨a, b⟩
    · rintro ⟨a, b⟩
      exact ⟨Nat.zero_le _, a, b⟩
  · intro e he hne hlow
    exact next_key_first index none e (by have := hc0; omega) he hne
      (fun j _ hj => hlow j hj)
  · intro hall
    exact next_key_none index none (by have := hc0; omega) (fun j _ hj => hall j hj)
  · intro p e hpe he hne hlow
    have hc := cursor_idx_addr index p hpos
    exact next_key_first index _ e (by have := hc; omega) he hne
      (fun j hj1 hj2 => hlow j (by have := hc; omega) hj2)
  · intro p hp hall
    have hc := cursor_idx_addr index p hpos
    exact next_key_none index _ (by have := hc; omega)
      (fun j hj1 hj2 => hall j (by have := hc; omega) hj2)

theorem next_key_iteration_witness :
    iterate_keys small_index (small_index.num_buckets + 1) none = some [8, 16] :=
  (next_key_iteration small_index (by decide) (by decide)).1.trans (by decide)

/-- C15 (counterexample): in `tombstone_index` bucket 1 is tagged DELETED and its key bytes
are `01 00 00 00`; `hashindex_lookup` of that key returns bucket 1 and `hashindex_get`
returns the address of its value region (offset 12 in the bucket array). -/
theorem lookup_returns_deleted :
    BUCKET_IS_DELETED tombstone_index 1 = true ∧
    hashindex_lookup tombstone_index sample_key none = some (some 1, none) ∧
    hashindex_get tombstone_index sample_key = some (some 12) := by
  decide

/-- C15 (amended): `hashindex_lookup` does not test the DELETED tag.  A DELETED bucket is not
EMPTY; every bucket `hashindex_lookup` returns is a non-EMPTY bucket whose key bytes equal
the key; on an index whose non-EMPTY buckets (DELETED ones included) hold distinct keys in
Robin-Hood order, reachable from their homes, with at least one EMPTY bucket, a DELETED
bucket whose key bytes equal the key is the bucket returned and `hashindex_get` returns its
value region, and every non-EMPTY bucket holding the key is found whatever DELETED buckets
lie on the probe path. -/
theorem lookup_ignores_deleted (index : HashIndex) (key : Ptr) (hint : Option Nat)
    (hz : Sz index) (hd : DistinctKeys index) (hrh : RobinHood index)
    (hreach : Reachable index) (hemp : HasEmpty index) :
    (∀ i, BUCKET_IS_DELETED index i = true → BUCKET_IS_EMPTY index i = false) ∧
    (∀ i hint1, hashindex_lookup index key hint = some (some i, hint1) →
      (i < index.num_buckets ∧ BUCKET_IS_EMPTY index i = false ∧
        BUCKET_MATCHES_KEY index i key = true)) ∧
    (∀ p, p < index.num_buckets → BUCKET_IS_DELETED index p = true →
      BUCKET_MATCHES_KEY index p key = true →
      (hashindex_lookup index key hint = some (some p, hint) ∧
        hashindex_get index key = some (some (BUCKET_ADDR index p + index.key_size)))) ∧
    (∀ p, p < index.num_buckets → BUCKET_IS_EMPTY index p = false →
      BUCKET_MATCHES_KEY index p key = true →
      hashindex_lookup index key hint = some (some p, hint)) := by
  have hn := pos_of_has_empty index hemp
  have hl := localRH_of_global index hn hrh hreach
  have hcomp : ∀ (h0 : Option Nat) (i : Nat), i < index.num_buckets →
      BUCKET_IS_EMPTY index i = false →
      BUCKET_MATCHES_KEY index i key = true →
      hashindex_lookup index key h0 = some (some i, h0) := by
    intro h0 i hi he hm
    apply lookup_complete index key h0 i hz hn hl hd hi
    · unfold isE
      rw [he]
      simp
    · exact ((matches_iff index i key).mp hm).symm
  refine ⟨deleted_not_empty index, ?_, ?_, hcomp hint⟩
  · intro i hint1 hr
    obtain ⟨s1, s2, s3, _⟩ := lookup_sound index key hint hint1 i hn hr
    refine ⟨s1, ?_, (matches_iff index i key).mpr s3.symm⟩
    unfold isE at s2
    simpa using s2
  · intro p hp hdel hm
    have he := deleted_not_empty index p hdel
    refine ⟨hcomp hint p hp he hm, ?_⟩
    unfold hashindex_get
    rw [hcomp none p hp he hm]

theorem lookup_ignores_deleted_witness :
    hashindex_lookup tombstone_index sample_key none = some (some 1, none) ∧
    hashindex_lookup tombstone_index displaced_key none = some (some 2, none) :=
  ⟨((lookup_ignores_deleted tombstone_index sample_key none tombstone_sz tombstone_distinct
      tombstone_rh tombstone_reach tombstone_has_empty).2.2.1 1 (by decide) (by decide)
      (by decide)).1,
   (lookup_ignores_deleted tombstone_index displaced_key none tombstone_sz tombstone_distinct
      tombstone_rh tombstone_reach tombstone_has_empty).2.2.2 2 (by decide) (by decide)
      (by decide)⟩

/-- C16: for every `int` `n`, `fit_size(n)` is an entry of the ladder `hash_sizes`; it is the
smallest entry that is at least `n` when there is one, and the last entry 2062383853 when `n`
exceeds every entry.  In particular `fit_size(n) = 1031` for every `n <= 1031` (0 and
negative `n` included) and `fit_size(s) = s` for every ladder entry `s`. -/
theorem fit_size_spec (n : Int) :
    fit_size n ∈ hash_sizes ∧
    (∀ s, s ∈ hash_sizes → n ≤ (s : Int) → n ≤ (fit_size n : Int) ∧ fit_size n ≤ s) ∧
    ((∀ s, s ∈ hash_sizes → (s : Int) < n) → fit_size n = 2062383853) ∧
    (n ≤ 1031 → fit_size n = 1031) ∧
    (∀ s, s ∈ hash_sizes → fit_size (s : Nat) = s) := by
  refine ⟨?_, ?_, ?_, fit_size_small n, ?_⟩
  · exact (mem_ladder_iff _).mpr ⟨size_idx n, (size_idx_spec n).1, rfl⟩
  · intro s hs hle
    obtain ⟨j, hj, rfl⟩ := (mem_ladder_iff s).mp hs
    exact fit_size_least n j hj hle
  · intro h
    exact fit_size_top n (fun j hj => h _ ((mem_ladder_iff _).mpr ⟨j, hj, rfl⟩))
  · intro s hs
    obtain ⟨j, hj, rfl⟩ := (mem_ladder_iff s).mp hs
    exact fit_size_of_ladder j hj

theorem fit_size_spec_witness :
    fit_size 5000 = 8209 ∧ fit_size (-7) = 1031 ∧ fit_size (2062383853 : Nat) = 2062383853 ∧
    ((5000 : Int) ≤ (fit_size 5000 : Int) ∧ fit_size 5000 ≤ 8209) :=
  ⟨by decide, (fit_size_spec (-7)).2.2.2.1 (by decide),
    (fit_size_spec 0).2.2.2.2 2062383853 (by decide),
    (fit_size_spec 5000).2.1 8209 (by decide) (by decide)⟩

/-- C17: `hashindex_delete` breaks probe-reachability on its wrap-around path.  The index
reached from `hashindex_init(0, 32, 12)` by setting a key with hash 1030 and a key with
hash 0 has distinct keys in Robin-Hood order, is probe-reachable and has EMPTY buckets.
`hashindex_delete` of the first key returns 1 and leaves the second key, whose home is
bucket 0, in bucket 1030 with displacement 1030 while bucket 0 is EMPTY: the index after
the delete is not probe-reachable. -/
theorem delete_wrap_breaks_reachability :
    ∃ index0 index index1,
      hashindex_set 1 (hashindex_init 0 32 12) wrap_key_last sample_value
        = some (1, index0) ∧
      hashindex_set 1 index0 wrap_key_first sample_value = some (1, index) ∧
      Sz index ∧ DistinctKeys index ∧ RobinHood index ∧ Reachable index ∧ HasEmpty index ∧
      hashindex_delete 1 index wrap_key_last = some (1, index1) ∧
      index1.num_buckets = 1031 ∧
      BUCKET_IS_EMPTY index1 1030 = false ∧ homeOf index1 1030 = 0 ∧
      bucket_distance index1 1030 = 1030 ∧ BUCKET_IS_EMPTY index1 0 = true ∧
      ¬ Reachable index1 := by
  obtain ⟨index0, index, a1, b1, w1, w2, w3, w4, w5, _⟩ := wrap_setup_wf
  have hs := delete_wrap_layout_eval
  unfold delete_wrap_layout at hs
  rw [a1] at hs
  simp only [Option.some_bind] at hs
  rw [b1] at hs
  simp only [Option.some_bind] at hs
  cases hdel : hashindex_delete 1 index wrap_key_last with
  | none =>
    rw [hdel] at hs
    simp at hs
  | some r =>
    obtain ⟨rc, index1⟩ := r
    rw [hdel] at hs
    simp only [Option.some_bind, Option.some.injEq, Prod.mk.injEq] at hs
    obtain ⟨c1, c2, c3, c4, c5, c6⟩ := hs
    subst c1
    refine ⟨index0, index, index1, a1, b1, w1, w2, w3, w4, w5, hdel, c2, c3, c4, c5, c6, ?_⟩
    intro hreach
    have h := hreach 1030 (by omega) (by unfold isE; rw [c3]; simp) 0 (by omega)
    rw [c2, c4] at h
    have hw : wrap_add 1031 0 0 = 0 := by decide
    rw [hw] at h
    exact h c6

/-- C18: `hashindex_set` preserves probe-reachability.  On an index in which every occupied
bucket is reached from the home of its key by forward probing with wrap without passing an
EMPTY bucket and which has at least one EMPTY bucket (widths at least 4, chunk byte lengths
within `int`; neither Robin-Hood order nor distinct keys are assumed), `hashindex_set` of
any key with any value whose first four bytes are not the EMPTY sentinel returns 1, and in
the index afterwards every occupied bucket (the written one, the buckets moved by the
shift or the rotation through `tmp_entry`, the buckets rebuilt by a grow) is again reached
from its home without passing an EMPTY bucket, with displacement below `num_buckets`. -/
theorem set_preserves_reachability (fuel : Nat) (index : HashIndex) (key value : Ptr)
    (hz : Sz index) (hreach : Reachable index) (hemp : HasEmpty index) (hf : FitsInt index)
    (hv : le32 value ≠ EMPTY) (hfuel : 2 ≤ fuel) :
    ∃ index1, hashindex_set fuel index key value = some (1, index1) ∧
      (∀ i, i < index1.num_buckets → BUCKET_IS_EMPTY index1 i = false →
        ∀ j, j < bucket_distance index1 i →
          BUCKET_IS_EMPTY index1 (wrap_add index1.num_buckets (homeOf index1 i) j) = false) ∧
      (∀ i, i < index1.num_buckets → bucket_distance index1 i < index1.num_buckets) := by
  obtain ⟨index1, h1, h2⟩ := set_reach fuel index key value hz hreach hemp hf hv hfuel
  refine ⟨index1, h1, ?_, fun i hi => bucket_distance_lt index1 i hi⟩
  intro i hi hne j hj
  exact (not_isE_iff_false index1 _).mp
    (h2 i hi ((not_isE_iff_false index1 i).mpr hne) j hj)

theorem set_preserves_reachability_witness :
    ∃ index1, hashindex_set 2 small_index other_key sample_value = some (1, index1) ∧
      (∀ i, i < index1.num_buckets → BUCKET_IS_EMPTY index1 i = false →
        ∀ j, j < bucket_distance index1 i →
          BUCKET_IS_EMPTY index1 (wrap_add index1.num_buckets (homeOf index1 i) j) = false) ∧
      (∀ i, i < index1.num_buckets → bucket_distance index1 i < index1.num_buckets) :=
  set_preserves_reachability 2 small_index other_key sample_value small_sz small_reach
    small_has_empty small_fits (by decide) (by decide)

/-- C19: on an index whose occupied buckets hold distinct keys in Robin-Hood order, each
reachable from its home without crossing an EMPTY bucket, with at least one EMPTY bucket
(widths at least 4), `hashindex_lookup` returns a result for every key; it returns bucket
`i` if and only if bucket `i` is a non-EMPTY bucket whose key bytes equal the key, and it
returns a miss if and only if no non-EMPTY bucket holds the key.  In particular the
early-miss test fired every 64 probes never reports a miss for a stored key. -/
theorem lookup_sound_complete (index : HashIndex) (key : Ptr) (hint : Option Nat)
    (hz : Sz index) (hd : DistinctKeys index) (hrh : RobinHood index)
    (hreach : Reachable index) (hemp : HasEmpty index) :
    ∃ rv hint1, hashindex_lookup index key hint = some (rv, hint1) ∧
      (∀ i, rv = some i ↔
        (i < index.num_buckets ∧ BUCKET_IS_EMPTY index i = false ∧
          BUCKET_MATCHES_KEY index i key = true)) ∧
      (rv = none ↔
        ∀ i, i < index.num_buckets → BUCKET_IS_EMPTY index i = false →
          BUCKET_MATCHES_KEY index i key = false) := by
  have hn := pos_of_has_empty index hemp
  have hl := localRH_of_global index hn hrh hreach
  have hcomp : ∀ i, i < index.num_buckets → BUCKET_IS_EMPTY index i = false →
      BUCKET_MATCHES_KEY index i key = true →
      hashindex_lookup index key hint = some (some i, hint) := by
    intro i hi he hm
    apply lookup_complete index key hint i hz hn hl hd hi
    · unfold isE
      rw [he]
      simp
    · exact ((matches_iff index i key).mp hm).symm
  obtain ⟨r, hr⟩ := lookup_total index key hint hn
  obtain ⟨rv, hint1⟩ := r
  refine ⟨rv, hint1, hr, ?_, ?_⟩
  · intro i
    constructor
    · intro e
      subst e
      obtain ⟨s1, s2, s3, _⟩ := lookup_sound index key hint hint1 i hn hr
      refine ⟨s1, ?_, (matches_iff index i key).mpr s3.symm⟩
      unfold isE at s2
      simpa using s2
    · rintro ⟨h1, h2, h3⟩
      have := hcomp i h1 h2 h3
      rw [hr] at this
      simp only [Option.some.injEq, Prod.mk.injEq] at this
      exact this.1
  · constructor
    · intro e i h1 h2
      subst e
      cases hm : BUCKET_MATCHES_KEY index i key with
      | false => rfl
      | true =>
        have := hcomp i h1 h2 hm
        rw [hr] at this
        simp at this
    · intro h
      cases rv with
      | none => rfl
      | some i =>
        obtain ⟨s1, s2, s3, _⟩ := lookup_sound index key hint hint1 i hn hr
        have hm := (matches_iff index i key).mpr s3.symm
        have he : BUCKET_IS_EMPTY index i = false := by
          unfold isE at s2
          simpa using s2
        rw [h i s1 he] at hm
        simp at hm

theorem lookup_sound_complete_witness :
    ∃ rv hint1, hashindex_lookup small_index displaced_key none = some (rv, hint1) ∧
      (∀ i, rv = some i ↔
        (i < small_index.num_buckets ∧ BUCKET_IS_EMPTY small_index i = false ∧
          BUCKET_MATCHES_KEY small_index i displaced_key = true)) ∧
      (rv = none ↔
        ∀ i, i < small_index.num_buckets → BUCKET_IS_EMPTY small_index i = false →
          BUCKET_MATCHES_KEY small_index i displaced_key = false) :=
  lookup_sound_complete small_index displaced_key none small_sz small_distinct small_rh
    small_reach small_has_empty

/-- C20: `hashindex_resize` preserves the contents.  For every index with widths at least 4,
distinct keys, `num_entries` equal to the number of occupied buckets (chunk byte lengths
within `int`) and every capacity with `num_entries <= get_upper_limit(fit_size(capacity))`,
`hashindex_resize` returns 1; the index afterwards has `num_buckets = fit_size(capacity)`
with `lower_limit` and `upper_limit` recomputed for it, `num_entries`, `key_size` and
`value_size` unchanged, the same key/value pairs, distinct keys, and satisfies the
probe-reachability and Robin-Hood invariants; when the index before has a bucket and
satisfied these two invariants as well, `hashindex_get` returns for every key the same value
bytes or absence as before. -/
theorem resize_preserves (fuel : Nat) (index : HashIndex) (capacity : Int)
    (hz : Sz index) (hd : DistinctKeys index) (hf : FitsInt index)
    (hcount : index.num_entries = num_occupied index)
    (hcap : index.num_entries ≤ get_upper_limit (fit_size capacity)) :
    ∃ index1, hashindex_resize fuel index capacity = some (1, index1) ∧
      index1.num_buckets = fit_size capacity ∧
      index1.lower_limit = get_lower_limit (fit_size capacity) ∧
      index1.upper_limit = get_upper_limit (fit_size capacity) ∧
      index1.num_entries = index.num_entries ∧ index1.key_size = index.key_size ∧
      index1.value_size = index.value_size ∧
      (∀ k w, Holds index1 k w ↔ Holds index k w) ∧
      DistinctKeys index1 ∧ RobinHood index1 ∧ Reachable index1 ∧
      (RobinHood index → Reachable index → 0 < index.num_buckets →
        ∀ key, hashindex_get_value index1 key = hashindex_get_value index key) := by
  have hb := fits_count_bound index hz hf
  obtain ⟨s1, _, _⟩ := size_idx_spec capacity
  have hlt : num_occupied index < fit_size capacity := by
    rw [hcount] at hcap
    rcases ladder_upper (size_idx capacity) s1 with hl | hl
    · unfold fit_size at hcap ⊢
      omega
    · unfold fit_size
      rw [hl]
      have e57 : hash_sizes.getD 57 0 = 2062383853 := by decide
      rw [e57]
      omega
  obtain ⟨index1, r1, r2, r3, r4, r5, r6, r7, r8, r9, r10, _, _, r13⟩ :=
    resize_spec fuel index capacity hz hd (by rw [hcount] at hcap; omega) hlt hf
  have hn1 : 0 < index1.num_buckets := by rw [r2]; exact fit_size_pos capacity
  obtain ⟨g1, g2⟩ := global_of_localRH index1 hn1 r9
  refine ⟨index1, r1, r2, by rw [r7.1, r2], by rw [r7.2, r2], r6, r3, r4, r13, r10, g1, g2, ?_⟩
  intro hrh hreach hn key
  apply get_value_congr index1 index key key r8 hn1 r9 r10 hz hn
    (localRH_of_global index hn hrh hreach) hd
  intro w
  rw [r3]
  exact r13 _ w

theorem resize_preserves_witness :
    ∃ index1, hashindex_resize 1 small_index 2000 = some (1, index1) ∧
      index1.num_buckets = fit_size 2000 ∧
      index1.lower_limit = get_lower_limit (fit_size 2000) ∧
      index1.upper_limit = get_upper_limit (fit_size 2000) ∧
      index1.num_entries = small_index.num_entries ∧
      index1.key_size = small_index.key_size ∧
      index1.value_size = small_index.value_size ∧
      (∀ k w, Holds index1 k w ↔ Holds small_index k w) ∧
      DistinctKeys index1 ∧ RobinHood index1 ∧ Reachable index1 ∧
      (RobinHood small_index → Reachable small_index → 0 < small_index.num_buckets →
        ∀ key, hashindex_get_value index1 key = hashindex_get_value small_index key) :=
  resize_preserves 1 small_index 2000 small_sz small_distinct small_fits
    (by rw [small_occupied]; rfl) (by decide)

/-- C21: the skip hint is a sound optimisation.  On an index in Robin-Hood order whose
occupied buckets are reachable from their homes, with at least one EMPTY bucket, for every
key that no occupied bucket holds: `hashindex_lookup` misses and reports the hint
`max(0, offset - 64)` for the probe offset `offset` at which its loop stopped; the slot
search of `hashindex_set` started at `home + hint` with offset `hint` ends at the same
bucket and offset as the search started at `home` with offset 0, namely at the first
bucket on the probe path that is EMPTY or whose displacement is smaller than the probe
offset; so the insertion gives the same index either way. -/
theorem skip_hint_sound (index : HashIndex) (key value : Ptr)
    (hrh : RobinHood index) (hreach : Reachable index) (hemp : HasEmpty index)
    (habs : ∀ i, i < index.num_buckets → BUCKET_IS_EMPTY index i = false →
      BUCKET_MATCHES_KEY index i key = false) :
    ∃ offset skip off,
      lookup_loop index key (hashindex_index index key) index.num_buckets
        (hashindex_index index key) 0 0 = some (none, offset) ∧
      hashindex_lookup index key (some 0) = some (none, some skip) ∧
      (skip : Int) = max 0 ((offset : Int) - 64) ∧
      set_slot_loop index (index.num_buckets + 1)
          (wrap_add index.num_buckets (hashindex_index index key) skip) skip
        = some (wrap_add index.num_buckets (hashindex_index index key) off, off) ∧
      set_slot_loop index (index.num_buckets + 1) (hashindex_index index key) 0
        = some (wrap_add index.num_buckets (hashindex_index index key) off, off) ∧
      skip ≤ off ∧ off < index.num_buckets ∧
      (∀ j, j < off →
        (BUCKET_IS_EMPTY index
            (wrap_add index.num_buckets (hashindex_index index key) j) = false ∧
          j ≤ bucket_distance index
            (wrap_add index.num_buckets (hashindex_index index key) j))) ∧
      (BUCKET_IS_EMPTY index
          (wrap_add index.num_buckets (hashindex_index index key) off) = true ∨
        bucket_distance index
          (wrap_add index.num_buckets (hashindex_index index key) off) < off) ∧
      set_insert index key value skip = set_insert index key value 0 := by
  have hn := pos_of_has_empty index hemp
  have hl := localRH_of_global index hn hrh hreach
  have hs := hashindex_index_lt index key hn
  obtain ⟨r, hr⟩ := lookup_total index key (some 0) hn
  obtain ⟨rv, hint⟩ := r
  cases rv with
  | some i =>
    obtain ⟨s1, s2, s3, _⟩ := lookup_sound index key (some 0) hint i hn hr
    have hm := (matches_iff index i key).mpr s3.symm
    rw [habs i s1 ((not_isE_iff_false index i).mp s2)] at hm
    exact absurd hm (by simp)
  | none =>
    obtain ⟨offset, m1, m2, m3, m4⟩ := lookup_miss_hint index key hint hn hl hr
    obtain ⟨off, a1, a2, a3, a4, a5, a6⟩ := set_slot_from_hint index
      (hashindex_index index key) (offset - 64) hs hemp (by omega) m4
    have w1 : (if hashindex_index index key + (offset - 64) ≥ index.num_buckets
        then hashindex_index index key + (offset - 64) - index.num_buckets
        else hashindex_index index key + (offset - 64))
        = wrap_add index.num_buckets (hashindex_index index key) (offset - 64) := rfl
    have w0 : (if hashindex_index index key + 0 ≥ index.num_buckets
        then hashindex_index index key + 0 - index.num_buckets
        else hashindex_index index key + 0) = hashindex_index index key :=
      wrap_add_zero _ _ hs
    refine ⟨offset, offset - 64, off, m1, by rw [hr, m2], by omega, a1, a2, a3, a4, ?_, ?_, ?_⟩
    · intro j hj
      exact ⟨(not_isE_iff_false index _).mp (a5 j hj).1, (a5 j hj).2⟩
    · rcases a6 with c | c
      · exact Or.inl c
      · exact Or.inr c
    · unfold set_insert
      simp only []
      rw [w1, w0, a1, a2]

theorem skip_hint_sound_witness :
    ∃ offset skip off,
      lookup_loop small_index other_key (hashindex_index small_index other_key)
        small_index.num_buckets (hashindex_index small_index other_key) 0 0
          = some (none, offset) ∧
      hashindex_lookup small_index other_key (some 0) = some (none, some skip) ∧
      (skip : Int) = max 0 ((offset : Int) - 64) ∧
      set_slot_loop small_index (small_index.num_buckets + 1)
          (wrap_add small_index.num_buckets (hashindex_index small_index other_key) skip)
          skip
        = some (wrap_add small_index.num_buckets
            (hashindex_index small_index other_key) off, off) ∧
      set_slot_loop small_index (small_index.num_buckets + 1)
          (hashindex_index small_index other_key) 0
        = some (wrap_add small_index.num_buckets
            (hashindex_index small_index other_key) off, off) ∧
      skip ≤ off ∧ off < small_index.num_buckets ∧
      (∀ j, j < off →
        (BUCKET_IS_EMPTY small_index
            (wrap_add small_index.num_buckets
              (hashindex_index small_index other_key) j) = false ∧
          j ≤ bucket_distance small_index
            (wrap_add small_index.num_buckets
              (hashindex_index small_index other_key) j))) ∧
      (BUCKET_IS_EMPTY small_index
          (wrap_add small_index.num_buckets
            (hashindex_index small_index other_key) off) = true ∨
        bucket_distance small_index
          (wrap_add small_index.num_buckets
            (hashindex_index small_index other_key) off) < off) ∧
      set_insert small_index other_key sample_value skip
        = set_insert small_index other_key sample_value 0 :=
  skip_hint_sound small_index other_key sample_value small_rh small_reach small_has_empty
    (by decide)

/-- C22 (counterexample): `small_index` is well formed with `num_entries = 2` equal to its
number of non-EMPTY buckets, and `other_key` is absent.  `hashindex_set` of `other_key` with
a value equal to the EMPTY sentinel returns 1 and leaves `num_entries = 3` with 2 non-EMPTY
buckets; with a value equal to the DELETED sentinel it returns 1, leaves `num_entries = 3`
and stores the key (`hashindex_get` returns its value region at offset 28). -/
theorem set_accepts_sentinel_value :
    small_index.num_entries = 2 ∧ num_occupied small_index = 2 ∧
    hashindex_get small_index other_key = some none ∧
    le32 empty_value = EMPTY ∧ le32 deleted_value = DELETED ∧
    sentinel_set_scenario empty_value = some (1, 3, 2, some none) ∧
    sentinel_set_scenario deleted_value = some (1, 3, 3, some (some 28)) := by
  refine ⟨rfl, small_occupied, by decide, by decide, by decide, ?_, ?_⟩
  · unfold sentinel_set_scenario num_occupied occupied
    decide
  · unfold sentinel_set_scenario num_occupied occupied
    decide

/-- C22 (amended): `hashindex_set` does not reject sentinel values.  On a well-formed index
(widths at least 4, distinct keys in Robin-Hood order, reachable, with an EMPTY bucket,
`num_entries` equal to the number of non-EMPTY buckets, chunk byte lengths within `int`)
and for a key that no occupied bucket holds: with a value whose first 4 bytes equal the
EMPTY sentinel `hashindex_set` returns 1 and increments `num_entries` while the number of
non-EMPTY buckets stays the same, so afterwards `num_entries` is one more than the number
of non-EMPTY buckets, and `hashindex_get` of the key returns NULL; with a value whose first
4 bytes equal the DELETED sentinel `hashindex_set` returns 1 and stores the key like any
other value: `num_entries`, incremented by one, equals the number of non-EMPTY buckets and
`hashindex_get` returns the value. -/
theorem set_sentinel_value (fuel : Nat) (index : HashIndex) (key value : Ptr)
    (hz : Sz index) (hd : DistinctKeys index) (hrh : RobinHood index)
    (hreach : Reachable index) (hemp : HasEmpty index) (hf : FitsInt index)
    (hcount : index.num_entries = num_occupied index) (hfuel : 2 ≤ fuel)
    (habs : ∀ i, i < index.num_buckets → BUCKET_IS_EMPTY index i = false →
      BUCKET_MATCHES_KEY index i key = false) :
    (le32 value = EMPTY →
      ∃ index1, hashindex_set fuel index key value = some (1, index1) ∧
        index1.num_entries = index.num_entries + 1 ∧
        num_occupied index1 = num_occupied index ∧
        index1.num_entries = (num_occupied index1 : Int) + 1 ∧
        hashindex_get index1 key = some none) ∧
    (le32 value = DELETED →
      ∃ index1, hashindex_set fuel index key value = some (1, index1) ∧
        index1.num_entries = index.num_entries + 1 ∧
        index1.num_entries = (num_occupied index1 : Int) ∧
        hashindex_get_value index1 key
          = some (some (readBytes value 0 index.value_size))) := by
  have habs1 : ∀ i, i < index.num_buckets → ¬ isE index i →
      keyOf index i ≠ readBytes key 0 index.key_size := by
    intro i hi hne hk
    have hm := (matches_iff index i key).mpr hk.symm
    rw [habs i hi ((not_isE_iff_false index i).mp hne)] at hm
    exact absurd hm (by simp)
  constructor
  · intro hv
    obtain ⟨index1, a1, a2, a3, a4⟩ :=
      set_empty_value fuel index key value hz hd hemp hf hv hfuel habs1
    exact ⟨index1, a1, a2, a3, by rw [a2, a3, hcount], a4⟩
  · intro hv
    have hv1 : le32 value ≠ EMPTY := by
      rw [hv]
      decide
    obtain ⟨index1, h1, h2⟩ :=
      set_spec2 fuel index key value (inv_of_parts index hz hd hrh hreach hemp hf) hv1 hfuel
    have hnp : ¬ Present index (keyBytes index key) := by
      rintro ⟨i, a1, a2, a3⟩
      exact habs1 i a1 a2 a3
    obtain ⟨c1, c2⟩ := h2.absent hnp
    refine ⟨index1, h1, c1, by rw [c1, c2, hcount]; push_cast; rfl, ?_⟩
    apply get_value_of_holds index1 key _ h2.sz h2.pos h2.lrh h2.distinct
    rw [h2.ks]
    exact (h2.post _ _).mpr (Or.inl ⟨rfl, rfl⟩)

theorem set_sentinel_value_witness :
    ∃ index1, hashindex_set 2 small_index other_key empty_value = some (1, index1) ∧
      index1.num_entries = small_index.num_entries + 1 ∧
      num_occupied index1 = num_occupied small_index ∧
      index1.num_entries = (num_occupied index1 : Int) + 1 ∧
      hashindex_get index1 other_key = some none :=
  (set_sentinel_value 2 small_index other_key empty_value small_sz small_distinct small_rh
    small_reach small_has_empty small_fits (by rw [small_occupied]; rfl) (by decide)
    (by decide)).1 (by decide)

/-- C23 (counterexample): the table `hash_sizes` has 58 entries, not 59; there is no entry
with index 58. -/
theorem ladder_has_58_entries :
    NELEMS_hash_sizes = 58 ∧ NELEMS_hash_sizes ≠ 59 ∧ hash_sizes.get? 57 = some 2062383853 ∧
    hash_sizes.get? 58 = none := by
  decide

/-- C23 (amended): the size ladder `hash_sizes` is a strictly ascending sequence of exactly
58 capacities `S[0..58)`, with first entry 1031 and last entry 2062383853, every entry
fitting a signed 32-bit `int`. -/
theorem ladder_shape :
    hash_sizes.length = 58 ∧
    List.Pairwise (fun a b => a < b) hash_sizes ∧
    hash_sizes.head? = some 1031 ∧
    hash_sizes.getLast? = some 2062383853 ∧
    (∀ s, s ∈ hash_sizes → s < 2147483648) := by
  refine ⟨by decide, by decide, by decide, by decide, by decide⟩

end Borg
